import Mathlib

/-!
Shallow embedding of the `cnf-dpll-2wl` solver (`src/lib.rs`) and proofs of the
specification claims about it.

Modelling conventions:
* Rust `i32` literals become `Int`; `usize` variable ids and indices become `Nat`.
  Overflow is immaterial for the claims settled here (parsed literals fit in `i32`,
  and all index arithmetic is on small naturals), so no wrap-around is modelled.
* `Vec<T>` becomes `List T`.  The solver's `trail` and the propagation queue are
  used by the Rust code as stacks (push/pop at the end of the `Vec`); they are
  stored here most-recent-first, so a Rust `push` is a cons and a Rust `pop`
  takes the head.  `trail_lim` is indexed and truncated from the front in Rust,
  so it is kept in Rust order (oldest checkpoint first, push appends at the end).
* Rust indexing `v[i]` is modelled with `List.getD` (out-of-range reads panic in
  Rust; the theorems below carry the in-range invariants that reachable solver
  states satisfy, so the defaults are never exercised in the statements proved).
* `HashSet`/`HashMap` iteration order is unspecified in Rust.  The pending
  implication set is modelled as a duplicate-free list in insertion order, and
  the main search loop is parametrised by a chooser function that selects which
  pending element `iter().next()` yields, so theorems quantify over every
  possible iteration order.
* Loops become fuel-indexed recursive functions returning `Option`; `none`
  means the fuel was exhausted, and every claim about a returned value is
  stated for an arbitrary fuel.
-/

namespace CnfDpll

/-- Rust `struct Edge { from: Var, to: Var }` (field `from` is a reserved word
in Lean and `to` is a reserved token, hence `from_` and `to_`). -/
structure Edge where
  from_ : Nat
  to_ : Nat
deriving DecidableEq, Repr

instance : Inhabited Edge := ⟨⟨0, 0⟩⟩

/-- Rust `struct Clause`, with `watched_indices: [usize; 2]` split into the two
fields `watched0` and `watched1`. -/
structure Clause where
  literals : List Int
  watched0 : Nat
  watched1 : Nat
  visit_count : Nat
deriving DecidableEq, Repr

instance : Inhabited Clause := ⟨⟨[], 0, 0, 0⟩⟩

/-- Rust `enum Decision`. -/
inductive Decision where
  | Single (var : Nat) (tried_polarity : Bool) (tried_both : Bool)
  | Pair (var1 : Nat) (var2 : Nat) (tried_comb : Nat) (tried_all : Bool)
  | Implication (edge : Edge)
deriving DecidableEq, Repr

/-- Rust `struct Solver`.  `implications: HashMap<Edge, bool>` only ever stores
`true` values, so it is modelled as the list of proven edges. -/
structure Solver where
  clauses : List Clause
  assignments : List (Option Bool)
  watch_lists : List (List Nat)
  trail : List Nat
  trail_lim : List Nat
  implications : List Edge
  pending_implications : List Edge
deriving DecidableEq, Repr

/-- Rust `Solver::lit_to_var`: `lit.abs() as usize`. -/
def lit_to_var (lit : Int) : Nat :=
  lit.natAbs

/-- Rust `Solver::lit_to_idx`: `(lit.abs() as usize * 2) + (lit < 0) as usize`. -/
def lit_to_idx (lit : Int) : Nat :=
  lit.natAbs * 2 + (if lit < 0 then 1 else 0)

/-- Rust `Solver::make_lit`: `if polarity { var as i32 } else { -(var as i32) }`. -/
def make_lit (var : Nat) (polarity : Bool) : Int :=
  if polarity then (var : Int) else -(var : Int)

/-- Rust `Solver::get_literal_value`:
`assignments[Self::lit_to_var(lit)].map(|val| val == (lit > 0))`. -/
def get_literal_value (assignments : List (Option Bool)) (lit : Int) : Option Bool :=
  (assignments.getD (lit_to_var lit) none).map (fun val => val == decide (0 < lit))

/-- Rust `Solver::assign`.  Returns the updated assignment table, the updated
trail and the success flag. -/
def assign (assignments : List (Option Bool)) (trail : List Nat) (lit : Int) :
    List (Option Bool) × List Nat × Bool :=
  let var := lit_to_var lit
  let polarity := decide (0 < lit)
  match assignments.getD var none with
  | none => (assignments.set var (some polarity), var :: trail, true)
  | some p => (assignments, trail, p == polarity)

/-- The `while self.trail.len() > pos` loop inside `Solver::undo_to_level`:
pop trail entries and unassign them until the trail length is `pos`. -/
def popTrailAbove (assignments : List (Option Bool)) (trail : List Nat) (pos : Nat) :
    List (Option Bool) × List Nat :=
  match trail with
  | [] => (assignments, [])
  | v :: rest =>
    if pos < rest.length + 1 then popTrailAbove (assignments.set v none) rest pos
    else (assignments, v :: rest)

/-- Rust `Solver::undo_to_level`. -/
def Solver.undo_to_level (s : Solver) (level : Nat) : Solver :=
  if s.trail_lim.length ≤ level then s
  else
    let pos := s.trail_lim.getD level 0
    let p := popTrailAbove s.assignments s.trail pos
    { s with assignments := p.1, trail := p.2, trail_lim := s.trail_lim.take level }

/-- The search through `c.literals` performed by Rust
`Clause::find_replacement_watch` (`position` of the first literal whose index
differs from both watched indices and whose value is not false). -/
def findReplacementFrom (assignments : List (Option Bool)) (w0 w1 : Nat) :
    List Int → Nat → Option Nat
  | [], _ => none
  | candidate :: rest, idx =>
    if idx ≠ w0 ∧ idx ≠ w1 ∧ get_literal_value assignments candidate ≠ some false then
      some idx
    else
      findReplacementFrom assignments w0 w1 rest (idx + 1)

/-- Rust `Clause::find_replacement_watch`. -/
def Clause.find_replacement_watch (c : Clause) (assignments : List (Option Bool)) :
    Option Nat :=
  findReplacementFrom assignments c.watched0 c.watched1 c.literals 0

/-- Rust `struct PropagationState`: the bundle of mutable references threaded
through `update_clause`.  The propagation queue is most-recent-first. -/
structure PState where
  assignments : List (Option Bool)
  watch_lists : List (List Nat)
  propagation_queue : List Int
  trail : List Nat
deriving DecidableEq, Repr

/-- The part of Rust `Solver::update_clause` after the watched-index swap:
check the other watch for satisfaction, look for a replacement watch, and
otherwise report a unit assignment or a conflict. -/
def update_clause_rest (c : Clause) (cid : Nat) (st : PState) :
    Clause × PState × Bool × Bool :=
  let w0 := c.literals.getD c.watched0 0
  if get_literal_value st.assignments w0 = some true then
    (c, st, true, false)
  else
    match c.find_replacement_watch st.assignments with
    | some j =>
      let c2 := { c with watched1 := j }
      let tgt := lit_to_idx (c2.literals.getD j 0)
      (c2,
        { st with watch_lists := st.watch_lists.set tgt ((st.watch_lists.getD tgt []) ++ [cid]) },
        false, false)
    | none =>
      match get_literal_value st.assignments w0 with
      | some false => (c, st, true, true)
      | none =>
        let r := assign st.assignments st.trail w0
        if r.2.2 then
          (c, { st with assignments := r.1, trail := r.2.1,
                        propagation_queue := w0 :: st.propagation_queue }, true, false)
        else
          (c, { st with assignments := r.1, trail := r.2.1 }, true, true)
      | some true => (c, st, true, false)

/-- Rust `Solver::update_clause`.  Returns the updated clause, the updated
state, the `keep` flag and the `is_conflict` flag: bump the visit counter,
swap the watched indices so the falsified literal sits at slot 1, then run
`update_clause_rest`. -/
def update_clause (c0 : Clause) (falsified : Int) (cid : Nat) (st : PState) :
    Clause × PState × Bool × Bool :=
  let c1 := { c0 with visit_count := c0.visit_count + 1 }
  let c := if c1.literals.getD c1.watched0 0 = falsified then
      { c1 with watched0 := c1.watched1, watched1 := c1.watched0 }
    else c1
  update_clause_rest c cid st

/-- The `affected.retain(..)` loop of Rust `Solver::process_watch_list`:
processes the drained batch in order, accumulating the kept clause ids.  Once a
conflict is seen every remaining id is kept and the state is left untouched. -/
def processBatch (clauses : List Clause) (falsified : Int) (st : PState) (conflict : Bool) :
    List Nat → List Clause × PState × List Nat × Bool
  | [] => (clauses, st, [], conflict)
  | cid :: rest =>
    if conflict then
      let r := processBatch clauses falsified st conflict rest
      (r.1, r.2.1, cid :: r.2.2.1, r.2.2.2)
    else
      let u := update_clause (clauses.getD cid default) falsified cid st
      let r := processBatch (clauses.set cid u.1) falsified u.2.1 u.2.2.2 rest
      (r.1, r.2.1, (if u.2.2.1 then cid :: r.2.2.1 else r.2.2.1), r.2.2.2)

/-- Rust `Solver::process_watch_list`.  Returns the updated solver, the updated
propagation queue and the conflict flag (the Rust function returns `!conflict`;
here the conflict flag itself is returned). -/
def Solver.process_watch_list (s : Solver) (satisfied_lit : Int) (queue : List Int) :
    Solver × List Int × Bool :=
  let falsified_idx := lit_to_idx (-satisfied_lit)
  let affected := s.watch_lists.getD falsified_idx []
  let st : PState :=
    ⟨s.assignments, s.watch_lists.set falsified_idx [], queue, s.trail⟩
  let r := processBatch s.clauses (-satisfied_lit) st false affected
  let st' := r.2.1
  let wl' := st'.watch_lists.set falsified_idx
      ((st'.watch_lists.getD falsified_idx []) ++ r.2.2.1)
  ({ s with clauses := r.1, assignments := st'.assignments, watch_lists := wl',
            trail := st'.trail },
    st'.propagation_queue, r.2.2.2)

/-- The `while let Some(l) = queue.pop()` loop of Rust `Solver::propagate`. -/
def Solver.propagateLoop : Nat → Solver → List Int → Option (Solver × Bool)
  | 0, _, _ => none
  | _ + 1, s, [] => some (s, true)
  | fuel + 1, s, l :: q =>
    let r := s.process_watch_list l q
    if r.2.2 then some (r.1, false) else Solver.propagateLoop fuel r.1 r.2.1

/-- Rust `Solver::propagate`. -/
def Solver.propagate (fuel : Nat) (s : Solver) (satisfied_lit : Int) :
    Option (Solver × Bool) :=
  Solver.propagateLoop fuel s [satisfied_lit]

/-- Rust `Solver::pick_branching_pair`: the first two unassigned variables in
ascending id order, skipping index 0. -/
def Solver.pick_branching_pair (s : Solver) : Option Nat × Option Nat :=
  let unassigned := ((List.range s.assignments.length).drop 1).filter
      (fun i => (s.assignments.getD i none).isNone)
  (unassigned.get? 0, unassigned.get? 1)

/-- The body shared by the four live combinations of Rust `Solver::assign_pair`:
assign `var1` with polarity `p0`, propagate, then `var2` with `p1`, propagate. -/
def Solver.assignPairLits (fuel : Nat) (s : Solver) (p0 p1 : Bool) (var1 var2 : Nat) :
    Option (Solver × Bool) :=
  let lit1 := make_lit var1 p0
  let r1 := assign s.assignments s.trail lit1
  let s1 := { s with assignments := r1.1, trail := r1.2.1 }
  if r1.2.2 then
    match Solver.propagate fuel s1 lit1 with
    | none => none
    | some (s2, false) => some (s2, false)
    | some (s2, true) =>
      let lit2 := make_lit var2 p1
      let r2 := assign s2.assignments s2.trail lit2
      let s3 := { s2 with assignments := r2.1, trail := r2.2.1 }
      if r2.2.2 then
        match Solver.propagate fuel s3 lit2 with
        | none => none
        | some (s4, ok) => some (s4, ok)
      else some (s3, false)
  else some (s1, false)

/-- Rust `Solver::assign_pair`. -/
def Solver.assign_pair (fuel : Nat) (s : Solver) (comb : Nat) (var1 var2 : Nat) :
    Option (Solver × Bool) :=
  match comb with
  | 0 => Solver.assignPairLits fuel s true true var1 var2
  | 1 => Solver.assignPairLits fuel s true false var1 var2
  | 2 => Solver.assignPairLits fuel s false true var1 var2
  | 3 => Solver.assignPairLits fuel s false false var1 var2
  | _ => some (s, false)

/-- Rust `Solver::test_implication`. -/
def Solver.test_implication (fuel : Nat) (s : Solver) (edge : Edge) :
    Option (Solver × Bool) :=
  let save_lim := s.trail_lim.length
  let s0 := { s with trail_lim := s.trail_lim ++ [s.trail.length] }
  let lit_from := make_lit edge.from_ true
  let r1 := assign s0.assignments s0.trail lit_from
  let s1 := { s0 with assignments := r1.1, trail := r1.2.1 }
  if r1.2.2 then
    match Solver.propagate fuel s1 lit_from with
    | none => none
    | some (s2, false) => some (s2.undo_to_level save_lim, false)
    | some (s2, true) =>
      let lit_to := make_lit edge.to_ false
      let r2 := assign s2.assignments s2.trail lit_to
      let s3 := { s2 with assignments := r2.1, trail := r2.2.1 }
      if r2.2.2 then
        match Solver.propagate fuel s3 lit_to with
        | none => none
        | some (s4, ok) => some (s4.undo_to_level save_lim, !ok)
      else some (s3.undo_to_level save_lim, true)
  else some (s1.undo_to_level save_lim, false)

/-- The `while let Some(mut dec) = stack.pop()` loop of Rust `Solver::backtrack`.
The decision stack is stored most-recent-first (Rust pushes and pops at the end
of the `Vec`).  Returns the updated solver, the updated stack and the success
flag. -/
def Solver.backtrackLoop (pfuel : Nat) :
    Nat → Solver → List Decision → Option (Solver × List Decision × Bool)
  | 0, _, _ => none
  | _ + 1, s, [] => some (s, [], false)
  | fuel + 1, s, dec :: stack =>
    let level := stack.length
    match dec with
    | .Single var tried_polarity tried_both =>
      if tried_both then
        Solver.backtrackLoop pfuel fuel (s.undo_to_level level) stack
      else
        let s1 := s.undo_to_level level
        let pol := !tried_polarity
        let s2 := { s1 with trail_lim := s1.trail_lim ++ [s1.trail.length] }
        let lit := make_lit var pol
        let r := assign s2.assignments s2.trail lit
        let s3 := { s2 with assignments := r.1, trail := r.2.1 }
        if r.2.2 then
          match Solver.propagate pfuel s3 lit with
          | none => none
          | some (s4, ok) =>
            if ok then some (s4, Decision.Single var pol true :: stack, true)
            else Solver.backtrackLoop pfuel fuel s4 (Decision.Single var pol true :: stack)
        else
          Solver.backtrackLoop pfuel fuel s3 (Decision.Single var pol true :: stack)
    | .Pair var1 var2 tried_comb tried_all =>
      if tried_all then
        Solver.backtrackLoop pfuel fuel (s.undo_to_level level) stack
      else
        let s1 := s.undo_to_level level
        let comb := tried_comb + 1
        if 4 ≤ comb then
          Solver.backtrackLoop pfuel fuel s1 (Decision.Pair var1 var2 comb true :: stack)
        else
          let s2 := { s1 with trail_lim := s1.trail_lim ++ [s1.trail.length] }
          match Solver.assign_pair pfuel s2 comb var1 var2 with
          | none => none
          | some (s3, ok) =>
            if ok then some (s3, Decision.Pair var1 var2 comb tried_all :: stack, true)
            else Solver.backtrackLoop pfuel fuel s3 (Decision.Pair var1 var2 comb tried_all :: stack)
    | .Implication _ =>
      Solver.backtrackLoop pfuel fuel (s.undo_to_level level) stack

/-- The `for l in units` loop of Rust `Solver::initial_propagation`. -/
def Solver.unitsLoop (pfuel : Nat) : Solver → List Int → Option (Solver × Bool)
  | s, [] => some (s, true)
  | s, l :: rest =>
    let r := assign s.assignments s.trail l
    let s1 := { s with assignments := r.1, trail := r.2.1 }
    if r.2.2 then
      match Solver.propagate pfuel s1 l with
      | none => none
      | some (s2, false) => some (s2, false)
      | some (s2, true) => Solver.unitsLoop pfuel s2 rest
    else some (s1, false)

/-- Rust `Solver::initial_propagation`. -/
def Solver.initial_propagation (pfuel : Nat) (s : Solver) : Option (Solver × Bool) :=
  if s.clauses.any (fun c => c.literals.isEmpty) then some (s, false)
  else
    let units := (s.clauses.filter (fun c => c.literals.length == 1)).map
        (fun c => c.literals.getD 0 0)
    Solver.unitsLoop pfuel s units

/-- One element chosen from the pending-implication set, modelling
`self.pending_implications.iter().next()` whose order Rust leaves unspecified:
the chooser `ch` selects which element the iterator yields. -/
def popPending (ch : List Edge → Nat) (pending : List Edge) :
    Option (Edge × List Edge) :=
  match pending with
  | [] => none
  | _ :: _ =>
    let i := ch pending % pending.length
    some (pending.getD i default, pending.eraseIdx i)

/-- The main `loop` of Rust `Solver::solve`, parametrised by the pending-set
iteration order `ch`. -/
def Solver.solveLoop (ch : List Edge → Nat) (pfuel : Nat) :
    Nat → Solver → List Decision → Option (Solver × Bool)
  | 0, _, _ => none
  | fuel + 1, s, stack =>
    match popPending ch s.pending_implications with
    | some (edge, rest) =>
      let s1 := { s with pending_implications := rest }
      let stack1 := Decision.Implication edge :: stack
      let s2 := { s1 with trail_lim := s1.trail_lim ++ [s1.trail.length] }
      match Solver.test_implication pfuel s2 edge with
      | none => none
      | some (s3, proven) =>
        let s4 := if proven then { s3 with implications := s3.implications ++ [edge] } else s3
        Solver.solveLoop ch pfuel fuel s4 stack1
    | none =>
      match s.pick_branching_pair with
      | (none, _) => some (s, true)
      | (some var1, some var2) =>
        let stack1 := Decision.Pair var1 var2 0 false :: stack
        let s1 := { s with trail_lim := s.trail_lim ++ [s.trail.length] }
        match Solver.assign_pair pfuel s1 0 var1 var2 with
        | none => none
        | some (s2, ok) =>
          if ok then Solver.solveLoop ch pfuel fuel s2 stack1
          else
            match Solver.backtrackLoop pfuel fuel s2 stack1 with
            | none => none
            | some (s3, stack2, true) => Solver.solveLoop ch pfuel fuel s3 stack2
            | some (s3, _, false) => some (s3, false)
      | (some var1, none) =>
        let stack1 := Decision.Single var1 true false :: stack
        let s1 := { s with trail_lim := s.trail_lim ++ [s.trail.length] }
        let lit := make_lit var1 true
        let r := assign s1.assignments s1.trail lit
        let s2 := { s1 with assignments := r.1, trail := r.2.1 }
        if r.2.2 then
          match Solver.propagate pfuel s2 lit with
          | none => none
          | some (s3, true) => Solver.solveLoop ch pfuel fuel s3 stack1
          | some (s3, false) =>
            match Solver.backtrackLoop pfuel fuel s3 stack1 with
            | none => none
            | some (s4, stack2, true) => Solver.solveLoop ch pfuel fuel s4 stack2
            | some (s4, _, false) => some (s4, false)
        else
          match Solver.backtrackLoop pfuel fuel s2 stack1 with
          | none => none
          | some (s3, stack2, true) => Solver.solveLoop ch pfuel fuel s3 stack2
          | some (s3, _, false) => some (s3, false)

/-- Rust `Solver::solve`, parametrised by the pending-set iteration order. -/
def Solver.solve (ch : List Edge → Nat) (fuel : Nat) (s : Solver) :
    Option (Solver × Bool) :=
  match Solver.initial_propagation fuel s with
  | none => none
  | some (s1, false) => some (s1, false)
  | some (s1, true) => Solver.solveLoop ch fuel fuel s1 []

/-- The head-first iteration order: `iter().next()` yields the head of the
pending list.  Used to run the solver on concrete inputs. -/
def headChooser : List Edge → Nat :=
  fun _ => 0

/-- Rust `Solver::print_model`, modelled as the list of literal tokens the
method prints (the trailing `0` token aside): for each assigned variable from
1 upwards, the variable id with its sign. -/
def Solver.print_model (s : Solver) : List Int :=
  (s.assignments.enum.drop 1).filterMap
    (fun p => p.2.map (fun val => if val then (p.1 : Int) else -(p.1 : Int)))


/-- The problem-line marker `"p cnf"`, as a character list. -/
def problemMarker : List Char := ['p', ' ', 'c', 'n', 'f']

/-- Whether one character list starts with another (Rust `str::starts_with`,
applied to the line's characters). -/
def startsWithChars : List Char → List Char → Bool
  | _, [] => true
  | [], _ :: _ => false
  | x :: xs, y :: ys => x == y && startsWithChars xs ys

/-- Rust `line.split_whitespace()`: the space-separated tokens of the line as
character lists (the test inputs only use plain spaces as whitespace).  The
accumulator holds the current token reversed. -/
def splitTokens : List Char → List Char → List (List Char)
  | [], cur => if cur.isEmpty then [] else [cur.reverse]
  | c :: rest, cur =>
    if c == ' ' then
      (if cur.isEmpty then splitTokens rest [] else cur.reverse :: splitTokens rest [])
    else splitTokens rest (c :: cur)

/-- Decimal digits of a token folded into a number, or `none` at the first
non-digit (the digit part of Rust `str::parse`). -/
def digitsToNat (acc : Nat) : List Char → Option Nat
  | [] => some acc
  | c :: rest =>
    if c.isDigit then digitsToNat (acc * 10 + (c.toNat - ('0').toNat)) rest
    else none

/-- Rust `token.parse::<usize>()`: optional sign, at least one digit, nothing
else; usize range (the inputs of interest are tiny, the bound is kept for
faithfulness). -/
def parseNatToken (cs : List Char) : Option Nat :=
  match cs with
  | [] => none
  | '+' :: rest => (match rest with | [] => none | _ => digitsToNat 0 rest).bind
      (fun n => if n < 2 ^ 64 then some n else none)
  | _ => (digitsToNat 0 cs).bind (fun n => if n < 2 ^ 64 then some n else none)

/-- Rust `token.parse::<i32>()`: optional sign, at least one digit, nothing
else, and the value must fit in an `i32`. -/
def parseIntToken (cs : List Char) : Option Int :=
  match cs with
  | [] => none
  | '-' :: rest => (match rest with | [] => none | _ => digitsToNat 0 rest).bind
      (fun n => if n ≤ 2 ^ 31 then some (-(n : Int)) else none)
  | '+' :: rest => (match rest with | [] => none | _ => digitsToNat 0 rest).bind
      (fun n => if n < 2 ^ 31 then some (n : Int) else none)
  | _ => (digitsToNat 0 cs).bind (fun n => if n < 2 ^ 31 then some (n : Int) else none)

/-- Rust `Solver::parse_dimacs_line`.  Returns the updated variable count and
clause list.  Note that an empty clause line (a bare `0`) and any clause with
more than 3 literals are silently dropped. -/
def parse_dimacs_line (line : String) (variable_count : Nat) (clauses : List Clause) :
    Nat × List Clause :=
  if startsWithChars line.data ['c'] ∨ line.data.isEmpty then (variable_count, clauses)
  else if startsWithChars line.data problemMarker then
    ((parseNatToken ((splitTokens line.data []).getD 2 [])).getD 0, clauses)
  else
    let literals := ((splitTokens line.data []).filterMap parseIntToken).takeWhile
        (fun val => val != 0)
    if literals.isEmpty ∨ 3 < literals.length then (variable_count, clauses)
    else
      (variable_count,
        clauses ++ [⟨literals, 0, min 1 (literals.length - 1), 0⟩])

/-- The `for (id, c) in clauses.iter().enumerate()` loop of Rust
`Solver::initialize_watches`. -/
def initializeWatchesLoop (wl : List (List Nat)) : List (Nat × Clause) → List (List Nat)
  | [] => wl
  | (id, c) :: rest =>
    let wl1 := match c.literals.get? c.watched0 with
      | some lit0 => wl.set (lit_to_idx lit0) ((wl.getD (lit_to_idx lit0) []) ++ [id])
      | none => wl
    let wl2 := if 1 < c.literals.length then
        let lit1 := c.literals.getD c.watched1 0
        wl1.set (lit_to_idx lit1) ((wl1.getD (lit_to_idx lit1) []) ++ [id])
      else wl1
    initializeWatchesLoop wl2 rest

/-- Rust `Solver::try_add_candidate`: record the edge of a
`(~x \u2228 ~y \u2228 z)`-shaped pattern.  `HashSet::insert` is modelled as
append-if-absent. -/
def try_add_candidate (candidates : List Edge) (lit1 lit2 lit3 : Int) : List Edge :=
  if 0 < lit3 ∧ lit1 < 0 ∧ lit2 < 0 then
    let e : Edge := ⟨lit_to_var (-lit1), lit_to_var lit3⟩
    if e ∈ candidates then candidates else candidates ++ [e]
  else candidates

/-- The clause loop of Rust `Solver::extract_implication_candidates`. -/
def extractLoop (candidates : List Edge) : List Clause → List Edge
  | [] => candidates
  | c :: rest =>
    if c.literals.length = 3 then
      let a := c.literals.getD 0 0
      let b := c.literals.getD 1 0
      let d := c.literals.getD 2 0
      extractLoop
        (try_add_candidate (try_add_candidate (try_add_candidate candidates a b d) a d b) b d a)
        rest
    else extractLoop candidates rest

/-- Rust `Solver::new`, with the file already read into its list of lines (file
opening and line buffering are out of the embedded core). -/
def Solver.new_from_lines (lines : List String) : Solver :=
  let p := lines.foldl (fun acc line => parse_dimacs_line line acc.1 acc.2) (0, [])
  let variable_count := p.1
  let clauses := p.2
  let s : Solver :=
    ⟨clauses, List.replicate (variable_count + 1) none,
      List.replicate ((variable_count + 1) * 2) [], [], [], [], []⟩
  let s1 := { s with watch_lists := initializeWatchesLoop s.watch_lists s.clauses.enum }
  { s1 with pending_implications := extractLoop [] s1.clauses }


/-! ## Semantic predicates -/

/-- `assignFrame a tr a2 tr2` says that the pair (assignment table, trail)
`(a2, tr2)` extends `(a, tr)` the way the solver's single assignment primitive
does: the trail grew by a block `dvs` of newly pushed variables, each of which
was unassigned in `a` and is assigned in `a2`, and every other variable kept
its value. -/
def assignFrame (a : List (Option Bool)) (tr : List Nat)
    (a2 : List (Option Bool)) (tr2 : List Nat) : Prop :=
  ∃ dvs, tr2 = dvs ++ tr ∧ a2.length = a.length ∧
    (∀ v ∈ dvs, a.getD v none = none) ∧
    (∀ v, v ∉ dvs → a2.getD v none = a.getD v none) ∧
    (∀ v ∈ dvs, v < a.length → a2.getD v none ≠ none)

/-- Number of unassigned slots in an assignment table: the propagation measure
decreases with it. -/
def noneCount (a : List (Option Bool)) : Nat :=
  a.countP (fun x => x.isNone)

/-- In-range conditions satisfied by every solver state reachable from a
well-formed input: the assignment table is nonempty (slot 0 exists), every
clause literal's variable is a valid index, and every watch bucket entry is a
valid clause id. -/
def rangeOK (s : Solver) : Prop :=
  0 < s.assignments.length ∧
  (∀ c ∈ s.clauses, ∀ l ∈ c.literals, lit_to_var l < s.assignments.length) ∧
  (∀ b ∈ s.watch_lists, ∀ x ∈ b, x < s.clauses.length)

/-- Trail well-formedness: no duplicates, and every trail entry is an in-range
assigned variable. -/
def trailWF (s : Solver) : Prop :=
  s.trail.Nodup ∧ ∀ v ∈ s.trail, v < s.assignments.length ∧ s.assignments.getD v none ≠ none

/-- `rangeOK` and `trailWF` together, restated on the propagation context. -/
def pinv (clauses : List Clause) (st : PState) : Prop :=
  0 < st.assignments.length ∧
  (∀ c ∈ clauses, ∀ l ∈ c.literals, lit_to_var l < st.assignments.length) ∧
  (∀ b ∈ st.watch_lists, ∀ x ∈ b, x < clauses.length) ∧
  st.trail.Nodup ∧
  (∀ v ∈ st.trail, v < st.assignments.length ∧ st.assignments.getD v none ≠ none)

/-- The termination measure of the propagation loop: every processed clause
either leaves it unchanged or trades two units of `noneCount` for one queue
entry. -/
def pmeasure (st : PState) : Nat :=
  2 * noneCount st.assignments + st.propagation_queue.length

/-- The watched occurrence slots of a clause, as registered in the watch index:
none for an empty clause, the single slot 0 watch for a unit clause, both slots
otherwise. -/
def watchedOccs (c : Clause) : List Nat :=
  if c.literals.length = 0 then []
  else if c.literals.length = 1 then [c.watched0]
  else [c.watched0, c.watched1]

/-- How many of a clause's watched slots point at watch index `i`. -/
def occCount (c : Clause) (i : Nat) : Nat :=
  (watchedOccs c).countP (fun k => lit_to_idx (c.literals.getD k 0) = i)

/-- How many times clause `cid` should occur in watch bucket `i`. -/
def watchCount (cls : List Clause) (cid : Nat) (i : Nat) : Nat :=
  match cls.get? cid with
  | none => 0
  | some c => occCount c i

/-- The watch-index invariant: the bucket table has one bucket per literal and
clause `cid` occurs in bucket `i` exactly as often as one of its watched slots
points there. -/
def bucketsOK (s : Solver) : Prop :=
  s.watch_lists.length = 2 * s.assignments.length ∧
  ∀ i cid, (s.watch_lists.getD i []).count cid = watchCount s.clauses cid i

/-- Structural well-formedness of a single clause over `n` assignment slots. -/
def clauseWF (n : Nat) (c : Clause) : Prop :=
  1 ≤ c.literals.length ∧
  c.watched0 < c.literals.length ∧
  c.watched1 < c.literals.length ∧
  (2 ≤ c.literals.length → c.watched0 ≠ c.watched1) ∧
  (c.literals.length = 1 → c.watched0 = 0 ∧ c.watched1 = 0) ∧
  ∀ l ∈ c.literals, l ≠ 0 ∧ lit_to_var l < n

instance (n : Nat) (c : Clause) : Decidable (clauseWF n c) := by
  unfold clauseWF
  infer_instance

/-- Structural well-formedness of the clause store. -/
def clausesWF (s : Solver) : Prop :=
  ∀ c ∈ s.clauses, clauseWF s.assignments.length c

/-- A clause has a watched literal that is not false. -/
def nafAt (a : List (Option Bool)) (c : Clause) : Prop :=
  ∃ k ∈ watchedOccs c, get_literal_value a (c.literals.getD k 0) ≠ some false

instance (a : List (Option Bool)) (c : Clause) : Decidable (nafAt a c) := by
  unfold nafAt
  infer_instance

/-- A clause has a watched literal whose falsification is still pending in the
propagation queue. -/
def excusedQ (c : Clause) (q : List Int) : Prop :=
  ∃ k ∈ watchedOccs c, ∃ l ∈ q, c.literals.getD k 0 = -l

/-- The trail segment strictly above position `pos` (most-recent-first). -/
def aboveSeg (tr : List Nat) (pos : Nat) : List Nat :=
  tr.take (tr.length - pos)

/-- Two clause stores with identical literal lists (only watch data and visit
counters may differ). -/
def litsEq (cls cls2 : List Clause) : Prop :=
  ∀ cid, (cls.get? cid).map Clause.literals = (cls2.get? cid).map Clause.literals

/-- A clause has a watched literal whose variable was assigned strictly above
trail position `pos`: undoing the trail past `pos` unassigns it, restoring the
not-all-watched-false condition. -/
def segExcused (tr : List Nat) (pos : Nat) (c : Clause) : Prop :=
  ∃ k ∈ watchedOccs c, lit_to_var (c.literals.getD k 0) ∈ aboveSeg tr pos

/-- The branching variables of a decision frame were unassigned (and in range)
when the frame's checkpoint was pushed. -/
def decVarsFresh (n : Nat) (a : List (Option Bool)) : Decision → Prop
  | .Single var _ _ => 1 ≤ var ∧ var < n ∧ a.getD var none = none
  | .Pair var1 var2 _ _ => (1 ≤ var1 ∧ var1 < n ∧ a.getD var1 none = none) ∧
      (1 ≤ var2 ∧ var2 < n ∧ a.getD var2 none = none)
  | .Implication _ => True

/-- The decision stack matches the checkpoint stack: each frame records the
assignment table, trail and checkpoint list at its creation, the current state
extends that snapshot by fresh pushes only, the frame's branching variables
were unassigned at the snapshot, and every clause of the current store has a
watched literal that is not false under the snapshot (so undoing the frame
restores the not-all-watched-false invariant). -/
def frames (n : Nat) (cls : List Clause) :
    List Decision → List (Option Bool) → List Nat → List Nat → Prop
  | [], _, _, lim => lim = []
  | dec :: rest, a, tr, lim => ∃ a0 tr0 lim0,
      lim = lim0 ++ [tr0.length] ∧
      assignFrame a0 tr0 a tr ∧
      decVarsFresh n a0 dec ∧
      (∀ cid c, cls.get? cid = some c → nafAt a0 c) ∧
      frames n cls rest a0 tr0 lim0

/-- A clause is satisfied by the total assignment `t` (variable `v` reads
`t.getD v false`): some literal evaluates to true. -/
def satClause (t : List Bool) (c : Clause) : Prop :=
  ∃ l ∈ c.literals, t.getD (lit_to_var l) false = decide (0 < l)

/-- Every clause of the store is satisfied by the total assignment `t`. -/
def satStore (t : List Bool) (cls : List Clause) : Prop :=
  ∀ cid c, cls.get? cid = some c → satClause t c

/-- The partial assignment table `a` is compatible with the total assignment
`t`: every assigned variable agrees with `t`. -/
def compat (t : List Bool) (a : List (Option Bool)) : Prop :=
  ∀ v, a.getD v none = none ∨ a.getD v none = some (t.getD v false)

/-- Which pair combination (`0 = TT`, `1 = TF`, `2 = FT`, `3 = FF`) the total
assignment `t` selects for the variable pair, matching `Solver::assign_pair`. -/
def combOf (t : List Bool) (var1 var2 : Nat) : Nat :=
  (if t.getD var1 false then 0 else 2) + (if t.getD var2 false then 0 else 1)

/-- The total assignment `t` falls in a branch of the decision frame that the
search has already exhausted. -/
def refutedBranch (t : List Bool) : Decision → Prop
  | .Single var pol tried_both => tried_both = true ∧ t.getD var false = !pol
  | .Pair var1 var2 comb tried_all => combOf t var1 var2 < comb ∨ tried_all = true
  | .Implication _ => False

/-- The total assignment `t` falls in the branch of the decision frame that
the search is currently exploring. -/
def activeBranch (t : List Bool) : Decision → Prop
  | .Single var pol _ => t.getD var false = pol
  | .Pair var1 var2 comb _ => combOf t var1 var2 = comb
  | .Implication _ => True

/-- The coverage strengthening of `frames` used for the completeness claim,
with `aB` the assignment table at the bottom of the checkpoint chain.  Each
frame additionally records that no satisfying total assignment compatible with
its snapshot falls in an exhausted branch, and that any one falling in the
currently explored branch stays compatible with the level above. -/
def framesC (n : Nat) (cls : List Clause) (aB : List (Option Bool)) :
    List Decision → List (Option Bool) → List Nat → List Nat → Prop
  | [], a, _, lim => lim = [] ∧ a = aB
  | dec :: rest, a, tr, lim => ∃ a0 tr0 lim0,
      lim = lim0 ++ [tr0.length] ∧
      assignFrame a0 tr0 a tr ∧
      decVarsFresh n a0 dec ∧
      (∀ cid c, cls.get? cid = some c → nafAt a0 c) ∧
      (∀ t, satStore t cls → refutedBranch t dec → compat t a0 → False) ∧
      (∀ t, satStore t cls → activeBranch t dec → compat t a0 → compat t a) ∧
      framesC n cls aB rest a0 tr0 lim0

/-- At a backtracking entry point the branch currently being explored is
exhausted: no satisfying total assignment compatible with the current table
falls in the top frame's active branch (with an empty stack, none is
compatible with the current table at all). -/
def stackDead (cls : List Clause) (a : List (Option Bool)) : List Decision → Prop
  | [] => ∀ t, satStore t cls → compat t a → False
  | dec :: _ => ∀ t, satStore t cls → activeBranch t dec → compat t a → False

/-- `a` is a sub-table of `b`: every assigned slot of `a` agrees with `b`. -/
def tabLe (a b : List (Option Bool)) : Prop :=
  ∀ v, a.getD v none ≠ none → b.getD v none = a.getD v none

/-- Some watched literal of the clause is true under the table. -/
def watchedSat (a : List (Option Bool)) (c : Clause) : Prop :=
  ∃ k ∈ watchedOccs c, get_literal_value a (c.literals.getD k 0) = some true

/-- The strengthened two-watched-literal resting invariant: some watched
literal is true, or no watched literal is false. -/
def siAt (a : List (Option Bool)) (c : Clause) : Prop :=
  watchedSat a c ∨ ∀ k ∈ watchedOccs c, get_literal_value a (c.literals.getD k 0) ≠ some false

/-- Queue-level weakening of `siAt` holding between drained batches: a false
watched literal is excused by a pending propagation-queue entry. -/
def siQ (a : List (Option Bool)) (q : List Int) (c : Clause) : Prop :=
  watchedSat a c ∨ ∀ k ∈ watchedOccs c,
    get_literal_value a (c.literals.getD k 0) ≠ some false ∨ ∃ l ∈ q, c.literals.getD k 0 = -l

/-- Batch-level weakening of `siQ`: a false watched literal may also be the
batch's falsified literal `f`, provided the clause still has enough
occurrences in the remaining batch to be processed again. -/
def siExc (a : List (Option Bool)) (q : List Int) (f : Int) (batch : List Nat)
    (cid : Nat) (c : Clause) : Prop :=
  watchedSat a c ∨ ∀ k ∈ watchedOccs c,
    get_literal_value a (c.literals.getD k 0) ≠ some false ∨
    (∃ l ∈ q, c.literals.getD k 0 = -l) ∨
    (c.literals.getD k 0 = f ∧ occCount c (lit_to_idx f) ≤ batch.count cid)

/-- A table is closed for a clause: some literal evaluates true, or two
distinct literal positions are both non-false (so no unit propagation and no
conflict is possible on the clause). -/
def clsClosed (B : List (Option Bool)) (c : Clause) : Prop :=
  (∃ l ∈ c.literals, get_literal_value B l = some true) ∨
  (∃ i j, i < c.literals.length ∧ j < c.literals.length ∧ i ≠ j ∧
    get_literal_value B (c.literals.getD i 0) ≠ some false ∧
    get_literal_value B (c.literals.getD j 0) ≠ some false)

/-- Every one-literal clause of the store evaluates true under the table. -/
def unitsOK (a : List (Option Bool)) (cls : List Clause) : Prop :=
  ∀ cid c, cls.get? cid = some c → c.literals.length = 1 →
    get_literal_value a (c.literals.getD 0 0) = some true

/-- Two decision frames agree on everything the search consults: probe frames
may carry different edges, branching frames must be identical. -/
def decSim : Decision → Decision → Prop
  | .Single v p b, .Single v2 p2 b2 => v = v2 ∧ p = p2 ∧ b = b2
  | .Pair v1 v2 c a, .Pair w1 w2 c2 a2 => v1 = w1 ∧ v2 = w2 ∧ c = c2 ∧ a = a2
  | .Implication _, .Implication _ => True
  | _, _ => False

/-- The structural search invariant carried by both runs in the
reproducibility proof: table length, bucket-table length, clause
well-formedness, the watch-index counting invariant, and the trail covering
every assigned variable. -/
def coreInv (n : Nat) (s : Solver) : Prop :=
  s.assignments.length = n ∧
  s.watch_lists.length = 2 * n ∧
  (∀ c ∈ s.clauses, clauseWF n c) ∧
  (∀ i cid, ((s.watch_lists.getD i []).count cid) = watchCount s.clauses cid i) ∧
  (∀ v, s.assignments.getD v none ≠ none → v ∈ s.trail)

/-- Paired decision frames for the reproducibility proof: the two runs'
stacks match frame by frame (`decSim`), every level shares one snapshot
assignment table `a0` reached when that frame is undone, each run extends the
shared snapshot by its own trail segment and checkpoint entry, and the
snapshot satisfies the not-all-watched-false and resting watch invariants for
both runs' current clause stores.  `base` is the table at the bottom of both
chains. -/
def framesP (n : Nat) (base : List (Option Bool)) (clsA clsB : List Clause) :
    List Decision → List Decision →
    List (Option Bool) → List Nat → List Nat →
    List (Option Bool) → List Nat → List Nat → Prop
  | [], [], aA, _, limA, aB, _, limB =>
      limA = [] ∧ limB = [] ∧ aA = base ∧ aB = base
  | dA :: restA, dB :: restB, aA, trA, limA, aB, trB, limB =>
      ∃ a0 trA0 limA0 trB0 limB0,
      decSim dA dB ∧
      limA = limA0 ++ [trA0.length] ∧
      limB = limB0 ++ [trB0.length] ∧
      assignFrame a0 trA0 aA trA ∧
      assignFrame a0 trB0 aB trB ∧
      decVarsFresh n a0 dA ∧
      (∀ cid c, clsA.get? cid = some c → nafAt a0 c) ∧
      (∀ cid c, clsB.get? cid = some c → nafAt a0 c) ∧
      (∀ cid c, clsA.get? cid = some c → siAt a0 c) ∧
      (∀ cid c, clsB.get? cid = some c → siAt a0 c) ∧
      framesP n base clsA clsB restA restB a0 trA0 limA0 a0 trB0 limB0
  | _, _, _, _, _, _, _, _ => False

/-- The tail-first iteration order: `iter().next()` yields the last element of
the pending list.  Used together with `headChooser` to run the solver on one
concrete input under two different pending-set iteration orders. -/
def lastChooser : List Edge → Nat :=
  fun pending => pending.length - 1

/-! ## Concrete inputs and states used by witnesses -/

/-- The problem line of the empty-clause regression input `p cnf 0 1`. -/
def emptyClauseLine1 : String := "p cnf 0 1"

/-- The bare-zero clause line of the empty-clause regression input. -/
def emptyClauseLine2 : String := "0"

/-- Problem line of the SAT regression input `p cnf 3 3`. -/
def satLine1 : String := "p cnf 3 3"

/-- Clause line `1 2 0`. -/
def satLine2 : String := "1 2 0"

/-- Clause line `-1 3 0`. -/
def satLine3 : String := "-1 3 0"

/-- Clause line `-2 3 0`. -/
def satLine4 : String := "-2 3 0"

/-- Problem line of the Horn-style input `p cnf 3 3`. -/
def hornLine1 : String := "p cnf 3 3"

/-- Clause line `-1 -2 3 0`, the implication-shaped 3-clause. -/
def hornLine2 : String := "-1 -2 3 0"

/-- Clause line `1 0`. -/
def hornLine3 : String := "1 0"

/-- Clause line `2 0`. -/
def hornLine4 : String := "2 0"

/-- A two-literal-clause state right after var 1 was assigned true: clause
`(-1 ∨ 2)` watches slots 0 and 1, the buckets of `-1` and `2` hold clause 0. -/
def watchWitStart : Solver :=
  ⟨[⟨[-1, 2], 0, 1, 0⟩], [none, some true, none], [[], [], [], [0], [0], []], [1], [], [], []⟩

/-- The state `propagate 5 watchWitStart 1` computes: the clause's watches are
swapped, variable 2 was unit-assigned true and pushed on the trail. -/
def watchWitEnd : Solver :=
  ⟨[⟨[-1, 2], 1, 0, 1⟩], [none, some true, some true], [[], [], [], [0], [0], []],
    [2, 1], [], [], []⟩

/-- An unassigned two-variable state for the single clause `(1 ∨ 2)`, with the
watch buckets of literals `1` and `2` holding clause 0. -/
def solveWitStart : Solver :=
  ⟨[⟨[1, 2], 0, 1, 0⟩], [none, none, none], [[], [], [0], [], [0], []], [], [], [], []⟩

/-- The state `solve headChooser 20 solveWitStart` returns with verdict true:
both variables were assigned true by the first decision pair. -/
def solveWitEnd : Solver :=
  ⟨[⟨[1, 2], 0, 1, 0⟩], [none, some true, some true], [[], [], [0], [], [0], []],
    [2, 1], [0], [], []⟩

/-- An unassigned two-variable state for the unsatisfiable input
`(1 ∨ 2) ∧ (1 ∨ -2) ∧ (-1 ∨ 2) ∧ (-1 ∨ -2)`, watch slots on literal indices
0 and 1 and the buckets as `initialize_watches` builds them. -/
def c2WitStart : Solver :=
  ⟨[⟨[1, 2], 0, 1, 0⟩, ⟨[1, -2], 0, 1, 0⟩, ⟨[-1, 2], 0, 1, 0⟩, ⟨[-1, -2], 0, 1, 0⟩],
    [none, none, none], [[], [], [0, 1], [2, 3], [0, 2], [1, 3]], [], [], [], []⟩

/-- The state `solve headChooser 30 c2WitStart` returns with verdict false:
every branch of the pair decision on variables 1 and 2 conflicted and the
exhausted search restored the unassigned table (only watch slots and visit
counters moved). -/
def c2WitEnd : Solver :=
  ⟨[⟨[1, 2], 1, 0, 2⟩, ⟨[1, -2], 1, 0, 2⟩, ⟨[-1, 2], 1, 0, 2⟩, ⟨[-1, -2], 1, 0, 2⟩],
    [none, none, none], [[], [], [0, 1], [2, 3], [0, 2], [1, 3]], [], [], [], []⟩

/-- A small well-formed solver state used to witness the trail-frame theorems:
variables 1 and 2 assigned, variable 2 above the single checkpoint. -/
def undoWitState : Solver :=
  ⟨[], [none, some true, some false], [], [2, 1], [1], [], []⟩

/-- The unassigned three-variable state `new_from_lines` builds for
`(-1 ∨ -2 ∨ 3) ∧ (-1 ∨ -3 ∨ 2) ∧ (1 ∨ 2)`: two implication candidates
`1 → 3` and `1 → 2` are pending, so different pending-set iteration orders
probe different edges first. -/
def c7WitStart : Solver :=
  ⟨[⟨[-1, -2, 3], 0, 1, 0⟩, ⟨[-1, -3, 2], 0, 1, 0⟩, ⟨[1, 2], 0, 1, 0⟩],
    [none, none, none, none], [[], [], [2], [0, 1], [2], [0], [], [1]],
    [], [], [], [⟨1, 3⟩, ⟨1, 2⟩]⟩

/-- The state both pending-iteration orders reach from `c7WitStart` with
verdict true: the probes drain in different orders but restore their
assignments, and the decision phase then assigns every variable true. -/
def c7WitEnd : Solver :=
  ⟨[⟨[-1, -2, 3], 2, 1, 4⟩, ⟨[-1, -3, 2], 2, 1, 4⟩, ⟨[1, 2], 0, 1, 2⟩],
    [none, some true, some true, some true], [[], [], [2], [], [2, 1], [0], [0], [1]],
    [3, 2, 1], [0, 0, 0], [], []⟩

/-! ## List utilities -/

theorem getD_set_self {α : Type} (l : List α) (n : Nat) (a d : α) (h : n < l.length) :
    (l.set n a).getD n d = a := by
  rw [List.getD_eq_getElem ((l.set n a)) d (by simpa using h)]
  simp [List.getElem_set]

theorem getD_set_ne {α : Type} (l : List α) (m n : Nat) (a d : α) (h : m ≠ n) :
    (l.set m a).getD n d = l.getD n d := by
  rw [List.getD_eq_getElem?_getD, List.getD_eq_getElem?_getD, List.getElem?_set_ne h]

theorem getD_set_oob {α : Type} (l : List α) (n : Nat) (a d : α) (h : l.length ≤ n) :
    (l.set n a).getD n d = d := by
  rw [List.getD_eq_default]
  simpa using h

/-! ## Claim C9: the literal encoding functions are mutually inverse -/

theorem lit_to_var_make_lit (var : Nat) (p : Bool) :
    lit_to_var (make_lit var p) = var := by
  cases p <;> simp [lit_to_var, make_lit]

theorem lit_to_idx_make_lit (var : Nat) (p : Bool) (h : 1 ≤ var) :
    lit_to_idx (make_lit var p) = var * 2 + (if p then 0 else 1) := by
  cases p with
  | false =>
    simp only [make_lit, lit_to_idx, Bool.false_eq_true, if_false, Int.natAbs_neg,
      Int.natAbs_ofNat]
    rw [if_pos (by omega)]
  | true =>
    simp only [make_lit, lit_to_idx, if_true, Int.natAbs_ofNat]
    rw [if_neg (by omega)]

/-- Claim C9: for every variable id `var` with `var \u2265 1` and polarity `p`,
`lit_to_var`, `lit_to_idx` and `make_lit` are mutually inverse, `lit_to_idx`
computes `var * 2` plus the polarity bit, and the watch buckets of distinct
`(var, polarity)` pairs are disjoint (their indices differ). -/
theorem encoding_mutually_inverse (var : Nat) (p : Bool) (h : 1 ≤ var) :
    lit_to_var (make_lit var p) = var ∧
    lit_to_idx (make_lit var p) = var * 2 + (if p then 0 else 1) ∧
    (∀ var2 p2, 1 ≤ var2 → (var, p) ≠ (var2, p2) →
      lit_to_idx (make_lit var p) ≠ lit_to_idx (make_lit var2 p2)) := by
  refine ⟨lit_to_var_make_lit var p, lit_to_idx_make_lit var p h, ?_⟩
  intro var2 p2 h2 hne
  rw [lit_to_idx_make_lit var p h, lit_to_idx_make_lit var2 p2 h2]
  intro heq
  apply hne
  cases p <;> cases p2 <;> simp_all <;> omega

/-- Witness for `encoding_mutually_inverse` at a concrete input. -/
theorem encoding_mutually_inverse_witness :
    lit_to_var (make_lit 3 false) = 3 ∧
    lit_to_idx (make_lit 3 false) = 3 * 2 + 1 ∧
    lit_to_idx (make_lit 3 false) ≠ lit_to_idx (make_lit 2 true) := by
  have h := encoding_mutually_inverse 3 false (by decide)
  exact ⟨h.1, h.2.1, h.2.2 2 true (by decide) (by decide)⟩

/-! ## Claim C3: a DIMACS empty clause line -/

/-- Claim C3 (refuting evaluation): on the DIMACS input containing exactly one
clause, the empty clause (a bare `0` line), the parser drops the clause
entirely, the clause store stays empty, and `solve` reports SAT - not the UNSAT
the specification demands.  The dead-code guard in `initial_propagation`
never fires because no empty clause ever reaches the store. -/
theorem empty_clause_line_reports_sat :
    (Solver.new_from_lines [emptyClauseLine1, emptyClauseLine2]).clauses = [] ∧
    (Solver.solve headChooser 2
        (Solver.new_from_lines [emptyClauseLine1, emptyClauseLine2])).map Prod.snd =
      some true := by
  constructor <;> rfl



/-! ## Claim C10: a SAT verdict comes with a total model -/

theorem mem_range_drop_one (n v : Nat) : v ∈ (List.range n).drop 1 ↔ 1 ≤ v ∧ v < n := by
  cases n with
  | zero => simp
  | succ m =>
    rw [List.range_succ_eq_map]
    simp only [List.drop_succ_cons, List.drop_zero, List.mem_map, List.mem_range]
    constructor
    · rintro ⟨m2, hm, rfl⟩
      omega
    · rintro ⟨h1, h2⟩
      exact ⟨v - 1, by omega, by omega⟩

theorem pick_fst_none_iff (s : Solver) :
    (s.pick_branching_pair).1 = none ↔
      ∀ v, 1 ≤ v → v < s.assignments.length → s.assignments.getD v none ≠ none := by
  unfold Solver.pick_branching_pair
  simp only [List.get?_eq_none, Nat.le_zero, List.length_eq_zero, List.filter_eq_nil_iff]
  constructor
  · intro h v h1 hlt hnone
    refine h v ((mem_range_drop_one _ v).mpr ⟨h1, hlt⟩) ?_
    rw [Option.isNone_iff_eq_none]
    exact hnone
  · intro h v hv hisnone
    rw [mem_range_drop_one] at hv
    exact h v hv.1 hv.2 (Option.isNone_iff_eq_none.mp hisnone)

theorem solveLoop_true_pick (ch : List Edge → Nat) (pfuel : Nat) :
    ∀ fuel s stack s2, Solver.solveLoop ch pfuel fuel s stack = some (s2, true) →
      (s2.pick_branching_pair).1 = none := by
  intro fuel
  induction fuel with
  | zero => intro s stack s2 h; simp [Solver.solveLoop] at h
  | succ n ih =>
    intro s stack s2 h
    rw [Solver.solveLoop] at h
    iterate 10 (all_goals (try simp only [] at h); all_goals (try split at h))
    all_goals first
      | exact ih _ _ _ h
      | simp_all

theorem solve_true_pick (ch : List Edge → Nat) (fuel : Nat) (s s2 : Solver)
    (h : Solver.solve ch fuel s = some (s2, true)) :
    (s2.pick_branching_pair).1 = none := by
  unfold Solver.solve at h
  split at h
  · simp at h
  · simp at h
  · exact solveLoop_true_pick ch fuel _ _ _ _ h

theorem mem_print_model (s : Solver) (v : Nat) (b : Bool)
    (h1 : 1 ≤ v) (hg : s.assignments.get? v = some (some b)) :
    (if b then (v : Int) else -(v : Int)) ∈ s.print_model := by
  unfold Solver.print_model
  rw [List.mem_filterMap]
  refine ⟨(v, some b), ?_, by simp⟩
  rcases ha : s.assignments with _ | ⟨a0, rest⟩
  · rw [ha] at hg; simp at hg
  · rw [ha] at hg
    simp only [List.enum_cons, List.drop_one, List.tail_cons]
    rw [List.mk_mem_enumFrom_iff_le_and_getElem?_sub]
    refine ⟨h1, ?_⟩
    rw [← List.get?_eq_getElem?]
    cases v with
    | zero => omega
    | succ m => simpa using hg

/-- Claim C10: whenever `solve` returns `true`, every declared variable
`1 \u2264 v \u2264 n` holds a definite value in the final assignment table, and the
printed model contains a literal for every such variable.  This holds for every
pending-set iteration order and every fuel. -/
theorem solve_sat_total_model (ch : List Edge → Nat) (fuel : Nat) (s s2 : Solver)
    (h : Solver.solve ch fuel s = some (s2, true)) :
    ∀ v, 1 ≤ v → v < s2.assignments.length →
      ∃ b, s2.assignments.getD v none = some b ∧
        (if b then (v : Int) else -(v : Int)) ∈ s2.print_model := by
  intro v h1 hlt
  have hp := (pick_fst_none_iff s2).mp (solve_true_pick ch fuel s s2 h) v h1 hlt
  rcases hq : s2.assignments.get? v with _ | ov
  · rw [List.get?_eq_none] at hq; omega
  · rcases ov with _ | b
    · exfalso
      apply hp
      rw [List.getD_eq_getElem?_getD, ← List.get?_eq_getElem?, hq]
      rfl
    · refine ⟨b, ?_, mem_print_model s2 v b h1 hq⟩
      rw [List.getD_eq_getElem?_getD, ← List.get?_eq_getElem?, hq]
      rfl

/-- Witness for `solve_sat_total_model`: the 3-variable SAT regression input
has a definite value for each of its three variables in the final table. -/
theorem solve_sat_total_model_witness :
    ∃ s2, Solver.solve headChooser 50
        (Solver.new_from_lines [satLine1, satLine2, satLine3, satLine4]) = some (s2, true) ∧
      (∀ v, 1 ≤ v → v < s2.assignments.length →
        ∃ b, s2.assignments.getD v none = some b ∧
          (if b then (v : Int) else -(v : Int)) ∈ s2.print_model) := by
  have hrun : (Solver.solve headChooser 50
      (Solver.new_from_lines [satLine1, satLine2, satLine3, satLine4])).map Prod.snd
      = some true := by rfl
  rcases hr : Solver.solve headChooser 50
      (Solver.new_from_lines [satLine1, satLine2, satLine3, satLine4]) with _ | ⟨s2, b⟩
  · rw [hr] at hrun; simp at hrun
  · rw [hr] at hrun
    have hb : b = true := by simpa using hrun
    subst hb
    exact ⟨s2, rfl, solve_sat_total_model headChooser 50 _ s2 hr⟩


/-! ## Claim C4: no-leak backtracking -/

theorem getD_set_none_self (a : List (Option Bool)) (v : Nat) :
    (a.set v none).getD v none = none := by
  rcases Nat.lt_or_ge v a.length with h | h
  · exact getD_set_self a v none none h
  · apply List.getD_eq_default
    simpa using h

theorem popTrailAbove_spec (tr : List Nat) : ∀ a pos,
    (popTrailAbove a tr pos).2 = tr.drop (tr.length - pos) ∧
    (∀ v ∈ tr.take (tr.length - pos), (popTrailAbove a tr pos).1.getD v none = none) ∧
    (∀ v, v ∉ tr.take (tr.length - pos) →
      (popTrailAbove a tr pos).1.getD v none = a.getD v none) ∧
    (popTrailAbove a tr pos).1.length = a.length := by
  induction tr with
  | nil => intro a pos; simp [popTrailAbove]
  | cons v rest ih =>
    intro a pos
    by_cases hp : pos < rest.length + 1
    · have hstep : popTrailAbove a (v :: rest) pos = popTrailAbove (a.set v none) rest pos := by
        rw [popTrailAbove]
        simp only [List.length_cons] at hp ⊢
        rw [if_pos hp]
      have hlen : (v :: rest).length - pos = (rest.length - pos) + 1 := by
        simp only [List.length_cons]
        omega
      rw [hstep, hlen]
      simp only [List.take_succ_cons, List.drop_succ_cons]
      obtain ⟨h1, h2, h3, h4⟩ := ih (a.set v none) pos
      refine ⟨h1, ?_, ?_, by rw [h4]; simp⟩
      · intro w hw
        rcases List.mem_cons.mp hw with rfl | hw2
        · by_cases hmem : w ∈ rest.take (rest.length - pos)
          · exact h2 w hmem
          · rw [h3 w hmem]
            exact getD_set_none_self a w
        · exact h2 w hw2
      · intro w hw
        rw [h3 w (fun hc => hw (List.mem_cons_of_mem v hc))]
        apply getD_set_ne
        intro hvw
        exact hw (hvw ▸ List.mem_cons_self v _)
    · have hstep : popTrailAbove a (v :: rest) pos = (a, v :: rest) := by
        rw [popTrailAbove]
        simp only [List.length_cons] at hp ⊢
        rw [if_neg hp]
      have hlen : (v :: rest).length - pos = 0 := by
        simp only [List.length_cons]
        omega
      rw [hstep, hlen]
      simp

/-- Claim C4: in a state with a duplicate-free trail, `undo_to_level k` (for a
recorded level `k`) unassigns exactly the variables at or above the checkpoint
recorded for level `k` (the popped prefix of the most-recent-first trail),
leaves every other variable's value unchanged - in particular every variable
assigned strictly before the checkpoint retains its value - and truncates
`trail_lim` to length `k`. -/
theorem undo_to_level_frame (s : Solver) (level : Nat)
    (hnd : s.trail.Nodup)
    (hlevel : level < s.trail_lim.length) :
    (s.undo_to_level level).trail =
      s.trail.drop (s.trail.length - s.trail_lim.getD level 0) ∧
    (∀ v ∈ s.trail.take (s.trail.length - s.trail_lim.getD level 0),
      (s.undo_to_level level).assignments.getD v none = none) ∧
    (∀ v, v ∉ s.trail.take (s.trail.length - s.trail_lim.getD level 0) →
      (s.undo_to_level level).assignments.getD v none = s.assignments.getD v none) ∧
    (∀ v ∈ s.trail.drop (s.trail.length - s.trail_lim.getD level 0),
      (s.undo_to_level level).assignments.getD v none = s.assignments.getD v none) ∧
    (s.undo_to_level level).trail_lim = s.trail_lim.take level ∧
    (s.undo_to_level level).trail_lim.length = level := by
  have hne : ¬ s.trail_lim.length ≤ level := by omega
  obtain ⟨h1, h2, h3, h4⟩ := popTrailAbove_spec s.trail s.assignments (s.trail_lim.getD level 0)
  have hs2 : s.undo_to_level level =
      { s with assignments := (popTrailAbove s.assignments s.trail (s.trail_lim.getD level 0)).1,
               trail := (popTrailAbove s.assignments s.trail (s.trail_lim.getD level 0)).2,
               trail_lim := s.trail_lim.take level } := by
    rw [Solver.undo_to_level, if_neg hne]
  rw [hs2]
  refine ⟨h1, h2, h3, ?_, rfl, by simp; omega⟩
  intro v hv
  apply h3
  intro hvtake
  exact List.disjoint_take_drop hnd le_rfl hvtake hv


/-- Witness for `undo_to_level_frame` on the concrete state `undoWitState`:
undoing to level 0 clears variable 2 (above the checkpoint), keeps variable 1
(below the checkpoint) assigned `true`, and empties `trail_lim`. -/
theorem undo_to_level_frame_witness :
    (undoWitState.undo_to_level 0).assignments.getD 2 none = none ∧
    (undoWitState.undo_to_level 0).assignments.getD 1 none = some true ∧
    (undoWitState.undo_to_level 0).trail_lim = [] ∧
    (undoWitState.undo_to_level 0).trail = [1] := by
  have h := undo_to_level_frame undoWitState 0 (by decide) (by decide)
  refine ⟨h.2.1 2 (by decide), ?_, ?_, ?_⟩
  · rw [h.2.2.1 1 (by decide)]
    decide
  · rw [h.2.2.2.2.1]
    decide
  · rw [h.1]
    decide

/-! ## Assignment frame lemmas: propagation only pushes fresh assignments -/

theorem eq_of_getD_none (x y : List (Option Bool)) (hlen : x.length = y.length)
    (h : ∀ v, x.getD v none = y.getD v none) : x = y := by
  apply List.ext_get?
  intro n
  rcases Nat.lt_or_ge n x.length with hn | hn
  · have hx : x.get? n = some (x.getD n none) := by
      rw [List.getD_eq_getElem x none hn, List.get?_eq_getElem?, List.getElem?_eq_getElem hn]
    have hy : y.get? n = some (y.getD n none) := by
      rw [List.getD_eq_getElem y none (by omega), List.get?_eq_getElem?,
        List.getElem?_eq_getElem (by omega)]
    rw [hx, hy, h n]
  · rw [List.get?_eq_none.mpr hn, List.get?_eq_none.mpr (by omega)]

theorem assignFrame_refl (a : List (Option Bool)) (tr : List Nat) : assignFrame a tr a tr :=
  ⟨[], rfl, rfl, by simp, fun _ _ => rfl, by simp⟩

theorem assignFrame_trans {a tr a2 tr2 a3 tr3}
    (h1 : assignFrame a tr a2 tr2) (h2 : assignFrame a2 tr2 a3 tr3) :
    assignFrame a tr a3 tr3 := by
  obtain ⟨d1, rfl, hl1, hn1, hk1, hs1⟩ := h1
  obtain ⟨d2, rfl, hl2, hn2, hk2, hs2⟩ := h2
  refine ⟨d2 ++ d1, by rw [List.append_assoc], by omega, ?_, ?_, ?_⟩
  · intro v hv
    rcases List.mem_append.mp hv with hv2 | hv1
    · by_cases hvd1 : v ∈ d1
      · exact hn1 v hvd1
      · rw [← hk1 v hvd1]
        exact hn2 v hv2
    · exact hn1 v hv1
  · intro v hv
    rw [List.mem_append] at hv
    push_neg at hv
    rw [hk2 v hv.1, hk1 v hv.2]
  · intro v hv hvlen
    rcases List.mem_append.mp hv with hv2 | hv1
    · exact hs2 v hv2 (by omega)
    · by_cases hvd2 : v ∈ d2
      · exact hs2 v hvd2 (by omega)
      · rw [hk2 v hvd2]
        exact hs1 v hv1 hvlen

theorem assign_frame (a : List (Option Bool)) (tr : List Nat) (l : Int) :
    assignFrame a tr (assign a tr l).1 (assign a tr l).2.1 := by
  rcases hv : a.getD (lit_to_var l) none with _ | p
  · simp only [assign, hv]
    refine ⟨[lit_to_var l], rfl, by simp, ?_, ?_, ?_⟩
    · intro v hv2
      rw [List.mem_singleton] at hv2
      rw [hv2]
      exact hv
    · intro v hv2
      rw [List.mem_singleton] at hv2
      exact getD_set_ne a (lit_to_var l) v _ none (fun he => hv2 he.symm)
    · intro v hv2 hvlen
      rw [List.mem_singleton] at hv2
      subst hv2
      rw [getD_set_self a (lit_to_var l) _ none hvlen]
      simp
  · simp only [assign, hv]
    exact assignFrame_refl a tr

theorem update_clause_frame (c : Clause) (f : Int) (cid : Nat) (st : PState) :
    assignFrame st.assignments st.trail
      (update_clause c f cid st).2.1.assignments (update_clause c f cid st).2.1.trail := by
  unfold update_clause update_clause_rest
  simp only []
  iterate 6 all_goals (try split)
  all_goals first
    | exact assignFrame_refl _ _
    | exact assign_frame _ _ _

theorem processBatch_frame (falsified : Int) :
    ∀ (batch : List Nat) (clauses : List Clause) (st : PState) (conflict : Bool),
      assignFrame st.assignments st.trail
        (processBatch clauses falsified st conflict batch).2.1.assignments
        (processBatch clauses falsified st conflict batch).2.1.trail := by
  intro batch
  induction batch with
  | nil => intro clauses st conflict; exact assignFrame_refl _ _
  | cons cid rest ih =>
    intro clauses st conflict
    simp only [processBatch]
    split
    · exact ih clauses st conflict
    · exact assignFrame_trans (update_clause_frame _ _ _ _) (ih _ _ _)

theorem process_watch_list_frame (s : Solver) (l : Int) (q : List Int) :
    assignFrame s.assignments s.trail
      (s.process_watch_list l q).1.assignments (s.process_watch_list l q).1.trail ∧
    (s.process_watch_list l q).1.trail_lim = s.trail_lim ∧
    (s.process_watch_list l q).1.pending_implications = s.pending_implications ∧
    (s.process_watch_list l q).1.implications = s.implications := by
  unfold Solver.process_watch_list
  simp only []
  refine ⟨processBatch_frame _ _ _ _ _, ?_, ?_, ?_⟩ <;> trivial

theorem propagateLoop_frame :
    ∀ (fuel : Nat) (s : Solver) (q : List Int) (s2 : Solver) (ok : Bool),
      Solver.propagateLoop fuel s q = some (s2, ok) →
      assignFrame s.assignments s.trail s2.assignments s2.trail ∧
      s2.trail_lim = s.trail_lim ∧
      s2.pending_implications = s.pending_implications ∧
      s2.implications = s.implications := by
  intro fuel
  induction fuel with
  | zero => intro s q s2 ok h; simp [Solver.propagateLoop] at h
  | succ n ih =>
    intro s q s2 ok h
    match q with
    | [] =>
      rw [Solver.propagateLoop] at h
      simp only [Option.some.injEq, Prod.mk.injEq] at h
      rw [← h.1]
      exact ⟨assignFrame_refl _ _, rfl, rfl, rfl⟩
    | l :: q2 =>
      rw [Solver.propagateLoop] at h
      try simp only [] at h
      obtain ⟨hf, hlim, hpend, himp⟩ := process_watch_list_frame s l q2
      split at h
      · simp only [Option.some.injEq, Prod.mk.injEq] at h
        rw [← h.1]
        exact ⟨hf, hlim, hpend, himp⟩
      · obtain ⟨hf2, hlim2, hpend2, himp2⟩ := ih _ _ _ _ h
        exact ⟨assignFrame_trans hf hf2, by rw [hlim2, hlim], by rw [hpend2, hpend],
          by rw [himp2, himp]⟩

theorem propagate_frame (fuel : Nat) (s : Solver) (l : Int) (s2 : Solver) (ok : Bool)
    (h : Solver.propagate fuel s l = some (s2, ok)) :
    assignFrame s.assignments s.trail s2.assignments s2.trail ∧
    s2.trail_lim = s.trail_lim ∧
    s2.pending_implications = s.pending_implications ∧
    s2.implications = s.implications :=
  propagateLoop_frame fuel s [l] s2 ok h

/-! ## Undo restores a framed extension exactly -/

theorem getD_concat_self (l : List Nat) (x : Nat) : (l ++ [x]).getD l.length 0 = x := by
  rw [List.getD_append_right l [x] 0 l.length le_rfl]
  simp

theorem popTrailAbove_restore {a tr a2 tr2} (hf : assignFrame a tr a2 tr2) :
    popTrailAbove a2 tr2 tr.length = (a, tr) := by
  obtain ⟨dvs, rfl, hlen, hnone, hkeep, -⟩ := hf
  obtain ⟨h1, h2, h3, h4⟩ := popTrailAbove_spec (dvs ++ tr) a2 tr.length
  have hdl : (dvs ++ tr).length - tr.length = dvs.length := by
    simp
  rw [hdl] at h1 h2 h3
  rw [List.take_left] at h2 h3
  rw [List.drop_left] at h1
  have ha : (popTrailAbove a2 (dvs ++ tr) tr.length).1 = a := by
    apply eq_of_getD_none _ _ (by omega)
    intro v
    by_cases hv : v ∈ dvs
    · rw [h2 v hv, hnone v hv]
    · rw [h3 v hv, hkeep v hv]
  have : popTrailAbove a2 (dvs ++ tr) tr.length =
      ((popTrailAbove a2 (dvs ++ tr) tr.length).1,
       (popTrailAbove a2 (dvs ++ tr) tr.length).2) := rfl
  rw [this, ha, h1]


/-! ## Claim C6: implication probes leave no residual assignment state -/

theorem assign_fail_eq (a : List (Option Bool)) (tr : List Nat) (l : Int)
    (h : (assign a tr l).2.2 = false) :
    (assign a tr l).1 = a ∧ (assign a tr l).2.1 = tr := by
  rcases hv : a.getD (lit_to_var l) none with _ | p
  · exfalso
    have htrue : (assign a tr l).2.2 = true := by
      unfold assign
      simp only [hv]
    rw [h] at htrue
    exact Bool.false_ne_true htrue
  · unfold assign
    simp only [hv]
    constructor <;> trivial

theorem undo_restore (s : Solver) (a0 : List (Option Bool)) (tr0 : List Nat)
    (lims0 : List Nat)
    (hlim : s.trail_lim = lims0 ++ [tr0.length])
    (hf : assignFrame a0 tr0 s.assignments s.trail) :
    (s.undo_to_level lims0.length).assignments = a0 ∧
    (s.undo_to_level lims0.length).trail = tr0 ∧
    (s.undo_to_level lims0.length).trail_lim = lims0 := by
  have hlen : ¬ s.trail_lim.length ≤ lims0.length := by rw [hlim]; simp
  have hpos : s.trail_lim.getD lims0.length 0 = tr0.length := by
    rw [hlim]
    exact getD_concat_self _ _
  have hpop := popTrailAbove_restore hf
  unfold Solver.undo_to_level
  rw [if_neg hlen]
  simp only []
  rw [hpos, hpop]
  simp only [hlim, List.take_left]
  refine ⟨?_, ?_, ?_⟩ <;> trivial

/-- Claim C6: whatever the outcome of probing an implication edge, the
assignment table (together with the trail and the checkpoint stack) after
`test_implication` returns is identical to what it was before the call. -/
theorem test_implication_state_restored (fuel : Nat) (s : Solver) (edge : Edge)
    (s2 : Solver) (b : Bool)
    (h : Solver.test_implication fuel s edge = some (s2, b)) :
    s2.assignments = s.assignments ∧ s2.trail = s.trail ∧ s2.trail_lim = s.trail_lim := by
  unfold Solver.test_implication at h
  simp only [] at h
  split at h
  next hok =>
    split at h
    next => simp at h
    next s3 heq =>
      obtain ⟨hf2, hlim2, -, -⟩ := propagate_frame fuel _ _ _ _ heq
      have hfr : assignFrame s.assignments s.trail s3.assignments s3.trail :=
        assignFrame_trans (assign_frame s.assignments s.trail (make_lit edge.from_ true)) hf2
      have hlim3 : s3.trail_lim = s.trail_lim ++ [s.trail.length] := by rw [hlim2]
      obtain ⟨ha, ht, hl⟩ := undo_restore s3 s.assignments s.trail s.trail_lim hlim3 hfr
      simp only [Option.some.injEq, Prod.mk.injEq] at h
      rw [← h.1]
      exact ⟨ha, ht, hl⟩
    next s3 heq =>
      obtain ⟨hf2, hlim2, -, -⟩ := propagate_frame fuel _ _ _ _ heq
      have hfr3 : assignFrame s.assignments s.trail s3.assignments s3.trail :=
        assignFrame_trans (assign_frame s.assignments s.trail (make_lit edge.from_ true)) hf2
      have hlim3 : s3.trail_lim = s.trail_lim ++ [s.trail.length] := by rw [hlim2]
      split at h
      next hok2 =>
        split at h
        next => simp at h
        next s4 ok2 heq2 =>
          obtain ⟨hf4, hlim4, -, -⟩ := propagate_frame fuel _ _ _ _ heq2
          have hfr5 : assignFrame s.assignments s.trail s4.assignments s4.trail :=
            assignFrame_trans hfr3
              (assignFrame_trans (assign_frame s3.assignments s3.trail (make_lit edge.to_ false)) hf4)
          have hlim5 : s4.trail_lim = s.trail_lim ++ [s.trail.length] := by
            rw [hlim4]
            exact hlim3
          obtain ⟨ha, ht, hl⟩ := undo_restore s4 s.assignments s.trail s.trail_lim hlim5 hfr5
          simp only [Option.some.injEq, Prod.mk.injEq] at h
          rw [← h.1]
          exact ⟨ha, ht, hl⟩
      next hok2 =>
        obtain ⟨hfa, hft⟩ := assign_fail_eq s3.assignments s3.trail (make_lit edge.to_ false)
          (by simpa using hok2)
        have hfr4 : assignFrame s.assignments s.trail
            (assign s3.assignments s3.trail (make_lit edge.to_ false)).1
            (assign s3.assignments s3.trail (make_lit edge.to_ false)).2.1 := by
          rw [hfa, hft]
          exact hfr3
        obtain ⟨ha, ht, hl⟩ := undo_restore
          { s3 with assignments := (assign s3.assignments s3.trail (make_lit edge.to_ false)).1,
                    trail := (assign s3.assignments s3.trail (make_lit edge.to_ false)).2.1 }
          s.assignments s.trail s.trail_lim (by simpa using hlim3) hfr4
        simp only [Option.some.injEq, Prod.mk.injEq] at h
        rw [← h.1]
        exact ⟨ha, ht, hl⟩
  next hok =>
    obtain ⟨hfa, hft⟩ := assign_fail_eq s.assignments s.trail (make_lit edge.from_ true)
      (by simpa using hok)
    have hfr1 : assignFrame s.assignments s.trail
        (assign s.assignments s.trail (make_lit edge.from_ true)).1
        (assign s.assignments s.trail (make_lit edge.from_ true)).2.1 := by
      rw [hfa, hft]
      exact assignFrame_refl _ _
    obtain ⟨ha, ht, hl⟩ := undo_restore
      { s with trail_lim := s.trail_lim ++ [s.trail.length],
               assignments := (assign s.assignments s.trail (make_lit edge.from_ true)).1,
               trail := (assign s.assignments s.trail (make_lit edge.from_ true)).2.1 }
      s.assignments s.trail s.trail_lim rfl hfr1
    simp only [Option.some.injEq, Prod.mk.injEq] at h
    rw [← h.1]
    exact ⟨ha, ht, hl⟩


/-- Witness for `test_implication_state_restored`: probing the edge `1 \u21d2 3`
of the Horn input leaves the freshly built solver's assignment table, trail and
checkpoint stack untouched. -/
theorem test_implication_state_restored_witness :
    ∃ s2 b, Solver.test_implication 100
        (Solver.new_from_lines [hornLine1, hornLine2, hornLine3, hornLine4]) ⟨1, 3⟩ =
        some (s2, b) ∧
      s2.assignments =
        (Solver.new_from_lines [hornLine1, hornLine2, hornLine3, hornLine4]).assignments ∧
      s2.trail = (Solver.new_from_lines [hornLine1, hornLine2, hornLine3, hornLine4]).trail := by
  have hrun : (Solver.test_implication 100
      (Solver.new_from_lines [hornLine1, hornLine2, hornLine3, hornLine4]) ⟨1, 3⟩).isSome
      = true := by rfl
  rcases hr : Solver.test_implication 100
      (Solver.new_from_lines [hornLine1, hornLine2, hornLine3, hornLine4]) ⟨1, 3⟩ with _ | ⟨s2, b⟩
  · rw [hr] at hrun
    simp at hrun
  · have hth := test_implication_state_restored 100
      (Solver.new_from_lines [hornLine1, hornLine2, hornLine3, hornLine4]) ⟨1, 3⟩ s2 b hr
    exact ⟨s2, b, rfl, hth.1, hth.2.1⟩


/-! ## Claim C8: termination of propagation -/

theorem get_literal_value_none_iff (a : List (Option Bool)) (l : Int) :
    get_literal_value a l = none ↔ a.getD (lit_to_var l) none = none := by
  unfold get_literal_value
  cases a.getD (lit_to_var l) none <;> simp

theorem noneCount_set_some (a : List (Option Bool)) :
    ∀ (v : Nat) (p : Bool), a.getD v none = none → v < a.length →
      noneCount (a.set v (some p)) + 1 = noneCount a := by
  induction a with
  | nil => intro v p _ hlt; simp at hlt
  | cons x rest ih =>
    intro v p hv hlt
    cases v with
    | zero =>
      rw [List.getD_cons_zero] at hv
      subst hv
      simp [noneCount, List.countP_cons]
    | succ m =>
      rw [List.getD_cons_succ] at hv
      have hx : (x :: rest).set (m + 1) (some p) = x :: rest.set m (some p) := rfl
      rw [hx]
      have := ih m p hv (by simpa using hlt)
      simp only [noneCount, List.countP_cons] at *
      omega


theorem update_clause_rest_step (c : Clause) (cid : Nat) (st : PState)
    (h0 : 0 < st.assignments.length)
    (hc : ∀ l ∈ c.literals, lit_to_var l < st.assignments.length)
    (hnd : st.trail.Nodup)
    (htr : ∀ v ∈ st.trail, v < st.assignments.length ∧ st.assignments.getD v none ≠ none) :
    pmeasure (update_clause_rest c cid st).2.1 ≤ pmeasure st ∧
    (update_clause_rest c cid st).2.1.assignments.length = st.assignments.length ∧
    (update_clause_rest c cid st).2.1.trail.Nodup ∧
    (∀ v ∈ (update_clause_rest c cid st).2.1.trail,
      v < st.assignments.length ∧
        (update_clause_rest c cid st).2.1.assignments.getD v none ≠ none) ∧
    (∀ b ∈ (update_clause_rest c cid st).2.1.watch_lists, ∀ x ∈ b,
      (∃ b0 ∈ st.watch_lists, x ∈ b0) ∨ x = cid) ∧
    (update_clause_rest c cid st).1.literals = c.literals := by
  have hw0 : lit_to_var (c.literals.getD c.watched0 0) < st.assignments.length := by
    rcases Nat.lt_or_ge c.watched0 c.literals.length with hlt | hge
    · refine hc _ ?_
      rw [List.getD_eq_getElem _ _ hlt]
      exact List.getElem_mem hlt
    · rw [List.getD_eq_default _ _ hge]
      simpa [lit_to_var] using h0
  unfold update_clause_rest
  simp only []
  split
  · exact ⟨le_rfl, rfl, hnd, htr, fun b hb x hx => Or.inl ⟨b, hb, hx⟩, rfl⟩
  · split
    next j hj =>
      refine ⟨le_rfl, rfl, hnd, htr, ?_, rfl⟩
      intro b hb x hx
      rcases List.mem_or_eq_of_mem_set hb with hold | rfl
      · exact Or.inl ⟨b, hold, hx⟩
      · rcases List.mem_append.mp hx with hx1 | hx2
        · left
          refine ⟨st.watch_lists.getD (lit_to_idx (c.literals.getD j 0)) [], ?_, hx1⟩
          rcases Nat.lt_or_ge (lit_to_idx (c.literals.getD j 0)) st.watch_lists.length with hlt | hge
          · rw [List.getD_eq_getElem _ _ hlt]
            exact List.getElem_mem hlt
          · rw [List.getD_eq_default _ _ hge] at hx1
            simp at hx1
        · right
          rw [List.mem_singleton] at hx2
          exact hx2
    next hrep =>
      split
      · exact ⟨le_rfl, rfl, hnd, htr, fun b hb x hx => Or.inl ⟨b, hb, hx⟩, rfl⟩
      next hgv =>
        have hw0none := (get_literal_value_none_iff st.assignments _).mp hgv
        have hassign : assign st.assignments st.trail (c.literals.getD c.watched0 0) =
            (st.assignments.set (lit_to_var (c.literals.getD c.watched0 0))
              (some (decide (0 < c.literals.getD c.watched0 0))),
             lit_to_var (c.literals.getD c.watched0 0) :: st.trail, true) := by
          unfold assign
          simp only [hw0none]
        have hcount := noneCount_set_some st.assignments
          (lit_to_var (c.literals.getD c.watched0 0))
          (decide (0 < c.literals.getD c.watched0 0)) hw0none hw0
        have hfresh : lit_to_var (c.literals.getD c.watched0 0) ∉ st.trail := by
          intro hmem
          exact (htr _ hmem).2 hw0none
        split
        next hok =>
          rw [hassign]
          refine ⟨?_, by simp, ?_, ?_, fun b hb x hx => Or.inl ⟨b, hb, hx⟩, rfl⟩
          · simp only [pmeasure, List.length_cons]
            omega
          · exact List.Nodup.cons hfresh hnd
          · intro v hv
            rcases List.mem_cons.mp hv with rfl | hv2
            · refine ⟨hw0, ?_⟩
              rw [getD_set_self _ _ _ _ hw0]
              simp
            · have hvp := htr v hv2
              refine ⟨hvp.1, ?_⟩
              rw [getD_set_ne]
              · exact hvp.2
              · intro heq
                rw [heq] at hfresh
                exact hfresh hv2
        next hok =>
          exfalso
          rw [hassign] at hok
          simp at hok
      · exact ⟨le_rfl, rfl, hnd, htr, fun b hb x hx => Or.inl ⟨b, hb, hx⟩, rfl⟩

theorem update_clause_step (c0 : Clause) (f : Int) (cid : Nat) (st : PState)
    (h0 : 0 < st.assignments.length)
    (hc0 : ∀ l ∈ c0.literals, lit_to_var l < st.assignments.length)
    (hnd : st.trail.Nodup)
    (htr : ∀ v ∈ st.trail, v < st.assignments.length ∧ st.assignments.getD v none ≠ none) :
    pmeasure (update_clause c0 f cid st).2.1 ≤ pmeasure st ∧
    (update_clause c0 f cid st).2.1.assignments.length = st.assignments.length ∧
    (update_clause c0 f cid st).2.1.trail.Nodup ∧
    (∀ v ∈ (update_clause c0 f cid st).2.1.trail,
      v < st.assignments.length ∧
        (update_clause c0 f cid st).2.1.assignments.getD v none ≠ none) ∧
    (∀ b ∈ (update_clause c0 f cid st).2.1.watch_lists, ∀ x ∈ b,
      (∃ b0 ∈ st.watch_lists, x ∈ b0) ∨ x = cid) ∧
    (update_clause c0 f cid st).1.literals = c0.literals := by
  unfold update_clause
  simp only []
  split
  · exact update_clause_rest_step _ cid st h0 hc0 hnd htr
  · exact update_clause_rest_step _ cid st h0 hc0 hnd htr


theorem processBatch_step (f : Int) :
    ∀ (batch : List Nat) (clauses : List Clause) (st : PState) (conflict : Bool),
      pinv clauses st → (∀ x ∈ batch, x < clauses.length) →
      pmeasure (processBatch clauses f st conflict batch).2.1 ≤ pmeasure st ∧
      pinv (processBatch clauses f st conflict batch).1
        (processBatch clauses f st conflict batch).2.1 ∧
      (processBatch clauses f st conflict batch).1.length = clauses.length ∧
      (processBatch clauses f st conflict batch).2.1.assignments.length =
        st.assignments.length ∧
      (∀ x ∈ (processBatch clauses f st conflict batch).2.2.1, x ∈ batch) := by
  intro batch
  induction batch with
  | nil =>
    intro clauses st conflict hinv hb
    exact ⟨le_rfl, hinv, rfl, rfl, by simp [processBatch]⟩
  | cons cid rest ih =>
    intro clauses st conflict hinv hb
    obtain ⟨h0, hlits, hbuck, hnd, htr⟩ := hinv
    simp only [processBatch]
    split
    · obtain ⟨hm, hi, hl, ha, hk⟩ := ih clauses st conflict ⟨h0, hlits, hbuck, hnd, htr⟩
        (fun x hx => hb x (List.mem_cons_of_mem cid hx))
      refine ⟨hm, hi, hl, ha, ?_⟩
      intro x hx
      rcases List.mem_cons.mp hx with rfl | hx2
      · exact List.mem_cons_self _ _
      · exact List.mem_cons_of_mem cid (hk x hx2)
    · have hcid : cid < clauses.length := hb cid (List.mem_cons_self _ _)
      have hcmem : clauses.getD cid default ∈ clauses := by
        rw [List.getD_eq_getElem clauses default hcid]
        exact List.getElem_mem hcid
      obtain ⟨hum, hulen, hund, hutr, hubuck, hulits⟩ :=
        update_clause_step (clauses.getD cid default) f cid st h0
          (hlits _ hcmem) hnd htr
      have hinv2 : pinv (clauses.set cid (update_clause (clauses.getD cid default) f cid st).1)
          (update_clause (clauses.getD cid default) f cid st).2.1 := by
      
        refine ⟨by rw [hulen]; exact h0, ?_, ?_, hund, ?_⟩
        · intro c2 hc2 l hl
          rw [hulen]
          rcases List.mem_or_eq_of_mem_set hc2 with hold | rfl
          · exact hlits c2 hold l hl
          · rw [hulits] at hl
            exact hlits _ hcmem l hl
        · intro b hbm x hx
          rw [List.length_set]
          rcases hubuck b hbm x hx with ⟨b0, hb0, hxb0⟩ | rfl
          · exact hbuck b0 hb0 x hxb0
          · exact hcid
        · intro v hv
          rw [hulen]
          exact hutr v hv
      obtain ⟨hm, hi, hl, ha, hk⟩ := ih _ _ _ hinv2
        (fun x hx => by rw [List.length_set]; exact hb x (List.mem_cons_of_mem cid hx))
      refine ⟨le_trans hm hum, hi, by rw [hl, List.length_set], by rw [ha, hulen], ?_⟩
      intro x hx
      have hx2 : x ∈ (processBatch (clauses.set cid
          (update_clause (clauses.getD cid default) f cid st).1) f
          (update_clause (clauses.getD cid default) f cid st).2.1
          (update_clause (clauses.getD cid default) f cid st).2.2.2 rest).2.2.1 ∨ x = cid := by
        split at hx
        · rcases List.mem_cons.mp hx with rfl | hxx
          · exact Or.inr rfl
          · exact Or.inl hxx
        · exact Or.inl hx
      rcases hx2 with hxx | rfl
      · exact List.mem_cons_of_mem cid (hk x hxx)
      · exact List.mem_cons_self _ _


theorem process_watch_list_step (s : Solver) (l : Int) (q : List Int)
    (hr : rangeOK s) (ht : trailWF s) :
    2 * noneCount (s.process_watch_list l q).1.assignments +
        (s.process_watch_list l q).2.1.length ≤
      2 * noneCount s.assignments + q.length ∧
    rangeOK (s.process_watch_list l q).1 ∧
    trailWF (s.process_watch_list l q).1 ∧
    (s.process_watch_list l q).1.assignments.length = s.assignments.length ∧
    (s.process_watch_list l q).1.clauses.length = s.clauses.length := by
  obtain ⟨h0, hlits, hbuck⟩ := hr
  obtain ⟨hnd, htr⟩ := ht
  have hbatch : ∀ x ∈ s.watch_lists.getD (lit_to_idx (-l)) [], x < s.clauses.length := by
    intro x hx
    rcases Nat.lt_or_ge (lit_to_idx (-l)) s.watch_lists.length with hlt | hge
    · refine hbuck _ ?_ x hx
      rw [List.getD_eq_getElem _ _ hlt]
      exact List.getElem_mem hlt
    · rw [List.getD_eq_default _ _ hge] at hx
      simp at hx
  have hinv0 : pinv s.clauses ⟨s.assignments, s.watch_lists.set (lit_to_idx (-l)) [], q, s.trail⟩ := by
    refine ⟨h0, hlits, ?_, hnd, htr⟩
    intro b hb x hx
    rcases List.mem_or_eq_of_mem_set hb with hold | rfl
    · exact hbuck b hold x hx
    · simp at hx
  obtain ⟨hm, hi, hl, ha, hk⟩ := processBatch_step (-l)
    (s.watch_lists.getD (lit_to_idx (-l)) [])
    s.clauses ⟨s.assignments, s.watch_lists.set (lit_to_idx (-l)) [], q, s.trail⟩ false
    hinv0 hbatch
  obtain ⟨hi0, hilits, hibuck, hind, hitr⟩ := hi
  unfold Solver.process_watch_list
  simp only []
  refine ⟨hm, ⟨by rw [ha]; exact h0, hilits, ?_⟩,
    ⟨hind, hitr⟩, ha, hl⟩
  intro b hb x hx
  rw [hl]
  rcases List.mem_or_eq_of_mem_set hb with hold | rfl
  · rw [← hl]
    exact hibuck b hold x hx
  · rcases List.mem_append.mp hx with hx1 | hx2
    · rw [← hl]
      rcases Nat.lt_or_ge (lit_to_idx (-l))
        (processBatch s.clauses (-l)
          ⟨s.assignments, s.watch_lists.set (lit_to_idx (-l)) [], q, s.trail⟩ false
          (s.watch_lists.getD (lit_to_idx (-l)) [])).2.1.watch_lists.length with hlt | hge
      · refine hibuck _ ?_ x hx1
        rw [List.getD_eq_getElem _ _ hlt]
        exact List.getElem_mem hlt
      · rw [List.getD_eq_default _ _ hge] at hx1
        simp at hx1
    · exact hbatch x (hk x hx2)

theorem propagateLoop_halts :
    ∀ (fuel : Nat) (s : Solver) (q : List Int),
      rangeOK s → trailWF s →
      2 * noneCount s.assignments + q.length + 1 ≤ fuel →
      ∃ s2 ok, Solver.propagateLoop fuel s q = some (s2, ok) ∧ rangeOK s2 ∧ trailWF s2 := by
  intro fuel
  induction fuel with
  | zero => intro s q _ _ hf; omega
  | succ n ih =>
    intro s q hr ht hf
    match q with
    | [] => exact ⟨s, true, rfl, hr, ht⟩
    | l :: q2 =>
      obtain ⟨hm, hr2, ht2, ha, hc⟩ := process_watch_list_step s l q2 hr ht
      rw [Solver.propagateLoop]
      try simp only []
      split
      · exact ⟨_, false, rfl, hr2, ht2⟩
      · exact ih (s.process_watch_list l q2).1 (s.process_watch_list l q2).2.1 hr2 ht2
          (by simp only [List.length_cons] at hf; omega)

/-- Claim C8: propagation always halts.  For every state satisfying the
reachable-state range and trail invariants, any fuel at least
`2 * noneCount + 2` (the work queue is bounded because each variable is
assigned at most once) makes `propagate` return a definite success or failure
verdict, the trail and range invariants still hold at the returned state (so
it is valid for inspection and undo), the assignment table has only been
extended with fresh assignments, and the checkpoint stack is untouched. -/
theorem propagate_halts (s : Solver) (lit : Int) (fuel : Nat)
    (hr : rangeOK s) (ht : trailWF s)
    (hfuel : 2 * noneCount s.assignments + 2 ≤ fuel) :
    ∃ s2 ok, Solver.propagate fuel s lit = some (s2, ok) ∧
      rangeOK s2 ∧ trailWF s2 ∧
      assignFrame s.assignments s.trail s2.assignments s2.trail ∧
      s2.trail_lim = s.trail_lim := by
  obtain ⟨s2, ok, heq, hr2, ht2⟩ := propagateLoop_halts fuel s [lit] hr ht
    (by simp only [List.length_cons, List.length_nil]; omega)
  obtain ⟨hf, hlim, -, -⟩ := propagateLoop_frame fuel s [lit] s2 ok heq
  exact ⟨s2, ok, heq, hr2, ht2, hf, hlim⟩

/-- Witness for `propagate_halts` on the freshly loaded Horn input with
trigger literal `1`. -/
theorem propagate_halts_witness :
    ∃ s2 ok, Solver.propagate 20
        (Solver.new_from_lines [hornLine1, hornLine2, hornLine3, hornLine4]) 1 =
        some (s2, ok) ∧
      rangeOK s2 ∧ trailWF s2 ∧
      assignFrame (Solver.new_from_lines [hornLine1, hornLine2, hornLine3, hornLine4]).assignments
        (Solver.new_from_lines [hornLine1, hornLine2, hornLine3, hornLine4]).trail
        s2.assignments s2.trail ∧
      s2.trail_lim =
        (Solver.new_from_lines [hornLine1, hornLine2, hornLine3, hornLine4]).trail_lim := by
  exact propagate_halts (Solver.new_from_lines [hornLine1, hornLine2, hornLine3, hornLine4]) 1 20
    (by constructor
        · decide
        · constructor
          · decide
          · decide)
    (by constructor
        · decide
        · decide)
    (by decide)


/-! ## Literal encoding and value facts used by the watch-index invariant -/

theorem lit_to_idx_lt (l : Int) (n : Nat) (h : lit_to_var l < n) :
    lit_to_idx l < 2 * n := by
  unfold lit_to_idx
  unfold lit_to_var at h
  split <;> omega

theorem lit_to_idx_inj (a b : Int) (ha : a ≠ 0) (hb : b ≠ 0)
    (h : lit_to_idx a = lit_to_idx b) : a = b := by
  unfold lit_to_idx at h
  split_ifs at h <;> omega

theorem get_literal_value_neg (a : List (Option Bool)) (l : Int) (hl : l ≠ 0) (b : Bool)
    (h : get_literal_value a l = some b) :
    get_literal_value a (-l) = some (!b) := by
  unfold get_literal_value at h ⊢
  rw [show lit_to_var (-l) = lit_to_var l from by unfold lit_to_var; omega]
  rcases hv : a.getD (lit_to_var l) none with _ | p
  · rw [hv] at h
    simp at h
  · rw [hv] at h
    have hb : (p == decide (0 < l)) = b := by simpa using h
    subst hb
    rcases Decidable.em (0 < l) with hp | hp
    · have hp2 : ¬ (0 < -l) := by omega
      cases p <;> simp [hp, hp2]
    · have hp2 : 0 < -l := by omega
      cases p <;> simp [hp, hp2]

theorem value_set_other (a : List (Option Bool)) (v : Nat) (p : Bool) (x : Int)
    (hne : lit_to_var x ≠ v) :
    get_literal_value (a.set v (some p)) x = get_literal_value a x := by
  unfold get_literal_value
  rw [getD_set_ne a v (lit_to_var x) _ none (fun he => hne he.symm)]

theorem value_mono_set (a : List (Option Bool)) (v : Nat) (p : Bool) (x : Int) (b : Bool)
    (hv : a.getD v none = none) (hx : get_literal_value a x = some b) :
    get_literal_value (a.set v (some p)) x = some b := by
  have hne : lit_to_var x ≠ v := by
    intro he
    unfold get_literal_value at hx
    rw [he, hv] at hx
    simp at hx
  rw [value_set_other a v p x hne]
  exact hx

theorem occCount_swap (c : Clause) (hlen1 : c.literals.length = 1 → c.watched0 = c.watched1)
    (i : Nat) (m : Nat) :
    occCount ⟨c.literals, c.watched1, c.watched0, m⟩ i = occCount c i := by
  unfold occCount watchedOccs
  rcases hl : c.literals.length with _ | k
  · simp
  · rcases k with _ | k2
    · simp only [hl]
      norm_num
      rw [hlen1 hl]
    · simp only [hl]
      norm_num
      simp only [List.countP_cons, List.countP_nil]
      omega

/-! ## Replacement-watch search characterization -/

theorem findReplacementFrom_some (a : List (Option Bool)) (w0 w1 : Nat) :
    ∀ (ls : List Int) (i j : Nat), findReplacementFrom a w0 w1 ls i = some j →
      i ≤ j ∧ j < i + ls.length ∧ j ≠ w0 ∧ j ≠ w1 ∧
      get_literal_value a (ls.getD (j - i) 0) ≠ some false := by
  intro ls
  induction ls with
  | nil => intro i j h; simp [findReplacementFrom] at h
  | cons x rest ih =>
    intro i j h
    rw [findReplacementFrom] at h
    split at h
    next hcond =>
      simp only [Option.some.injEq] at h
      subst h
      simpa using hcond
    next hcond =>
      obtain ⟨h1, h2, h3, h4, h5⟩ := ih (i + 1) j h
      refine ⟨by omega, by simp only [List.length_cons]; omega, h3, h4, ?_⟩
      have : j - i = (j - (i + 1)) + 1 := by omega
      rw [this, List.getD_cons_succ]
      exact h5

theorem findReplacementFrom_none (a : List (Option Bool)) (w0 w1 : Nat) :
    ∀ (ls : List Int) (i : Nat), findReplacementFrom a w0 w1 ls i = none →
      ∀ k, k < ls.length → i + k ≠ w0 → i + k ≠ w1 →
        get_literal_value a (ls.getD k 0) = some false := by
  intro ls
  induction ls with
  | nil => intro i h k hk; simp at hk
  | cons x rest ih =>
    intro i h k hk hw0 hw1
    rw [findReplacementFrom] at h
    split at h
    · simp at h
    next hcond =>
      push_neg at hcond
      cases k with
      | zero =>
        rw [List.getD_cons_zero]
        by_cases hx0 : i = w0
        · omega
        · by_cases hx1 : i = w1
          · omega
          · by_contra hne
            exact hne (by
              rcases Decidable.em (get_literal_value a x = some false) with hf | hf
              · exact hf
              · exact absurd (hcond hx0 hx1) (by simp [hf]))
      | succ k2 =>
        rw [List.getD_cons_succ]
        refine ih (i + 1) h k2 (by simpa using hk) (by omega) (by omega)

theorem find_replacement_some (c : Clause) (a : List (Option Bool)) (j : Nat)
    (h : c.find_replacement_watch a = some j) :
    j < c.literals.length ∧ j ≠ c.watched0 ∧ j ≠ c.watched1 ∧
    get_literal_value a (c.literals.getD j 0) ≠ some false := by
  obtain ⟨h1, h2, h3, h4, h5⟩ := findReplacementFrom_some a c.watched0 c.watched1 c.literals 0 j h
  simp only [Nat.zero_add] at h2
  simp only [Nat.sub_zero] at h5
  exact ⟨h2, h3, h4, h5⟩

theorem find_replacement_none (c : Clause) (a : List (Option Bool))
    (h : c.find_replacement_watch a = none) :
    ∀ k, k < c.literals.length → k ≠ c.watched0 → k ≠ c.watched1 →
      get_literal_value a (c.literals.getD k 0) = some false := by
  intro k hk h0 h1
  exact findReplacementFrom_none a c.watched0 c.watched1 c.literals 0 h k hk
    (by simpa using h0) (by simpa using h1)


/-! ## Watched-occurrence counting -/

theorem getD_mem_of_lt {ls : List Int} {k : Nat} (h : k < ls.length) :
    ls.getD k 0 ∈ ls := by
  rw [List.getD_eq_getElem ls 0 h]
  exact List.getElem_mem h

theorem mem_watchedOccs {c : Clause} {k : Nat} (h : k ∈ watchedOccs c) :
    k = c.watched0 ∨ k = c.watched1 := by
  unfold watchedOccs at h
  split_ifs at h <;> simp at h <;> tauto

theorem watched0_mem_occs (c : Clause) (h : 1 ≤ c.literals.length) :
    c.watched0 ∈ watchedOccs c := by
  unfold watchedOccs
  split_ifs <;> first
    | omega
    | simp

theorem occCount_one (c : Clause) (h1 : c.literals.length = 1) (i : Nat) :
    occCount c i = if lit_to_idx (c.literals.getD c.watched0 0) = i then 1 else 0 := by
  unfold occCount watchedOccs
  rw [if_neg (by omega), if_pos h1]
  simp only [List.countP_cons, List.countP_nil, decide_eq_true_eq]
  split_ifs <;> omega

theorem occCount_two (c : Clause) (h2 : 2 ≤ c.literals.length) (i : Nat) :
    occCount c i = (if lit_to_idx (c.literals.getD c.watched0 0) = i then 1 else 0) +
                   (if lit_to_idx (c.literals.getD c.watched1 0) = i then 1 else 0) := by
  unfold occCount watchedOccs
  rw [if_neg (by omega), if_neg (by omega)]
  simp only [List.countP_cons, List.countP_nil, decide_eq_true_eq]
  split_ifs <;> omega

theorem occ_watches (c0 : Clause) (n : Nat) (hwf : clauseWF n c0) (f : Int) (hf0 : f ≠ 0)
    (hocc : 1 ≤ occCount c0 (lit_to_idx f)) :
    c0.literals.getD c0.watched0 0 = f ∨ c0.literals.getD c0.watched1 0 = f := by
  obtain ⟨hlen, hw0, hw1, -, -, hlits⟩ := hwf
  have hex : ∃ k ∈ watchedOccs c0,
      decide (lit_to_idx (c0.literals.getD k 0) = lit_to_idx f) = true := by
    rw [← List.countP_pos]
    unfold occCount at hocc
    omega
  obtain ⟨k, hk, hkidx⟩ := hex
  rw [decide_eq_true_eq] at hkidx
  have hkslot := mem_watchedOccs hk
  have hklt : k < c0.literals.length := by
    rcases hkslot with rfl | rfl
    · exact hw0
    · exact hw1
  have hmem := getD_mem_of_lt hklt
  have hkne : c0.literals.getD k 0 ≠ 0 := (hlits _ hmem).1
  have heq := lit_to_idx_inj _ _ hkne hf0 hkidx
  rcases hkslot with rfl | rfl
  · exact Or.inl heq
  · exact Or.inr heq


theorem count_concat (l : List Nat) (a b : Nat) :
    (l ++ [a]).count b = l.count b + (if b = a then 1 else 0) := by
  rw [List.count_append]
  split_ifs with h
  · subst h
    simp
  · simp [List.count_singleton']
    omega

theorem mem_exists_getD {ls : List Int} {l : Int} (h : l ∈ ls) :
    ∃ k, k < ls.length ∧ ls.getD k 0 = l := by
  obtain ⟨i, hi, hv⟩ := List.getElem_of_mem h
  exact ⟨i, hi, by rw [List.getD_eq_getElem ls 0 hi]; exact hv⟩

theorem value_ext_ne_false (a b : List (Option Bool)) (x : Int)
    (hb : ∀ v, b.getD v none ≠ none → a.getD v none = b.getD v none)
    (h : get_literal_value a x ≠ some false) : get_literal_value b x ≠ some false := by
  unfold get_literal_value at h ⊢
  rcases hv : b.getD (lit_to_var x) none with _ | p
  · simp
  · have hbv : b.getD (lit_to_var x) none ≠ none := by rw [hv]; simp
    rw [hb (lit_to_var x) hbv, hv] at h
    exact h

theorem nafAt_swap (b : List (Option Bool)) (c : Clause) (k : Nat)
    (h1 : c.literals.length = 1 → c.watched0 = c.watched1)
    (h : nafAt b c) : nafAt b ⟨c.literals, c.watched1, c.watched0, k⟩ := by
  obtain ⟨j, hj, hv⟩ := h
  refine ⟨j, ?_, hv⟩
  unfold watchedOccs at hj ⊢
  simp only [] at hj ⊢
  split_ifs at hj ⊢ with e1 e2
  · exact hj
  · simp at hj
    simp [hj, h1 e2]
  · simp at hj ⊢
    tauto

theorem litsEq_symm {cls cls2 : List Clause} (h : litsEq cls cls2) : litsEq cls2 cls :=
  fun cid => (h cid).symm

theorem satStore_litsEq {cls cls2 : List Clause} (h : litsEq cls cls2) (t : List Bool)
    (hs : satStore t cls) : satStore t cls2 := by
  intro cid c hg
  have h1 := h cid
  rw [hg] at h1
  rcases hgg : cls.get? cid with _ | c0
  · rw [hgg] at h1
    exact absurd h1 (by simp)
  · rw [hgg] at h1
    simp only [Option.map_some', Option.some.injEq] at h1
    obtain ⟨l, hl, hv⟩ := hs cid c0 hgg
    refine ⟨l, ?_, hv⟩
    rw [← h1]
    exact hl

theorem compat_value_false {t : List Bool} {a : List (Option Bool)} {l : Int}
    (hc : compat t a) (hv : get_literal_value a l = some false) :
    ¬ t.getD (lit_to_var l) false = decide (0 < l) := by
  intro ht
  unfold get_literal_value at hv
  rcases hg : a.getD (lit_to_var l) none with _ | p
  · rw [hg] at hv
    simp at hv
  · rw [hg] at hv
    simp only [Option.map_some', Option.some.injEq] at hv
    rcases hc (lit_to_var l) with h | h
    · rw [hg] at h
      exact absurd h (by simp)
    · rw [hg] at h
      have hp : p = t.getD (lit_to_var l) false := Option.some.inj h
      rw [hp, ht] at hv
      simp at hv

theorem compat_set {t : List Bool} {a : List (Option Bool)} {v : Nat} {p : Bool}
    (hc : compat t a) (hp : t.getD v false = p) :
    compat t (a.set v (some p)) := by
  intro w
  by_cases hwv : w = v
  · subst hwv
    by_cases hlt : w < a.length
    · right
      rw [getD_set_self a w (some p) none hlt, hp]
    · left
      exact getD_set_oob a w (some p) none (by omega)
  · rcases hc w with h | h
    · left
      rw [getD_set_ne _ _ _ _ _ (fun he => hwv he.symm)]
      exact h
    · right
      rw [getD_set_ne _ _ _ _ _ (fun he => hwv he.symm)]
      exact h

theorem compat_assign_fail {t : List Bool} {a : List (Option Bool)} {tr : List Nat} {l : Int}
    (hf : (assign a tr l).2.2 = false) (hc : compat t a)
    (ht : t.getD (lit_to_var l) false = decide (0 < l)) : False := by
  unfold assign at hf
  simp only [] at hf
  rcases hg : a.getD (lit_to_var l) none with _ | p
  · rw [hg] at hf
    simp at hf
  · rw [hg] at hf
    simp only [] at hf
    rcases hc (lit_to_var l) with h | h
    · rw [hg] at h
      exact absurd h (by simp)
    · rw [hg] at h
      have hp : p = t.getD (lit_to_var l) false := Option.some.inj h
      rw [hp, ht] at hf
      simp at hf

theorem unsat_of_conflict {t : List Bool} {a : List (Option Bool)} {c : Clause}
    (hc : compat t a) (hall : ∀ x ∈ c.literals, get_literal_value a x = some false)
    (hs : satClause t c) : False := by
  obtain ⟨l, hl, hv⟩ := hs
  exact compat_value_false hc (hall l hl) hv

theorem compat_anti {t : List Bool} {a a2 : List (Option Bool)}
    (hext : ∀ v, a.getD v none ≠ none → a2.getD v none = a.getD v none)
    (hc : compat t a2) : compat t a := by
  intro v
  rcases hg : a.getD v none with _ | p
  · exact Or.inl rfl
  · right
    have h2 : a2.getD v none = a.getD v none := hext v (by rw [hg]; simp)
    rcases hc v with h | h
    · rw [h2, hg] at h
      exact absurd h (by simp)
    · rw [h2, hg] at h
      exact h

theorem polarity_make_lit (var : Nat) (p : Bool) (h : 1 ≤ var) :
    decide (0 < make_lit var p) = p := by
  unfold make_lit
  rcases p with _ | _
  · rw [if_neg (by simp)]
    simp only [decide_eq_false_iff_not]
    omega
  · rw [if_pos rfl]
    simp only [decide_eq_true_eq]
    omega

theorem combOf_cases (t : List Bool) (v1 v2 : Nat) :
    (combOf t v1 v2 = 0 → t.getD v1 false = true ∧ t.getD v2 false = true) ∧
    (combOf t v1 v2 = 1 → t.getD v1 false = true ∧ t.getD v2 false = false) ∧
    (combOf t v1 v2 = 2 → t.getD v1 false = false ∧ t.getD v2 false = true) ∧
    (combOf t v1 v2 = 3 → t.getD v1 false = false ∧ t.getD v2 false = false) ∧
    combOf t v1 v2 < 4 := by
  unfold combOf
  rcases Bool.eq_false_or_eq_true (t.getD v1 false) with h1 | h1 <;>
    rcases Bool.eq_false_or_eq_true (t.getD v2 false) with h2 | h2 <;>
      rw [h1, h2] <;> simp

theorem update_clause_rest_main (c : Clause) (cid : Nat) (st : PState) (n : Nat) (f : Int)
    (hn : st.assignments.length = n)
    (hwl : st.watch_lists.length = 2 * n)
    (hwf : clauseWF n c)
    (hslot1 : c.literals.getD c.watched1 0 = f)
    (hff : get_literal_value st.assignments f = some false) :
    clauseWF n (update_clause_rest c cid st).1 ∧
    (update_clause_rest c cid st).1.literals = c.literals ∧
    (update_clause_rest c cid st).2.1.assignments.length = n ∧
    (update_clause_rest c cid st).2.1.watch_lists.length = 2 * n ∧
    (occCount (update_clause_rest c cid st).1 (lit_to_idx f) +
        (if (update_clause_rest c cid st).2.2.1 then 0 else 1) = occCount c (lit_to_idx f)) ∧
    ((update_clause_rest c cid st).2.1.watch_lists.getD (lit_to_idx f) [] =
      st.watch_lists.getD (lit_to_idx f) []) ∧
    (∀ i, i ≠ lit_to_idx f → ∀ cid2,
      ((update_clause_rest c cid st).2.1.watch_lists.getD i []).count cid2 +
          (if cid2 = cid then occCount c i else 0) =
        (st.watch_lists.getD i []).count cid2 +
          (if cid2 = cid then occCount (update_clause_rest c cid st).1 i else 0)) ∧
    (((update_clause_rest c cid st).2.1.assignments = st.assignments ∧
      (update_clause_rest c cid st).2.1.propagation_queue = st.propagation_queue ∧
      (update_clause_rest c cid st).2.1.trail = st.trail) ∨
      (∃ w, (update_clause_rest c cid st).2.1.propagation_queue = w :: st.propagation_queue ∧
        (update_clause_rest c cid st).2.1.assignments =
          st.assignments.set (lit_to_var w) (some (decide (0 < w))) ∧
        (update_clause_rest c cid st).2.1.trail = lit_to_var w :: st.trail ∧
        st.assignments.getD (lit_to_var w) none = none ∧ w ∈ c.literals ∧ w ≠ 0 ∧
        lit_to_var w < n)) ∧
    ((update_clause_rest c cid st).2.2.2 = false →
      nafAt (update_clause_rest c cid st).2.1.assignments (update_clause_rest c cid st).1) ∧
    ((update_clause_rest c cid st).2.2.2 = true →
      ∀ l ∈ c.literals, get_literal_value st.assignments l = some false) ∧
    ((update_clause_rest c cid st).2.2.2 = true →
      (update_clause_rest c cid st).2.2.1 = true ∧
      (update_clause_rest c cid st).2.1 = st) ∧
    (∀ b, (∀ v, b.getD v none ≠ none → st.assignments.getD v none = b.getD v none) →
      nafAt b c → nafAt b (update_clause_rest c cid st).1) := by
  obtain ⟨hlen, hw0, hw1, hdist, hone, hlits⟩ := hwf
  have hf0 : f ≠ 0 := by
    rw [← hslot1]
    exact (hlits _ (getD_mem_of_lt hw1)).1
  unfold update_clause_rest
  simp only []
  split
  next hsat =>
    refine ⟨⟨hlen, hw0, hw1, hdist, hone, hlits⟩, rfl, hn, hwl, by simp, rfl,
      fun i hi cid2 => rfl, Or.inl ⟨rfl, rfl, rfl⟩, ?_, by simp, by simp,
      fun b hb h => h⟩
    intro hyp0
    unfold nafAt
    refine ⟨c.watched0, watched0_mem_occs c hlen, ?_⟩
    dsimp only
    rw [hsat]
    simp
  next hsat =>
    split
    next j hj =>
      obtain ⟨hjlt, hjw0, hjw1, hjval⟩ := find_replacement_some c st.assignments j hj
      have hlen2 : 2 ≤ c.literals.length := by
        by_contra hc
        have h1 : c.literals.length = 1 := by omega
        obtain ⟨hz0, hz1⟩ := hone h1
        omega
      have hjne_f : c.literals.getD j 0 ≠ f := by
        intro he
        rw [he] at hjval
        exact hjval hff
      have hj0 : c.literals.getD j 0 ≠ 0 := (hlits _ (getD_mem_of_lt hjlt)).1
      have htgtne : lit_to_idx (c.literals.getD j 0) ≠ lit_to_idx f :=
        fun he => hjne_f (lit_to_idx_inj _ _ hj0 hf0 he)
      have htgtlt : lit_to_idx (c.literals.getD j 0) < 2 * n :=
        lit_to_idx_lt _ n (hlits _ (getD_mem_of_lt hjlt)).2
      have hw0lit0 : c.literals.getD c.watched0 0 ≠ 0 := (hlits _ (getD_mem_of_lt hw0)).1
      refine ⟨⟨hlen, hw0, hjlt, fun _ he => hjw0 he.symm, fun h1 => by dsimp only at h1; omega, hlits⟩,
        rfl, hn, by simpa using hwl, ?_, ?_, ?_, Or.inl ⟨rfl, rfl, rfl⟩, ?_, by simp, by simp,
        ?_⟩
      · rw [occCount_two c hlen2 (lit_to_idx f),
          occCount_two ⟨c.literals, c.watched0, j, c.visit_count⟩ hlen2 (lit_to_idx f)]
        simp only []
        rw [hslot1]
        rw [if_neg htgtne, if_pos rfl]
        simp
      · exact getD_set_ne _ _ _ _ _ htgtne
      · intro i hi cid2
        rw [occCount_two c hlen2 i,
          occCount_two ⟨c.literals, c.watched0, j, c.visit_count⟩ hlen2 i]
        simp only []
        rw [hslot1]
        by_cases hit : i = lit_to_idx (c.literals.getD j 0)
        · subst hit
          rw [getD_set_self _ _ _ _ (by rw [hwl]; exact htgtlt)]
          rw [count_concat]
          split_ifs <;> omega
        · rw [getD_set_ne _ _ _ _ _ (fun he => hit he.symm)]
          split_ifs <;> omega
      · intro hyp0
        unfold nafAt
        refine ⟨j, ?_, hjval⟩
        unfold watchedOccs
        simp only []
        rw [if_neg (by omega), if_neg (by omega)]
        simp
      · intro b hb h
        refine ⟨j, ?_, ?_⟩
        · unfold watchedOccs
          simp only []
          rw [if_neg (by omega), if_neg (by omega)]
          simp
        · exact value_ext_ne_false st.assignments b _ hb hjval
    next hrep =>
      split
      next hgv =>
        refine ⟨⟨hlen, hw0, hw1, hdist, hone, hlits⟩, rfl, hn, hwl, by simp, rfl,
          fun i hi cid2 => rfl, Or.inl ⟨rfl, rfl, rfl⟩, by simp, ?_, by simp,
          fun b hb h => h⟩
        intro hyp0 l hl
        obtain ⟨k, hklt, hkeq⟩ := mem_exists_getD hl
        subst hkeq
        by_cases hkw0 : k = c.watched0
        · subst hkw0
          exact hgv
        · by_cases hkw1 : k = c.watched1
          · subst hkw1
            rw [hslot1]
            exact hff
          · exact find_replacement_none c st.assignments hrep k hklt hkw0 hkw1
      next hgv =>
        have hvarnone := (get_literal_value_none_iff st.assignments _).mp hgv
        have hw0mem : c.literals.getD c.watched0 0 ∈ c.literals := getD_mem_of_lt hw0
        have hw0var : lit_to_var (c.literals.getD c.watched0 0) < n :=
          (hlits _ hw0mem).2
        have hassign : assign st.assignments st.trail (c.literals.getD c.watched0 0) =
            (st.assignments.set (lit_to_var (c.literals.getD c.watched0 0))
              (some (decide (0 < c.literals.getD c.watched0 0))),
             lit_to_var (c.literals.getD c.watched0 0) :: st.trail, true) := by
          unfold assign
          simp only [hvarnone]
        split
        next hok =>
          rw [hassign]
          refine ⟨⟨hlen, hw0, hw1, hdist, hone, hlits⟩, rfl, by simp [hn], hwl, by simp, rfl,
            fun i hi cid2 => rfl, ?_, ?_, by simp, by simp, fun b hb h => h⟩
          · exact Or.inr ⟨c.literals.getD c.watched0 0, rfl, rfl, rfl, hvarnone, hw0mem,
              (hlits _ hw0mem).1, hw0var⟩
          · intro hyp0
            unfold nafAt
            refine ⟨c.watched0, watched0_mem_occs c hlen, ?_⟩
            dsimp only
            unfold get_literal_value
            rw [getD_set_self _ _ _ _ (by rw [hn]; exact hw0var)]
            simp
        next hok =>
          exfalso
          rw [hassign] at hok
          simp at hok
      next hgv =>
        exact absurd hgv hsat


theorem update_clause_main (c0 : Clause) (f : Int) (cid : Nat) (st : PState) (n : Nat)
    (hn : st.assignments.length = n)
    (hwl : st.watch_lists.length = 2 * n)
    (hwf : clauseWF n c0)
    (hocc : 1 ≤ occCount c0 (lit_to_idx f))
    (hff : get_literal_value st.assignments f = some false)
    (hf0 : f ≠ 0) :
    clauseWF n (update_clause c0 f cid st).1 ∧
    (update_clause c0 f cid st).1.literals = c0.literals ∧
    (update_clause c0 f cid st).2.1.assignments.length = n ∧
    (update_clause c0 f cid st).2.1.watch_lists.length = 2 * n ∧
    (occCount (update_clause c0 f cid st).1 (lit_to_idx f) +
        (if (update_clause c0 f cid st).2.2.1 then 0 else 1) = occCount c0 (lit_to_idx f)) ∧
    ((update_clause c0 f cid st).2.1.watch_lists.getD (lit_to_idx f) [] =
      st.watch_lists.getD (lit_to_idx f) []) ∧
    (∀ i, i ≠ lit_to_idx f → ∀ cid2,
      ((update_clause c0 f cid st).2.1.watch_lists.getD i []).count cid2 +
          (if cid2 = cid then occCount c0 i else 0) =
        (st.watch_lists.getD i []).count cid2 +
          (if cid2 = cid then occCount (update_clause c0 f cid st).1 i else 0)) ∧
    (((update_clause c0 f cid st).2.1.assignments = st.assignments ∧
      (update_clause c0 f cid st).2.1.propagation_queue = st.propagation_queue ∧
      (update_clause c0 f cid st).2.1.trail = st.trail) ∨
      (∃ w, (update_clause c0 f cid st).2.1.propagation_queue = w :: st.propagation_queue ∧
        (update_clause c0 f cid st).2.1.assignments =
          st.assignments.set (lit_to_var w) (some (decide (0 < w))) ∧
        (update_clause c0 f cid st).2.1.trail = lit_to_var w :: st.trail ∧
        st.assignments.getD (lit_to_var w) none = none ∧ w ∈ c0.literals ∧ w ≠ 0 ∧
        lit_to_var w < n)) ∧
    ((update_clause c0 f cid st).2.2.2 = false →
      nafAt (update_clause c0 f cid st).2.1.assignments (update_clause c0 f cid st).1) ∧
    ((update_clause c0 f cid st).2.2.2 = true →
      ∀ l ∈ c0.literals, get_literal_value st.assignments l = some false) ∧
    ((update_clause c0 f cid st).2.2.2 = true →
      (update_clause c0 f cid st).2.2.1 = true ∧
      (update_clause c0 f cid st).2.1 = st) ∧
    (∀ b, (∀ v, b.getD v none ≠ none → st.assignments.getD v none = b.getD v none) →
      nafAt b c0 → nafAt b (update_clause c0 f cid st).1) := by
  obtain ⟨hlen, hw0, hw1, hdist, hone, hlits⟩ := hwf
  unfold update_clause
  simp only []
  split
  next hcond =>
    have hwf2 : clauseWF n ⟨c0.literals, c0.watched1, c0.watched0, c0.visit_count + 1⟩ :=
      ⟨hlen, hw1, hw0, fun h2 => (hdist h2).symm, fun h1 => ⟨(hone h1).2, (hone h1).1⟩, hlits⟩
    have hocceq : ∀ i, occCount ⟨c0.literals, c0.watched1, c0.watched0, c0.visit_count + 1⟩ i =
        occCount c0 i := by
      intro i
      have := occCount_swap c0 (fun h1 => by rw [(hone h1).1, (hone h1).2]) i (c0.visit_count + 1)
      exact this
    obtain ⟨r1, r2, r3, r4, r5, r6, r7, r8, r9, r10, r11, r12⟩ :=
      update_clause_rest_main ⟨c0.literals, c0.watched1, c0.watched0, c0.visit_count + 1⟩
        cid st n f hn hwl hwf2 hcond hff
    rw [hocceq] at r5
    refine ⟨r1, r2, r3, r4, r5, r6, ?_, r8, r9, r10, r11, ?_⟩
    · intro i hi cid2
      rw [← hocceq i]
      exact r7 i hi cid2
    · intro b hb h
      exact r12 b hb
        (nafAt_swap b c0 (c0.visit_count + 1) (fun h1 => by rw [(hone h1).1, (hone h1).2]) h)
  next hcond =>
    have hslot1 : c0.literals.getD c0.watched1 0 = f := by
      rcases occ_watches c0 n ⟨hlen, hw0, hw1, hdist, hone, hlits⟩ f hf0 hocc with h | h
      · exact absurd h hcond
      · exact h
    have hwf2 : clauseWF n ⟨c0.literals, c0.watched0, c0.watched1, c0.visit_count + 1⟩ :=
      ⟨hlen, hw0, hw1, hdist, hone, hlits⟩
    have hocceq : ∀ i, occCount ⟨c0.literals, c0.watched0, c0.watched1, c0.visit_count + 1⟩ i =
        occCount c0 i := fun i => rfl
    obtain ⟨r1, r2, r3, r4, r5, r6, r7, r8, r9, r10, r11, r12⟩ :=
      update_clause_rest_main ⟨c0.literals, c0.watched0, c0.watched1, c0.visit_count + 1⟩
        cid st n f hn hwl hwf2 hslot1 hff
    exact ⟨r1, r2, r3, r4, r5, r6, r7, r8, r9, r10, r11, fun b hb h => r12 b hb h⟩


theorem update_clause_rest_forced (c : Clause) (cid : Nat) (st : PState) (n : Nat) (f : Int)
    (hwf : clauseWF n c)
    (hslot1 : c.literals.getD c.watched1 0 = f)
    (hff : get_literal_value st.assignments f = some false) :
    ∀ w, (update_clause_rest c cid st).2.1.propagation_queue = w :: st.propagation_queue →
    ∀ l ∈ c.literals, get_literal_value st.assignments l ≠ some false → l = w := by
  obtain ⟨hlen, hw0, hw1, hdist, hone, hlits⟩ := hwf
  unfold update_clause_rest
  simp only []
  split
  next hsat =>
    intro w hq
    exact absurd (congrArg List.length hq) (by simp)
  next hsat =>
    split
    next j hj =>
      intro w hq
      exact absurd (congrArg List.length hq) (by simp)
    next hrep =>
      split
      next hgv =>
        intro w hq
        exact absurd (congrArg List.length hq) (by simp)
      next hgv =>
        split
        next hok =>
          intro w hq
          simp only [List.cons.injEq] at hq
          obtain ⟨hw, -⟩ := hq
          intro l hl hnf
          obtain ⟨k, hklt, hkeq⟩ := mem_exists_getD hl
          subst hkeq
          by_cases hkw0 : k = c.watched0
          · subst hkw0
            exact hw
          · exfalso
            apply hnf
            by_cases hkw1 : k = c.watched1
            · subst hkw1
              rw [hslot1]
              exact hff
            · exact find_replacement_none c st.assignments hrep k hklt hkw0 hkw1
        next hok =>
          intro w hq
          exact absurd (congrArg List.length hq) (by simp)
      next hgv =>
        exact absurd hgv hsat

theorem update_clause_forced (c0 : Clause) (f : Int) (cid : Nat) (st : PState) (n : Nat)
    (hwf : clauseWF n c0)
    (hocc : 1 ≤ occCount c0 (lit_to_idx f))
    (hff : get_literal_value st.assignments f = some false)
    (hf0 : f ≠ 0) :
    ∀ w, (update_clause c0 f cid st).2.1.propagation_queue = w :: st.propagation_queue →
    ∀ l ∈ c0.literals, get_literal_value st.assignments l ≠ some false → l = w := by
  obtain ⟨hlen, hw0, hw1, hdist, hone, hlits⟩ := hwf
  unfold update_clause
  simp only []
  split
  next hcond =>
    have hwf2 : clauseWF n ⟨c0.literals, c0.watched1, c0.watched0, c0.visit_count + 1⟩ :=
      ⟨hlen, hw1, hw0, fun h2 => (hdist h2).symm, fun h1 => ⟨(hone h1).2, (hone h1).1⟩, hlits⟩
    exact update_clause_rest_forced ⟨c0.literals, c0.watched1, c0.watched0, c0.visit_count + 1⟩
      cid st n f hwf2 hcond hff
  next hcond =>
    have hslot1 : c0.literals.getD c0.watched1 0 = f := by
      rcases occ_watches c0 n ⟨hlen, hw0, hw1, hdist, hone, hlits⟩ f hf0 hocc with h | h
      · exact absurd h hcond
      · exact h
    exact update_clause_rest_forced ⟨c0.literals, c0.watched0, c0.watched1, c0.visit_count + 1⟩
      cid st n f ⟨hlen, hw0, hw1, hdist, hone, hlits⟩ hslot1 hff

theorem update_clause_rest_forced_idx (c : Clause) (cid : Nat) (st : PState) (n : Nat)
    (f : Int)
    (hwf : clauseWF n c)
    (hslot1 : c.literals.getD c.watched1 0 = f)
    (hff : get_literal_value st.assignments f = some false) :
    ∀ w, (update_clause_rest c cid st).2.1.propagation_queue = w :: st.propagation_queue →
    ∃ k0, k0 < c.literals.length ∧ c.literals.getD k0 0 = w ∧
      ∀ k, k < c.literals.length → k ≠ k0 →
        get_literal_value st.assignments (c.literals.getD k 0) = some false := by
  obtain ⟨hlen, hw0, hw1, hdist, hone, hlits⟩ := hwf
  unfold update_clause_rest
  simp only []
  split
  next hsat =>
    intro w hq
    exact absurd (congrArg List.length hq) (by simp)
  next hsat =>
    split
    next j hj =>
      intro w hq
      exact absurd (congrArg List.length hq) (by simp)
    next hrep =>
      split
      next hgv =>
        intro w hq
        exact absurd (congrArg List.length hq) (by simp)
      next hgv =>
        split
        next hok =>
          intro w hq
          simp only [List.cons.injEq] at hq
          obtain ⟨hw, -⟩ := hq
          refine ⟨c.watched0, hw0, hw, ?_⟩
          intro k hklt hkne
          by_cases hkw1 : k = c.watched1
          · subst hkw1
            rw [hslot1]
            exact hff
          · exact find_replacement_none c st.assignments hrep k hklt hkne hkw1
        next hok =>
          intro w hq
          exact absurd (congrArg List.length hq) (by simp)
      next hgv =>
        exact absurd hgv hsat

theorem update_clause_forced_idx (c0 : Clause) (f : Int) (cid : Nat) (st : PState) (n : Nat)
    (hwf : clauseWF n c0)
    (hocc : 1 ≤ occCount c0 (lit_to_idx f))
    (hff : get_literal_value st.assignments f = some false)
    (hf0 : f ≠ 0) :
    ∀ w, (update_clause c0 f cid st).2.1.propagation_queue = w :: st.propagation_queue →
    ∃ k0, k0 < c0.literals.length ∧ c0.literals.getD k0 0 = w ∧
      ∀ k, k < c0.literals.length → k ≠ k0 →
        get_literal_value st.assignments (c0.literals.getD k 0) = some false := by
  obtain ⟨hlen, hw0, hw1, hdist, hone, hlits⟩ := hwf
  unfold update_clause
  simp only []
  split
  next hcond =>
    have hwf2 : clauseWF n ⟨c0.literals, c0.watched1, c0.watched0, c0.visit_count + 1⟩ :=
      ⟨hlen, hw1, hw0, fun h2 => (hdist h2).symm, fun h1 => ⟨(hone h1).2, (hone h1).1⟩, hlits⟩
    exact update_clause_rest_forced_idx
      ⟨c0.literals, c0.watched1, c0.watched0, c0.visit_count + 1⟩ cid st n f hwf2 hcond hff
  next hcond =>
    have hslot1 : c0.literals.getD c0.watched1 0 = f := by
      rcases occ_watches c0 n ⟨hlen, hw0, hw1, hdist, hone, hlits⟩ f hf0 hocc with h | h
      · exact absurd h hcond
      · exact h
    exact update_clause_rest_forced_idx
      ⟨c0.literals, c0.watched0, c0.watched1, c0.visit_count + 1⟩ cid st n f
      ⟨hlen, hw0, hw1, hdist, hone, hlits⟩ hslot1 hff

theorem tabLe_value {a b : List (Option Bool)} (h : tabLe a b) {l : Int} {x : Bool}
    (hv : get_literal_value a l = some x) : get_literal_value b l = some x := by
  unfold get_literal_value at hv ⊢
  rcases hg : a.getD (lit_to_var l) none with _ | p
  · rw [hg] at hv
    simp at hv
  · rw [hg] at hv
    rw [h (lit_to_var l) (by rw [hg]; simp), hg]
    exact hv

theorem tabLe_not_false {a b : List (Option Bool)} (h : tabLe a b) {l : Int}
    (hv : get_literal_value b l ≠ some false) : get_literal_value a l ≠ some false :=
  fun hf => hv (tabLe_value h hf)

theorem tabLe_refl (a : List (Option Bool)) : tabLe a a :=
  fun v _ => rfl

theorem tabLe_set {a b : List (Option Bool)} {v : Nat} {p : Bool} (h : tabLe a b)
    (hb : b.getD v none = some p) (hlen : a.length = b.length) :
    tabLe (a.set v (some p)) b := by
  intro w hw
  by_cases hwv : w = v
  · subst hwv
    by_cases hlt : w < a.length
    · rw [getD_set_self a w (some p) none hlt]
      exact hb
    · exfalso
      apply hw
      exact getD_set_oob a w (some p) none (by omega)
  · rw [getD_set_ne _ _ _ _ _ (fun he => hwv he.symm)] at hw ⊢
    exact h w hw

theorem tabLe_antisymm {a b : List (Option Bool)} (h1 : tabLe a b) (h2 : tabLe b a)
    (hlen : a.length = b.length) : a = b := by
  apply eq_of_getD_none a b hlen
  intro v
  rcases hg : a.getD v none with _ | p
  · rcases hg2 : b.getD v none with _ | p2
    · rfl
    · have := h2 v (by rw [hg2]; simp)
      rw [hg, hg2] at this
      exact absurd this (by simp)
  · have := h1 v (by rw [hg]; simp)
    rw [hg] at this
    exact this.symm

theorem value_true_getD {a : List (Option Bool)} {l : Int}
    (hv : get_literal_value a l = some true) :
    a.getD (lit_to_var l) none = some (decide (0 < l)) := by
  unfold get_literal_value at hv
  rcases hg : a.getD (lit_to_var l) none with _ | p
  · rw [hg] at hv
    simp at hv
  · rw [hg] at hv
    simp only [Option.map_some', Option.some.injEq] at hv
    have hp : p = decide (0 < l) := by
      rcases Bool.eq_false_or_eq_true (p == decide (0 < l)) with h | h
      · simpa using h
      · rw [h] at hv
        simp at hv
  -- hv : (p == decide (0 < l)) = true
    rw [hp]

/-! ## Step transfer lemmas for the not-all-watched-false invariant -/

theorem aboveSeg_cons (v : Nat) (tr : List Nat) (pos : Nat) (h : pos ≤ tr.length) :
    aboveSeg (v :: tr) pos = v :: aboveSeg tr pos := by
  unfold aboveSeg
  simp only [List.length_cons]
  rw [show tr.length + 1 - pos = (tr.length - pos) + 1 from by omega]
  rw [List.take_succ_cons]

theorem int_same_var {x w : Int} (hx : x ≠ 0) (hw : w ≠ 0)
    (h : lit_to_var x = lit_to_var w) : x = w ∨ x = -w := by
  unfold lit_to_var at h
  rcases Int.natAbs_eq_natAbs_iff.mp h with h2 | h2
  · exact Or.inl h2
  · exact Or.inr h2

theorem value_of_assigned_same (a : List (Option Bool)) (w : Int)
    (hvar : lit_to_var w < a.length) :
    get_literal_value (a.set (lit_to_var w) (some (decide (0 < w)))) w = some true := by
  unfold get_literal_value
  rw [getD_set_self _ _ _ _ hvar]
  simp

theorem value_of_assigned_neg (a : List (Option Bool)) (w : Int) (hw : w ≠ 0)
    (hvar : lit_to_var w < a.length) :
    get_literal_value (a.set (lit_to_var w) (some (decide (0 < w)))) (-w) = some false := by
  have h1 := value_of_assigned_same a w hvar
  have h2 := get_literal_value_neg _ w hw true h1
  simpa using h2

theorem naf_step_transfer (c2 : Clause) (n : Nat) (hcwf : clauseWF n c2)
    (a : List (Option Bool)) (q : List Int) (w : Int)
    (hprev : nafAt a c2 ∨ excusedQ c2 q)
    (hwnone : a.getD (lit_to_var w) none = none) (hw0 : w ≠ 0)
    (hwvar : lit_to_var w < a.length) :
    nafAt (a.set (lit_to_var w) (some (decide (0 < w)))) c2 ∨ excusedQ c2 (w :: q) := by
  obtain ⟨hlen, hcw0, hcw1, -, -, hlits⟩ := hcwf
  rcases hprev with ⟨k, hk, hv⟩ | ⟨k, hk, l, hl, he⟩
  · have hklt : k < c2.literals.length := by
      rcases mem_watchedOccs hk with rfl | rfl
      · exact hcw0
      · exact hcw1
    have hx0 : c2.literals.getD k 0 ≠ 0 := (hlits _ (getD_mem_of_lt hklt)).1
    by_cases hvar : lit_to_var (c2.literals.getD k 0) = lit_to_var w
    · rcases int_same_var hx0 hw0 hvar with heq | heq
      · left
        refine ⟨k, hk, ?_⟩
        rw [heq, value_of_assigned_same a w hwvar]
        simp
      · right
        exact ⟨k, hk, w, List.mem_cons_self w q, heq⟩
    · left
      refine ⟨k, hk, ?_⟩
      rw [value_set_other a (lit_to_var w) _ _ hvar]
      exact hv
  · exact Or.inr ⟨k, hk, l, List.mem_cons_of_mem w hl, he⟩

theorem processBatch_conflict_true (cls : List Clause) (f : Int) (st : PState) :
    ∀ batch, processBatch cls f st true batch = (cls, st, batch, true) := by
  intro batch
  induction batch with
  | nil => simp [processBatch]
  | cons cid rest ih => simp [processBatch, ih]

theorem lt_of_get?_some {α : Type} {l : List α} {k : Nat} {a : α} (h : l.get? k = some a) :
    k < l.length := by
  rcases List.get?_eq_some.mp h with ⟨hlt, -⟩
  exact hlt

theorem getD_of_get? {cls : List Clause} {cid : Nat} {c : Clause}
    (h : cls.get? cid = some c) : cls.getD cid default = c := by
  unfold List.getD
  rw [h]
  rfl

theorem watchCount_set_self (cls : List Clause) (cid : Nat) (c : Clause) (i : Nat)
    (h : cid < cls.length) : watchCount (cls.set cid c) cid i = occCount c i := by
  unfold watchCount
  rw [List.get?_set_eq_of_lt c h]

theorem watchCount_set_ne (cls : List Clause) (cid cid2 : Nat) (c : Clause) (i : Nat)
    (h : cid ≠ cid2) : watchCount (cls.set cid c) cid2 i = watchCount cls cid2 i := by
  unfold watchCount
  rw [List.get?_set_ne c cls h]

theorem watchCount_get? (cls : List Clause) (cid : Nat) (c : Clause) (i : Nat)
    (h : cls.get? cid = some c) : watchCount cls cid i = occCount c i := by
  unfold watchCount
  rw [h]

theorem count_cons_split (l : List Nat) (x a : Nat) :
    (x :: l).count a = l.count a + (if x = a then 1 else 0) := by
  by_cases h : x = a
  · simp [List.count_cons, h]
  · simp [List.count_cons, h]

theorem lit_to_var_neg (l : Int) : lit_to_var (-l) = lit_to_var l := by
  unfold lit_to_var
  omega

theorem occ_pos_exists (c0 : Clause) (n : Nat) (hwf : clauseWF n c0) (f : Int) (hf0 : f ≠ 0)
    (hocc : 1 ≤ occCount c0 (lit_to_idx f)) :
    ∃ k ∈ watchedOccs c0, c0.literals.getD k 0 = f := by
  obtain ⟨hlen, hw0, hw1, -, -, hlits⟩ := hwf
  have hex : ∃ k ∈ watchedOccs c0,
      decide (lit_to_idx (c0.literals.getD k 0) = lit_to_idx f) = true := by
    rw [← List.countP_pos]
    unfold occCount at hocc
    omega
  obtain ⟨k, hk, hkidx⟩ := hex
  rw [decide_eq_true_eq] at hkidx
  have hklt : k < c0.literals.length := by
    rcases mem_watchedOccs hk with rfl | rfl
    · exact hw0
    · exact hw1
  have hkne : c0.literals.getD k 0 ≠ 0 := (hlits _ (getD_mem_of_lt hklt)).1
  exact ⟨k, hk, lit_to_idx_inj _ _ hkne hf0 hkidx⟩

theorem litsEq_set (cls : List Clause) (cid : Nat) (c c2 : Clause)
    (hg : cls.get? cid = some c) (he : c2.literals = c.literals) :
    litsEq cls (cls.set cid c2) := by
  intro cid2
  by_cases h : cid2 = cid
  · subst h
    rw [List.get?_set_eq_of_lt c2 (lt_of_get?_some hg), hg]
    simp [he]
  · rw [List.get?_set_ne c2 cls (fun h2 => h h2.symm)]

theorem litsEq_trans {cls cls2 cls3 : List Clause} (h1 : litsEq cls cls2)
    (h2 : litsEq cls2 cls3) : litsEq cls cls3 :=
  fun cid => (h1 cid).trans (h2 cid)

theorem processBatch_cons_false (clauses : List Clause) (f : Int) (st : PState) (cid : Nat)
    (rest : List Nat) :
    processBatch clauses f st false (cid :: rest) =
      ((processBatch (clauses.set cid (update_clause (clauses.getD cid default) f cid st).1) f
          (update_clause (clauses.getD cid default) f cid st).2.1
          (update_clause (clauses.getD cid default) f cid st).2.2.2 rest).1,
       (processBatch (clauses.set cid (update_clause (clauses.getD cid default) f cid st).1) f
          (update_clause (clauses.getD cid default) f cid st).2.1
          (update_clause (clauses.getD cid default) f cid st).2.2.2 rest).2.1,
       (if (update_clause (clauses.getD cid default) f cid st).2.2.1 then
          cid :: (processBatch
            (clauses.set cid (update_clause (clauses.getD cid default) f cid st).1) f
            (update_clause (clauses.getD cid default) f cid st).2.1
            (update_clause (clauses.getD cid default) f cid st).2.2.2 rest).2.2.1
        else (processBatch
            (clauses.set cid (update_clause (clauses.getD cid default) f cid st).1) f
            (update_clause (clauses.getD cid default) f cid st).2.1
            (update_clause (clauses.getD cid default) f cid st).2.2.2 rest).2.2.1),
       (processBatch (clauses.set cid (update_clause (clauses.getD cid default) f cid st).1) f
          (update_clause (clauses.getD cid default) f cid st).2.1
          (update_clause (clauses.getD cid default) f cid st).2.2.2 rest).2.2.2) := by
  simp [processBatch]

theorem processBatch_main (f : Int) (n pos : Nat) :
    ∀ (batch : List Nat) (clauses : List Clause) (st : PState),
    st.assignments.length = n →
    st.watch_lists.length = 2 * n →
    (∀ c ∈ clauses, clauseWF n c) →
    get_literal_value st.assignments f = some false →
    f ≠ 0 →
    (∀ cid2, (batch.count cid2) ≤ watchCount clauses cid2 (lit_to_idx f)) →
    st.watch_lists.getD (lit_to_idx f) [] = [] →
    pos ≤ st.trail.length →
    lit_to_var f ∈ aboveSeg st.trail pos →
    (∀ l ∈ st.propagation_queue, l ≠ 0 ∧ lit_to_var l < n ∧
      get_literal_value st.assignments l = some true ∧ lit_to_var l ∈ aboveSeg st.trail pos) →
    (∀ cid2 c2, clauses.get? cid2 = some c2 →
      nafAt st.assignments c2 ∨ excusedQ c2 st.propagation_queue ∨ cid2 ∈ batch) →
    (processBatch clauses f st false batch).2.1.assignments.length = n ∧
    (processBatch clauses f st false batch).2.1.watch_lists.length = 2 * n ∧
    (∀ c ∈ (processBatch clauses f st false batch).1, clauseWF n c) ∧
    (processBatch clauses f st false batch).1.length = clauses.length ∧
    litsEq clauses (processBatch clauses f st false batch).1 ∧
    get_literal_value (processBatch clauses f st false batch).2.1.assignments f = some false ∧
    (∀ cid2, ((processBatch clauses f st false batch).2.2.1.count cid2) +
        watchCount clauses cid2 (lit_to_idx f) =
      (batch.count cid2) +
        watchCount (processBatch clauses f st false batch).1 cid2 (lit_to_idx f)) ∧
    (processBatch clauses f st false batch).2.1.watch_lists.getD (lit_to_idx f) [] = [] ∧
    (∀ i, i ≠ lit_to_idx f → ∀ cid2,
      (((processBatch clauses f st false batch).2.1.watch_lists.getD i []).count cid2) +
          watchCount clauses cid2 i =
        ((st.watch_lists.getD i []).count cid2) +
          watchCount (processBatch clauses f st false batch).1 cid2 i) ∧
    (∃ pref, (processBatch clauses f st false batch).2.1.propagation_queue =
      pref ++ st.propagation_queue) ∧
    pos ≤ (processBatch clauses f st false batch).2.1.trail.length ∧
    lit_to_var f ∈ aboveSeg (processBatch clauses f st false batch).2.1.trail pos ∧
    (∀ l ∈ (processBatch clauses f st false batch).2.1.propagation_queue, l ≠ 0 ∧
      lit_to_var l < n ∧
      get_literal_value (processBatch clauses f st false batch).2.1.assignments l = some true ∧
      lit_to_var l ∈ aboveSeg (processBatch clauses f st false batch).2.1.trail pos) ∧
    ((processBatch clauses f st false batch).2.2.2 = false →
      ∀ cid2 c2, (processBatch clauses f st false batch).1.get? cid2 = some c2 →
        nafAt (processBatch clauses f st false batch).2.1.assignments c2 ∨
        excusedQ c2 (processBatch clauses f st false batch).2.1.propagation_queue) ∧
    ((processBatch clauses f st false batch).2.2.2 = true →
      ∃ cid2 c2, (processBatch clauses f st false batch).1.get? cid2 = some c2 ∧
        ∀ l ∈ c2.literals,
          get_literal_value (processBatch clauses f st false batch).2.1.assignments l =
            some false) ∧
    ((processBatch clauses f st false batch).2.2.2 = true →
      ∀ cid2 c2, (processBatch clauses f st false batch).1.get? cid2 = some c2 →
        nafAt (processBatch clauses f st false batch).2.1.assignments c2 ∨
        segExcused (processBatch clauses f st false batch).2.1.trail pos c2) := by
  intro batch
  induction batch with
  | nil =>
    intro clauses st hn hwl hcwf hff hf0 hcountLe hfempty hpos hfseg hqok hnafinv
    have hr : processBatch clauses f st false [] = (clauses, st, [], false) := by
      simp [processBatch]
    rw [hr]
    dsimp only
    refine ⟨hn, hwl, hcwf, rfl, fun cid => rfl, hff, fun cid2 => rfl, hfempty,
      fun i hi cid2 => rfl, ⟨[], rfl⟩, hpos, hfseg, hqok, ?_, ?_, ?_⟩
    · intro hflag cid2 c2 hg2
      rcases hnafinv cid2 c2 hg2 with h | h | h
      · exact Or.inl h
      · exact Or.inr h
      · simp at h
    · intro h15
      simp at h15
    · intro h16
      simp at h16
  | cons cid rest ih =>
    intro clauses st hn hwl hcwf hff hf0 hcountLe hfempty hpos hfseg hqok hnafinv
    have hwc0 : ¬ watchCount clauses cid (lit_to_idx f) = 0 := by
      have h1 := hcountLe cid
      have h2 := count_cons_split rest cid cid
      rw [if_pos rfl] at h2
      omega
    obtain ⟨c0, hg⟩ : ∃ c0, clauses.get? cid = some c0 := by
      rcases hgg : clauses.get? cid with _ | c0
      · exfalso
        apply hwc0
        unfold watchCount
        rw [hgg]
      · exact ⟨c0, rfl⟩
    have hB := watchCount_get? clauses cid c0 (lit_to_idx f) hg
    have hocc : 1 ≤ occCount c0 (lit_to_idx f) := by omega
    have hcidlt : cid < clauses.length := lt_of_get?_some hg
    have hgetD : clauses.getD cid default = c0 := getD_of_get? hg
    obtain ⟨u1, u2, u3, u4, u5, u6, u7, u8, u9, u10, u11, u12⟩ :=
      update_clause_main c0 f cid st n hn hwl (hcwf c0 (List.get?_mem hg)) hocc hff hf0
    rcases (Bool.eq_false_or_eq_true ((update_clause c0 f cid st).2.2.2)).symm with hcf | hcf
    · -- the head clause is processed without a conflict; recurse with the ih
      have h1cwf : ∀ c ∈ clauses.set cid (update_clause c0 f cid st).1, clauseWF n c := by
        intro c hc
        rcases List.mem_or_eq_of_mem_set hc with h | h
        · exact hcwf c h
        · rw [h]
          exact u1
      have h1ff : get_literal_value (update_clause c0 f cid st).2.1.assignments f =
          some false := by
        rcases u8 with ⟨ha, -, -⟩ | ⟨w, -, ha, -, hwnone, -, -, -⟩
        · rw [ha]
          exact hff
        · rw [ha]
          exact value_mono_set st.assignments (lit_to_var w) _ f false hwnone hff
      have h1countLe : ∀ cid2, (rest.count cid2) ≤
          watchCount (clauses.set cid (update_clause c0 f cid st).1) cid2 (lit_to_idx f) := by
        intro cid2
        by_cases hc2 : cid2 = cid
        · subst hc2
          rw [watchCount_set_self _ _ _ _ hcidlt]
          have hA := hcountLe cid2
          have hC := count_cons_split rest cid2 cid2
          rw [if_pos rfl] at hC
          have hu5 := u5
          by_cases hk : (update_clause c0 f cid2 st).2.2.1 = true
          · rw [if_pos hk] at hu5
            omega
          · rw [if_neg hk] at hu5
            omega
        · rw [watchCount_set_ne _ _ _ _ _ (fun he => hc2 he.symm)]
          have hA := hcountLe cid2
          have hC := count_cons_split rest cid cid2
          rw [if_neg (fun he => hc2 he.symm)] at hC
          omega
      have h1fempty : (update_clause c0 f cid st).2.1.watch_lists.getD (lit_to_idx f) [] =
          [] := by
        rw [u6]
        exact hfempty
      have h1pos : pos ≤ (update_clause c0 f cid st).2.1.trail.length := by
        rcases u8 with ⟨-, -, ht⟩ | ⟨w, -, -, ht, -, -, -, -⟩
        · rw [ht]
          exact hpos
        · rw [ht]
          simp only [List.length_cons]
          omega
      have h1fseg : lit_to_var f ∈ aboveSeg (update_clause c0 f cid st).2.1.trail pos := by
        rcases u8 with ⟨-, -, ht⟩ | ⟨w, -, -, ht, -, -, -, -⟩
        · rw [ht]
          exact hfseg
        · rw [ht, aboveSeg_cons _ _ _ hpos]
          exact List.mem_cons_of_mem _ hfseg
      have h1qok : ∀ l ∈ (update_clause c0 f cid st).2.1.propagation_queue, l ≠ 0 ∧
          lit_to_var l < n ∧
          get_literal_value (update_clause c0 f cid st).2.1.assignments l = some true ∧
          lit_to_var l ∈ aboveSeg (update_clause c0 f cid st).2.1.trail pos := by
        rcases u8 with ⟨ha, hq, ht⟩ | ⟨w, hq, ha, ht, hwnone, -, hw0, hwvar⟩
        · rw [ha, hq, ht]
          exact hqok
        · rw [ha, hq, ht]
          intro l hl
          rcases List.mem_cons.mp hl with rfl | hl2
          · refine ⟨hw0, hwvar, ?_, ?_⟩
            · exact value_of_assigned_same st.assignments l (by rw [hn]; exact hwvar)
            · rw [aboveSeg_cons _ _ _ hpos]
              exact List.mem_cons_self _ _
          · obtain ⟨hl0, hlv, hlval, hlseg⟩ := hqok l hl2
            refine ⟨hl0, hlv,
              value_mono_set st.assignments (lit_to_var w) _ l true hwnone hlval, ?_⟩
            rw [aboveSeg_cons _ _ _ hpos]
            exact List.mem_cons_of_mem _ hlseg
      have hstep : ∀ c2, clauseWF n c2 →
          nafAt st.assignments c2 ∨ excusedQ c2 st.propagation_queue →
          nafAt (update_clause c0 f cid st).2.1.assignments c2 ∨
          excusedQ c2 (update_clause c0 f cid st).2.1.propagation_queue := by
        intro c2 hc2wf hprev
        rcases u8 with ⟨ha, hq, -⟩ | ⟨w, hq, ha, -, hwnone, -, hw0, hwvar⟩
        · rw [ha, hq]
          exact hprev
        · rw [ha, hq]
          exact naf_step_transfer c2 n hc2wf st.assignments st.propagation_queue w hprev
            hwnone hw0 (by rw [hn]; exact hwvar)
      have h1nafinv : ∀ cid2 c2,
          (clauses.set cid (update_clause c0 f cid st).1).get? cid2 = some c2 →
          nafAt (update_clause c0 f cid st).2.1.assignments c2 ∨
          excusedQ c2 (update_clause c0 f cid st).2.1.propagation_queue ∨ cid2 ∈ rest := by
        intro cid2 c2 hg2
        by_cases hc2 : cid2 = cid
        · subst hc2
          rw [List.get?_set_eq_of_lt _ hcidlt] at hg2
          have hc2e : c2 = (update_clause c0 f cid2 st).1 := (Option.some.inj hg2).symm
          subst hc2e
          exact Or.inl (u9 hcf)
        · rw [List.get?_set_ne _ clauses (fun he => hc2 he.symm)] at hg2
          rcases hnafinv cid2 c2 hg2 with hne | hne | hmem
          · rcases hstep c2 (hcwf c2 (List.get?_mem hg2)) (Or.inl hne) with h | h
            · exact Or.inl h
            · exact Or.inr (Or.inl h)
          · rcases hstep c2 (hcwf c2 (List.get?_mem hg2)) (Or.inr hne) with h | h
            · exact Or.inl h
            · exact Or.inr (Or.inl h)
          · rcases List.mem_cons.mp hmem with he | he
            · exact absurd he hc2
            · exact Or.inr (Or.inr he)
      rw [processBatch_cons_false, hgetD, hcf]
      dsimp only
      obtain ⟨q1, q2, q3, q4, q5, q6, q7, q8, q9, q10, q11, q12, q13, q14, q15, q16⟩ :=
        ih (clauses.set cid (update_clause c0 f cid st).1) ((update_clause c0 f cid st).2.1)
          u3 u4 h1cwf h1ff hf0 h1countLe h1fempty h1pos h1fseg h1qok h1nafinv
      refine ⟨q1, q2, q3, ?_, ?_, q6, ?_, q8, ?_, ?_, q11, q12, q13, q14, q15, q16⟩
      · rw [q4, List.length_set]
      · exact litsEq_trans (litsEq_set clauses cid c0 (update_clause c0 f cid st).1 hg u2) q5
      · intro cid2
        have hq7 := q7 cid2
        by_cases hk : (update_clause c0 f cid st).2.2.1 = true
        · rw [if_pos hk]
          have hu5 := u5
          rw [if_pos hk] at hu5
          by_cases hc2 : cid2 = cid
          · subst hc2
            have hA := watchCount_set_self clauses cid2 (update_clause c0 f cid2 st).1
              (lit_to_idx f) hcidlt
            rw [count_cons_split, count_cons_split, if_pos rfl]
            omega
          · have hA := watchCount_set_ne clauses cid cid2 (update_clause c0 f cid st).1
              (lit_to_idx f) (fun he => hc2 he.symm)
            rw [count_cons_split, count_cons_split, if_neg (fun he => hc2 he.symm)]
            omega
        · rw [if_neg hk]
          have hu5 := u5
          rw [if_neg hk] at hu5
          by_cases hc2 : cid2 = cid
          · subst hc2
            have hA := watchCount_set_self clauses cid2 (update_clause c0 f cid2 st).1
              (lit_to_idx f) hcidlt
            rw [count_cons_split rest, if_pos rfl]
            omega
          · have hA := watchCount_set_ne clauses cid cid2 (update_clause c0 f cid st).1
              (lit_to_idx f) (fun he => hc2 he.symm)
            rw [count_cons_split rest, if_neg (fun he => hc2 he.symm)]
            omega
      · intro i hi cid2
        have hq9 := q9 i hi cid2
        have hu7 := u7 i hi cid2
        by_cases hc2 : cid2 = cid
        · subst hc2
          rw [if_pos rfl, if_pos rfl] at hu7
          have hA := watchCount_set_self clauses cid2 (update_clause c0 f cid2 st).1 i hcidlt
          have hBi := watchCount_get? clauses cid2 c0 i hg
          omega
        · rw [if_neg hc2, if_neg hc2] at hu7
          have hA := watchCount_set_ne clauses cid cid2 (update_clause c0 f cid st).1 i
            (fun he => hc2 he.symm)
          omega
      · obtain ⟨pref, hpref⟩ := q10
        rcases u8 with ⟨-, hq, -⟩ | ⟨w, hq, -, -, -, -, -, -⟩
        · exact ⟨pref, by rw [hpref, hq]⟩
        · refine ⟨pref ++ [w], ?_⟩
          rw [hpref, hq]
          simp
    · -- the head clause reports a conflict: the batch is spliced back unchanged
      obtain ⟨hkeep, hstEq⟩ := u11 hcf
      have hoccU : occCount (update_clause c0 f cid st).1 (lit_to_idx f) =
          occCount c0 (lit_to_idx f) := by
        have hu5 := u5
        rw [if_pos hkeep] at hu5
        omega
      have hr : processBatch clauses f st false (cid :: rest) =
          (clauses.set cid (update_clause c0 f cid st).1, st, cid :: rest, true) := by
        rw [processBatch_cons_false, hgetD, hcf, processBatch_conflict_true]
        rw [hstEq]
        simp [hkeep]
      rw [hr]
      dsimp only
      refine ⟨hn, hwl, ?_, ?_, ?_, hff, ?_, hfempty, ?_, ⟨[], rfl⟩, hpos, hfseg, hqok,
        ?_, ?_, ?_⟩
      · intro c hc
        rcases List.mem_or_eq_of_mem_set hc with h | h
        · exact hcwf c h
        · rw [h]
          exact u1
      · rw [List.length_set]
      · exact litsEq_set clauses cid c0 (update_clause c0 f cid st).1 hg u2
      · intro cid2
        by_cases hc2 : cid2 = cid
        · subst hc2
          rw [watchCount_set_self _ _ _ _ hcidlt]
          omega
        · rw [watchCount_set_ne _ _ _ _ _ (fun he => hc2 he.symm)]
      · intro i hi cid2
        have hu7 := u7 i hi cid2
        rw [hstEq] at hu7
        by_cases hc2 : cid2 = cid
        · subst hc2
          rw [if_pos rfl, if_pos rfl] at hu7
          have hA := watchCount_set_self clauses cid2 (update_clause c0 f cid2 st).1 i hcidlt
          have hBi := watchCount_get? clauses cid2 c0 i hg
          omega
        · rw [if_neg hc2, if_neg hc2] at hu7
          have hA := watchCount_set_ne clauses cid cid2 (update_clause c0 f cid st).1 i
            (fun he => hc2 he.symm)
          omega
      · intro h14
        simp at h14
      · intro hflag
        refine ⟨cid, (update_clause c0 f cid st).1, List.get?_set_eq_of_lt _ hcidlt, ?_⟩
        intro l hl
        rw [u2] at hl
        exact u10 hcf l hl
      · intro hflag cid2 c2 hg2
        by_cases hc2 : cid2 = cid
        · subst hc2
          rw [List.get?_set_eq_of_lt _ hcidlt] at hg2
          have hc2e : c2 = (update_clause c0 f cid2 st).1 := (Option.some.inj hg2).symm
          subst hc2e
          right
          unfold segExcused
          have hoccp : 1 ≤ occCount (update_clause c0 f cid2 st).1 (lit_to_idx f) := by
            omega
          obtain ⟨k, hk, hkf⟩ := occ_pos_exists _ n u1 f hf0 hoccp
          refine ⟨k, hk, ?_⟩
          rw [hkf]
          exact hfseg
        · rw [List.get?_set_ne _ clauses (fun he => hc2 he.symm)] at hg2
          rcases hnafinv cid2 c2 hg2 with hnaf | hexc | hmem
          · exact Or.inl hnaf
          · right
            unfold segExcused
            obtain ⟨k, hk, l, hl, he⟩ := hexc
            obtain ⟨-, -, -, hlseg⟩ := hqok l hl
            refine ⟨k, hk, ?_⟩
            rw [he, lit_to_var_neg]
            exact hlseg
          · right
            unfold segExcused
            have hwcm : 1 ≤ watchCount clauses cid2 (lit_to_idx f) := by
              have hcm : 0 < (cid :: rest).count cid2 := List.count_pos_iff.mpr hmem
              have h2 := hcountLe cid2
              omega
            have hoccc2 : 1 ≤ occCount c2 (lit_to_idx f) := by
              have := watchCount_get? clauses cid2 c2 (lit_to_idx f) hg2
              omega
            obtain ⟨k, hk, hkf⟩ := occ_pos_exists c2 n (hcwf c2 (List.get?_mem hg2)) f hf0
              hoccc2
            refine ⟨k, hk, ?_⟩
            rw [hkf]
            exact hfseg

theorem processBatch_naf0 (f : Int) (n : Nat) (b : List (Option Bool)) :
    ∀ (batch : List Nat) (clauses : List Clause) (st : PState),
    st.assignments.length = n →
    st.watch_lists.length = 2 * n →
    (∀ c ∈ clauses, clauseWF n c) →
    get_literal_value st.assignments f = some false →
    f ≠ 0 →
    (∀ cid2, (batch.count cid2) ≤ watchCount clauses cid2 (lit_to_idx f)) →
    (∀ v, b.getD v none ≠ none → st.assignments.getD v none = b.getD v none) →
    (∀ cid c, clauses.get? cid = some c → nafAt b c) →
    (∀ v, b.getD v none ≠ none →
      (processBatch clauses f st false batch).2.1.assignments.getD v none = b.getD v none) ∧
    (∀ cid c, (processBatch clauses f st false batch).1.get? cid = some c → nafAt b c) := by
  intro batch
  induction batch with
  | nil =>
    intro clauses st hn hwl hcwf hff hf0 hcountLe hext hnaf0
    have hr : processBatch clauses f st false [] = (clauses, st, [], false) := by
      simp [processBatch]
    rw [hr]
    exact ⟨hext, hnaf0⟩
  | cons cid rest ih =>
    intro clauses st hn hwl hcwf hff hf0 hcountLe hext hnaf0
    have hwc0 : ¬ watchCount clauses cid (lit_to_idx f) = 0 := by
      have h1 := hcountLe cid
      have h2 := count_cons_split rest cid cid
      rw [if_pos rfl] at h2
      omega
    obtain ⟨c0, hg⟩ : ∃ c0, clauses.get? cid = some c0 := by
      rcases hgg : clauses.get? cid with _ | c0
      · exfalso
        apply hwc0
        unfold watchCount
        rw [hgg]
      · exact ⟨c0, rfl⟩
    have hB := watchCount_get? clauses cid c0 (lit_to_idx f) hg
    have hocc : 1 ≤ occCount c0 (lit_to_idx f) := by omega
    have hcidlt : cid < clauses.length := lt_of_get?_some hg
    have hgetD : clauses.getD cid default = c0 := getD_of_get? hg
    obtain ⟨u1, u2, u3, u4, u5, u6, u7, u8, u9, u10, u11, u12⟩ :=
      update_clause_main c0 f cid st n hn hwl (hcwf c0 (List.get?_mem hg)) hocc hff hf0
    have h1ext : ∀ v, b.getD v none ≠ none →
        (update_clause c0 f cid st).2.1.assignments.getD v none = b.getD v none := by
      intro v hv
      rcases u8 with ⟨ha, -, -⟩ | ⟨w, -, ha, -, hwnone, -, -, -⟩
      · rw [ha]
        exact hext v hv
      · rw [ha]
        have hvw : v ≠ lit_to_var w := by
          intro he
          have h2 := hext v hv
          rw [he, hwnone] at h2
          rw [he] at hv
          exact hv h2.symm
        rw [getD_set_ne _ _ _ _ _ (fun he2 => hvw he2.symm)]
        exact hext v hv
    have h1naf0 : ∀ cid2 c2,
        (clauses.set cid (update_clause c0 f cid st).1).get? cid2 = some c2 →
        nafAt b c2 := by
      intro cid2 c2 hg2
      by_cases hc2 : cid2 = cid
      · subst hc2
        rw [List.get?_set_eq_of_lt _ hcidlt] at hg2
        have hc2e : c2 = (update_clause c0 f cid2 st).1 := (Option.some.inj hg2).symm
        subst hc2e
        exact u12 b hext (hnaf0 cid2 c0 hg)
      · rw [List.get?_set_ne _ clauses (fun he => hc2 he.symm)] at hg2
        exact hnaf0 cid2 c2 hg2
    rcases (Bool.eq_false_or_eq_true ((update_clause c0 f cid st).2.2.2)).symm with hcf | hcf
    · have h1cwf : ∀ c ∈ clauses.set cid (update_clause c0 f cid st).1, clauseWF n c := by
        intro c hc
        rcases List.mem_or_eq_of_mem_set hc with h | h
        · exact hcwf c h
        · rw [h]
          exact u1
      have h1ff : get_literal_value (update_clause c0 f cid st).2.1.assignments f =
          some false := by
        rcases u8 with ⟨ha, -, -⟩ | ⟨w, -, ha, -, hwnone, -, -, -⟩
        · rw [ha]
          exact hff
        · rw [ha]
          exact value_mono_set st.assignments (lit_to_var w) _ f false hwnone hff
      have h1countLe : ∀ cid2, (rest.count cid2) ≤
          watchCount (clauses.set cid (update_clause c0 f cid st).1) cid2 (lit_to_idx f) := by
        intro cid2
        by_cases hc2 : cid2 = cid
        · subst hc2
          rw [watchCount_set_self _ _ _ _ hcidlt]
          have hA := hcountLe cid2
          have hC := count_cons_split rest cid2 cid2
          rw [if_pos rfl] at hC
          have hu5 := u5
          by_cases hk : (update_clause c0 f cid2 st).2.2.1 = true
          · rw [if_pos hk] at hu5
            omega
          · rw [if_neg hk] at hu5
            omega
        · rw [watchCount_set_ne _ _ _ _ _ (fun he => hc2 he.symm)]
          have hA := hcountLe cid2
          have hC := count_cons_split rest cid cid2
          rw [if_neg (fun he => hc2 he.symm)] at hC
          omega
      rw [processBatch_cons_false, hgetD, hcf]
      exact ih (clauses.set cid (update_clause c0 f cid st).1) ((update_clause c0 f cid st).2.1)
        u3 u4 h1cwf h1ff hf0 h1countLe h1ext h1naf0
    · obtain ⟨hkeep, hstEq⟩ := u11 hcf
      have hr : processBatch clauses f st false (cid :: rest) =
          (clauses.set cid (update_clause c0 f cid st).1, st, cid :: rest, true) := by
        rw [processBatch_cons_false, hgetD, hcf, processBatch_conflict_true]
        rw [hstEq]
        simp [hkeep]
      rw [hr]
      exact ⟨hext, h1naf0⟩

theorem process_watch_list_main (s : Solver) (l : Int) (q : List Int) (n pos : Nat)
    (hn : s.assignments.length = n)
    (hwl : s.watch_lists.length = 2 * n)
    (hcwf : ∀ c ∈ s.clauses, clauseWF n c)
    (hbuck : ∀ i cid, ((s.watch_lists.getD i []).count cid) = watchCount s.clauses cid i)
    (hpos : pos ≤ s.trail.length)
    (hl0 : l ≠ 0) (hlvar : lit_to_var l < n)
    (hlval : get_literal_value s.assignments l = some true)
    (hlseg : lit_to_var l ∈ aboveSeg s.trail pos)
    (hq : ∀ x ∈ q, x ≠ 0 ∧ lit_to_var x < n ∧
      get_literal_value s.assignments x = some true ∧ lit_to_var x ∈ aboveSeg s.trail pos)
    (hnafq : ∀ cid c, s.clauses.get? cid = some c →
      nafAt s.assignments c ∨ excusedQ c (l :: q)) :
    (s.process_watch_list l q).1.assignments.length = n ∧
    (s.process_watch_list l q).1.watch_lists.length = 2 * n ∧
    (∀ c ∈ (s.process_watch_list l q).1.clauses, clauseWF n c) ∧
    (∀ i cid, (((s.process_watch_list l q).1.watch_lists.getD i []).count cid) =
      watchCount (s.process_watch_list l q).1.clauses cid i) ∧
    pos ≤ (s.process_watch_list l q).1.trail.length ∧
    (∀ x ∈ (s.process_watch_list l q).2.1, x ≠ 0 ∧ lit_to_var x < n ∧
      get_literal_value (s.process_watch_list l q).1.assignments x = some true ∧
      lit_to_var x ∈ aboveSeg (s.process_watch_list l q).1.trail pos) ∧
    ((s.process_watch_list l q).2.2 = false → ∀ cid c,
      (s.process_watch_list l q).1.clauses.get? cid = some c →
      nafAt (s.process_watch_list l q).1.assignments c ∨
      excusedQ c (s.process_watch_list l q).2.1) ∧
    ((s.process_watch_list l q).2.2 = true →
      (∃ cid c, (s.process_watch_list l q).1.clauses.get? cid = some c ∧
        ∀ x ∈ c.literals,
          get_literal_value (s.process_watch_list l q).1.assignments x = some false) ∧
      (∀ cid c, (s.process_watch_list l q).1.clauses.get? cid = some c →
        nafAt (s.process_watch_list l q).1.assignments c ∨
        segExcused (s.process_watch_list l q).1.trail pos c)) ∧
    litsEq s.clauses (s.process_watch_list l q).1.clauses ∧
    (s.process_watch_list l q).1.clauses.length = s.clauses.length ∧
    (s.process_watch_list l q).1.trail_lim = s.trail_lim := by
  have hffv : get_literal_value s.assignments (-l) = some false := by
    have h := get_literal_value_neg s.assignments l hl0 true hlval
    simpa using h
  have hfne : (-l) ≠ 0 := neg_ne_zero.mpr hl0
  have hfvar : lit_to_var (-l) < n := by
    rw [lit_to_var_neg]
    exact hlvar
  have hfidxlt : lit_to_idx (-l) < 2 * n := lit_to_idx_lt _ n hfvar
  have hstwl : (s.watch_lists.set (lit_to_idx (-l)) []).length = 2 * n := by
    rw [List.length_set]
    exact hwl
  have hfempty : (s.watch_lists.set (lit_to_idx (-l)) []).getD (lit_to_idx (-l)) [] = [] :=
    getD_set_self _ _ _ _ (by rw [hwl]; exact hfidxlt)
  have hcountLe : ∀ cid2, ((s.watch_lists.getD (lit_to_idx (-l)) []).count cid2) ≤
      watchCount s.clauses cid2 (lit_to_idx (-l)) :=
    fun cid2 => le_of_eq (hbuck (lit_to_idx (-l)) cid2)
  have hfseg : lit_to_var (-l) ∈ aboveSeg s.trail pos := by
    rw [lit_to_var_neg]
    exact hlseg
  have hnafinv : ∀ cid c, s.clauses.get? cid = some c →
      nafAt s.assignments c ∨ excusedQ c q ∨ cid ∈ s.watch_lists.getD (lit_to_idx (-l)) [] := by
    intro cid c hg
    rcases hnafq cid c hg with hnaf | hexc
    · exact Or.inl hnaf
    · obtain ⟨k, hk, l2, hl2, he⟩ := hexc
      rcases List.mem_cons.mp hl2 with rfl | hl2q
      · right
        right
        have hoccp : 0 < occCount c (lit_to_idx (-l2)) := by
          unfold occCount
          rw [List.countP_pos]
          exact ⟨k, hk, by rw [he]; simp⟩
        have hwc := watchCount_get? s.clauses cid c (lit_to_idx (-l2)) hg
        have hbc := hbuck (lit_to_idx (-l2)) cid
        exact List.count_pos_iff.mp (by omega)
      · exact Or.inr (Or.inl ⟨k, hk, l2, hl2q, he⟩)
  obtain ⟨q1, q2, q3, q4, q5, q6, q7, q8, q9, q10, q11, q12, q13, q14, q15, q16⟩ :=
    processBatch_main (-l) n pos (s.watch_lists.getD (lit_to_idx (-l)) []) s.clauses
      ⟨s.assignments, s.watch_lists.set (lit_to_idx (-l)) [], q, s.trail⟩
      hn hstwl hcwf hffv hfne hcountLe hfempty hpos hfseg hq hnafinv
  unfold Solver.process_watch_list
  simp only []
  refine ⟨q1, ?_, q3, ?_, q11, q13, q14, fun hc => ⟨q15 hc, q16 hc⟩, q5, q4, trivial⟩
  · rw [List.length_set]
    exact q2
  · intro i cid
    by_cases hi : i = lit_to_idx (-l)
    · subst hi
      rw [getD_set_self _ _ _ _ (by rw [q2]; exact hfidxlt)]
      rw [q8, List.nil_append]
      have hq7 := q7 cid
      have hbc := hbuck (lit_to_idx (-l)) cid
      omega
    · rw [getD_set_ne _ _ _ _ _ (fun he => hi he.symm)]
      have hq9 := q9 i hi cid
      have hbc := hbuck i cid
      have hst : (s.watch_lists.set (lit_to_idx (-l)) []).getD i [] =
          s.watch_lists.getD i [] :=
        getD_set_ne _ _ _ _ _ (fun he => hi he.symm)
      rw [hst] at hq9
      omega

theorem propagateLoop_watch (n pos : Nat) :
    ∀ (fuel : Nat) (s : Solver) (q : List Int) (s2 : Solver) (ok : Bool),
    s.assignments.length = n →
    s.watch_lists.length = 2 * n →
    (∀ c ∈ s.clauses, clauseWF n c) →
    (∀ i cid, ((s.watch_lists.getD i []).count cid) = watchCount s.clauses cid i) →
    pos ≤ s.trail.length →
    (∀ x ∈ q, x ≠ 0 ∧ lit_to_var x < n ∧ get_literal_value s.assignments x = some true ∧
      lit_to_var x ∈ aboveSeg s.trail pos) →
    (∀ cid c, s.clauses.get? cid = some c → nafAt s.assignments c ∨ excusedQ c q) →
    Solver.propagateLoop fuel s q = some (s2, ok) →
    s2.assignments.length = n ∧
    s2.watch_lists.length = 2 * n ∧
    (∀ c ∈ s2.clauses, clauseWF n c) ∧
    (∀ i cid, ((s2.watch_lists.getD i []).count cid) = watchCount s2.clauses cid i) ∧
    pos ≤ s2.trail.length ∧
    litsEq s.clauses s2.clauses ∧
    s2.clauses.length = s.clauses.length ∧
    s2.trail_lim = s.trail_lim ∧
    (ok = true → ∀ cid c, s2.clauses.get? cid = some c → nafAt s2.assignments c) ∧
    (ok = false → (∃ cid c, s2.clauses.get? cid = some c ∧
        ∀ x ∈ c.literals, get_literal_value s2.assignments x = some false) ∧
      (∀ cid c, s2.clauses.get? cid = some c →
        nafAt s2.assignments c ∨ segExcused s2.trail pos c)) := by
  intro fuel
  induction fuel with
  | zero =>
    intro s q s2 ok _ _ _ _ _ _ _ hrun
    simp [Solver.propagateLoop] at hrun
  | succ fuel ih =>
    intro s q s2 ok hn hwl hcwf hbuck hpos hq hnafq hrun
    rcases q with _ | ⟨l, q'⟩
    · unfold Solver.propagateLoop at hrun
      simp only [Option.some.injEq, Prod.mk.injEq] at hrun
      obtain ⟨rfl, rfl⟩ := hrun
      refine ⟨hn, hwl, hcwf, hbuck, hpos, fun cid => rfl, rfl, rfl, ?_, ?_⟩
      · intro _ cid c hg
        rcases hnafq cid c hg with h | h
        · exact h
        · obtain ⟨k, hk, x, hx, he⟩ := h
          exact absurd hx (List.not_mem_nil x)
      · intro h
        simp at h
    · unfold Solver.propagateLoop at hrun
      simp only [] at hrun
      obtain ⟨hx0, hxvar, hxval, hxseg⟩ := hq l (List.mem_cons_self l q')
      have hq2 : ∀ x ∈ q', x ≠ 0 ∧ lit_to_var x < n ∧
          get_literal_value s.assignments x = some true ∧
          lit_to_var x ∈ aboveSeg s.trail pos :=
        fun x hx => hq x (List.mem_cons_of_mem l hx)
      obtain ⟨w1, w2, w3, w4, w5, w6, w7, w8, w9, w10, w11⟩ :=
        process_watch_list_main s l q' n pos hn hwl hcwf hbuck hpos hx0 hxvar hxval hxseg
          hq2 hnafq
      rcases (Bool.eq_false_or_eq_true ((s.process_watch_list l q').2.2)).symm with
        hflag | hflag
      · rw [if_neg (by rw [hflag]; simp)] at hrun
        obtain ⟨t1, t2, t3, t4, t5, t6, t7, t8, t9, t10⟩ :=
          ih (s.process_watch_list l q').1 (s.process_watch_list l q').2.1 s2 ok
            w1 w2 w3 w4 w5 w6 (w7 hflag) hrun
        refine ⟨t1, t2, t3, t4, t5, litsEq_trans w9 t6, ?_, ?_, t9, t10⟩
        · rw [t7, w10]
        · rw [t8, w11]
      · rw [if_pos hflag] at hrun
        simp only [Option.some.injEq, Prod.mk.injEq] at hrun
        obtain ⟨rfl, rfl⟩ := hrun
        refine ⟨w1, w2, w3, w4, w5, w9, w10, w11, ?_, ?_⟩
        · intro h
          simp at h
        · intro _
          exact w8 hflag

theorem aboveSeg_zero (tr : List Nat) : aboveSeg tr 0 = tr := by
  unfold aboveSeg
  simp

theorem process_watch_list_naf0 (s : Solver) (l : Int) (q : List Int) (n : Nat)
    (b : List (Option Bool))
    (hn : s.assignments.length = n)
    (hwl : s.watch_lists.length = 2 * n)
    (hcwf : ∀ c ∈ s.clauses, clauseWF n c)
    (hbuck : ∀ i cid, ((s.watch_lists.getD i []).count cid) = watchCount s.clauses cid i)
    (hl0 : l ≠ 0)
    (hlval : get_literal_value s.assignments l = some true)
    (hext : ∀ v, b.getD v none ≠ none → s.assignments.getD v none = b.getD v none)
    (hnaf0 : ∀ cid c, s.clauses.get? cid = some c → nafAt b c) :
    (∀ v, b.getD v none ≠ none →
      (s.process_watch_list l q).1.assignments.getD v none = b.getD v none) ∧
    (∀ cid c, (s.process_watch_list l q).1.clauses.get? cid = some c → nafAt b c) := by
  have hffv : get_literal_value s.assignments (-l) = some false := by
    have h := get_literal_value_neg s.assignments l hl0 true hlval
    simpa using h
  have hfne : (-l) ≠ 0 := neg_ne_zero.mpr hl0
  have hcountLe : ∀ cid2, ((s.watch_lists.getD (lit_to_idx (-l)) []).count cid2) ≤
      watchCount s.clauses cid2 (lit_to_idx (-l)) :=
    fun cid2 => le_of_eq (hbuck (lit_to_idx (-l)) cid2)
  obtain ⟨e1, e2⟩ :=
    processBatch_naf0 (-l) n b (s.watch_lists.getD (lit_to_idx (-l)) []) s.clauses
      ⟨s.assignments, s.watch_lists.set (lit_to_idx (-l)) [], q, s.trail⟩
      hn (by rw [List.length_set]; exact hwl) hcwf hffv hfne hcountLe hext hnaf0
  unfold Solver.process_watch_list
  simp only []
  exact ⟨e1, e2⟩

theorem propagateLoop_naf0 (n : Nat) (b : List (Option Bool)) :
    ∀ (fuel : Nat) (s : Solver) (q : List Int) (s2 : Solver) (ok : Bool),
    s.assignments.length = n →
    s.watch_lists.length = 2 * n →
    (∀ c ∈ s.clauses, clauseWF n c) →
    (∀ i cid, ((s.watch_lists.getD i []).count cid) = watchCount s.clauses cid i) →
    (∀ x ∈ q, x ≠ 0 ∧ lit_to_var x < n ∧ get_literal_value s.assignments x = some true ∧
      lit_to_var x ∈ aboveSeg s.trail 0) →
    (∀ cid c, s.clauses.get? cid = some c → nafAt s.assignments c ∨ excusedQ c q) →
    (∀ v, b.getD v none ≠ none → s.assignments.getD v none = b.getD v none) →
    (∀ cid c, s.clauses.get? cid = some c → nafAt b c) →
    Solver.propagateLoop fuel s q = some (s2, ok) →
    (∀ v, b.getD v none ≠ none → s2.assignments.getD v none = b.getD v none) ∧
    (∀ cid c, s2.clauses.get? cid = some c → nafAt b c) := by
  intro fuel
  induction fuel with
  | zero =>
    intro s q s2 ok _ _ _ _ _ _ _ _ hrun
    simp [Solver.propagateLoop] at hrun
  | succ fuel ih =>
    intro s q s2 ok hn hwl hcwf hbuck hq hnafq hext hnaf0 hrun
    rcases q with _ | ⟨l, q'⟩
    · unfold Solver.propagateLoop at hrun
      simp only [Option.some.injEq, Prod.mk.injEq] at hrun
      obtain ⟨rfl, rfl⟩ := hrun
      exact ⟨hext, hnaf0⟩
    · unfold Solver.propagateLoop at hrun
      simp only [] at hrun
      obtain ⟨hx0, hxvar, hxval, hxseg⟩ := hq l (List.mem_cons_self l q')
      have hq2 : ∀ x ∈ q', x ≠ 0 ∧ lit_to_var x < n ∧
          get_literal_value s.assignments x = some true ∧
          lit_to_var x ∈ aboveSeg s.trail 0 :=
        fun x hx => hq x (List.mem_cons_of_mem l hx)
      obtain ⟨w1, w2, w3, w4, w5, w6, w7, w8, w9, w10, w11⟩ :=
        process_watch_list_main s l q' n 0 hn hwl hcwf hbuck (Nat.zero_le _) hx0 hxvar hxval
          hxseg hq2 hnafq
      obtain ⟨e1, e2⟩ := process_watch_list_naf0 s l q' n b hn hwl hcwf hbuck hx0 hxval
        hext hnaf0
      rcases (Bool.eq_false_or_eq_true ((s.process_watch_list l q').2.2)).symm with
        hflag | hflag
      · rw [if_neg (by rw [hflag]; simp)] at hrun
        exact ih (s.process_watch_list l q').1 (s.process_watch_list l q').2.1 s2 ok
          w1 w2 w3 w4 w6 (w7 hflag) e1 e2 hrun
      · rw [if_pos hflag] at hrun
        simp only [Option.some.injEq, Prod.mk.injEq] at hrun
        obtain ⟨rfl, rfl⟩ := hrun
        exact ⟨e1, e2⟩

theorem processBatch_compat (f : Int) (n : Nat) (t : List Bool) :
    ∀ (batch : List Nat) (clauses : List Clause) (st : PState),
    st.assignments.length = n →
    st.watch_lists.length = 2 * n →
    (∀ c ∈ clauses, clauseWF n c) →
    get_literal_value st.assignments f = some false →
    f ≠ 0 →
    (∀ cid2, (batch.count cid2) ≤ watchCount clauses cid2 (lit_to_idx f)) →
    compat t st.assignments →
    (∀ cid c, clauses.get? cid = some c → satClause t c) →
    compat t (processBatch clauses f st false batch).2.1.assignments ∧
    (∀ cid c, (processBatch clauses f st false batch).1.get? cid = some c →
      satClause t c) := by
  intro batch
  induction batch with
  | nil =>
    intro clauses st hn hwl hcwf hff hf0 hcountLe hcompat hsat
    have hr : processBatch clauses f st false [] = (clauses, st, [], false) := by
      simp [processBatch]
    rw [hr]
    exact ⟨hcompat, hsat⟩
  | cons cid rest ih =>
    intro clauses st hn hwl hcwf hff hf0 hcountLe hcompat hsat
    have hwc0 : ¬ watchCount clauses cid (lit_to_idx f) = 0 := by
      have h1 := hcountLe cid
      have h2 := count_cons_split rest cid cid
      rw [if_pos rfl] at h2
      omega
    obtain ⟨c0, hg⟩ : ∃ c0, clauses.get? cid = some c0 := by
      rcases hgg : clauses.get? cid with _ | c0
      · exfalso
        apply hwc0
        unfold watchCount
        rw [hgg]
      · exact ⟨c0, rfl⟩
    have hB := watchCount_get? clauses cid c0 (lit_to_idx f) hg
    have hocc : 1 ≤ occCount c0 (lit_to_idx f) := by omega
    have hcidlt : cid < clauses.length := lt_of_get?_some hg
    have hgetD : clauses.getD cid default = c0 := getD_of_get? hg
    obtain ⟨u1, u2, u3, u4, u5, u6, u7, u8, u9, u10, u11, u12⟩ :=
      update_clause_main c0 f cid st n hn hwl (hcwf c0 (List.get?_mem hg)) hocc hff hf0
    have h1sat : ∀ cid2 c2,
        (clauses.set cid (update_clause c0 f cid st).1).get? cid2 = some c2 →
        satClause t c2 := by
      intro cid2 c2 hg2
      by_cases hc2 : cid2 = cid
      · subst hc2
        rw [List.get?_set_eq_of_lt _ hcidlt] at hg2
        have hc2e : c2 = (update_clause c0 f cid2 st).1 := (Option.some.inj hg2).symm
        subst hc2e
        obtain ⟨l, hl, hv⟩ := hsat cid2 c0 hg
        refine ⟨l, ?_, hv⟩
        rw [u2]
        exact hl
      · rw [List.get?_set_ne _ clauses (fun he => hc2 he.symm)] at hg2
        exact hsat cid2 c2 hg2
    have h1compat : compat t (update_clause c0 f cid st).2.1.assignments := by
      rcases u8 with ⟨ha, -, -⟩ | ⟨w, hq, ha, -, -, -, -, -⟩
      · rw [ha]
        exact hcompat
      · rw [ha]
        have hforce := update_clause_forced c0 f cid st n (hcwf c0 (List.get?_mem hg))
          hocc hff hf0 w hq
        obtain ⟨l, hl, hv⟩ := hsat cid c0 hg
        have hlnf : get_literal_value st.assignments l ≠ some false := by
          intro hvf
          exact compat_value_false hcompat hvf hv
        have hlw : l = w := hforce l hl hlnf
        rw [hlw] at hv
        exact compat_set hcompat hv
    rcases (Bool.eq_false_or_eq_true ((update_clause c0 f cid st).2.2.2)).symm with hcf | hcf
    · have h1cwf : ∀ c ∈ clauses.set cid (update_clause c0 f cid st).1, clauseWF n c := by
        intro c hc
        rcases List.mem_or_eq_of_mem_set hc with h | h
        · exact hcwf c h
        · rw [h]
          exact u1
      have h1ff : get_literal_value (update_clause c0 f cid st).2.1.assignments f =
          some false := by
        rcases u8 with ⟨ha, -, -⟩ | ⟨w, -, ha, -, hwnone, -, -, -⟩
        · rw [ha]
          exact hff
        · rw [ha]
          exact value_mono_set st.assignments (lit_to_var w) _ f false hwnone hff
      have h1countLe : ∀ cid2, (rest.count cid2) ≤
          watchCount (clauses.set cid (update_clause c0 f cid st).1) cid2 (lit_to_idx f) := by
        intro cid2
        by_cases hc2 : cid2 = cid
        · subst hc2
          rw [watchCount_set_self _ _ _ _ hcidlt]
          have hA := hcountLe cid2
          have hC := count_cons_split rest cid2 cid2
          rw [if_pos rfl] at hC
          have hu5 := u5
          by_cases hk : (update_clause c0 f cid2 st).2.2.1 = true
          · rw [if_pos hk] at hu5
            omega
          · rw [if_neg hk] at hu5
            omega
        · rw [watchCount_set_ne _ _ _ _ _ (fun he => hc2 he.symm)]
          have hA := hcountLe cid2
          have hC := count_cons_split rest cid cid2
          rw [if_neg (fun he => hc2 he.symm)] at hC
          omega
      rw [processBatch_cons_false, hgetD, hcf]
      exact ih (clauses.set cid (update_clause c0 f cid st).1) ((update_clause c0 f cid st).2.1)
        u3 u4 h1cwf h1ff hf0 h1countLe h1compat h1sat
    · obtain ⟨hkeep, hstEq⟩ := u11 hcf
      have hr : processBatch clauses f st false (cid :: rest) =
          (clauses.set cid (update_clause c0 f cid st).1, st, cid :: rest, true) := by
        rw [processBatch_cons_false, hgetD, hcf, processBatch_conflict_true]
        rw [hstEq]
        simp [hkeep]
      rw [hr]
      exact ⟨hcompat, h1sat⟩

theorem process_watch_list_compat (s : Solver) (l : Int) (q : List Int) (n : Nat)
    (t : List Bool)
    (hn : s.assignments.length = n)
    (hwl : s.watch_lists.length = 2 * n)
    (hcwf : ∀ c ∈ s.clauses, clauseWF n c)
    (hbuck : ∀ i cid, ((s.watch_lists.getD i []).count cid) = watchCount s.clauses cid i)
    (hl0 : l ≠ 0)
    (hlval : get_literal_value s.assignments l = some true)
    (hcompat : compat t s.assignments)
    (hsat : ∀ cid c, s.clauses.get? cid = some c → satClause t c) :
    compat t (s.process_watch_list l q).1.assignments ∧
    (∀ cid c, (s.process_watch_list l q).1.clauses.get? cid = some c → satClause t c) := by
  have hffv : get_literal_value s.assignments (-l) = some false := by
    have h := get_literal_value_neg s.assignments l hl0 true hlval
    simpa using h
  have hfne : (-l) ≠ 0 := neg_ne_zero.mpr hl0
  have hcountLe : ∀ cid2, ((s.watch_lists.getD (lit_to_idx (-l)) []).count cid2) ≤
      watchCount s.clauses cid2 (lit_to_idx (-l)) :=
    fun cid2 => le_of_eq (hbuck (lit_to_idx (-l)) cid2)
  obtain ⟨e1, e2⟩ :=
    processBatch_compat (-l) n t (s.watch_lists.getD (lit_to_idx (-l)) []) s.clauses
      ⟨s.assignments, s.watch_lists.set (lit_to_idx (-l)) [], q, s.trail⟩
      hn (by rw [List.length_set]; exact hwl) hcwf hffv hfne hcountLe hcompat hsat
  unfold Solver.process_watch_list
  simp only []
  exact ⟨e1, e2⟩

theorem propagateLoop_compat (n : Nat) (t : List Bool) :
    ∀ (fuel : Nat) (s : Solver) (q : List Int) (s2 : Solver) (ok : Bool),
    s.assignments.length = n →
    s.watch_lists.length = 2 * n →
    (∀ c ∈ s.clauses, clauseWF n c) →
    (∀ i cid, ((s.watch_lists.getD i []).count cid) = watchCount s.clauses cid i) →
    (∀ x ∈ q, x ≠ 0 ∧ lit_to_var x < n ∧ get_literal_value s.assignments x = some true ∧
      lit_to_var x ∈ aboveSeg s.trail 0) →
    (∀ cid c, s.clauses.get? cid = some c → nafAt s.assignments c ∨ excusedQ c q) →
    compat t s.assignments →
    (∀ cid c, s.clauses.get? cid = some c → satClause t c) →
    Solver.propagateLoop fuel s q = some (s2, ok) →
    compat t s2.assignments ∧
    (∀ cid c, s2.clauses.get? cid = some c → satClause t c) := by
  intro fuel
  induction fuel with
  | zero =>
    intro s q s2 ok _ _ _ _ _ _ _ _ hrun
    simp [Solver.propagateLoop] at hrun
  | succ fuel ih =>
    intro s q s2 ok hn hwl hcwf hbuck hq hnafq hcompat hsat hrun
    rcases q with _ | ⟨l, q'⟩
    · unfold Solver.propagateLoop at hrun
      simp only [Option.some.injEq, Prod.mk.injEq] at hrun
      obtain ⟨rfl, rfl⟩ := hrun
      exact ⟨hcompat, hsat⟩
    · unfold Solver.propagateLoop at hrun
      simp only [] at hrun
      obtain ⟨hx0, hxvar, hxval, hxseg⟩ := hq l (List.mem_cons_self l q')
      have hq2 : ∀ x ∈ q', x ≠ 0 ∧ lit_to_var x < n ∧
          get_literal_value s.assignments x = some true ∧
          lit_to_var x ∈ aboveSeg s.trail 0 :=
        fun x hx => hq x (List.mem_cons_of_mem l hx)
      obtain ⟨w1, w2, w3, w4, w5, w6, w7, w8, w9, w10, w11⟩ :=
        process_watch_list_main s l q' n 0 hn hwl hcwf hbuck (Nat.zero_le _) hx0 hxvar hxval
          hxseg hq2 hnafq
      obtain ⟨e1, e2⟩ := process_watch_list_compat s l q' n t hn hwl hcwf hbuck hx0 hxval
        hcompat hsat
      rcases (Bool.eq_false_or_eq_true ((s.process_watch_list l q').2.2)).symm with
        hflag | hflag
      · rw [if_neg (by rw [hflag]; simp)] at hrun
        exact ih (s.process_watch_list l q').1 (s.process_watch_list l q').2.1 s2 ok
          w1 w2 w3 w4 w6 (w7 hflag) e1 e2 hrun
      · rw [if_pos hflag] at hrun
        simp only [Option.some.injEq, Prod.mk.injEq] at hrun
        obtain ⟨rfl, rfl⟩ := hrun
        exact ⟨e1, e2⟩

theorem processBatch_sub (f : Int) (n : Nat) (B : List (Option Bool)) :
    ∀ (batch : List Nat) (clauses : List Clause) (st : PState),
    st.assignments.length = n →
    st.watch_lists.length = 2 * n →
    (∀ c ∈ clauses, clauseWF n c) →
    get_literal_value st.assignments f = some false →
    f ≠ 0 →
    (∀ cid2, (batch.count cid2) ≤ watchCount clauses cid2 (lit_to_idx f)) →
    tabLe st.assignments B →
    B.length = n →
    (∀ cid c, clauses.get? cid = some c → clsClosed B c) →
    tabLe (processBatch clauses f st false batch).2.1.assignments B ∧
    (∀ cid c, (processBatch clauses f st false batch).1.get? cid = some c →
      clsClosed B c) ∧
    (processBatch clauses f st false batch).2.2.2 = false := by
  intro batch
  induction batch with
  | nil =>
    intro clauses st hn hwl hcwf hff hf0 hcountLe hBsub hBlen hBclosed
    have hr : processBatch clauses f st false [] = (clauses, st, [], false) := by
      simp [processBatch]
    rw [hr]
    exact ⟨hBsub, hBclosed, rfl⟩
  | cons cid rest ih =>
    intro clauses st hn hwl hcwf hff hf0 hcountLe hBsub hBlen hBclosed
    have hwc0 : ¬ watchCount clauses cid (lit_to_idx f) = 0 := by
      have h1 := hcountLe cid
      have h2 := count_cons_split rest cid cid
      rw [if_pos rfl] at h2
      omega
    obtain ⟨c0, hg⟩ : ∃ c0, clauses.get? cid = some c0 := by
      rcases hgg : clauses.get? cid with _ | c0
      · exfalso
        apply hwc0
        unfold watchCount
        rw [hgg]
      · exact ⟨c0, rfl⟩
    have hB := watchCount_get? clauses cid c0 (lit_to_idx f) hg
    have hocc : 1 ≤ occCount c0 (lit_to_idx f) := by omega
    have hcidlt : cid < clauses.length := lt_of_get?_some hg
    have hgetD : clauses.getD cid default = c0 := getD_of_get? hg
    obtain ⟨u1, u2, u3, u4, u5, u6, u7, u8, u9, u10, u11, u12⟩ :=
      update_clause_main c0 f cid st n hn hwl (hcwf c0 (List.get?_mem hg)) hocc hff hf0
    have hnc : (update_clause c0 f cid st).2.2.2 = false := by
      rcases Bool.eq_false_or_eq_true ((update_clause c0 f cid st).2.2.2) with h | h
      · exfalso
        have hall := u10 h
        rcases hBclosed cid c0 hg with ⟨l, hl, hv⟩ | ⟨i, j, hi, hj, hij, hvi, hvj⟩
        · have hBf := tabLe_value hBsub (hall l hl)
          rw [hBf] at hv
          exact absurd hv (by simp)
        · exact absurd (hall _ (getD_mem_of_lt hi)) (tabLe_not_false hBsub hvi)
      · exact h
    have h1closed : ∀ cid2 c2,
        (clauses.set cid (update_clause c0 f cid st).1).get? cid2 = some c2 →
        clsClosed B c2 := by
      intro cid2 c2 hg2
      by_cases hc2 : cid2 = cid
      · subst hc2
        rw [List.get?_set_eq_of_lt _ hcidlt] at hg2
        have hc2e : c2 = (update_clause c0 f cid2 st).1 := (Option.some.inj hg2).symm
        subst hc2e
        have hcl := hBclosed cid2 c0 hg
        unfold clsClosed at hcl ⊢
        rw [u2]
        exact hcl
      · rw [List.get?_set_ne _ clauses (fun he => hc2 he.symm)] at hg2
        exact hBclosed cid2 c2 hg2
    have h1sub : tabLe (update_clause c0 f cid st).2.1.assignments B := by
      rcases u8 with ⟨ha, -, -⟩ | ⟨w, hq, ha, -, -, -, hw00, -⟩
      · rw [ha]
        exact hBsub
      · rw [ha]
        obtain ⟨k0, hk0lt, hk0eq, hforce⟩ :=
          update_clause_forced_idx c0 f cid st n (hcwf c0 (List.get?_mem hg)) hocc hff hf0
            w hq
        have hBw : get_literal_value B w = some true := by
          rcases hBclosed cid c0 hg with ⟨l, hl, hv⟩ | ⟨i, j, hi, hj, hij, hvi, hvj⟩
          · obtain ⟨k, hklt, hkeq⟩ := mem_exists_getD hl
            by_cases hkk0 : k = k0
            · subst hkk0
              rw [hkeq] at hk0eq
              rw [← hk0eq]
              exact hv
            · exfalso
              have hfl := hforce k hklt hkk0
              rw [hkeq] at hfl
              have hBf := tabLe_value hBsub hfl
              rw [hBf] at hv
              exact absurd hv (by simp)
          · exfalso
            have hi0 : i = k0 := by
              by_contra hne
              exact (tabLe_not_false hBsub hvi) (hforce i hi hne)
            have hj0 : j = k0 := by
              by_contra hne
              exact (tabLe_not_false hBsub hvj) (hforce j hj hne)
            rw [hi0, hj0] at hij
            exact hij rfl
        exact tabLe_set hBsub (value_true_getD hBw) (by omega)
    have h1cwf : ∀ c ∈ clauses.set cid (update_clause c0 f cid st).1, clauseWF n c := by
      intro c hc
      rcases List.mem_or_eq_of_mem_set hc with h | h
      · exact hcwf c h
      · rw [h]
        exact u1
    have h1ff : get_literal_value (update_clause c0 f cid st).2.1.assignments f =
        some false := by
      rcases u8 with ⟨ha, -, -⟩ | ⟨w, -, ha, -, hwnone, -, -, -⟩
      · rw [ha]
        exact hff
      · rw [ha]
        exact value_mono_set st.assignments (lit_to_var w) _ f false hwnone hff
    have h1countLe : ∀ cid2, (rest.count cid2) ≤
        watchCount (clauses.set cid (update_clause c0 f cid st).1) cid2 (lit_to_idx f) := by
      intro cid2
      by_cases hc2 : cid2 = cid
      · subst hc2
        rw [watchCount_set_self _ _ _ _ hcidlt]
        have hA := hcountLe cid2
        have hC := count_cons_split rest cid2 cid2
        rw [if_pos rfl] at hC
        have hu5 := u5
        by_cases hk : (update_clause c0 f cid2 st).2.2.1 = true
        · rw [if_pos hk] at hu5
          omega
        · rw [if_neg hk] at hu5
          omega
      · rw [watchCount_set_ne _ _ _ _ _ (fun he => hc2 he.symm)]
        have hA := hcountLe cid2
        have hC := count_cons_split rest cid cid2
        rw [if_neg (fun he => hc2 he.symm)] at hC
        omega
    rw [processBatch_cons_false, hgetD, hnc]
    exact ih (clauses.set cid (update_clause c0 f cid st).1) ((update_clause c0 f cid st).2.1)
      u3 u4 h1cwf h1ff hf0 h1countLe h1sub hBlen h1closed

theorem process_watch_list_sub (s : Solver) (l : Int) (q : List Int) (n : Nat)
    (B : List (Option Bool))
    (hn : s.assignments.length = n)
    (hwl : s.watch_lists.length = 2 * n)
    (hcwf : ∀ c ∈ s.clauses, clauseWF n c)
    (hbuck : ∀ i cid, ((s.watch_lists.getD i []).count cid) = watchCount s.clauses cid i)
    (hl0 : l ≠ 0)
    (hlval : get_literal_value s.assignments l = some true)
    (hBsub : tabLe s.assignments B)
    (hBlen : B.length = n)
    (hBclosed : ∀ cid c, s.clauses.get? cid = some c → clsClosed B c) :
    tabLe (s.process_watch_list l q).1.assignments B ∧
    (∀ cid c, (s.process_watch_list l q).1.clauses.get? cid = some c → clsClosed B c) ∧
    (s.process_watch_list l q).2.2 = false := by
  have hffv : get_literal_value s.assignments (-l) = some false := by
    have h := get_literal_value_neg s.assignments l hl0 true hlval
    simpa using h
  have hfne : (-l) ≠ 0 := neg_ne_zero.mpr hl0
  have hcountLe : ∀ cid2, ((s.watch_lists.getD (lit_to_idx (-l)) []).count cid2) ≤
      watchCount s.clauses cid2 (lit_to_idx (-l)) :=
    fun cid2 => le_of_eq (hbuck (lit_to_idx (-l)) cid2)
  obtain ⟨e1, e2, e3⟩ :=
    processBatch_sub (-l) n B (s.watch_lists.getD (lit_to_idx (-l)) []) s.clauses
      ⟨s.assignments, s.watch_lists.set (lit_to_idx (-l)) [], q, s.trail⟩
      hn (by rw [List.length_set]; exact hwl) hcwf hffv hfne hcountLe hBsub hBlen hBclosed
  unfold Solver.process_watch_list
  simp only []
  exact ⟨e1, e2, e3⟩

theorem propagateLoop_sub (n : Nat) (B : List (Option Bool)) :
    ∀ (fuel : Nat) (s : Solver) (q : List Int) (s2 : Solver) (ok : Bool),
    s.assignments.length = n →
    s.watch_lists.length = 2 * n →
    (∀ c ∈ s.clauses, clauseWF n c) →
    (∀ i cid, ((s.watch_lists.getD i []).count cid) = watchCount s.clauses cid i) →
    (∀ x ∈ q, x ≠ 0 ∧ lit_to_var x < n ∧ get_literal_value s.assignments x = some true ∧
      lit_to_var x ∈ aboveSeg s.trail 0) →
    (∀ cid c, s.clauses.get? cid = some c → nafAt s.assignments c ∨ excusedQ c q) →
    tabLe s.assignments B →
    B.length = n →
    (∀ cid c, s.clauses.get? cid = some c → clsClosed B c) →
    Solver.propagateLoop fuel s q = some (s2, ok) →
    ok = true ∧ tabLe s2.assignments B := by
  intro fuel
  induction fuel with
  | zero =>
    intro s q s2 ok _ _ _ _ _ _ _ _ _ hrun
    simp [Solver.propagateLoop] at hrun
  | succ fuel ih =>
    intro s q s2 ok hn hwl hcwf hbuck hq hnafq hBsub hBlen hBclosed hrun
    rcases q with _ | ⟨l, q'⟩
    · unfold Solver.propagateLoop at hrun
      simp only [Option.some.injEq, Prod.mk.injEq] at hrun
      obtain ⟨rfl, rfl⟩ := hrun
      exact ⟨rfl, hBsub⟩
    · unfold Solver.propagateLoop at hrun
      simp only [] at hrun
      obtain ⟨hx0, hxvar, hxval, hxseg⟩ := hq l (List.mem_cons_self l q')
      have hq2 : ∀ x ∈ q', x ≠ 0 ∧ lit_to_var x < n ∧
          get_literal_value s.assignments x = some true ∧
          lit_to_var x ∈ aboveSeg s.trail 0 :=
        fun x hx => hq x (List.mem_cons_of_mem l hx)
      obtain ⟨w1, w2, w3, w4, w5, w6, w7, w8, w9, w10, w11⟩ :=
        process_watch_list_main s l q' n 0 hn hwl hcwf hbuck (Nat.zero_le _) hx0 hxvar hxval
          hxseg hq2 hnafq
      obtain ⟨e1, e2, e3⟩ := process_watch_list_sub s l q' n B hn hwl hcwf hbuck hx0 hxval
        hBsub hBlen hBclosed
      rw [if_neg (by rw [e3]; simp)] at hrun
      exact ih (s.process_watch_list l q').1 (s.process_watch_list l q').2.1 s2 ok
        w1 w2 w3 w4 w6 (w7 e3) e1 hBlen e2 hrun

theorem occ_pos_of_watch {c : Clause} {k : Nat} {f : Int} (hk : k ∈ watchedOccs c)
    (he : c.literals.getD k 0 = f) : 1 ≤ occCount c (lit_to_idx f) := by
  unfold occCount
  refine List.countP_pos.mpr ⟨k, hk, ?_⟩
  show decide (lit_to_idx (c.literals.getD k 0) = lit_to_idx f) = true
  rw [he]
  simp

theorem mem_watchedOccs_swap (c : Clause) (m : Nat)
    (hone : c.literals.length = 1 → c.watched0 = c.watched1) (k : Nat) :
    k ∈ watchedOccs ⟨c.literals, c.watched1, c.watched0, m⟩ ↔ k ∈ watchedOccs c := by
  unfold watchedOccs
  simp only []
  split_ifs with h1 h2
  · exact Iff.rfl
  · rw [hone h2]
  · simp only [List.mem_cons, List.mem_singleton, List.not_mem_nil]
    tauto

theorem update_clause_rest_si (c : Clause) (cid : Nat) (st : PState) (n : Nat) (f : Int)
    (cnt : Nat)
    (hn : st.assignments.length = n)
    (hwf : clauseWF n c)
    (hslot1 : c.literals.getD c.watched1 0 = f)
    (hff : get_literal_value st.assignments f = some false)
    (hpre : watchedSat st.assignments c ∨ ∀ k ∈ watchedOccs c,
      get_literal_value st.assignments (c.literals.getD k 0) ≠ some false ∨
      (∃ l ∈ st.propagation_queue, c.literals.getD k 0 = -l) ∨
      (c.literals.getD k 0 = f ∧ occCount c (lit_to_idx f) ≤ cnt)) :
    (update_clause_rest c cid st).2.2.2 = false →
    watchedSat (update_clause_rest c cid st).2.1.assignments
      (update_clause_rest c cid st).1 ∨
    ∀ k ∈ watchedOccs (update_clause_rest c cid st).1,
      get_literal_value (update_clause_rest c cid st).2.1.assignments
        ((update_clause_rest c cid st).1.literals.getD k 0) ≠ some false ∨
      (∃ l ∈ (update_clause_rest c cid st).2.1.propagation_queue,
        (update_clause_rest c cid st).1.literals.getD k 0 = -l) ∨
      ((update_clause_rest c cid st).1.literals.getD k 0 = f ∧
        occCount (update_clause_rest c cid st).1 (lit_to_idx f) ≤ cnt - 1) := by
  obtain ⟨hlen, hw0, hw1, hdist, hone, hlits⟩ := hwf
  have hf0 : f ≠ 0 := by
    rw [← hslot1]
    exact (hlits _ (getD_mem_of_lt hw1)).1
  unfold update_clause_rest
  simp only []
  split
  next hsat =>
    intro hfl
    left
    exact ⟨c.watched0, watched0_mem_occs c hlen, hsat⟩
  next hsat =>
    split
    next j hj =>
      intro hfl
      obtain ⟨hjlt, hjw0, hjw1, hjval⟩ := find_replacement_some c st.assignments j hj
      have hlen2 : 2 ≤ c.literals.length := by
        by_contra hc
        have h1 : c.literals.length = 1 := by omega
        obtain ⟨hz0, hz1⟩ := hone h1
        omega
      have hjne_f : c.literals.getD j 0 ≠ f := by
        intro he
        rw [he] at hjval
        exact hjval hff
      right
      intro k hk
      have hk2 : k ∈ [c.watched0, j] := by
        unfold watchedOccs at hk
        simp only [] at hk
        rw [if_neg (by omega), if_neg (by omega)] at hk
        exact hk
      rcases List.mem_cons.mp hk2 with rfl | hk3
      · -- k = c.watched0
        rcases hpre with hpl | hpr
        · exfalso
          obtain ⟨k2, hk2m, hk2v⟩ := hpl
          have hk2b : k2 ∈ [c.watched0, c.watched1] := by
            unfold watchedOccs at hk2m
            try simp only [] at hk2m
            rw [if_neg (by omega), if_neg (by omega)] at hk2m
            exact hk2m
          rcases List.mem_cons.mp hk2b with rfl | hk2c
          · exact hsat hk2v
          · rw [List.mem_singleton.mp hk2c, hslot1, hff] at hk2v
            exact absurd hk2v (by simp)
        · rcases hpr c.watched0 (watched0_mem_occs c hlen) with h | ⟨l, hl, he⟩ | ⟨hfe, hle⟩
          · exact Or.inl h
          · exact Or.inr (Or.inl ⟨l, hl, he⟩)
          · refine Or.inr (Or.inr ⟨hfe, ?_⟩)
            have hoccs : occCount c (lit_to_idx f) =
                occCount ⟨c.literals, c.watched0, j, c.visit_count⟩ (lit_to_idx f) + 1 := by
              rw [occCount_two c hlen2, occCount_two ⟨c.literals, c.watched0, j,
                c.visit_count⟩ hlen2]
              simp only []
              rw [hslot1, if_pos rfl]
              have hjne : lit_to_idx (c.literals.getD j 0) ≠ lit_to_idx f := by
                intro he
                exact hjne_f (lit_to_idx_inj _ _ (hlits _ (getD_mem_of_lt hjlt)).1 hf0 he)
              rw [if_neg hjne]
            have hocc1 : 1 ≤ occCount c (lit_to_idx f) :=
              occ_pos_of_watch (watched0_mem_occs c hlen) hfe
            show occCount ⟨c.literals, c.watched0, j, c.visit_count⟩ (lit_to_idx f) ≤ cnt - 1
            omega
      · -- k = j
        rw [List.mem_singleton.mp hk3]
        exact Or.inl hjval
    next hrep =>
      split
      next hgv =>
        intro hfl
        exact absurd hfl (by simp)
      next hgv =>
        have hvarnone := (get_literal_value_none_iff st.assignments _).mp hgv
        have hw0mem : c.literals.getD c.watched0 0 ∈ c.literals := getD_mem_of_lt hw0
        have hw0var : lit_to_var (c.literals.getD c.watched0 0) < n := (hlits _ hw0mem).2
        have hassign : assign st.assignments st.trail (c.literals.getD c.watched0 0) =
            (st.assignments.set (lit_to_var (c.literals.getD c.watched0 0))
              (some (decide (0 < c.literals.getD c.watched0 0))),
             lit_to_var (c.literals.getD c.watched0 0) :: st.trail, true) := by
          unfold assign
          simp only [hvarnone]
        split
        next hok =>
          intro hfl
          left
          rw [hassign]
          refine ⟨c.watched0, watched0_mem_occs c hlen, ?_⟩
          simp only []
          exact value_of_assigned_same st.assignments _ (by rw [hn]; exact hw0var)
        next hok =>
          exfalso
          rw [hassign] at hok
          simp at hok
      next hgv =>
        exact absurd hgv hsat

theorem update_clause_si (c0 : Clause) (f : Int) (cid : Nat) (st : PState) (n : Nat)
    (cnt : Nat)
    (hn : st.assignments.length = n)
    (hwf : clauseWF n c0)
    (hocc : 1 ≤ occCount c0 (lit_to_idx f))
    (hff : get_literal_value st.assignments f = some false)
    (hf0 : f ≠ 0)
    (hpre : watchedSat st.assignments c0 ∨ ∀ k ∈ watchedOccs c0,
      get_literal_value st.assignments (c0.literals.getD k 0) ≠ some false ∨
      (∃ l ∈ st.propagation_queue, c0.literals.getD k 0 = -l) ∨
      (c0.literals.getD k 0 = f ∧ occCount c0 (lit_to_idx f) ≤ cnt)) :
    (update_clause c0 f cid st).2.2.2 = false →
    watchedSat (update_clause c0 f cid st).2.1.assignments (update_clause c0 f cid st).1 ∨
    ∀ k ∈ watchedOccs (update_clause c0 f cid st).1,
      get_literal_value (update_clause c0 f cid st).2.1.assignments
        ((update_clause c0 f cid st).1.literals.getD k 0) ≠ some false ∨
      (∃ l ∈ (update_clause c0 f cid st).2.1.propagation_queue,
        (update_clause c0 f cid st).1.literals.getD k 0 = -l) ∨
      ((update_clause c0 f cid st).1.literals.getD k 0 = f ∧
        occCount (update_clause c0 f cid st).1 (lit_to_idx f) ≤ cnt - 1) := by
  obtain ⟨hlen, hw0, hw1, hdist, hone, hlits⟩ := hwf
  unfold update_clause
  simp only []
  split
  next hcond =>
    have hone2 : c0.literals.length = 1 → c0.watched0 = c0.watched1 :=
      fun h1 => by rw [(hone h1).1, (hone h1).2]
    have hwf2 : clauseWF n ⟨c0.literals, c0.watched1, c0.watched0, c0.visit_count + 1⟩ :=
      ⟨hlen, hw1, hw0, fun h2 => (hdist h2).symm, fun h1 => ⟨(hone h1).2, (hone h1).1⟩, hlits⟩
    have hpre2 : watchedSat st.assignments
        ⟨c0.literals, c0.watched1, c0.watched0, c0.visit_count + 1⟩ ∨
        ∀ k ∈ watchedOccs ⟨c0.literals, c0.watched1, c0.watched0, c0.visit_count + 1⟩,
        get_literal_value st.assignments (c0.literals.getD k 0) ≠ some false ∨
        (∃ l ∈ st.propagation_queue, c0.literals.getD k 0 = -l) ∨
        (c0.literals.getD k 0 = f ∧
          occCount ⟨c0.literals, c0.watched1, c0.watched0, c0.visit_count + 1⟩
            (lit_to_idx f) ≤ cnt) := by
      rcases hpre with ⟨k, hk, hv⟩ | hpr
      · exact Or.inl ⟨k, (mem_watchedOccs_swap c0 (c0.visit_count + 1) hone2 k).mpr hk, hv⟩
      · right
        intro k hk
        rw [occCount_swap c0 hone2 (lit_to_idx f) (c0.visit_count + 1)]
        exact hpr k ((mem_watchedOccs_swap c0 (c0.visit_count + 1) hone2 k).mp hk)
    exact update_clause_rest_si ⟨c0.literals, c0.watched1, c0.watched0, c0.visit_count + 1⟩
      cid st n f cnt hn hwf2 hcond hff hpre2
  next hcond =>
    have hslot1 : c0.literals.getD c0.watched1 0 = f := by
      rcases occ_watches c0 n ⟨hlen, hw0, hw1, hdist, hone, hlits⟩ f hf0 hocc with h | h
      · exact absurd h hcond
      · exact h
    exact update_clause_rest_si ⟨c0.literals, c0.watched0, c0.watched1, c0.visit_count + 1⟩
      cid st n f cnt hn ⟨hlen, hw0, hw1, hdist, hone, hlits⟩ hslot1 hff hpre

theorem siQ_after_set (n : Nat) (a : List (Option Bool)) (w : Int) (q : List Int)
    (c : Clause)
    (hn : a.length = n)
    (hw0 : w ≠ 0) (hwvar : lit_to_var w < n)
    (hwnone : a.getD (lit_to_var w) none = none)
    (hl0s : ∀ k ∈ watchedOccs c, c.literals.getD k 0 ≠ 0)
    (hpre : siQ a q c) :
    siQ (a.set (lit_to_var w) (some (decide (0 < w)))) (w :: q) c := by
  rcases hpre with ⟨k, hk, hv⟩ | h
  · exact Or.inl ⟨k, hk, value_mono_set a _ _ _ _ hwnone hv⟩
  · right
    intro k hk
    rcases h k hk with h2 | ⟨l2, hl2, he2⟩
    · by_cases hvv : lit_to_var (c.literals.getD k 0) = lit_to_var w
      · rcases int_same_var (hl0s k hk) hw0 hvv with he | he
        · refine Or.inl ?_
          rw [he, value_of_assigned_same a w (by rw [hn]; exact hwvar)]
          simp
        · exact Or.inr ⟨w, List.mem_cons_self w q, he⟩
      · rw [value_set_other a _ _ _ hvv]
        exact Or.inl h2
    · exact Or.inr ⟨l2, List.mem_cons_of_mem w hl2, he2⟩

theorem watched_lits_ne_zero {n : Nat} {c : Clause} (hwf : clauseWF n c) :
    ∀ k ∈ watchedOccs c, c.literals.getD k 0 ≠ 0 := by
  obtain ⟨hlen, hw0, hw1, -, -, hlits⟩ := hwf
  intro k hk
  have hklt : k < c.literals.length := by
    rcases mem_watchedOccs hk with rfl | rfl
    · exact hw0
    · exact hw1
  exact (hlits _ (getD_mem_of_lt hklt)).1

theorem processBatch_siQ (f : Int) (n : Nat) :
    ∀ (batch : List Nat) (clauses : List Clause) (st : PState),
    st.assignments.length = n →
    st.watch_lists.length = 2 * n →
    (∀ c ∈ clauses, clauseWF n c) →
    get_literal_value st.assignments f = some false →
    f ≠ 0 →
    (∀ cid2, (batch.count cid2) ≤ watchCount clauses cid2 (lit_to_idx f)) →
    (∀ cid c, clauses.get? cid = some c →
      siExc st.assignments st.propagation_queue f batch cid c) →
    (processBatch clauses f st false batch).2.2.2 = false →
    ∀ cid c, (processBatch clauses f st false batch).1.get? cid = some c →
      siQ (processBatch clauses f st false batch).2.1.assignments
        (processBatch clauses f st false batch).2.1.propagation_queue c := by
  intro batch
  induction batch with
  | nil =>
    intro clauses st hn hwl hcwf hff hf0 hcountLe hsi hfl cid c hg
    have hr : processBatch clauses f st false [] = (clauses, st, [], false) := by
      simp [processBatch]
    rw [hr] at hg ⊢
    rcases hsi cid c hg with h | h
    · exact Or.inl h
    · right
      intro k hk
      rcases h k hk with h2 | h2 | ⟨hfe, hle⟩
      · exact Or.inl h2
      · exact Or.inr h2
      · exfalso
        have hp := occ_pos_of_watch hk hfe
        simp only [List.count_nil] at hle
        omega
  | cons cid0 rest ih =>
    intro clauses st hn hwl hcwf hff hf0 hcountLe hsi hfl cid c hg
    have hwc0 : ¬ watchCount clauses cid0 (lit_to_idx f) = 0 := by
      have h1 := hcountLe cid0
      have h2 := count_cons_split rest cid0 cid0
      rw [if_pos rfl] at h2
      omega
    obtain ⟨c0, hg0⟩ : ∃ c0, clauses.get? cid0 = some c0 := by
      rcases hgg : clauses.get? cid0 with _ | c0
      · exfalso
        apply hwc0
        unfold watchCount
        rw [hgg]
      · exact ⟨c0, rfl⟩
    have hB := watchCount_get? clauses cid0 c0 (lit_to_idx f) hg0
    have hocc : 1 ≤ occCount c0 (lit_to_idx f) := by omega
    have hcidlt : cid0 < clauses.length := lt_of_get?_some hg0
    have hgetD : clauses.getD cid0 default = c0 := getD_of_get? hg0
    obtain ⟨u1, u2, u3, u4, u5, u6, u7, u8, u9, u10, u11, u12⟩ :=
      update_clause_main c0 f cid0 st n hn hwl (hcwf c0 (List.get?_mem hg0)) hocc hff hf0
    by_cases hcf : (update_clause c0 f cid0 st).2.2.2 = true
    · exfalso
      obtain ⟨hkeep, hstEq⟩ := u11 hcf
      have hr : processBatch clauses f st false (cid0 :: rest) =
          (clauses.set cid0 (update_clause c0 f cid0 st).1, st, cid0 :: rest, true) := by
        rw [processBatch_cons_false, hgetD, hcf, processBatch_conflict_true]
        rw [hstEq]
        simp [hkeep]
      rw [hr] at hfl
      simp at hfl
    · have hcf2 : (update_clause c0 f cid0 st).2.2.2 = false := by
        rcases Bool.eq_false_or_eq_true ((update_clause c0 f cid0 st).2.2.2) with h | h
        · exact absurd h hcf
        · exact h
      have hcnteq : (cid0 :: rest).count cid0 = rest.count cid0 + 1 := by
        have := count_cons_split rest cid0 cid0
        rw [if_pos rfl] at this
        omega
      have hsiStep := update_clause_si c0 f cid0 st n ((cid0 :: rest).count cid0)
        hn (hcwf c0 (List.get?_mem hg0)) hocc hff hf0
        (by
          rcases hsi cid0 c0 hg0 with h | h
          · exact Or.inl h
          · exact Or.inr h) hcf2
      have h1si : ∀ cid2 c2,
          (clauses.set cid0 (update_clause c0 f cid0 st).1).get? cid2 = some c2 →
          siExc (update_clause c0 f cid0 st).2.1.assignments
            (update_clause c0 f cid0 st).2.1.propagation_queue f rest cid2 c2 := by
        intro cid2 c2 hg2
        by_cases hc2 : cid2 = cid0
        · subst hc2
          rw [List.get?_set_eq_of_lt _ hcidlt] at hg2
          have hc2e : c2 = (update_clause c0 f cid2 st).1 := (Option.some.inj hg2).symm
          subst hc2e
          rcases hsiStep with h | h
          · exact Or.inl h
          · right
            intro k hk
            rcases h k hk with h2 | h2 | ⟨hfe, hle⟩
            · exact Or.inl h2
            · exact Or.inr (Or.inl h2)
            · refine Or.inr (Or.inr ⟨hfe, ?_⟩)
              omega
        · rw [List.get?_set_ne _ clauses (fun he => hc2 he.symm)] at hg2
          have hcnt2 : (cid0 :: rest).count cid2 = rest.count cid2 := by
            have := count_cons_split rest cid0 cid2
            rw [if_neg (fun he => hc2 he.symm)] at this
            omega
          have hwfc2 := hcwf c2 (List.get?_mem hg2)
          rcases u8 with ⟨ha, hq, -⟩ | ⟨w, hq, ha, -, hwnone, -, hw00, hwvar⟩
          · rw [ha, hq]
            rcases hsi cid2 c2 hg2 with h | h
            · exact Or.inl h
            · right
              intro k hk
              rcases h k hk with h2 | h2 | ⟨hfe, hle⟩
              · exact Or.inl h2
              · exact Or.inr (Or.inl h2)
              · exact Or.inr (Or.inr ⟨hfe, by omega⟩)
          · rw [ha, hq]
            have hl0s := watched_lits_ne_zero hwfc2
            rcases hsi cid2 c2 hg2 with ⟨k, hk, hv⟩ | h
            · exact Or.inl ⟨k, hk, value_mono_set st.assignments _ _ _ _ hwnone hv⟩
            · right
              intro k hk
              rcases h k hk with h2 | h2 | ⟨hfe, hle⟩
              · by_cases hvv : lit_to_var (c2.literals.getD k 0) = lit_to_var w
                · rcases int_same_var (hl0s k hk) hw00 hvv with he | he
                  · refine Or.inl ?_
                    rw [he, value_of_assigned_same st.assignments w
                      (by rw [hn]; exact hwvar)]
                    simp
                  · exact Or.inr (Or.inl ⟨w, List.mem_cons_self w _, he⟩)
                · rw [value_set_other st.assignments _ _ _ hvv]
                  exact Or.inl h2
              · obtain ⟨l2, hl2, he2⟩ := h2
                exact Or.inr (Or.inl ⟨l2, List.mem_cons_of_mem w hl2, he2⟩)
              · exact Or.inr (Or.inr ⟨hfe, by omega⟩)
      have h1cwf : ∀ c2 ∈ clauses.set cid0 (update_clause c0 f cid0 st).1, clauseWF n c2 := by
        intro c2 hc
        rcases List.mem_or_eq_of_mem_set hc with h | h
        · exact hcwf c2 h
        · rw [h]
          exact u1
      have h1ff : get_literal_value (update_clause c0 f cid0 st).2.1.assignments f =
          some false := by
        rcases u8 with ⟨ha, -, -⟩ | ⟨w, -, ha, -, hwnone, -, -, -⟩
        · rw [ha]
          exact hff
        · rw [ha]
          exact value_mono_set st.assignments (lit_to_var w) _ f false hwnone hff
      have h1countLe : ∀ cid2, (rest.count cid2) ≤
          watchCount (clauses.set cid0 (update_clause c0 f cid0 st).1) cid2
            (lit_to_idx f) := by
        intro cid2
        by_cases hc2 : cid2 = cid0
        · subst hc2
          rw [watchCount_set_self _ _ _ _ hcidlt]
          have hA := hcountLe cid2
          have hC := count_cons_split rest cid2 cid2
          rw [if_pos rfl] at hC
          have hu5 := u5
          by_cases hk : (update_clause c0 f cid2 st).2.2.1 = true
          · rw [if_pos hk] at hu5
            omega
          · rw [if_neg hk] at hu5
            omega
        · rw [watchCount_set_ne _ _ _ _ _ (fun he => hc2 he.symm)]
          have hA := hcountLe cid2
          have hC := count_cons_split rest cid0 cid2
          rw [if_neg (fun he => hc2 he.symm)] at hC
          omega
      rw [processBatch_cons_false, hgetD, hcf2] at hfl hg ⊢
      exact ih (clauses.set cid0 (update_clause c0 f cid0 st).1)
        ((update_clause c0 f cid0 st).2.1) u3 u4 h1cwf h1ff hf0 h1countLe h1si hfl cid c hg

theorem process_watch_list_siQ (s : Solver) (l : Int) (q : List Int) (n : Nat)
    (hn : s.assignments.length = n)
    (hwl : s.watch_lists.length = 2 * n)
    (hcwf : ∀ c ∈ s.clauses, clauseWF n c)
    (hbuck : ∀ i cid, ((s.watch_lists.getD i []).count cid) = watchCount s.clauses cid i)
    (hl0 : l ≠ 0)
    (hlval : get_literal_value s.assignments l = some true)
    (hsi : ∀ cid c, s.clauses.get? cid = some c → siQ s.assignments (l :: q) c) :
    (s.process_watch_list l q).2.2 = false →
    ∀ cid c, (s.process_watch_list l q).1.clauses.get? cid = some c →
      siQ (s.process_watch_list l q).1.assignments (s.process_watch_list l q).2.1 c := by
  have hffv : get_literal_value s.assignments (-l) = some false := by
    have h := get_literal_value_neg s.assignments l hl0 true hlval
    simpa using h
  have hfne : (-l) ≠ 0 := neg_ne_zero.mpr hl0
  have hcountLe : ∀ cid2, ((s.watch_lists.getD (lit_to_idx (-l)) []).count cid2) ≤
      watchCount s.clauses cid2 (lit_to_idx (-l)) :=
    fun cid2 => le_of_eq (hbuck (lit_to_idx (-l)) cid2)
  have hsi2 : ∀ cid c, s.clauses.get? cid = some c →
      siExc s.assignments q (-l) (s.watch_lists.getD (lit_to_idx (-l)) []) cid c := by
    intro cid c hg
    rcases hsi cid c hg with h | h
    · exact Or.inl h
    · right
      intro k hk
      rcases h k hk with h2 | ⟨l2, hl2, he2⟩
      · exact Or.inl h2
      · rcases List.mem_cons.mp hl2 with rfl | hl2b
        · refine Or.inr (Or.inr ⟨he2, ?_⟩)
          rw [hbuck (lit_to_idx (-l2)) cid, watchCount_get? s.clauses cid c _ hg]
        · exact Or.inr (Or.inl ⟨l2, hl2b, he2⟩)
  intro hfl cid c hg
  unfold Solver.process_watch_list at hfl hg ⊢
  simp only [] at hfl hg ⊢
  exact processBatch_siQ (-l) n (s.watch_lists.getD (lit_to_idx (-l)) []) s.clauses
    ⟨s.assignments, s.watch_lists.set (lit_to_idx (-l)) [], q, s.trail⟩
    hn (by rw [List.length_set]; exact hwl) hcwf hffv hfne hcountLe hsi2 hfl cid c hg

theorem propagateLoop_siQ (n : Nat) :
    ∀ (fuel : Nat) (s : Solver) (q : List Int) (s2 : Solver) (ok : Bool),
    s.assignments.length = n →
    s.watch_lists.length = 2 * n →
    (∀ c ∈ s.clauses, clauseWF n c) →
    (∀ i cid, ((s.watch_lists.getD i []).count cid) = watchCount s.clauses cid i) →
    (∀ x ∈ q, x ≠ 0 ∧ lit_to_var x < n ∧ get_literal_value s.assignments x = some true ∧
      lit_to_var x ∈ aboveSeg s.trail 0) →
    (∀ cid c, s.clauses.get? cid = some c → nafAt s.assignments c ∨ excusedQ c q) →
    (∀ cid c, s.clauses.get? cid = some c → siQ s.assignments q c) →
    Solver.propagateLoop fuel s q = some (s2, ok) →
    ok = true →
    ∀ cid c, s2.clauses.get? cid = some c → siAt s2.assignments c := by
  intro fuel
  induction fuel with
  | zero =>
    intro s q s2 ok _ _ _ _ _ _ _ hrun _
    simp [Solver.propagateLoop] at hrun
  | succ fuel ih =>
    intro s q s2 ok hn hwl hcwf hbuck hq hnafq hsi hrun hok
    rcases q with _ | ⟨l, q'⟩
    · unfold Solver.propagateLoop at hrun
      simp only [Option.some.injEq, Prod.mk.injEq] at hrun
      obtain ⟨rfl, rfl⟩ := hrun
      intro cid c hg
      rcases hsi cid c hg with h | h
      · exact Or.inl h
      · right
        intro k hk
        rcases h k hk with h2 | ⟨l2, hl2, -⟩
        · exact h2
        · exact absurd hl2 (List.not_mem_nil l2)
    · unfold Solver.propagateLoop at hrun
      simp only [] at hrun
      obtain ⟨hx0, hxvar, hxval, hxseg⟩ := hq l (List.mem_cons_self l q')
      have hq2 : ∀ x ∈ q', x ≠ 0 ∧ lit_to_var x < n ∧
          get_literal_value s.assignments x = some true ∧
          lit_to_var x ∈ aboveSeg s.trail 0 :=
        fun x hx => hq x (List.mem_cons_of_mem l hx)
      obtain ⟨w1, w2, w3, w4, w5, w6, w7, w8, w9, w10, w11⟩ :=
        process_watch_list_main s l q' n 0 hn hwl hcwf hbuck (Nat.zero_le _) hx0 hxvar hxval
          hxseg hq2 hnafq
      rcases (Bool.eq_false_or_eq_true ((s.process_watch_list l q').2.2)).symm with
        hflag | hflag
      · have hsi2 := process_watch_list_siQ s l q' n hn hwl hcwf hbuck hx0 hxval hsi hflag
        rw [if_neg (by rw [hflag]; simp)] at hrun
        exact ih (s.process_watch_list l q').1 (s.process_watch_list l q').2.1 s2 ok
          w1 w2 w3 w4 w6 (w7 hflag) hsi2 hrun hok
      · rw [if_pos hflag] at hrun
        simp only [Option.some.injEq, Prod.mk.injEq] at hrun
        obtain ⟨rfl, rfl⟩ := hrun
        exact absurd hok (by simp)

theorem assign_propagate_siQ (pfuel n : Nat) (s : Solver) (lit : Int) (s2 : Solver)
    (ok : Bool)
    (hn : s.assignments.length = n)
    (hwl : s.watch_lists.length = 2 * n)
    (hcwf : ∀ c ∈ s.clauses, clauseWF n c)
    (hbuck : ∀ i cid, ((s.watch_lists.getD i []).count cid) = watchCount s.clauses cid i)
    (hnaf : ∀ cid c, s.clauses.get? cid = some c → nafAt s.assignments c)
    (himp : ∀ v, s.assignments.getD v none ≠ none → v ∈ s.trail)
    (hl0 : lit ≠ 0) (hlvar : lit_to_var lit < n)
    (hsiA : ∀ cid c, s.clauses.get? cid = some c → siAt s.assignments c)
    (hsucc : (assign s.assignments s.trail lit).2.2 = true)
    (hrun : Solver.propagate pfuel
      { s with assignments := (assign s.assignments s.trail lit).1,
               trail := (assign s.assignments s.trail lit).2.1 } lit = some (s2, ok)) :
    ok = true → ∀ cid c, s2.clauses.get? cid = some c → siAt s2.assignments c := by
  have hsiQ0 : ∀ cid c, s.clauses.get? cid = some c → siQ s.assignments [] c := by
    intro cid c hg
    rcases hsiA cid c hg with h | h
    · exact Or.inl h
    · exact Or.inr (fun k hk => Or.inl (h k hk))
  unfold Solver.propagate at hrun
  rcases hv : s.assignments.getD (lit_to_var lit) none with _ | p
  · have hass : assign s.assignments s.trail lit =
        (s.assignments.set (lit_to_var lit) (some (decide (0 < lit))),
         lit_to_var lit :: s.trail, true) := by
      unfold assign
      simp only [hv]
    rw [hass] at hrun
    have hn1 : (s.assignments.set (lit_to_var lit) (some (decide (0 < lit)))).length = n := by
      rw [List.length_set]
      exact hn
    have hq1 : ∀ x ∈ [lit], x ≠ 0 ∧ lit_to_var x < n ∧
        get_literal_value (s.assignments.set (lit_to_var lit) (some (decide (0 < lit)))) x =
          some true ∧
        lit_to_var x ∈ aboveSeg (lit_to_var lit :: s.trail) 0 := by
      intro x hx
      rcases List.mem_singleton.mp hx with rfl
      refine ⟨hl0, hlvar, ?_, ?_⟩
      · exact value_of_assigned_same s.assignments x (by rw [hn]; exact hlvar)
      · rw [aboveSeg_zero]
        exact List.mem_cons_self _ _
    have hnafq1 : ∀ cid c, s.clauses.get? cid = some c →
        nafAt (s.assignments.set (lit_to_var lit) (some (decide (0 < lit)))) c ∨
        excusedQ c [lit] := by
      intro cid c hg
      exact naf_step_transfer c n (hcwf c (List.get?_mem hg)) s.assignments [] lit
        (Or.inl (hnaf cid c hg)) hv hl0 (by rw [hn]; exact hlvar)
    have hsi1 : ∀ cid c, s.clauses.get? cid = some c →
        siQ (s.assignments.set (lit_to_var lit) (some (decide (0 < lit)))) [lit] c := by
      intro cid c hg
      exact siQ_after_set n s.assignments lit [] c hn hl0 hlvar hv
        (watched_lits_ne_zero (hcwf c (List.get?_mem hg))) (hsiQ0 cid c hg)
    exact propagateLoop_siQ n pfuel
      { s with assignments := s.assignments.set (lit_to_var lit) (some (decide (0 < lit))),
               trail := lit_to_var lit :: s.trail } [lit] s2 ok
      hn1 hwl hcwf hbuck hq1 hnafq1 hsi1 hrun
  · have hass : assign s.assignments s.trail lit =
        (s.assignments, s.trail, p == decide (0 < lit)) := by
      unfold assign
      simp only [hv]
    rw [hass] at hrun hsucc
    have hpe : (p == decide (0 < lit)) = true := hsucc
    have hlval : get_literal_value s.assignments lit = some true := by
      unfold get_literal_value
      rw [hv]
      simp [hpe]
    have hq1 : ∀ x ∈ [lit], x ≠ 0 ∧ lit_to_var x < n ∧
        get_literal_value s.assignments x = some true ∧
        lit_to_var x ∈ aboveSeg s.trail 0 := by
      intro x hx
      rcases List.mem_singleton.mp hx with rfl
      refine ⟨hl0, hlvar, hlval, ?_⟩
      rw [aboveSeg_zero]
      exact himp _ (by rw [hv]; simp)
    have hnafq1 : ∀ cid c, s.clauses.get? cid = some c →
        nafAt s.assignments c ∨ excusedQ c [lit] :=
      fun cid c hg => Or.inl (hnaf cid c hg)
    have hsi1 : ∀ cid c, s.clauses.get? cid = some c → siQ s.assignments [lit] c := by
      intro cid c hg
      rcases hsiQ0 cid c hg with h | h
      · exact Or.inl h
      · right
        intro k hk
        rcases h k hk with h2 | ⟨l2, hl2, -⟩
        · exact Or.inl h2
        · exact absurd hl2 (List.not_mem_nil l2)
    exact propagateLoop_siQ n pfuel s [lit] s2 ok hn hwl hcwf hbuck hq1 hnafq1 hsi1 hrun

theorem buckets_of_bounded (wl : List (List Nat)) (cls : List Clause) (n : Nat)
    (hwl : wl.length = 2 * n)
    (hcwf : ∀ c ∈ cls, clauseWF n c)
    (hrange : ∀ b ∈ wl, ∀ x ∈ b, x < cls.length)
    (hb : ∀ i, i < wl.length → ∀ cid, cid < cls.length →
      ((wl.getD i []).count cid) = watchCount cls cid i) :
    ∀ i cid, ((wl.getD i []).count cid) = watchCount cls cid i := by
  intro i cid
  by_cases hi : i < wl.length
  · by_cases hcid : cid < cls.length
    · exact hb i hi cid hcid
    · have hrhs : watchCount cls cid i = 0 := by
        unfold watchCount
        rw [List.get?_eq_none.mpr (by omega)]
      have hmemwl : wl.getD i [] ∈ wl := by
        rw [List.getD_eq_getElem wl [] hi]
        exact List.getElem_mem hi
      have hlhs : ((wl.getD i []).count cid) = 0 := by
        rw [List.count_eq_zero]
        intro hmem
        have hx := hrange (wl.getD i []) hmemwl cid hmem
        omega
      rw [hlhs, hrhs]
  · have hb1 : wl.getD i [] = [] := List.getD_eq_default wl [] (by omega)
    have hrhs : watchCount cls cid i = 0 := by
      unfold watchCount
      rcases hg : cls.get? cid with _ | c
      · rfl
      · show occCount c i = 0
        obtain ⟨hlen, hw0, hw1, -, -, hlits⟩ := hcwf c (List.get?_mem hg)
        unfold occCount
        rw [List.countP_eq_zero]
        intro k hk
        have hklt : k < c.literals.length := by
          rcases mem_watchedOccs hk with rfl | rfl
          · exact hw0
          · exact hw1
        have hvar := (hlits _ (getD_mem_of_lt hklt)).2
        have hidx := lit_to_idx_lt (c.literals.getD k 0) n hvar
        simp only [decide_eq_true_eq]
        omega
    rw [hb1, hrhs]
    rfl

/-- **C5.** After every call to `propagate` on a state satisfying the solver
invariants (watch buckets match the clauses' watch slots, every clause has a
non-false watched literal, and the trigger literal was just assigned true),
the watch-index invariant holds again — every clause occurs in the watch
bucket of literal `l` exactly as often as `l` occupies one of its watch slots,
so each drained batch has been spliced back — and on a non-conflict return
every clause with at least two literals has watch indices that do not both
reference false literals, while a conflict return exhibits a clause whose
literals are all false at the conflict point. -/
theorem propagate_watch_invariant (fuel pos : Nat) (s : Solver) (lit : Int)
    (s2 : Solver) (ok : Bool)
    (hwl : s.watch_lists.length = 2 * s.assignments.length)
    (hcwf : ∀ c ∈ s.clauses, clauseWF s.assignments.length c)
    (hbuck : ∀ i cid, ((s.watch_lists.getD i []).count cid) = watchCount s.clauses cid i)
    (hpos : pos ≤ s.trail.length)
    (hlit0 : lit ≠ 0) (hlitvar : lit_to_var lit < s.assignments.length)
    (hlitval : get_literal_value s.assignments lit = some true)
    (hlitseg : lit_to_var lit ∈ aboveSeg s.trail pos)
    (hnaf : ∀ c ∈ s.clauses, nafAt s.assignments c)
    (hrun : Solver.propagate fuel s lit = some (s2, ok)) :
    (∀ i cid, ((s2.watch_lists.getD i []).count cid) = watchCount s2.clauses cid i) ∧
    (ok = true → ∀ c ∈ s2.clauses, 2 ≤ c.literals.length →
      ¬(get_literal_value s2.assignments (c.literals.getD c.watched0 0) = some false ∧
        get_literal_value s2.assignments (c.literals.getD c.watched1 0) = some false)) ∧
    (ok = false → ∃ cid c, s2.clauses.get? cid = some c ∧
      ∀ x ∈ c.literals, get_literal_value s2.assignments x = some false) := by
  unfold Solver.propagate at hrun
  have hq1 : ∀ x ∈ [lit], x ≠ 0 ∧ lit_to_var x < s.assignments.length ∧
      get_literal_value s.assignments x = some true ∧
      lit_to_var x ∈ aboveSeg s.trail pos := by
    intro x hx
    rcases List.mem_singleton.mp hx with rfl
    exact ⟨hlit0, hlitvar, hlitval, hlitseg⟩
  obtain ⟨t1, t2, t3, t4, t5, t6, t7, t8, t9, t10⟩ :=
    propagateLoop_watch s.assignments.length pos fuel s [lit] s2 ok rfl hwl hcwf hbuck hpos
      hq1 (fun cid c hg => Or.inl (hnaf c (List.get?_mem hg))) hrun
  refine ⟨t4, ?_, ?_⟩
  · intro hok c hc h2
    obtain ⟨cid, hg⟩ := List.mem_iff_get?.mp hc
    obtain ⟨k, hk, hv⟩ := t9 hok cid c hg
    rintro ⟨hb0, hb1⟩
    rcases mem_watchedOccs hk with rfl | rfl
    · exact hv hb0
    · exact hv hb1
  · intro hok
    exact (t10 hok).1

theorem nafAt_anti {a0 a : List (Option Bool)} (c : Clause)
    (hext : ∀ v, a0.getD v none ≠ none → a.getD v none = a0.getD v none)
    (h : nafAt a c) : nafAt a0 c := by
  obtain ⟨k, hk, hv⟩ := h
  exact ⟨k, hk, value_ext_ne_false a a0 _ hext hv⟩

theorem assignFrame_ext {a tr a2 tr2} (hf : assignFrame a tr a2 tr2) :
    ∀ v, a.getD v none ≠ none → a2.getD v none = a.getD v none := by
  obtain ⟨dvs, -, -, hnone, hkeep, -⟩ := hf
  intro v hv
  by_cases hd : v ∈ dvs
  · exact absurd (hnone v hd) hv
  · exact hkeep v hd

theorem himp_frame {a tr a2 tr2} (hf : assignFrame a tr a2 tr2)
    (himp : ∀ v, a.getD v none ≠ none → v ∈ tr) :
    ∀ v, a2.getD v none ≠ none → v ∈ tr2 := by
  obtain ⟨dvs, rfl, -, -, hkeep, -⟩ := hf
  intro v hv
  by_cases hd : v ∈ dvs
  · exact List.mem_append.mpr (Or.inl hd)
  · rw [hkeep v hd] at hv
    exact List.mem_append.mpr (Or.inr (himp v hv))

theorem frames_length (n : Nat) (cls : List Clause) :
    ∀ (stack : List Decision) a tr lim, frames n cls stack a tr lim →
    lim.length = stack.length := by
  intro stack
  induction stack with
  | nil =>
    intro a tr lim h
    rw [h]
    rfl
  | cons dec rest ih =>
    intro a tr lim h
    obtain ⟨a0, tr0, lim0, hlim, -, -, -, hrec⟩ := h
    rw [hlim]
    simp [ih a0 tr0 lim0 hrec]

theorem frames_extend (n : Nat) (cls : List Clause) {a tr a2 tr2}
    (hf : assignFrame a tr a2 tr2) :
    ∀ (stack : List Decision) lim, frames n cls stack a tr lim →
    frames n cls stack a2 tr2 lim := by
  intro stack lim h
  cases stack with
  | nil => exact h
  | cons dec rest =>
    obtain ⟨a0, tr0, lim0, hlim, hf0, hfresh, hnaf, hrec⟩ := h
    exact ⟨a0, tr0, lim0, hlim, assignFrame_trans hf0 hf, hfresh, hnaf, hrec⟩

theorem frames_reclause (n : Nat) (cls cls2 : List Clause) :
    ∀ (stack : List Decision) a tr lim, frames n cls stack a tr lim →
    (∀ cid c, cls2.get? cid = some c → nafAt a c) →
    frames n cls2 stack a tr lim := by
  intro stack
  induction stack with
  | nil =>
    intro a tr lim h _
    exact h
  | cons dec rest ih =>
    intro a tr lim h hnew
    obtain ⟨a0, tr0, lim0, hlim, hf0, hfresh, hnaf, hrec⟩ := h
    have hnaf0 : ∀ cid c, cls2.get? cid = some c → nafAt a0 c :=
      fun cid c hg => nafAt_anti c (assignFrame_ext hf0) (hnew cid c hg)
    exact ⟨a0, tr0, lim0, hlim, hf0, hfresh, hnaf0, ih a0 tr0 lim0 hrec hnaf0⟩

theorem frames_push (n : Nat) (cls : List Clause) (stack : List Decision) (dec : Decision)
    (a : List (Option Bool)) (tr lim : List Nat)
    (h : frames n cls stack a tr lim)
    (hfresh : decVarsFresh n a dec)
    (hnaf : ∀ cid c, cls.get? cid = some c → nafAt a c) :
    frames n cls (dec :: stack) a tr (lim ++ [tr.length]) :=
  ⟨a, tr, lim, rfl, assignFrame_refl a tr, hfresh, hnaf, h⟩

theorem bool_ne_iff {x y : Bool} (h : ¬ x = y) : x = !y := by
  rcases x with _ | _ <;> rcases y with _ | _ <;> simp at h ⊢

theorem stackDead_of_dead {cls : List Clause} {a : List (Option Bool)}
    (h : ∀ t, satStore t cls → compat t a → False) :
    ∀ stack, stackDead cls a stack := by
  intro stack
  cases stack with
  | nil => exact h
  | cons dec rest => exact fun t hs _ hc => h t hs hc

theorem framesC_length (n : Nat) (cls : List Clause) (aB : List (Option Bool)) :
    ∀ (stack : List Decision) a tr lim, framesC n cls aB stack a tr lim →
    lim.length = stack.length := by
  intro stack
  induction stack with
  | nil =>
    intro a tr lim h
    rw [h.1]
    rfl
  | cons dec rest ih =>
    intro a tr lim h
    obtain ⟨a0, tr0, lim0, hlim, -, -, -, -, -, hrec⟩ := h
    rw [hlim]
    simp [ih a0 tr0 lim0 hrec]

theorem framesC_reclause (n : Nat) (cls cls2 : List Clause) (aB : List (Option Bool))
    (hlits : litsEq cls cls2) :
    ∀ (stack : List Decision) a tr lim, framesC n cls aB stack a tr lim →
    (∀ cid c, cls2.get? cid = some c → nafAt a c) →
    framesC n cls2 aB stack a tr lim := by
  intro stack
  induction stack with
  | nil =>
    intro a tr lim h _
    exact h
  | cons dec rest ih =>
    intro a tr lim h hnew
    obtain ⟨a0, tr0, lim0, hlim, hf0, hfresh, hnaf, hrefut, hactive, hrec⟩ := h
    have hnaf0 : ∀ cid c, cls2.get? cid = some c → nafAt a0 c :=
      fun cid c hg => nafAt_anti c (assignFrame_ext hf0) (hnew cid c hg)
    refine ⟨a0, tr0, lim0, hlim, hf0, hfresh, hnaf0, ?_, ?_, ih a0 tr0 lim0 hrec hnaf0⟩
    · intro t hs hr hc
      exact hrefut t (satStore_litsEq (litsEq_symm hlits) t hs) hr hc
    · intro t hs ha hc
      exact hactive t (satStore_litsEq (litsEq_symm hlits) t hs) ha hc

theorem assign_propagate_master (pfuel n : Nat) (b : List (Option Bool)) (s : Solver)
    (lit : Int) (s2 : Solver) (ok : Bool)
    (hn : s.assignments.length = n)
    (hwl : s.watch_lists.length = 2 * n)
    (hcwf : ∀ c ∈ s.clauses, clauseWF n c)
    (hbuck : ∀ i cid, ((s.watch_lists.getD i []).count cid) = watchCount s.clauses cid i)
    (hnaf : ∀ cid c, s.clauses.get? cid = some c → nafAt s.assignments c)
    (himp : ∀ v, s.assignments.getD v none ≠ none → v ∈ s.trail)
    (hl0 : lit ≠ 0) (hlvar : lit_to_var lit < n)
    (hext : ∀ v, b.getD v none ≠ none → s.assignments.getD v none = b.getD v none)
    (hnaf0 : ∀ cid c, s.clauses.get? cid = some c → nafAt b c)
    (hsucc : (assign s.assignments s.trail lit).2.2 = true)
    (hrun : Solver.propagate pfuel
      { s with assignments := (assign s.assignments s.trail lit).1,
               trail := (assign s.assignments s.trail lit).2.1 } lit = some (s2, ok)) :
    s2.assignments.length = n ∧
    s2.watch_lists.length = 2 * n ∧
    (∀ c ∈ s2.clauses, clauseWF n c) ∧
    (∀ i cid, ((s2.watch_lists.getD i []).count cid) = watchCount s2.clauses cid i) ∧
    (∀ v, s2.assignments.getD v none ≠ none → v ∈ s2.trail) ∧
    (ok = true → ∀ cid c, s2.clauses.get? cid = some c → nafAt s2.assignments c) ∧
    (∀ v, b.getD v none ≠ none → s2.assignments.getD v none = b.getD v none) ∧
    (∀ cid c, s2.clauses.get? cid = some c → nafAt b c) ∧
    s2.trail_lim = s.trail_lim ∧
    assignFrame s.assignments s.trail s2.assignments s2.trail ∧
    litsEq s.clauses s2.clauses ∧
    s2.clauses.length = s.clauses.length ∧
    s2.pending_implications = s.pending_implications ∧
    s2.implications = s.implications := by
  unfold Solver.propagate at hrun
  rcases hv : s.assignments.getD (lit_to_var lit) none with _ | p
  · have hass : assign s.assignments s.trail lit =
        (s.assignments.set (lit_to_var lit) (some (decide (0 < lit))),
         lit_to_var lit :: s.trail, true) := by
      unfold assign
      simp only [hv]
    rw [hass] at hrun
    have hn1 : (s.assignments.set (lit_to_var lit) (some (decide (0 < lit)))).length = n := by
      rw [List.length_set]
      exact hn
    have hq1 : ∀ x ∈ [lit], x ≠ 0 ∧ lit_to_var x < n ∧
        get_literal_value (s.assignments.set (lit_to_var lit) (some (decide (0 < lit)))) x =
          some true ∧
        lit_to_var x ∈ aboveSeg (lit_to_var lit :: s.trail) 0 := by
      intro x hx
      rcases List.mem_singleton.mp hx with rfl
      refine ⟨hl0, hlvar, ?_, ?_⟩
      · exact value_of_assigned_same s.assignments x (by rw [hn]; exact hlvar)
      · rw [aboveSeg_zero]
        exact List.mem_cons_self _ _
    have hnafq1 : ∀ cid c, s.clauses.get? cid = some c →
        nafAt (s.assignments.set (lit_to_var lit) (some (decide (0 < lit)))) c ∨
        excusedQ c [lit] := by
      intro cid c hg
      exact naf_step_transfer c n (hcwf c (List.get?_mem hg)) s.assignments [] lit
        (Or.inl (hnaf cid c hg)) hv hl0 (by rw [hn]; exact hlvar)
    have hext1 : ∀ v, b.getD v none ≠ none →
        (s.assignments.set (lit_to_var lit) (some (decide (0 < lit)))).getD v none =
          b.getD v none := by
      intro v hbv
      have hvne : v ≠ lit_to_var lit := by
        intro he
        have h2 := hext v hbv
        rw [he, hv] at h2
        rw [he] at hbv
        exact hbv h2.symm
      rw [getD_set_ne _ _ _ _ _ (fun he => hvne he.symm)]
      exact hext v hbv
    obtain ⟨t1, t2, t3, t4, t5, t6, t7, t8, t9, t10⟩ :=
      propagateLoop_watch n 0 pfuel
        { s with assignments := s.assignments.set (lit_to_var lit) (some (decide (0 < lit))),
                 trail := lit_to_var lit :: s.trail } [lit] s2 ok
        hn1 hwl hcwf hbuck (Nat.zero_le _) hq1 hnafq1 hrun
    obtain ⟨e1, e2⟩ :=
      propagateLoop_naf0 n b pfuel
        { s with assignments := s.assignments.set (lit_to_var lit) (some (decide (0 < lit))),
                 trail := lit_to_var lit :: s.trail } [lit] s2 ok
        hn1 hwl hcwf hbuck hq1 hnafq1 hext1 hnaf0 hrun
    obtain ⟨hfr, hlim, hpnd, hmpl⟩ :=
      propagateLoop_frame pfuel
        { s with assignments := s.assignments.set (lit_to_var lit) (some (decide (0 < lit))),
                 trail := lit_to_var lit :: s.trail } [lit] s2 ok hrun
    have hfa := assign_frame s.assignments s.trail lit
    rw [hass] at hfa
    have hframe := assignFrame_trans hfa hfr
    refine ⟨t1, t2, t3, t4, himp_frame hframe himp, t9, e1, e2, hlim, hframe, t6, t7,
      hpnd, hmpl⟩
  · have hass : assign s.assignments s.trail lit =
        (s.assignments, s.trail, p == decide (0 < lit)) := by
      unfold assign
      simp only [hv]
    rw [hass] at hrun hsucc
    have hpe : (p == decide (0 < lit)) = true := hsucc
    have hlval : get_literal_value s.assignments lit = some true := by
      unfold get_literal_value
      rw [hv]
      simp [hpe]
    have hq1 : ∀ x ∈ [lit], x ≠ 0 ∧ lit_to_var x < n ∧
        get_literal_value s.assignments x = some true ∧
        lit_to_var x ∈ aboveSeg s.trail 0 := by
      intro x hx
      rcases List.mem_singleton.mp hx with rfl
      refine ⟨hl0, hlvar, hlval, ?_⟩
      rw [aboveSeg_zero]
      exact himp _ (by rw [hv]; simp)
    have hnafq1 : ∀ cid c, s.clauses.get? cid = some c →
        nafAt s.assignments c ∨ excusedQ c [lit] :=
      fun cid c hg => Or.inl (hnaf cid c hg)
    obtain ⟨t1, t2, t3, t4, t5, t6, t7, t8, t9, t10⟩ :=
      propagateLoop_watch n 0 pfuel s [lit] s2 ok hn hwl hcwf hbuck (Nat.zero_le _)
        hq1 hnafq1 hrun
    obtain ⟨e1, e2⟩ :=
      propagateLoop_naf0 n b pfuel s [lit] s2 ok hn hwl hcwf hbuck hq1 hnafq1 hext hnaf0 hrun
    obtain ⟨hfr, hlim, hpnd, hmpl⟩ := propagateLoop_frame pfuel s [lit] s2 ok hrun
    refine ⟨t1, t2, t3, t4, himp_frame hfr himp, t9, e1, e2, hlim, hfr, t6, t7, hpnd, hmpl⟩

theorem make_lit_ne_zero (var : Nat) (p : Bool) (h : 1 ≤ var) : make_lit var p ≠ 0 := by
  unfold make_lit
  split_ifs <;> omega

theorem assign_propagate_model (pfuel n : Nat) (t : List Bool) (s : Solver)
    (lit : Int) (s2 : Solver) (ok : Bool)
    (hn : s.assignments.length = n)
    (hwl : s.watch_lists.length = 2 * n)
    (hcwf : ∀ c ∈ s.clauses, clauseWF n c)
    (hbuck : ∀ i cid, ((s.watch_lists.getD i []).count cid) = watchCount s.clauses cid i)
    (hnaf : ∀ cid c, s.clauses.get? cid = some c → nafAt s.assignments c)
    (himp : ∀ v, s.assignments.getD v none ≠ none → v ∈ s.trail)
    (hl0 : lit ≠ 0) (hlvar : lit_to_var lit < n)
    (hsat : ∀ cid c, s.clauses.get? cid = some c → satClause t c)
    (hcompat : compat t s.assignments)
    (htlit : t.getD (lit_to_var lit) false = decide (0 < lit))
    (hsucc : (assign s.assignments s.trail lit).2.2 = true)
    (hrun : Solver.propagate pfuel
      { s with assignments := (assign s.assignments s.trail lit).1,
               trail := (assign s.assignments s.trail lit).2.1 } lit = some (s2, ok)) :
    compat t s2.assignments ∧
    (∀ cid c, s2.clauses.get? cid = some c → satClause t c) ∧
    (ok = false → ∃ cid c, s2.clauses.get? cid = some c ∧
      ∀ x ∈ c.literals, get_literal_value s2.assignments x = some false) := by
  unfold Solver.propagate at hrun
  rcases hv : s.assignments.getD (lit_to_var lit) none with _ | p
  · have hass : assign s.assignments s.trail lit =
        (s.assignments.set (lit_to_var lit) (some (decide (0 < lit))),
         lit_to_var lit :: s.trail, true) := by
      unfold assign
      simp only [hv]
    rw [hass] at hrun
    have hn1 : (s.assignments.set (lit_to_var lit) (some (decide (0 < lit)))).length = n := by
      rw [List.length_set]
      exact hn
    have hq1 : ∀ x ∈ [lit], x ≠ 0 ∧ lit_to_var x < n ∧
        get_literal_value (s.assignments.set (lit_to_var lit) (some (decide (0 < lit)))) x =
          some true ∧
        lit_to_var x ∈ aboveSeg (lit_to_var lit :: s.trail) 0 := by
      intro x hx
      rcases List.mem_singleton.mp hx with rfl
      refine ⟨hl0, hlvar, ?_, ?_⟩
      · exact value_of_assigned_same s.assignments x (by rw [hn]; exact hlvar)
      · rw [aboveSeg_zero]
        exact List.mem_cons_self _ _
    have hnafq1 : ∀ cid c, s.clauses.get? cid = some c →
        nafAt (s.assignments.set (lit_to_var lit) (some (decide (0 < lit)))) c ∨
        excusedQ c [lit] := by
      intro cid c hg
      exact naf_step_transfer c n (hcwf c (List.get?_mem hg)) s.assignments [] lit
        (Or.inl (hnaf cid c hg)) hv hl0 (by rw [hn]; exact hlvar)
    have hcompat1 : compat t
        (s.assignments.set (lit_to_var lit) (some (decide (0 < lit)))) :=
      compat_set hcompat htlit
    obtain ⟨t1, t2, t3, t4, t5, t6, t7, t8, t9, t10⟩ :=
      propagateLoop_watch n 0 pfuel
        { s with assignments := s.assignments.set (lit_to_var lit) (some (decide (0 < lit))),
                 trail := lit_to_var lit :: s.trail } [lit] s2 ok
        hn1 hwl hcwf hbuck (Nat.zero_le _) hq1 hnafq1 hrun
    obtain ⟨e1, e2⟩ :=
      propagateLoop_compat n t pfuel
        { s with assignments := s.assignments.set (lit_to_var lit) (some (decide (0 < lit))),
                 trail := lit_to_var lit :: s.trail } [lit] s2 ok
        hn1 hwl hcwf hbuck hq1 hnafq1 hcompat1 hsat hrun
    exact ⟨e1, e2, fun hok => (t10 hok).1⟩
  · have hass : assign s.assignments s.trail lit =
        (s.assignments, s.trail, p == decide (0 < lit)) := by
      unfold assign
      simp only [hv]
    rw [hass] at hrun hsucc
    have hpe : (p == decide (0 < lit)) = true := hsucc
    have hlval : get_literal_value s.assignments lit = some true := by
      unfold get_literal_value
      rw [hv]
      simp [hpe]
    have hq1 : ∀ x ∈ [lit], x ≠ 0 ∧ lit_to_var x < n ∧
        get_literal_value s.assignments x = some true ∧
        lit_to_var x ∈ aboveSeg s.trail 0 := by
      intro x hx
      rcases List.mem_singleton.mp hx with rfl
      refine ⟨hl0, hlvar, hlval, ?_⟩
      rw [aboveSeg_zero]
      exact himp _ (by rw [hv]; simp)
    have hnafq1 : ∀ cid c, s.clauses.get? cid = some c →
        nafAt s.assignments c ∨ excusedQ c [lit] :=
      fun cid c hg => Or.inl (hnaf cid c hg)
    obtain ⟨t1, t2, t3, t4, t5, t6, t7, t8, t9, t10⟩ :=
      propagateLoop_watch n 0 pfuel s [lit] s2 ok hn hwl hcwf hbuck (Nat.zero_le _)
        hq1 hnafq1 hrun
    obtain ⟨e1, e2⟩ :=
      propagateLoop_compat n t pfuel s [lit] s2 ok hn hwl hcwf hbuck hq1 hnafq1
        hcompat hsat hrun
    exact ⟨e1, e2, fun hok => (t10 hok).1⟩

theorem assign_propagate_sub (pfuel n : Nat) (B : List (Option Bool)) (s : Solver)
    (lit : Int) (s2 : Solver) (ok : Bool)
    (hn : s.assignments.length = n)
    (hwl : s.watch_lists.length = 2 * n)
    (hcwf : ∀ c ∈ s.clauses, clauseWF n c)
    (hbuck : ∀ i cid, ((s.watch_lists.getD i []).count cid) = watchCount s.clauses cid i)
    (hnaf : ∀ cid c, s.clauses.get? cid = some c → nafAt s.assignments c)
    (himp : ∀ v, s.assignments.getD v none ≠ none → v ∈ s.trail)
    (hl0 : lit ≠ 0) (hlvar : lit_to_var lit < n)
    (hBsub : tabLe s.assignments B)
    (hBlen : B.length = n)
    (hBlit : get_literal_value B lit = some true)
    (hBclosed : ∀ cid c, s.clauses.get? cid = some c → clsClosed B c)
    (hsucc : (assign s.assignments s.trail lit).2.2 = true)
    (hrun : Solver.propagate pfuel
      { s with assignments := (assign s.assignments s.trail lit).1,
               trail := (assign s.assignments s.trail lit).2.1 } lit = some (s2, ok)) :
    ok = true ∧ tabLe s2.assignments B := by
  unfold Solver.propagate at hrun
  rcases hv : s.assignments.getD (lit_to_var lit) none with _ | p
  · have hass : assign s.assignments s.trail lit =
        (s.assignments.set (lit_to_var lit) (some (decide (0 < lit))),
         lit_to_var lit :: s.trail, true) := by
      unfold assign
      simp only [hv]
    rw [hass] at hrun
    have hn1 : (s.assignments.set (lit_to_var lit) (some (decide (0 < lit)))).length = n := by
      rw [List.length_set]
      exact hn
    have hq1 : ∀ x ∈ [lit], x ≠ 0 ∧ lit_to_var x < n ∧
        get_literal_value (s.assignments.set (lit_to_var lit) (some (decide (0 < lit)))) x =
          some true ∧
        lit_to_var x ∈ aboveSeg (lit_to_var lit :: s.trail) 0 := by
      intro x hx
      rcases List.mem_singleton.mp hx with rfl
      refine ⟨hl0, hlvar, ?_, ?_⟩
      · exact value_of_assigned_same s.assignments x (by rw [hn]; exact hlvar)
      · rw [aboveSeg_zero]
        exact List.mem_cons_self _ _
    have hnafq1 : ∀ cid c, s.clauses.get? cid = some c →
        nafAt (s.assignments.set (lit_to_var lit) (some (decide (0 < lit)))) c ∨
        excusedQ c [lit] := by
      intro cid c hg
      exact naf_step_transfer c n (hcwf c (List.get?_mem hg)) s.assignments [] lit
        (Or.inl (hnaf cid c hg)) hv hl0 (by rw [hn]; exact hlvar)
    have hBsub1 : tabLe (s.assignments.set (lit_to_var lit) (some (decide (0 < lit)))) B :=
      tabLe_set hBsub (value_true_getD hBlit) (by omega)
    exact propagateLoop_sub n B pfuel
      { s with assignments := s.assignments.set (lit_to_var lit) (some (decide (0 < lit))),
               trail := lit_to_var lit :: s.trail } [lit] s2 ok
      hn1 hwl hcwf hbuck hq1 hnafq1 hBsub1 hBlen hBclosed hrun
  · have hass : assign s.assignments s.trail lit =
        (s.assignments, s.trail, p == decide (0 < lit)) := by
      unfold assign
      simp only [hv]
    rw [hass] at hrun hsucc
    have hpe : (p == decide (0 < lit)) = true := hsucc
    have hlval : get_literal_value s.assignments lit = some true := by
      unfold get_literal_value
      rw [hv]
      simp [hpe]
    have hq1 : ∀ x ∈ [lit], x ≠ 0 ∧ lit_to_var x < n ∧
        get_literal_value s.assignments x = some true ∧
        lit_to_var x ∈ aboveSeg s.trail 0 := by
      intro x hx
      rcases List.mem_singleton.mp hx with rfl
      refine ⟨hl0, hlvar, hlval, ?_⟩
      rw [aboveSeg_zero]
      exact himp _ (by rw [hv]; simp)
    have hnafq1 : ∀ cid c, s.clauses.get? cid = some c →
        nafAt s.assignments c ∨ excusedQ c [lit] :=
      fun cid c hg => Or.inl (hnaf cid c hg)
    exact propagateLoop_sub n B pfuel s [lit] s2 ok hn hwl hcwf hbuck hq1 hnafq1
      hBsub hBlen hBclosed hrun

theorem assignPairLits_model (pfuel n : Nat) (t : List Bool) (s : Solver) (p0 p1 : Bool)
    (var1 var2 : Nat) (s2 : Solver) (ok : Bool)
    (hn : s.assignments.length = n)
    (hwl : s.watch_lists.length = 2 * n)
    (hcwf : ∀ c ∈ s.clauses, clauseWF n c)
    (hbuck : ∀ i cid, ((s.watch_lists.getD i []).count cid) = watchCount s.clauses cid i)
    (hnaf : ∀ cid c, s.clauses.get? cid = some c → nafAt s.assignments c)
    (himp : ∀ v, s.assignments.getD v none ≠ none → v ∈ s.trail)
    (hv1 : 1 ≤ var1 ∧ var1 < n)
    (hv2 : 1 ≤ var2 ∧ var2 < n)
    (hsat : ∀ cid c, s.clauses.get? cid = some c → satClause t c)
    (hcompat : compat t s.assignments)
    (ht1 : t.getD var1 false = p0)
    (ht2 : t.getD var2 false = p1)
    (hrun : Solver.assignPairLits pfuel s p0 p1 var1 var2 = some (s2, ok)) :
    compat t s2.assignments ∧ (ok = false → False) := by
  have hl10 : make_lit var1 p0 ≠ 0 := make_lit_ne_zero var1 p0 hv1.1
  have hl1v : lit_to_var (make_lit var1 p0) < n := by
    rw [lit_to_var_make_lit]
    exact hv1.2
  have hl20 : make_lit var2 p1 ≠ 0 := make_lit_ne_zero var2 p1 hv2.1
  have hl2v : lit_to_var (make_lit var2 p1) < n := by
    rw [lit_to_var_make_lit]
    exact hv2.2
  have htlit1 : t.getD (lit_to_var (make_lit var1 p0)) false =
      decide (0 < make_lit var1 p0) := by
    rw [lit_to_var_make_lit, polarity_make_lit var1 p0 hv1.1]
    exact ht1
  have htlit2 : t.getD (lit_to_var (make_lit var2 p1)) false =
      decide (0 < make_lit var2 p1) := by
    rw [lit_to_var_make_lit, polarity_make_lit var2 p1 hv2.1]
    exact ht2
  have hselfext : ∀ v, s.assignments.getD v none ≠ none →
      s.assignments.getD v none = s.assignments.getD v none := fun v _ => rfl
  unfold Solver.assignPairLits at hrun
  simp only [] at hrun
  by_cases h1 : (assign s.assignments s.trail (make_lit var1 p0)).2.2 = true
  · rw [if_pos h1] at hrun
    split at hrun
    · exact absurd hrun (by simp)
    next s2a heq =>
      obtain ⟨e1, e2, e3⟩ :=
        assign_propagate_model pfuel n t s (make_lit var1 p0) s2a false
          hn hwl hcwf hbuck hnaf himp hl10 hl1v hsat hcompat htlit1 h1 heq
      simp only [Option.some.injEq, Prod.mk.injEq] at hrun
      obtain ⟨rfl, rfl⟩ := hrun
      refine ⟨e1, fun _ => ?_⟩
      obtain ⟨cid, c, hg, hall⟩ := e3 rfl
      exact unsat_of_conflict e1 hall (e2 cid c hg)
    next s2a heq =>
      obtain ⟨m1, m2, m3, m4, m5, m6, m7, m8, m9, m10, m11, m12, m13, m14⟩ :=
        assign_propagate_master pfuel n s.assignments s (make_lit var1 p0) s2a true
          hn hwl hcwf hbuck hnaf himp hl10 hl1v hselfext hnaf h1 heq
      obtain ⟨e1, e2, e3⟩ :=
        assign_propagate_model pfuel n t s (make_lit var1 p0) s2a true
          hn hwl hcwf hbuck hnaf himp hl10 hl1v hsat hcompat htlit1 h1 heq
      try simp only [] at hrun
      by_cases h2 : (assign s2a.assignments s2a.trail (make_lit var2 p1)).2.2 = true
      · rw [if_pos h2] at hrun
        split at hrun
        · exact absurd hrun (by simp)
        next s4 ok4 heq2 =>
          obtain ⟨k1, k2, k3⟩ :=
            assign_propagate_model pfuel n t s2a (make_lit var2 p1) s4 ok4
              m1 m2 m3 m4 (m6 rfl) m5 hl20 hl2v e2 e1 htlit2 h2 heq2
          simp only [Option.some.injEq, Prod.mk.injEq] at hrun
          obtain ⟨rfl, rfl⟩ := hrun
          refine ⟨k1, fun hok => ?_⟩
          obtain ⟨cid, c, hg, hall⟩ := k3 hok
          exact unsat_of_conflict k1 hall (k2 cid c hg)
      · rw [if_neg h2] at hrun
        have hfail : (assign s2a.assignments s2a.trail (make_lit var2 p1)).2.2 = false := by
          rcases Bool.eq_false_or_eq_true
            ((assign s2a.assignments s2a.trail (make_lit var2 p1)).2.2) with h | h
          · exact absurd h h2
          · exact h
        obtain ⟨ha, ht⟩ := assign_fail_eq s2a.assignments s2a.trail (make_lit var2 p1) hfail
        simp only [Option.some.injEq, Prod.mk.injEq] at hrun
        obtain ⟨rfl, rfl⟩ := hrun
        simp only [ha]
        exact ⟨e1, fun _ => compat_assign_fail hfail e1 htlit2⟩
  · rw [if_neg h1] at hrun
    have hfail : (assign s.assignments s.trail (make_lit var1 p0)).2.2 = false := by
      rcases Bool.eq_false_or_eq_true
        ((assign s.assignments s.trail (make_lit var1 p0)).2.2) with h | h
      · exact absurd h h1
      · exact h
    obtain ⟨ha, ht⟩ := assign_fail_eq s.assignments s.trail (make_lit var1 p0) hfail
    simp only [Option.some.injEq, Prod.mk.injEq] at hrun
    obtain ⟨rfl, rfl⟩ := hrun
    simp only [ha]
    exact ⟨hcompat, fun _ => compat_assign_fail hfail hcompat htlit1⟩

theorem assign_pair_model (pfuel n : Nat) (t : List Bool) (s : Solver)
    (comb var1 var2 : Nat) (s2 : Solver) (ok : Bool)
    (hn : s.assignments.length = n)
    (hwl : s.watch_lists.length = 2 * n)
    (hcwf : ∀ c ∈ s.clauses, clauseWF n c)
    (hbuck : ∀ i cid, ((s.watch_lists.getD i []).count cid) = watchCount s.clauses cid i)
    (hnaf : ∀ cid c, s.clauses.get? cid = some c → nafAt s.assignments c)
    (himp : ∀ v, s.assignments.getD v none ≠ none → v ∈ s.trail)
    (hv1 : 1 ≤ var1 ∧ var1 < n)
    (hv2 : 1 ≤ var2 ∧ var2 < n)
    (hsat : ∀ cid c, s.clauses.get? cid = some c → satClause t c)
    (hcompat : compat t s.assignments)
    (hcomb : combOf t var1 var2 = comb)
    (hrun : Solver.assign_pair pfuel s comb var1 var2 = some (s2, ok)) :
    compat t s2.assignments ∧ (ok = false → False) := by
  obtain ⟨hc0, hc1, hc2, hc3, hlt4⟩ := combOf_cases t var1 var2
  unfold Solver.assign_pair at hrun
  rcases comb with _ | _ | _ | _ | c
  · obtain ⟨ht1, ht2⟩ := hc0 hcomb
    exact assignPairLits_model pfuel n t s true true var1 var2 s2 ok hn hwl hcwf hbuck hnaf
      himp hv1 hv2 hsat hcompat ht1 ht2 hrun
  · obtain ⟨ht1, ht2⟩ := hc1 hcomb
    exact assignPairLits_model pfuel n t s true false var1 var2 s2 ok hn hwl hcwf hbuck hnaf
      himp hv1 hv2 hsat hcompat ht1 ht2 hrun
  · obtain ⟨ht1, ht2⟩ := hc2 hcomb
    exact assignPairLits_model pfuel n t s false true var1 var2 s2 ok hn hwl hcwf hbuck hnaf
      himp hv1 hv2 hsat hcompat ht1 ht2 hrun
  · obtain ⟨ht1, ht2⟩ := hc3 hcomb
    exact assignPairLits_model pfuel n t s false false var1 var2 s2 ok hn hwl hcwf hbuck hnaf
      himp hv1 hv2 hsat hcompat ht1 ht2 hrun
  · omega

theorem assignPairLits_master (pfuel n : Nat) (s : Solver) (p0 p1 : Bool) (var1 var2 : Nat)
    (s2 : Solver) (ok : Bool)
    (hn : s.assignments.length = n)
    (hwl : s.watch_lists.length = 2 * n)
    (hcwf : ∀ c ∈ s.clauses, clauseWF n c)
    (hbuck : ∀ i cid, ((s.watch_lists.getD i []).count cid) = watchCount s.clauses cid i)
    (hnaf : ∀ cid c, s.clauses.get? cid = some c → nafAt s.assignments c)
    (himp : ∀ v, s.assignments.getD v none ≠ none → v ∈ s.trail)
    (hv1 : 1 ≤ var1 ∧ var1 < n)
    (hv2 : 1 ≤ var2 ∧ var2 < n)
    (hrun : Solver.assignPairLits pfuel s p0 p1 var1 var2 = some (s2, ok)) :
    s2.assignments.length = n ∧
    s2.watch_lists.length = 2 * n ∧
    (∀ c ∈ s2.clauses, clauseWF n c) ∧
    (∀ i cid, ((s2.watch_lists.getD i []).count cid) = watchCount s2.clauses cid i) ∧
    (∀ v, s2.assignments.getD v none ≠ none → v ∈ s2.trail) ∧
    (ok = true → ∀ cid c, s2.clauses.get? cid = some c → nafAt s2.assignments c) ∧
    (∀ v, s.assignments.getD v none ≠ none →
      s2.assignments.getD v none = s.assignments.getD v none) ∧
    (∀ cid c, s2.clauses.get? cid = some c → nafAt s.assignments c) ∧
    s2.trail_lim = s.trail_lim ∧
    assignFrame s.assignments s.trail s2.assignments s2.trail ∧
    litsEq s.clauses s2.clauses ∧
    s2.clauses.length = s.clauses.length ∧
    s2.pending_implications = s.pending_implications ∧
    s2.implications = s.implications := by
  have hl10 : make_lit var1 p0 ≠ 0 := make_lit_ne_zero var1 p0 hv1.1
  have hl1v : lit_to_var (make_lit var1 p0) < n := by
    rw [lit_to_var_make_lit]
    exact hv1.2
  have hl20 : make_lit var2 p1 ≠ 0 := make_lit_ne_zero var2 p1 hv2.1
  have hl2v : lit_to_var (make_lit var2 p1) < n := by
    rw [lit_to_var_make_lit]
    exact hv2.2
  have hselfext : ∀ v, s.assignments.getD v none ≠ none →
      s.assignments.getD v none = s.assignments.getD v none := fun v _ => rfl
  unfold Solver.assignPairLits at hrun
  simp only [] at hrun
  by_cases h1 : (assign s.assignments s.trail (make_lit var1 p0)).2.2 = true
  · rw [if_pos h1] at hrun
    split at hrun
    · exact absurd hrun (by simp)
    next s2a heq =>
      obtain ⟨m1, m2, m3, m4, m5, m6, m7, m8, m9, m10, m11, m12, m13, m14⟩ :=
        assign_propagate_master pfuel n s.assignments s (make_lit var1 p0) s2a false
          hn hwl hcwf hbuck hnaf himp hl10 hl1v hselfext hnaf h1 heq
      simp only [Option.some.injEq, Prod.mk.injEq] at hrun
      obtain ⟨rfl, rfl⟩ := hrun
      refine ⟨m1, m2, m3, m4, m5, ?_, m7, m8, m9, m10, m11, m12, m13, m14⟩
      intro h
      simp at h
    next s2a heq =>
      obtain ⟨m1, m2, m3, m4, m5, m6, m7, m8, m9, m10, m11, m12, m13, m14⟩ :=
        assign_propagate_master pfuel n s.assignments s (make_lit var1 p0) s2a true
          hn hwl hcwf hbuck hnaf himp hl10 hl1v hselfext hnaf h1 heq
      try simp only [] at hrun
      by_cases h2 : (assign s2a.assignments s2a.trail (make_lit var2 p1)).2.2 = true
      · rw [if_pos h2] at hrun
        split at hrun
        · exact absurd hrun (by simp)
        next s4 ok4 heq2 =>
          obtain ⟨k1, k2, k3, k4, k5, k6, k7, k8, k9, k10, k11, k12, k13, k14⟩ :=
            assign_propagate_master pfuel n s.assignments s2a (make_lit var2 p1) s4 ok4
              m1 m2 m3 m4 (m6 rfl) m5 hl20 hl2v m7 m8 h2 heq2
          simp only [Option.some.injEq, Prod.mk.injEq] at hrun
          obtain ⟨rfl, rfl⟩ := hrun
          exact ⟨k1, k2, k3, k4, k5, k6, k7, k8, k9.trans m9, assignFrame_trans m10 k10,
            litsEq_trans m11 k11, k12.trans m12, k13.trans m13, k14.trans m14⟩
      · rw [if_neg h2] at hrun
        have hfail : (assign s2a.assignments s2a.trail (make_lit var2 p1)).2.2 = false := by
          rcases Bool.eq_false_or_eq_true
            ((assign s2a.assignments s2a.trail (make_lit var2 p1)).2.2) with h | h
          · exact absurd h h2
          · exact h
        obtain ⟨ha, ht⟩ := assign_fail_eq s2a.assignments s2a.trail (make_lit var2 p1) hfail
        simp only [Option.some.injEq, Prod.mk.injEq] at hrun
        obtain ⟨rfl, rfl⟩ := hrun
        simp only [ha, ht]
        refine ⟨m1, m2, m3, m4, m5, ?_, m7, m8, m9, m10, m11, m12, m13, m14⟩
        intro h
        simp at h
  · rw [if_neg h1] at hrun
    have hfail : (assign s.assignments s.trail (make_lit var1 p0)).2.2 = false := by
      rcases Bool.eq_false_or_eq_true
        ((assign s.assignments s.trail (make_lit var1 p0)).2.2) with h | h
      · exact absurd h h1
      · exact h
    obtain ⟨ha, ht⟩ := assign_fail_eq s.assignments s.trail (make_lit var1 p0) hfail
    simp only [Option.some.injEq, Prod.mk.injEq] at hrun
    obtain ⟨rfl, rfl⟩ := hrun
    simp only [ha, ht]
    refine ⟨hn, hwl, hcwf, hbuck, himp, ?_, fun v _ => trivial, hnaf, trivial,
      assignFrame_refl _ _, fun cid => rfl, trivial, trivial, trivial⟩
    intro h
    simp at h

theorem assign_pair_master (pfuel n : Nat) (s : Solver) (comb var1 var2 : Nat)
    (s2 : Solver) (ok : Bool)
    (hn : s.assignments.length = n)
    (hwl : s.watch_lists.length = 2 * n)
    (hcwf : ∀ c ∈ s.clauses, clauseWF n c)
    (hbuck : ∀ i cid, ((s.watch_lists.getD i []).count cid) = watchCount s.clauses cid i)
    (hnaf : ∀ cid c, s.clauses.get? cid = some c → nafAt s.assignments c)
    (himp : ∀ v, s.assignments.getD v none ≠ none → v ∈ s.trail)
    (hv1 : 1 ≤ var1 ∧ var1 < n)
    (hv2 : 1 ≤ var2 ∧ var2 < n)
    (hrun : Solver.assign_pair pfuel s comb var1 var2 = some (s2, ok)) :
    s2.assignments.length = n ∧
    s2.watch_lists.length = 2 * n ∧
    (∀ c ∈ s2.clauses, clauseWF n c) ∧
    (∀ i cid, ((s2.watch_lists.getD i []).count cid) = watchCount s2.clauses cid i) ∧
    (∀ v, s2.assignments.getD v none ≠ none → v ∈ s2.trail) ∧
    (ok = true → ∀ cid c, s2.clauses.get? cid = some c → nafAt s2.assignments c) ∧
    (∀ v, s.assignments.getD v none ≠ none →
      s2.assignments.getD v none = s.assignments.getD v none) ∧
    (∀ cid c, s2.clauses.get? cid = some c → nafAt s.assignments c) ∧
    s2.trail_lim = s.trail_lim ∧
    assignFrame s.assignments s.trail s2.assignments s2.trail ∧
    litsEq s.clauses s2.clauses ∧
    s2.clauses.length = s.clauses.length ∧
    s2.pending_implications = s.pending_implications ∧
    s2.implications = s.implications := by
  unfold Solver.assign_pair at hrun
  rcases comb with _ | _ | _ | _ | c
  · exact assignPairLits_master pfuel n s true true var1 var2 s2 ok hn hwl hcwf hbuck hnaf
      himp hv1 hv2 hrun
  · exact assignPairLits_master pfuel n s true false var1 var2 s2 ok hn hwl hcwf hbuck hnaf
      himp hv1 hv2 hrun
  · exact assignPairLits_master pfuel n s false true var1 var2 s2 ok hn hwl hcwf hbuck hnaf
      himp hv1 hv2 hrun
  · exact assignPairLits_master pfuel n s false false var1 var2 s2 ok hn hwl hcwf hbuck
      hnaf himp hv1 hv2 hrun
  · simp only [Option.some.injEq, Prod.mk.injEq] at hrun
    obtain ⟨rfl, rfl⟩ := hrun
    refine ⟨hn, hwl, hcwf, hbuck, himp, ?_, fun v _ => rfl, hnaf, rfl,
      assignFrame_refl _ _, fun cid => rfl, rfl, rfl, rfl⟩
    intro h
    simp at h

theorem undo_to_level_same (s : Solver) (level : Nat) :
    (s.undo_to_level level).clauses = s.clauses ∧
    (s.undo_to_level level).watch_lists = s.watch_lists ∧
    (s.undo_to_level level).pending_implications = s.pending_implications ∧
    (s.undo_to_level level).implications = s.implications := by
  unfold Solver.undo_to_level
  split <;> exact ⟨rfl, rfl, rfl, rfl⟩

theorem test_implication_master (pfuel n : Nat) (s : Solver) (edge : Edge)
    (s3 : Solver) (proven : Bool)
    (hn : s.assignments.length = n)
    (hwl : s.watch_lists.length = 2 * n)
    (hcwf : ∀ c ∈ s.clauses, clauseWF n c)
    (hbuck : ∀ i cid, ((s.watch_lists.getD i []).count cid) = watchCount s.clauses cid i)
    (hnaf : ∀ cid c, s.clauses.get? cid = some c → nafAt s.assignments c)
    (himp : ∀ v, s.assignments.getD v none ≠ none → v ∈ s.trail)
    (he1 : 1 ≤ edge.from_ ∧ edge.from_ < n)
    (he2 : 1 ≤ edge.to_ ∧ edge.to_ < n)
    (hrun : Solver.test_implication pfuel s edge = some (s3, proven)) :
    s3.assignments = s.assignments ∧
    s3.trail = s.trail ∧
    s3.trail_lim = s.trail_lim ∧
    (∀ c ∈ s3.clauses, clauseWF n c) ∧
    (∀ i cid, ((s3.watch_lists.getD i []).count cid) = watchCount s3.clauses cid i) ∧
    s3.watch_lists.length = 2 * n ∧
    (∀ cid c, s3.clauses.get? cid = some c → nafAt s.assignments c) ∧
    litsEq s.clauses s3.clauses ∧
    s3.clauses.length = s.clauses.length ∧
    s3.pending_implications = s.pending_implications := by
  obtain ⟨hra, hrt, hrl⟩ := test_implication_state_restored pfuel s edge s3 proven hrun
  have hl10 : make_lit edge.from_ true ≠ 0 := make_lit_ne_zero _ _ he1.1
  have hl1v : lit_to_var (make_lit edge.from_ true) < n := by
    rw [lit_to_var_make_lit]
    exact he1.2
  have hl20 : make_lit edge.to_ false ≠ 0 := make_lit_ne_zero _ _ he2.1
  have hl2v : lit_to_var (make_lit edge.to_ false) < n := by
    rw [lit_to_var_make_lit]
    exact he2.2
  have hselfext : ∀ v, s.assignments.getD v none ≠ none →
      s.assignments.getD v none = s.assignments.getD v none := fun v _ => rfl
  unfold Solver.test_implication at hrun
  simp only [] at hrun
  refine ⟨hra, hrt, hrl, ?_⟩
  by_cases h1 : (assign s.assignments s.trail (make_lit edge.from_ true)).2.2 = true
  · rw [if_pos h1] at hrun
    split at hrun
    · exact absurd hrun (by simp)
    next s2a heq =>
      obtain ⟨m1, m2, m3, m4, m5, m6, m7, m8, m9, m10, m11, m12, hpend, -⟩ :=
        assign_propagate_master pfuel n s.assignments
          { s with trail_lim := s.trail_lim ++ [s.trail.length] }
          (make_lit edge.from_ true) s2a false
          hn hwl hcwf hbuck hnaf himp hl10 hl1v hselfext hnaf h1 heq
      simp only [Option.some.injEq, Prod.mk.injEq] at hrun
      obtain ⟨hs3, -⟩ := hrun
      rw [← hs3]
      rw [(undo_to_level_same _ _).1, (undo_to_level_same _ _).2.1,
        (undo_to_level_same _ _).2.2.1]
      exact ⟨m3, m4, m2, m8, m11, m12, hpend⟩
    next s2a heq =>
      obtain ⟨m1, m2, m3, m4, m5, m6, m7, m8, m9, m10, m11, m12, hpend, -⟩ :=
        assign_propagate_master pfuel n s.assignments
          { s with trail_lim := s.trail_lim ++ [s.trail.length] }
          (make_lit edge.from_ true) s2a true
          hn hwl hcwf hbuck hnaf himp hl10 hl1v hselfext hnaf h1 heq
      try simp only [] at hrun
      by_cases h2 : (assign s2a.assignments s2a.trail (make_lit edge.to_ false)).2.2 = true
      · rw [if_pos h2] at hrun
        split at hrun
        · exact absurd hrun (by simp)
        next s4 ok4 heq2 =>
          obtain ⟨k1, k2, k3, k4, k5, k6, k7, k8, k9, k10, k11, k12, hpend2, -⟩ :=
            assign_propagate_master pfuel n s.assignments s2a (make_lit edge.to_ false)
              s4 ok4 m1 m2 m3 m4 (m6 rfl) m5 hl20 hl2v m7 m8 h2 heq2
          simp only [Option.some.injEq, Prod.mk.injEq] at hrun
          obtain ⟨hs3, -⟩ := hrun
          rw [← hs3]
          rw [(undo_to_level_same _ _).1, (undo_to_level_same _ _).2.1,
            (undo_to_level_same _ _).2.2.1]
          exact ⟨k3, k4, k2, k8, litsEq_trans m11 k11, k12.trans m12,
            by rw [hpend2, hpend]⟩
      · rw [if_neg h2] at hrun
        have hfail : (assign s2a.assignments s2a.trail (make_lit edge.to_ false)).2.2 =
            false := by
          rcases Bool.eq_false_or_eq_true
            ((assign s2a.assignments s2a.trail (make_lit edge.to_ false)).2.2) with h | h
          · exact absurd h h2
          · exact h
        obtain ⟨ha, ht⟩ := assign_fail_eq s2a.assignments s2a.trail (make_lit edge.to_ false)
          hfail
        simp only [Option.some.injEq, Prod.mk.injEq] at hrun
        obtain ⟨hs3, -⟩ := hrun
        rw [← hs3]
        rw [(undo_to_level_same _ _).1, (undo_to_level_same _ _).2.1,
          (undo_to_level_same _ _).2.2.1]
        exact ⟨m3, m4, m2, m8, m11, m12, hpend⟩
  · rw [if_neg h1] at hrun
    simp only [Option.some.injEq, Prod.mk.injEq] at hrun
    obtain ⟨hs3, -⟩ := hrun
    rw [← hs3]
    rw [(undo_to_level_same _ _).1, (undo_to_level_same _ _).2.1,
      (undo_to_level_same _ _).2.2.1]
    exact ⟨hcwf, hbuck, hwl, hnaf, fun cid => rfl, rfl, rfl⟩

theorem undo_restore_eq (s : Solver) (a0 : List (Option Bool)) (tr0 lims0 : List Nat)
    (hlim : s.trail_lim = lims0 ++ [tr0.length])
    (hf : assignFrame a0 tr0 s.assignments s.trail) :
    s.undo_to_level lims0.length =
      { s with assignments := a0, trail := tr0, trail_lim := lims0 } := by
  have hlen : ¬ s.trail_lim.length ≤ lims0.length := by
    rw [hlim]
    simp
  have hpos : s.trail_lim.getD lims0.length 0 = tr0.length := by
    rw [hlim]
    exact getD_concat_self _ _
  have hpop := popTrailAbove_restore hf
  unfold Solver.undo_to_level
  rw [if_neg hlen]
  simp only []
  rw [hpos, hpop]
  simp only [hlim, List.take_left]

theorem backtrackLoop_master (pfuel n : Nat) :
    ∀ (fuel : Nat) (s : Solver) (stack : List Decision) (s2 : Solver)
      (stack2 : List Decision) (ok : Bool),
    s.assignments.length = n →
    s.watch_lists.length = 2 * n →
    (∀ c ∈ s.clauses, clauseWF n c) →
    (∀ i cid, ((s.watch_lists.getD i []).count cid) = watchCount s.clauses cid i) →
    (∀ v, s.assignments.getD v none ≠ none → v ∈ s.trail) →
    frames n s.clauses stack s.assignments s.trail s.trail_lim →
    Solver.backtrackLoop pfuel fuel s stack = some (s2, stack2, ok) →
    s2.assignments.length = n ∧
    s2.watch_lists.length = 2 * n ∧
    (∀ c ∈ s2.clauses, clauseWF n c) ∧
    (∀ i cid, ((s2.watch_lists.getD i []).count cid) = watchCount s2.clauses cid i) ∧
    (∀ v, s2.assignments.getD v none ≠ none → v ∈ s2.trail) ∧
    frames n s2.clauses stack2 s2.assignments s2.trail s2.trail_lim ∧
    (ok = true → ∀ cid c, s2.clauses.get? cid = some c → nafAt s2.assignments c) ∧
    litsEq s.clauses s2.clauses ∧
    s2.clauses.length = s.clauses.length ∧
    s2.pending_implications = s.pending_implications := by
  intro fuel
  induction fuel using Nat.strong_induction_on with
  | _ fuel ih =>
  intro s stack s2 stack2 ok hn hwl hcwf hbuck himp hframes hrun
  rcases fuel with _ | fuel
  · simp [Solver.backtrackLoop] at hrun
  rcases stack with _ | ⟨dec, stack⟩
  · rw [Solver.backtrackLoop] at hrun
    simp only [Option.some.injEq, Prod.mk.injEq] at hrun
    obtain ⟨rfl, rfl, rfl⟩ := hrun
    refine ⟨hn, hwl, hcwf, hbuck, himp, hframes, ?_, fun cid => rfl, rfl, rfl⟩
    intro h
    simp at h
  obtain ⟨a0, tr0, lim0, hlim, hf, hfresh, hnafA0, hrec⟩ := hframes
  have hlim0len : lim0.length = stack.length :=
    frames_length n s.clauses stack a0 tr0 lim0 hrec
  have ha0len : a0.length = n := by
    obtain ⟨dvs, -, hlen2, -⟩ := hf
    omega
  have hU : s.undo_to_level stack.length =
      { s with assignments := a0, trail := tr0, trail_lim := lim0 } := by
    rw [← hlim0len]
    exact undo_restore_eq s a0 tr0 lim0 hlim hf
  have himpU : ∀ v, a0.getD v none ≠ none → v ∈ tr0 := by
    intro v hv
    obtain ⟨dvs, htr, -, hnone, hkeep, -⟩ := hf
    by_cases hd : v ∈ dvs
    · exact absurd (hnone v hd) hv
    · have h2 : s.assignments.getD v none ≠ none := by
        rw [hkeep v hd]
        exact hv
      have hmem := himp v h2
      rw [htr] at hmem
      rcases List.mem_append.mp hmem with h | h
      · exact absurd h hd
      · exact h
  rcases dec with ⟨var, tpol, tboth⟩ | ⟨var1, var2, tcomb, tall⟩ | edge
  · -- Single frame
    obtain ⟨hv1, hv2, hv3⟩ := hfresh
    rw [Solver.backtrackLoop] at hrun
    try simp only [] at hrun
    by_cases htb : tboth = true
    · rw [if_pos htb, hU] at hrun
      obtain ⟨g1, g2, g3, g4, g5, g6, g7, g8, g9, g10⟩ :=
        ih fuel (by omega) { s with assignments := a0, trail := tr0, trail_lim := lim0 }
          stack s2 stack2 ok ha0len hwl hcwf hbuck himpU hrec hrun
      exact ⟨g1, g2, g3, g4, g5, g6, g7, g8, g9, g10⟩
    · rw [if_neg htb, hU] at hrun
      try simp only [] at hrun
      have hsucc : (assign a0 tr0 (make_lit var (!tpol))).2.2 = true := by
        unfold assign
        simp only [lit_to_var_make_lit, hv3]
      rw [if_pos hsucc] at hrun
      split at hrun
      · exact absurd hrun (by simp)
      next s4 ok4 heq =>
        obtain ⟨m1, m2, m3, m4, m5, m6, m7, m8, m9, m10, m11, m12, m13, m14⟩ :=
          assign_propagate_master pfuel n a0
            { s with assignments := a0, trail := tr0, trail_lim := lim0 ++ [tr0.length] }
            (make_lit var (!tpol)) s4 ok4
            ha0len hwl hcwf hbuck hnafA0 himpU
            (make_lit_ne_zero var _ hv1)
            (by rw [lit_to_var_make_lit]; exact hv2)
            (fun v _ => rfl) hnafA0 hsucc heq
        have hframesNew : frames n s4.clauses (Decision.Single var (!tpol) true :: stack)
            s4.assignments s4.trail s4.trail_lim :=
          ⟨a0, tr0, lim0, m9, m10, ⟨hv1, hv2, hv3⟩, m8,
            frames_reclause n s.clauses s4.clauses stack a0 tr0 lim0 hrec m8⟩
        by_cases hok : ok4 = true
        · rw [if_pos hok] at hrun
          simp only [Option.some.injEq, Prod.mk.injEq] at hrun
          obtain ⟨rfl, rfl, rfl⟩ := hrun
          exact ⟨m1, m2, m3, m4, m5, hframesNew, fun _ => m6 hok, m11, m12, m13⟩
        · rw [if_neg hok] at hrun
          obtain ⟨g1, g2, g3, g4, g5, g6, g7, g8, g9, g10⟩ :=
            ih fuel (by omega) s4 (Decision.Single var (!tpol) true :: stack) s2 stack2 ok
              m1 m2 m3 m4 m5 hframesNew hrun
          exact ⟨g1, g2, g3, g4, g5, g6, g7, litsEq_trans m11 g8, g9.trans m12,
            g10.trans m13⟩
  · -- Pair frame
    obtain ⟨⟨hw1a, hw1b, hw1c⟩, ⟨hw2a, hw2b, hw2c⟩⟩ := hfresh
    rw [Solver.backtrackLoop] at hrun
    try simp only [] at hrun
    by_cases hta : tall = true
    · rw [if_pos hta, hU] at hrun
      obtain ⟨g1, g2, g3, g4, g5, g6, g7, g8, g9, g10⟩ :=
        ih fuel (by omega) { s with assignments := a0, trail := tr0, trail_lim := lim0 }
          stack s2 stack2 ok ha0len hwl hcwf hbuck himpU hrec hrun
      exact ⟨g1, g2, g3, g4, g5, g6, g7, g8, g9, g10⟩
    · rw [if_neg hta, hU] at hrun
      try simp only [] at hrun
      by_cases hc4 : 4 ≤ tcomb + 1
      · rw [if_pos hc4] at hrun
        rcases fuel with _ | fuel2
        · simp [Solver.backtrackLoop] at hrun
        rw [Solver.backtrackLoop] at hrun
        simp only [] at hrun
        rw [if_pos trivial] at hrun
        have hid : ({ s with assignments := a0, trail := tr0, trail_lim := lim0 } :
              Solver).undo_to_level stack.length =
            { s with assignments := a0, trail := tr0, trail_lim := lim0 } := by
          unfold Solver.undo_to_level
          rw [if_pos]
          show lim0.length ≤ stack.length
          omega
        rw [hid] at hrun
        obtain ⟨g1, g2, g3, g4, g5, g6, g7, g8, g9, g10⟩ :=
          ih fuel2 (by omega) { s with assignments := a0, trail := tr0, trail_lim := lim0 }
            stack s2 stack2 ok ha0len hwl hcwf hbuck himpU hrec hrun
        exact ⟨g1, g2, g3, g4, g5, g6, g7, g8, g9, g10⟩
      · rw [if_neg hc4] at hrun
        try simp only [] at hrun
        split at hrun
        · exact absurd hrun (by simp)
        next s3 ok3 heq =>
          obtain ⟨p1, p2, p3, p4, p5, p6, p7, p8, p9, p10, p11, p12, p13, p14⟩ :=
            assign_pair_master pfuel n
              { s with assignments := a0, trail := tr0, trail_lim := lim0 ++ [tr0.length] }
              (tcomb + 1) var1 var2 s3 ok3
              ha0len hwl hcwf hbuck hnafA0 himpU ⟨hw1a, hw1b⟩ ⟨hw2a, hw2b⟩ heq
          have hframesNew : frames n s3.clauses
              (Decision.Pair var1 var2 (tcomb + 1) tall :: stack)
              s3.assignments s3.trail s3.trail_lim :=
            ⟨a0, tr0, lim0, p9, p10, ⟨⟨hw1a, hw1b, hw1c⟩, ⟨hw2a, hw2b, hw2c⟩⟩, p8,
              frames_reclause n s.clauses s3.clauses stack a0 tr0 lim0 hrec p8⟩
          by_cases hok : ok3 = true
          · rw [if_pos hok] at hrun
            simp only [Option.some.injEq, Prod.mk.injEq] at hrun
            obtain ⟨rfl, rfl, rfl⟩ := hrun
            exact ⟨p1, p2, p3, p4, p5, hframesNew, fun _ => p6 hok, p11, p12, p13⟩
          · rw [if_neg hok] at hrun
            obtain ⟨g1, g2, g3, g4, g5, g6, g7, g8, g9, g10⟩ :=
              ih fuel (by omega) s3 (Decision.Pair var1 var2 (tcomb + 1) tall :: stack)
                s2 stack2 ok p1 p2 p3 p4 p5 hframesNew hrun
            exact ⟨g1, g2, g3, g4, g5, g6, g7, litsEq_trans p11 g8, g9.trans p12,
              g10.trans p13⟩
  · -- Implication frame
    rw [Solver.backtrackLoop] at hrun
    try simp only [] at hrun
    rw [hU] at hrun
    obtain ⟨g1, g2, g3, g4, g5, g6, g7, g8, g9, g10⟩ :=
      ih fuel (by omega) { s with assignments := a0, trail := tr0, trail_lim := lim0 }
        stack s2 stack2 ok ha0len hwl hcwf hbuck himpU hrec hrun
    exact ⟨g1, g2, g3, g4, g5, g6, g7, g8, g9, g10⟩

theorem backtrackLoop_complete (pfuel n : Nat) (aB : List (Option Bool)) :
    ∀ (fuel : Nat) (s : Solver) (stack : List Decision) (s2 : Solver)
      (stack2 : List Decision) (ok : Bool),
    s.assignments.length = n →
    s.watch_lists.length = 2 * n →
    (∀ c ∈ s.clauses, clauseWF n c) →
    (∀ i cid, ((s.watch_lists.getD i []).count cid) = watchCount s.clauses cid i) →
    (∀ v, s.assignments.getD v none ≠ none → v ∈ s.trail) →
    framesC n s.clauses aB stack s.assignments s.trail s.trail_lim →
    stackDead s.clauses s.assignments stack →
    Solver.backtrackLoop pfuel fuel s stack = some (s2, stack2, ok) →
    s2.assignments.length = n ∧
    s2.watch_lists.length = 2 * n ∧
    (∀ c ∈ s2.clauses, clauseWF n c) ∧
    (∀ i cid, ((s2.watch_lists.getD i []).count cid) = watchCount s2.clauses cid i) ∧
    (∀ v, s2.assignments.getD v none ≠ none → v ∈ s2.trail) ∧
    framesC n s2.clauses aB stack2 s2.assignments s2.trail s2.trail_lim ∧
    (ok = true → ∀ cid c, s2.clauses.get? cid = some c → nafAt s2.assignments c) ∧
    litsEq s.clauses s2.clauses ∧
    s2.clauses.length = s.clauses.length ∧
    s2.pending_implications = s.pending_implications ∧
    (ok = false → (∀ t, satStore t s2.clauses → compat t s2.assignments → False) ∧
      s2.assignments = aB) := by
  intro fuel
  induction fuel using Nat.strong_induction_on with
  | _ fuel ih =>
  intro s stack s2 stack2 ok hn hwl hcwf hbuck himp hframes hsd hrun
  rcases fuel with _ | fuel
  · simp [Solver.backtrackLoop] at hrun
  rcases stack with _ | ⟨dec, stack⟩
  · rw [Solver.backtrackLoop] at hrun
    simp only [Option.some.injEq, Prod.mk.injEq] at hrun
    obtain ⟨rfl, rfl, rfl⟩ := hrun
    refine ⟨hn, hwl, hcwf, hbuck, himp, hframes, ?_, fun cid => rfl, rfl, rfl, ?_⟩
    · intro h
      simp at h
    · exact fun _ => ⟨hsd, hframes.2⟩
  obtain ⟨a0, tr0, lim0, hlim, hf, hfresh, hnafA0, hrefut, hact, hrec⟩ := hframes
  have hlim0len : lim0.length = stack.length :=
    framesC_length n s.clauses aB stack a0 tr0 lim0 hrec
  have ha0len : a0.length = n := by
    obtain ⟨dvs, -, hlen2, -⟩ := hf
    omega
  have hU : s.undo_to_level stack.length =
      { s with assignments := a0, trail := tr0, trail_lim := lim0 } := by
    rw [← hlim0len]
    exact undo_restore_eq s a0 tr0 lim0 hlim hf
  have himpU : ∀ v, a0.getD v none ≠ none → v ∈ tr0 := by
    intro v hv
    obtain ⟨dvs, htr, -, hnone, hkeep, -⟩ := hf
    by_cases hd : v ∈ dvs
    · exact absurd (hnone v hd) hv
    · have h2 : s.assignments.getD v none ≠ none := by
        rw [hkeep v hd]
        exact hv
      have hmem := himp v h2
      rw [htr] at hmem
      rcases List.mem_append.mp hmem with h | h
      · exact absurd h hd
      · exact h
  rcases dec with ⟨var, tpol, tboth⟩ | ⟨var1, var2, tcomb, tall⟩ | edge
  · -- Single frame
    obtain ⟨hv1, hv2, hv3⟩ := hfresh
    rw [Solver.backtrackLoop] at hrun
    try simp only [] at hrun
    by_cases htb : tboth = true
    · rw [if_pos htb, hU] at hrun
      have hdeadA0 : ∀ t, satStore t s.clauses → compat t a0 → False := by
        intro t hs hc
        by_cases hv : t.getD var false = tpol
        · exact hsd t hs hv (hact t hs hv hc)
        · exact hrefut t hs ⟨htb, bool_ne_iff hv⟩ hc
      obtain ⟨g1, g2, g3, g4, g5, g6, g7, g8, g9, g10, g11⟩ :=
        ih fuel (by omega) { s with assignments := a0, trail := tr0, trail_lim := lim0 }
          stack s2 stack2 ok ha0len hwl hcwf hbuck himpU hrec
          (stackDead_of_dead hdeadA0 stack) hrun
      exact ⟨g1, g2, g3, g4, g5, g6, g7, g8, g9, g10, g11⟩
    · rw [if_neg htb, hU] at hrun
      try simp only [] at hrun
      have hsucc : (assign a0 tr0 (make_lit var (!tpol))).2.2 = true := by
        unfold assign
        simp only [lit_to_var_make_lit, hv3]
      rw [if_pos hsucc] at hrun
      split at hrun
      · exact absurd hrun (by simp)
      next s4 ok4 heq =>
        obtain ⟨m1, m2, m3, m4, m5, m6, m7, m8, m9, m10, m11, m12, m13, m14⟩ :=
          assign_propagate_master pfuel n a0
            { s with assignments := a0, trail := tr0, trail_lim := lim0 ++ [tr0.length] }
            (make_lit var (!tpol)) s4 ok4
            ha0len hwl hcwf hbuck hnafA0 himpU
            (make_lit_ne_zero var _ hv1)
            (by rw [lit_to_var_make_lit]; exact hv2)
            (fun v _ => rfl) hnafA0 hsucc heq
        have hmodel : ∀ t, satStore t s4.clauses → t.getD var false = !tpol →
            compat t a0 →
            compat t s4.assignments ∧
            (ok4 = false → ∃ cid c, s4.clauses.get? cid = some c ∧
              ∀ x ∈ c.literals, get_literal_value s4.assignments x = some false) := by
          intro t hs hv hc
          have hsPre : ∀ cid c, s.clauses.get? cid = some c → satClause t c :=
            satStore_litsEq (litsEq_symm m11) t hs
          have htlit : t.getD (lit_to_var (make_lit var (!tpol))) false =
              decide (0 < make_lit var (!tpol)) := by
            rw [lit_to_var_make_lit, polarity_make_lit var _ hv1]
            exact hv
          obtain ⟨e1, e2, e3⟩ :=
            assign_propagate_model pfuel n t
              { s with assignments := a0, trail := tr0, trail_lim := lim0 ++ [tr0.length] }
              (make_lit var (!tpol)) s4 ok4
              ha0len hwl hcwf hbuck hnafA0 himpU
              (make_lit_ne_zero var _ hv1)
              (by rw [lit_to_var_make_lit]; exact hv2)
              hsPre hc htlit hsucc heq
          exact ⟨e1, e3⟩
        have hrefutNew : ∀ t, satStore t s4.clauses →
            refutedBranch t (Decision.Single var (!tpol) true) → compat t a0 → False := by
          intro t hs hr hc
          obtain ⟨-, hv⟩ := hr
          rw [Bool.not_not] at hv
          have hsPre : satStore t s.clauses := satStore_litsEq (litsEq_symm m11) t hs
          exact hsd t hsPre hv (hact t hsPre hv hc)
        have hactNew : ∀ t, satStore t s4.clauses →
            activeBranch t (Decision.Single var (!tpol) true) → compat t a0 →
            compat t s4.assignments :=
          fun t hs hv hc => (hmodel t hs hv hc).1
        have hframesNewC : framesC n s4.clauses aB
            (Decision.Single var (!tpol) true :: stack) s4.assignments s4.trail
            s4.trail_lim :=
          ⟨a0, tr0, lim0, m9, m10, ⟨hv1, hv2, hv3⟩, m8, hrefutNew, hactNew,
            framesC_reclause n s.clauses s4.clauses aB m11 stack a0 tr0 lim0 hrec m8⟩
        by_cases hok : ok4 = true
        · rw [if_pos hok] at hrun
          simp only [Option.some.injEq, Prod.mk.injEq] at hrun
          obtain ⟨rfl, rfl, rfl⟩ := hrun
          refine ⟨m1, m2, m3, m4, m5, hframesNewC, fun _ => m6 hok, m11, m12, m13, ?_⟩
          intro h
          simp at h
        · rw [if_neg hok] at hrun
          have hokf : ok4 = false := by
            rcases Bool.eq_false_or_eq_true ok4 with h | h
            · exact absurd h hok
            · exact h
          have hdeadNew : stackDead s4.clauses s4.assignments
              (Decision.Single var (!tpol) true :: stack) := by
            intro t hs hv hc
            obtain ⟨cid, c, hg, hall⟩ :=
              (hmodel t hs hv (compat_anti (assignFrame_ext m10) hc)).2 hokf
            exact unsat_of_conflict hc hall (hs cid c hg)
          obtain ⟨g1, g2, g3, g4, g5, g6, g7, g8, g9, g10, g11⟩ :=
            ih fuel (by omega) s4 (Decision.Single var (!tpol) true :: stack) s2 stack2 ok
              m1 m2 m3 m4 m5 hframesNewC hdeadNew hrun
          exact ⟨g1, g2, g3, g4, g5, g6, g7, litsEq_trans m11 g8, g9.trans m12,
            g10.trans m13, g11⟩
  · -- Pair frame
    obtain ⟨⟨hw1a, hw1b, hw1c⟩, ⟨hw2a, hw2b, hw2c⟩⟩ := hfresh
    rw [Solver.backtrackLoop] at hrun
    try simp only [] at hrun
    by_cases hta : tall = true
    · rw [if_pos hta, hU] at hrun
      have hdeadA0 : ∀ t, satStore t s.clauses → compat t a0 → False := by
        intro t hs hc
        exact hrefut t hs (Or.inr hta) hc
      obtain ⟨g1, g2, g3, g4, g5, g6, g7, g8, g9, g10, g11⟩ :=
        ih fuel (by omega) { s with assignments := a0, trail := tr0, trail_lim := lim0 }
          stack s2 stack2 ok ha0len hwl hcwf hbuck himpU hrec
          (stackDead_of_dead hdeadA0 stack) hrun
      exact ⟨g1, g2, g3, g4, g5, g6, g7, g8, g9, g10, g11⟩
    · rw [if_neg hta, hU] at hrun
      try simp only [] at hrun
      by_cases hc4 : 4 ≤ tcomb + 1
      · rw [if_pos hc4] at hrun
        rcases fuel with _ | fuel2
        · simp [Solver.backtrackLoop] at hrun
        rw [Solver.backtrackLoop] at hrun
        simp only [] at hrun
        rw [if_pos trivial] at hrun
        have hid : ({ s with assignments := a0, trail := tr0, trail_lim := lim0 } :
              Solver).undo_to_level stack.length =
            { s with assignments := a0, trail := tr0, trail_lim := lim0 } := by
          unfold Solver.undo_to_level
          rw [if_pos]
          show lim0.length ≤ stack.length
          omega
        rw [hid] at hrun
        have hdeadA0 : ∀ t, satStore t s.clauses → compat t a0 → False := by
          intro t hs hc
          obtain ⟨-, -, -, -, hlt4⟩ := combOf_cases t var1 var2
          by_cases hcx : combOf t var1 var2 < tcomb
          · exact hrefut t hs (Or.inl hcx) hc
          · have hceq : combOf t var1 var2 = tcomb := by omega
            exact hsd t hs hceq (hact t hs hceq hc)
        obtain ⟨g1, g2, g3, g4, g5, g6, g7, g8, g9, g10, g11⟩ :=
          ih fuel2 (by omega) { s with assignments := a0, trail := tr0, trail_lim := lim0 }
            stack s2 stack2 ok ha0len hwl hcwf hbuck himpU hrec
            (stackDead_of_dead hdeadA0 stack) hrun
        exact ⟨g1, g2, g3, g4, g5, g6, g7, g8, g9, g10, g11⟩
      · rw [if_neg hc4] at hrun
        try simp only [] at hrun
        split at hrun
        · exact absurd hrun (by simp)
        next s3 ok3 heq =>
          obtain ⟨p1, p2, p3, p4, p5, p6, p7, p8, p9, p10, p11, p12, p13, p14⟩ :=
            assign_pair_master pfuel n
              { s with assignments := a0, trail := tr0, trail_lim := lim0 ++ [tr0.length] }
              (tcomb + 1) var1 var2 s3 ok3
              ha0len hwl hcwf hbuck hnafA0 himpU ⟨hw1a, hw1b⟩ ⟨hw2a, hw2b⟩ heq
          have hmodel : ∀ t, satStore t s3.clauses →
              combOf t var1 var2 = tcomb + 1 → compat t a0 →
              compat t s3.assignments ∧ (ok3 = false → False) := by
            intro t hs hcb hc
            have hsPre : ∀ cid c, s.clauses.get? cid = some c → satClause t c :=
              satStore_litsEq (litsEq_symm p11) t hs
            exact assign_pair_model pfuel n t
              { s with assignments := a0, trail := tr0, trail_lim := lim0 ++ [tr0.length] }
              (tcomb + 1) var1 var2 s3 ok3 ha0len hwl hcwf hbuck hnafA0 himpU
              ⟨hw1a, hw1b⟩ ⟨hw2a, hw2b⟩ hsPre hc hcb heq
          have hrefutNew : ∀ t, satStore t s3.clauses →
              refutedBranch t (Decision.Pair var1 var2 (tcomb + 1) tall) → compat t a0 →
              False := by
            intro t hs hr hc
            have hsPre : satStore t s.clauses := satStore_litsEq (litsEq_symm p11) t hs
            rcases hr with hlt | htaT
            · by_cases hcx : combOf t var1 var2 < tcomb
              · exact hrefut t hsPre (Or.inl hcx) hc
              · have hceq : combOf t var1 var2 = tcomb := by omega
                exact hsd t hsPre hceq (hact t hsPre hceq hc)
            · exact absurd htaT hta
          have hactNew : ∀ t, satStore t s3.clauses →
              activeBranch t (Decision.Pair var1 var2 (tcomb + 1) tall) → compat t a0 →
              compat t s3.assignments :=
            fun t hs hcb hc => (hmodel t hs hcb hc).1
          have hframesNewC : framesC n s3.clauses aB
              (Decision.Pair var1 var2 (tcomb + 1) tall :: stack)
              s3.assignments s3.trail s3.trail_lim :=
            ⟨a0, tr0, lim0, p9, p10, ⟨⟨hw1a, hw1b, hw1c⟩, ⟨hw2a, hw2b, hw2c⟩⟩, p8,
              hrefutNew, hactNew,
              framesC_reclause n s.clauses s3.clauses aB p11 stack a0 tr0 lim0 hrec p8⟩
          by_cases hok : ok3 = true
          · rw [if_pos hok] at hrun
            simp only [Option.some.injEq, Prod.mk.injEq] at hrun
            obtain ⟨rfl, rfl, rfl⟩ := hrun
            refine ⟨p1, p2, p3, p4, p5, hframesNewC, fun _ => p6 hok, p11, p12, p13, ?_⟩
            intro h
            simp at h
          · rw [if_neg hok] at hrun
            have hokf : ok3 = false := by
              rcases Bool.eq_false_or_eq_true ok3 with h | h
              · exact absurd h hok
              · exact h
            have hdeadNew : stackDead s3.clauses s3.assignments
                (Decision.Pair var1 var2 (tcomb + 1) tall :: stack) := by
              intro t hs hcb hc
              exact (hmodel t hs hcb (compat_anti (assignFrame_ext p10) hc)).2 hokf
            obtain ⟨g1, g2, g3, g4, g5, g6, g7, g8, g9, g10, g11⟩ :=
              ih fuel (by omega) s3 (Decision.Pair var1 var2 (tcomb + 1) tall :: stack)
                s2 stack2 ok p1 p2 p3 p4 p5 hframesNewC hdeadNew hrun
            exact ⟨g1, g2, g3, g4, g5, g6, g7, litsEq_trans p11 g8, g9.trans p12,
              g10.trans p13, g11⟩
  · -- Implication frame
    rw [Solver.backtrackLoop] at hrun
    try simp only [] at hrun
    rw [hU] at hrun
    have hdeadA0 : ∀ t, satStore t s.clauses → compat t a0 → False := by
      intro t hs hc
      exact hsd t hs trivial (hact t hs trivial hc)
    obtain ⟨g1, g2, g3, g4, g5, g6, g7, g8, g9, g10, g11⟩ :=
      ih fuel (by omega) { s with assignments := a0, trail := tr0, trail_lim := lim0 }
        stack s2 stack2 ok ha0len hwl hcwf hbuck himpU hrec
        (stackDead_of_dead hdeadA0 stack) hrun
    exact ⟨g1, g2, g3, g4, g5, g6, g7, g8, g9, g10, g11⟩

theorem pick_facts (s : Solver) (n : Nat) (hn : s.assignments.length = n) :
    (∀ v1, (s.pick_branching_pair).1 = some v1 →
      (1 ≤ v1 ∧ v1 < n) ∧ s.assignments.getD v1 none = none) ∧
    (∀ v2, (s.pick_branching_pair).2 = some v2 →
      (1 ≤ v2 ∧ v2 < n) ∧ s.assignments.getD v2 none = none) := by
  unfold Solver.pick_branching_pair
  simp only []
  constructor <;> intro v hv <;>
  · have hmem : v ∈ ((List.range s.assignments.length).drop 1).filter
        (fun i => (s.assignments.getD i none).isNone) := List.get?_mem hv
    rw [List.mem_filter] at hmem
    obtain ⟨hr, hiN⟩ := hmem
    rw [mem_range_drop_one] at hr
    refine ⟨⟨hr.1, by omega⟩, ?_⟩
    rcases hx : s.assignments.getD v none with _ | b
    · rfl
    · rw [hx] at hiN
      simp at hiN

theorem popPending_facts (ch : List Edge → Nat) (pending : List Edge) (edge : Edge)
    (rest : List Edge) (h : popPending ch pending = some (edge, rest)) :
    edge ∈ pending ∧ ∀ e ∈ rest, e ∈ pending := by
  unfold popPending at h
  rcases pending with _ | ⟨p0, ps⟩
  · simp at h
  · simp only [Option.some.injEq, Prod.mk.injEq] at h
    obtain ⟨he, hr⟩ := h
    constructor
    · rw [← he]
      have hlt : ch (p0 :: ps) % (p0 :: ps).length < (p0 :: ps).length :=
        Nat.mod_lt _ (by simp)
      rw [List.getD_eq_getElem _ _ hlt]
      exact List.getElem_mem hlt
    · intro e hee
      rw [← hr] at hee
      exact List.mem_of_mem_eraseIdx hee

theorem unitsLoop_master (pfuel n : Nat) :
    ∀ (units : List Int) (s : Solver) (s2 : Solver) (ok : Bool),
    s.assignments.length = n →
    s.watch_lists.length = 2 * n →
    (∀ c ∈ s.clauses, clauseWF n c) →
    (∀ i cid, ((s.watch_lists.getD i []).count cid) = watchCount s.clauses cid i) →
    (∀ cid c, s.clauses.get? cid = some c → nafAt s.assignments c) →
    (∀ v, s.assignments.getD v none ≠ none → v ∈ s.trail) →
    (∀ l ∈ units, l ≠ 0 ∧ lit_to_var l < n) →
    Solver.unitsLoop pfuel s units = some (s2, ok) →
    s2.assignments.length = n ∧
    s2.watch_lists.length = 2 * n ∧
    (∀ c ∈ s2.clauses, clauseWF n c) ∧
    (∀ i cid, ((s2.watch_lists.getD i []).count cid) = watchCount s2.clauses cid i) ∧
    (∀ v, s2.assignments.getD v none ≠ none → v ∈ s2.trail) ∧
    (ok = true → ∀ cid c, s2.clauses.get? cid = some c → nafAt s2.assignments c) ∧
    s2.trail_lim = s.trail_lim ∧
    s2.pending_implications = s.pending_implications ∧
    litsEq s.clauses s2.clauses ∧
    s2.clauses.length = s.clauses.length := by
  intro units
  induction units with
  | nil =>
    intro s s2 ok hn hwl hcwf hbuck hnaf himp hu hrun
    rw [Solver.unitsLoop] at hrun
    simp only [Option.some.injEq, Prod.mk.injEq] at hrun
    obtain ⟨rfl, rfl⟩ := hrun
    exact ⟨hn, hwl, hcwf, hbuck, himp, fun _ => hnaf, rfl, rfl, fun cid => rfl, rfl⟩
  | cons l rest ih =>
    intro s s2 ok hn hwl hcwf hbuck hnaf himp hu hrun
    obtain ⟨hl0, hlv⟩ := hu l (List.mem_cons_self l rest)
    have hu2 : ∀ x ∈ rest, x ≠ 0 ∧ lit_to_var x < n :=
      fun x hx => hu x (List.mem_cons_of_mem l hx)
    rw [Solver.unitsLoop] at hrun
    try simp only [] at hrun
    by_cases hsucc : (assign s.assignments s.trail l).2.2 = true
    · rw [if_pos hsucc] at hrun
      split at hrun
      · exact absurd hrun (by simp)
      next s2a heq =>
        obtain ⟨m1, m2, m3, m4, m5, m6, m7, m8, m9, m10, m11, m12, m13, m14⟩ :=
          assign_propagate_master pfuel n s.assignments s l s2a false
            hn hwl hcwf hbuck hnaf himp hl0 hlv (fun v _ => rfl) hnaf hsucc heq
        simp only [Option.some.injEq, Prod.mk.injEq] at hrun
        obtain ⟨rfl, rfl⟩ := hrun
        refine ⟨m1, m2, m3, m4, m5, ?_, m9, m13, m11, m12⟩
        intro h
        simp at h
      next s2a heq =>
        obtain ⟨m1, m2, m3, m4, m5, m6, m7, m8, m9, m10, m11, m12, m13, m14⟩ :=
          assign_propagate_master pfuel n s.assignments s l s2a true
            hn hwl hcwf hbuck hnaf himp hl0 hlv (fun v _ => rfl) hnaf hsucc heq
        obtain ⟨g1, g2, g3, g4, g5, g6, g7, g8, g9, g10⟩ :=
          ih s2a s2 ok m1 m2 m3 m4 (m6 rfl) m5 hu2 hrun
        exact ⟨g1, g2, g3, g4, g5, g6, g7.trans m9, g8.trans m13,
          litsEq_trans m11 g9, g10.trans m12⟩
    · rw [if_neg hsucc] at hrun
      have hfail : (assign s.assignments s.trail l).2.2 = false := by
        rcases Bool.eq_false_or_eq_true ((assign s.assignments s.trail l).2.2) with h | h
        · exact absurd h hsucc
        · exact h
      obtain ⟨ha, ht⟩ := assign_fail_eq s.assignments s.trail l hfail
      simp only [Option.some.injEq, Prod.mk.injEq] at hrun
      obtain ⟨rfl, rfl⟩ := hrun
      simp only [ha, ht]
      refine ⟨hn, hwl, hcwf, hbuck, himp, ?_, trivial, trivial, fun cid => rfl, trivial⟩
      intro h
      simp at h

theorem initial_propagation_master (pfuel n : Nat) (s : Solver) (s2 : Solver) (ok : Bool)
    (hn : s.assignments.length = n)
    (hwl : s.watch_lists.length = 2 * n)
    (hcwf : ∀ c ∈ s.clauses, clauseWF n c)
    (hbuck : ∀ i cid, ((s.watch_lists.getD i []).count cid) = watchCount s.clauses cid i)
    (hnaf : ∀ cid c, s.clauses.get? cid = some c → nafAt s.assignments c)
    (himp : ∀ v, s.assignments.getD v none ≠ none → v ∈ s.trail)
    (hrun : Solver.initial_propagation pfuel s = some (s2, ok)) :
    s2.assignments.length = n ∧
    s2.watch_lists.length = 2 * n ∧
    (∀ c ∈ s2.clauses, clauseWF n c) ∧
    (∀ i cid, ((s2.watch_lists.getD i []).count cid) = watchCount s2.clauses cid i) ∧
    (∀ v, s2.assignments.getD v none ≠ none → v ∈ s2.trail) ∧
    (ok = true → ∀ cid c, s2.clauses.get? cid = some c → nafAt s2.assignments c) ∧
    s2.trail_lim = s.trail_lim ∧
    s2.pending_implications = s.pending_implications ∧
    litsEq s.clauses s2.clauses ∧
    s2.clauses.length = s.clauses.length := by
  unfold Solver.initial_propagation at hrun
  split at hrun
  · simp only [Option.some.injEq, Prod.mk.injEq] at hrun
    obtain ⟨rfl, rfl⟩ := hrun
    refine ⟨hn, hwl, hcwf, hbuck, himp, ?_, rfl, rfl, fun cid => rfl, rfl⟩
    intro h
    simp at h
  · have hu : ∀ l ∈ (s.clauses.filter (fun c => c.literals.length == 1)).map
        (fun c => c.literals.getD 0 0), l ≠ 0 ∧ lit_to_var l < n := by
      intro l hl
      rw [List.mem_map] at hl
      obtain ⟨c, hc, rfl⟩ := hl
      rw [List.mem_filter] at hc
      obtain ⟨hcm, hc1⟩ := hc
      obtain ⟨hlen, -, -, -, -, hlits⟩ := hcwf c hcm
      have hmem : c.literals.getD 0 0 ∈ c.literals := getD_mem_of_lt (by omega)
      exact hlits _ hmem
    exact unitsLoop_master pfuel n _ s s2 ok hn hwl hcwf hbuck hnaf himp hu hrun

theorem unitsLoop_model (pfuel n : Nat) (t : List Bool) :
    ∀ (units : List Int) (s : Solver) (s2 : Solver) (ok : Bool),
    s.assignments.length = n →
    s.watch_lists.length = 2 * n →
    (∀ c ∈ s.clauses, clauseWF n c) →
    (∀ i cid, ((s.watch_lists.getD i []).count cid) = watchCount s.clauses cid i) →
    (∀ cid c, s.clauses.get? cid = some c → nafAt s.assignments c) →
    (∀ v, s.assignments.getD v none ≠ none → v ∈ s.trail) →
    (∀ l ∈ units, l ≠ 0 ∧ lit_to_var l < n) →
    (∀ l ∈ units, t.getD (lit_to_var l) false = decide (0 < l)) →
    (∀ cid c, s.clauses.get? cid = some c → satClause t c) →
    compat t s.assignments →
    Solver.unitsLoop pfuel s units = some (s2, ok) →
    compat t s2.assignments ∧ (ok = false → False) := by
  intro units
  induction units with
  | nil =>
    intro s s2 ok hn hwl hcwf hbuck hnaf himp hu htu hsat hcompat hrun
    rw [Solver.unitsLoop] at hrun
    simp only [Option.some.injEq, Prod.mk.injEq] at hrun
    obtain ⟨rfl, rfl⟩ := hrun
    refine ⟨hcompat, ?_⟩
    intro h
    simp at h
  | cons l rest ih =>
    intro s s2 ok hn hwl hcwf hbuck hnaf himp hu htu hsat hcompat hrun
    obtain ⟨hl0, hlv⟩ := hu l (List.mem_cons_self l rest)
    have htl := htu l (List.mem_cons_self l rest)
    have hu2 : ∀ x ∈ rest, x ≠ 0 ∧ lit_to_var x < n :=
      fun x hx => hu x (List.mem_cons_of_mem l hx)
    have htu2 : ∀ x ∈ rest, t.getD (lit_to_var x) false = decide (0 < x) :=
      fun x hx => htu x (List.mem_cons_of_mem l hx)
    rw [Solver.unitsLoop] at hrun
    try simp only [] at hrun
    by_cases hsucc : (assign s.assignments s.trail l).2.2 = true
    · rw [if_pos hsucc] at hrun
      split at hrun
      · exact absurd hrun (by simp)
      next s2a heq =>
        obtain ⟨e1, e2, e3⟩ :=
          assign_propagate_model pfuel n t s l s2a false
            hn hwl hcwf hbuck hnaf himp hl0 hlv hsat hcompat htl hsucc heq
        simp only [Option.some.injEq, Prod.mk.injEq] at hrun
        obtain ⟨rfl, rfl⟩ := hrun
        refine ⟨e1, fun _ => ?_⟩
        obtain ⟨cid, c, hg, hall⟩ := e3 rfl
        exact unsat_of_conflict e1 hall (e2 cid c hg)
      next s2a heq =>
        obtain ⟨m1, m2, m3, m4, m5, m6, m7, m8, m9, m10, m11, m12, m13, m14⟩ :=
          assign_propagate_master pfuel n s.assignments s l s2a true
            hn hwl hcwf hbuck hnaf himp hl0 hlv (fun v _ => rfl) hnaf hsucc heq
        obtain ⟨e1, e2, -⟩ :=
          assign_propagate_model pfuel n t s l s2a true
            hn hwl hcwf hbuck hnaf himp hl0 hlv hsat hcompat htl hsucc heq
        exact ih s2a s2 ok m1 m2 m3 m4 (m6 rfl) m5 hu2 htu2 e2 e1 hrun
    · rw [if_neg hsucc] at hrun
      have hfail : (assign s.assignments s.trail l).2.2 = false := by
        rcases Bool.eq_false_or_eq_true ((assign s.assignments s.trail l).2.2) with h | h
        · exact absurd h hsucc
        · exact h
      exact (compat_assign_fail hfail hcompat htl).elim

theorem initial_propagation_model (pfuel n : Nat) (t : List Bool) (s : Solver)
    (s2 : Solver) (ok : Bool)
    (hn : s.assignments.length = n)
    (hwl : s.watch_lists.length = 2 * n)
    (hcwf : ∀ c ∈ s.clauses, clauseWF n c)
    (hbuck : ∀ i cid, ((s.watch_lists.getD i []).count cid) = watchCount s.clauses cid i)
    (hnaf : ∀ cid c, s.clauses.get? cid = some c → nafAt s.assignments c)
    (himp : ∀ v, s.assignments.getD v none ≠ none → v ∈ s.trail)
    (hsat : ∀ cid c, s.clauses.get? cid = some c → satClause t c)
    (hcompat : compat t s.assignments)
    (hrun : Solver.initial_propagation pfuel s = some (s2, ok)) :
    compat t s2.assignments ∧ (ok = false → False) := by
  unfold Solver.initial_propagation at hrun
  split at hrun
  next hemp =>
    simp only [Option.some.injEq, Prod.mk.injEq] at hrun
    obtain ⟨rfl, rfl⟩ := hrun
    refine ⟨hcompat, fun _ => ?_⟩
    rw [List.any_eq_true] at hemp
    obtain ⟨c, hcm, hce⟩ := hemp
    obtain ⟨cid, hg⟩ := List.mem_iff_get?.mp hcm
    obtain ⟨l, hl, -⟩ := hsat cid c hg
    rw [List.isEmpty_iff] at hce
    rw [hce] at hl
    exact absurd hl (List.not_mem_nil l)
  next hemp =>
    have hu : ∀ l ∈ (s.clauses.filter (fun c => c.literals.length == 1)).map
        (fun c => c.literals.getD 0 0), l ≠ 0 ∧ lit_to_var l < n := by
      intro l hl
      rw [List.mem_map] at hl
      obtain ⟨c, hc, rfl⟩ := hl
      rw [List.mem_filter] at hc
      obtain ⟨hcm, hc1⟩ := hc
      obtain ⟨hlen, -, -, -, -, hlits⟩ := hcwf c hcm
      have hmem : c.literals.getD 0 0 ∈ c.literals := getD_mem_of_lt (by omega)
      exact hlits _ hmem
    have htu : ∀ l ∈ (s.clauses.filter (fun c => c.literals.length == 1)).map
        (fun c => c.literals.getD 0 0), t.getD (lit_to_var l) false = decide (0 < l) := by
      intro l hl
      rw [List.mem_map] at hl
      obtain ⟨c, hc, rfl⟩ := hl
      rw [List.mem_filter] at hc
      obtain ⟨hcm, hc1⟩ := hc
      have hlen1 : c.literals.length = 1 := by simpa using hc1
      obtain ⟨cid, hg⟩ := List.mem_iff_get?.mp hcm
      obtain ⟨x, hx, hv⟩ := hsat cid c hg
      obtain ⟨k, hklt, hkeq⟩ := mem_exists_getD hx
      have hk0 : k = 0 := by omega
      rw [hk0] at hkeq
      rw [hkeq]
      exact hv
    exact unitsLoop_model pfuel n t _ s s2 ok hn hwl hcwf hbuck hnaf himp hu htu
      hsat hcompat hrun

theorem solveLoop_master (ch : List Edge → Nat) (pfuel n : Nat) :
    ∀ (fuel : Nat) (s : Solver) (stack : List Decision) (s2 : Solver) (ok : Bool),
    s.assignments.length = n →
    s.watch_lists.length = 2 * n →
    (∀ c ∈ s.clauses, clauseWF n c) →
    (∀ i cid, ((s.watch_lists.getD i []).count cid) = watchCount s.clauses cid i) →
    (∀ cid c, s.clauses.get? cid = some c → nafAt s.assignments c) →
    (∀ v, s.assignments.getD v none ≠ none → v ∈ s.trail) →
    (∀ e ∈ s.pending_implications,
      (1 ≤ e.from_ ∧ e.from_ < n) ∧ (1 ≤ e.to_ ∧ e.to_ < n)) →
    frames n s.clauses stack s.assignments s.trail s.trail_lim →
    Solver.solveLoop ch pfuel fuel s stack = some (s2, ok) →
    ok = true →
    (∀ cid c, s2.clauses.get? cid = some c → nafAt s2.assignments c) ∧
    (∀ c ∈ s2.clauses, clauseWF n c) ∧
    s2.assignments.length = n ∧
    litsEq s.clauses s2.clauses ∧
    s2.clauses.length = s.clauses.length := by
  intro fuel
  induction fuel with
  | zero =>
    intro s stack s2 ok _ _ _ _ _ _ _ _ hrun _
    simp [Solver.solveLoop] at hrun
  | succ fuel ih =>
    intro s stack s2 ok hn hwl hcwf hbuck hnaf himp hpend hframes hrun hok
    subst hok
    rw [Solver.solveLoop] at hrun
    try simp only [] at hrun
    split at hrun
    next edge rest heq =>
      obtain ⟨hedge, hrest⟩ := popPending_facts ch s.pending_implications edge rest heq
      obtain ⟨hef, het⟩ := hpend edge hedge
      split at hrun
      · exact absurd hrun (by simp)
      next s3 proven heq2 =>
        obtain ⟨w1, w2, w3, w4, w5, w6, w7, w8, w9, w10⟩ :=
          test_implication_master pfuel n
            { s with pending_implications := rest,
                     trail_lim := s.trail_lim ++ [s.trail.length] } edge s3 proven
            hn hwl hcwf hbuck hnaf himp hef het heq2
        have hn3 : s3.assignments.length = n := by
          rw [w1]
          exact hn
        have hnaf3 : ∀ cid c, s3.clauses.get? cid = some c → nafAt s3.assignments c := by
          intro cid c hg
          rw [w1]
          exact w7 cid c hg
        have himp3 : ∀ v, s3.assignments.getD v none ≠ none → v ∈ s3.trail := by
          intro v hv
          rw [w2]
          rw [w1] at hv
          exact himp v hv
        have hpend3 : ∀ e ∈ s3.pending_implications,
            (1 ≤ e.from_ ∧ e.from_ < n) ∧ (1 ≤ e.to_ ∧ e.to_ < n) := by
          intro e he
          rw [w10] at he
          exact hpend e (hrest e he)
        have hframes3 : frames n s3.clauses (Decision.Implication edge :: stack)
            s3.assignments s3.trail s3.trail_lim := by
          refine ⟨s.assignments, s.trail, s.trail_lim, w3, ?_, trivial, w7,
            frames_reclause n s.clauses s3.clauses stack _ _ _ hframes w7⟩
          rw [w1, w2]
          exact assignFrame_refl _ _
        by_cases hpv : proven = true
        · rw [if_pos hpv] at hrun
          obtain ⟨g1, g2, g3, g4, g5⟩ :=
            ih { s3 with implications := s3.implications ++ [edge] }
              (Decision.Implication edge :: stack) s2 true
              hn3 w6 w4 w5 hnaf3 himp3 hpend3 hframes3 hrun rfl
          exact ⟨g1, g2, g3, litsEq_trans w8 g4, g5.trans w9⟩
        · rw [if_neg hpv] at hrun
          obtain ⟨g1, g2, g3, g4, g5⟩ :=
            ih s3 (Decision.Implication edge :: stack) s2 true
              hn3 w6 w4 w5 hnaf3 himp3 hpend3 hframes3 hrun rfl
          exact ⟨g1, g2, g3, litsEq_trans w8 g4, g5.trans w9⟩
    next heq =>
      obtain ⟨hpf, hps⟩ := pick_facts s n hn
      split at hrun
      next hpick =>
        simp only [Option.some.injEq, Prod.mk.injEq] at hrun
        obtain ⟨rfl, -⟩ := hrun
        exact ⟨hnaf, hcwf, hn, fun cid => rfl, rfl⟩
      next var1 var2 hpick =>
        have h1 := hpf var1 (by rw [hpick])
        have h2 := hps var2 (by rw [hpick])
        try simp only [] at hrun
        split at hrun
        · exact absurd hrun (by simp)
        next s2a ok2 heq2 =>
          obtain ⟨m1, m2, m3, m4, m5, m6, m7, m8, m9, m10, m11, m12, m13, m14⟩ :=
            assign_pair_master pfuel n
              { s with trail_lim := s.trail_lim ++ [s.trail.length] } 0 var1 var2 s2a ok2
              hn hwl hcwf hbuck hnaf himp ⟨h1.1.1, h1.1.2⟩ ⟨h2.1.1, h2.1.2⟩ heq2
          have hframesNew : frames n s2a.clauses (Decision.Pair var1 var2 0 false :: stack)
              s2a.assignments s2a.trail s2a.trail_lim :=
            ⟨s.assignments, s.trail, s.trail_lim, m9, m10,
              ⟨⟨h1.1.1, h1.1.2, h1.2⟩, ⟨h2.1.1, h2.1.2, h2.2⟩⟩, m8,
              frames_reclause n s.clauses s2a.clauses stack _ _ _ hframes m8⟩
          have hpend2a : ∀ e ∈ s2a.pending_implications,
              (1 ≤ e.from_ ∧ e.from_ < n) ∧ (1 ≤ e.to_ ∧ e.to_ < n) := by
            intro e he
            rw [m13] at he
            exact hpend e he
          by_cases hok2 : ok2 = true
          · rw [if_pos hok2] at hrun
            obtain ⟨g1, g2, g3, g4, g5⟩ :=
              ih s2a (Decision.Pair var1 var2 0 false :: stack) s2 true
                m1 m2 m3 m4 (m6 hok2) m5 hpend2a hframesNew hrun rfl
            exact ⟨g1, g2, g3, litsEq_trans m11 g4, g5.trans m12⟩
          · rw [if_neg hok2] at hrun
            split at hrun
            · exact absurd hrun (by simp)
            next s3 stack2 heq3 =>
              obtain ⟨b1, b2, b3, b4, b5, b6, b7, b8, b9, b10⟩ :=
                backtrackLoop_master pfuel n fuel s2a
                  (Decision.Pair var1 var2 0 false :: stack) s3 stack2 true
                  m1 m2 m3 m4 m5 hframesNew heq3
              have hpend3 : ∀ e ∈ s3.pending_implications,
                  (1 ≤ e.from_ ∧ e.from_ < n) ∧ (1 ≤ e.to_ ∧ e.to_ < n) := by
                intro e he
                rw [b10, m13] at he
                exact hpend e he
              obtain ⟨g1, g2, g3, g4, g5⟩ :=
                ih s3 stack2 s2 true b1 b2 b3 b4 (b7 rfl) b5 hpend3 b6 hrun rfl
              exact ⟨g1, g2, g3, litsEq_trans m11 (litsEq_trans b8 g4),
                (g5.trans b9).trans m12⟩
            next s3 st3 heq3 =>
              simp at hrun
      next var1 hpick =>
        have h1 := hpf var1 (by rw [hpick])
        try simp only [] at hrun
        have hsucc : (assign s.assignments s.trail (make_lit var1 true)).2.2 = true := by
          unfold assign
          simp only [lit_to_var_make_lit, h1.2]
        rw [if_pos hsucc] at hrun
        split at hrun
        · exact absurd hrun (by simp)
        next s3 heq2 =>
          obtain ⟨m1, m2, m3, m4, m5, m6, m7, m8, m9, m10, m11, m12, m13, m14⟩ :=
            assign_propagate_master pfuel n s.assignments
              { s with trail_lim := s.trail_lim ++ [s.trail.length] }
              (make_lit var1 true) s3 true
              hn hwl hcwf hbuck hnaf himp (make_lit_ne_zero var1 true h1.1.1)
              (by rw [lit_to_var_make_lit]; exact h1.1.2) (fun v _ => rfl) hnaf hsucc heq2
          have hframesNew : frames n s3.clauses (Decision.Single var1 true false :: stack)
              s3.assignments s3.trail s3.trail_lim :=
            ⟨s.assignments, s.trail, s.trail_lim, m9, m10, ⟨h1.1.1, h1.1.2, h1.2⟩, m8,
              frames_reclause n s.clauses s3.clauses stack _ _ _ hframes m8⟩
          have hpend3 : ∀ e ∈ s3.pending_implications,
              (1 ≤ e.from_ ∧ e.from_ < n) ∧ (1 ≤ e.to_ ∧ e.to_ < n) := by
            intro e he
            rw [m13] at he
            exact hpend e he
          obtain ⟨g1, g2, g3, g4, g5⟩ :=
            ih s3 (Decision.Single var1 true false :: stack) s2 true
              m1 m2 m3 m4 (m6 rfl) m5 hpend3 hframesNew hrun rfl
          exact ⟨g1, g2, g3, litsEq_trans m11 g4, g5.trans m12⟩
        next s3 heq2 =>
          obtain ⟨m1, m2, m3, m4, m5, m6, m7, m8, m9, m10, m11, m12, m13, m14⟩ :=
            assign_propagate_master pfuel n s.assignments
              { s with trail_lim := s.trail_lim ++ [s.trail.length] }
              (make_lit var1 true) s3 false
              hn hwl hcwf hbuck hnaf himp (make_lit_ne_zero var1 true h1.1.1)
              (by rw [lit_to_var_make_lit]; exact h1.1.2) (fun v _ => rfl) hnaf hsucc heq2
          have hframesNew : frames n s3.clauses (Decision.Single var1 true false :: stack)
              s3.assignments s3.trail s3.trail_lim :=
            ⟨s.assignments, s.trail, s.trail_lim, m9, m10, ⟨h1.1.1, h1.1.2, h1.2⟩, m8,
              frames_reclause n s.clauses s3.clauses stack _ _ _ hframes m8⟩
          split at hrun
          · exact absurd hrun (by simp)
          next s4 stack2 heq3 =>
            obtain ⟨b1, b2, b3, b4, b5, b6, b7, b8, b9, b10⟩ :=
              backtrackLoop_master pfuel n fuel s3
                (Decision.Single var1 true false :: stack) s4 stack2 true
                m1 m2 m3 m4 m5 hframesNew heq3
            have hpend4 : ∀ e ∈ s4.pending_implications,
                (1 ≤ e.from_ ∧ e.from_ < n) ∧ (1 ≤ e.to_ ∧ e.to_ < n) := by
              intro e he
              rw [b10, m13] at he
              exact hpend e he
            obtain ⟨g1, g2, g3, g4, g5⟩ :=
              ih s4 stack2 s2 true b1 b2 b3 b4 (b7 rfl) b5 hpend4 b6 hrun rfl
            exact ⟨g1, g2, g3, litsEq_trans m11 (litsEq_trans b8 g4),
              (g5.trans b9).trans m12⟩
          next s4 st4 heq3 =>
            simp at hrun

theorem solveLoop_complete (ch : List Edge → Nat) (pfuel n : Nat) (aB : List (Option Bool)) :
    ∀ (fuel : Nat) (s : Solver) (stack : List Decision) (s2 : Solver) (ok : Bool),
    s.assignments.length = n →
    s.watch_lists.length = 2 * n →
    (∀ c ∈ s.clauses, clauseWF n c) →
    (∀ i cid, ((s.watch_lists.getD i []).count cid) = watchCount s.clauses cid i) →
    (∀ cid c, s.clauses.get? cid = some c → nafAt s.assignments c) →
    (∀ v, s.assignments.getD v none ≠ none → v ∈ s.trail) →
    (∀ e ∈ s.pending_implications,
      (1 ≤ e.from_ ∧ e.from_ < n) ∧ (1 ≤ e.to_ ∧ e.to_ < n)) →
    framesC n s.clauses aB stack s.assignments s.trail s.trail_lim →
    Solver.solveLoop ch pfuel fuel s stack = some (s2, ok) →
    ok = false →
    (∀ t, satStore t s2.clauses → compat t s2.assignments → False) ∧
    s2.assignments = aB ∧
    litsEq s.clauses s2.clauses := by
  intro fuel
  induction fuel with
  | zero =>
    intro s stack s2 ok _ _ _ _ _ _ _ _ hrun _
    simp [Solver.solveLoop] at hrun
  | succ fuel ih =>
    intro s stack s2 ok hn hwl hcwf hbuck hnaf himp hpend hframes hrun hok
    subst hok
    rw [Solver.solveLoop] at hrun
    try simp only [] at hrun
    split at hrun
    next edge rest heq =>
      obtain ⟨hedge, hrest⟩ := popPending_facts ch s.pending_implications edge rest heq
      obtain ⟨hef, het⟩ := hpend edge hedge
      split at hrun
      · exact absurd hrun (by simp)
      next s3 proven heq2 =>
        obtain ⟨w1, w2, w3, w4, w5, w6, w7, w8, w9, w10⟩ :=
          test_implication_master pfuel n
            { s with pending_implications := rest,
                     trail_lim := s.trail_lim ++ [s.trail.length] } edge s3 proven
            hn hwl hcwf hbuck hnaf himp hef het heq2
        have hn3 : s3.assignments.length = n := by
          rw [w1]
          exact hn
        have hnaf3 : ∀ cid c, s3.clauses.get? cid = some c → nafAt s3.assignments c := by
          intro cid c hg
          rw [w1]
          exact w7 cid c hg
        have himp3 : ∀ v, s3.assignments.getD v none ≠ none → v ∈ s3.trail := by
          intro v hv
          rw [w2]
          rw [w1] at hv
          exact himp v hv
        have hpend3 : ∀ e ∈ s3.pending_implications,
            (1 ≤ e.from_ ∧ e.from_ < n) ∧ (1 ≤ e.to_ ∧ e.to_ < n) := by
          intro e he
          rw [w10] at he
          exact hpend e (hrest e he)
        have hframes3 : framesC n s3.clauses aB (Decision.Implication edge :: stack)
            s3.assignments s3.trail s3.trail_lim := by
          refine ⟨s.assignments, s.trail, s.trail_lim, w3, ?_, trivial, w7, ?_, ?_,
            framesC_reclause n s.clauses s3.clauses aB w8 stack _ _ _ hframes w7⟩
          · rw [w1, w2]
            exact assignFrame_refl _ _
          · intro t hs hr hc
            exact hr.elim
          · intro t hs ha hc
            rw [w1]
            exact hc
        by_cases hpv : proven = true
        · rw [if_pos hpv] at hrun
          obtain ⟨g1, g2, g3⟩ :=
            ih { s3 with implications := s3.implications ++ [edge] }
              (Decision.Implication edge :: stack) s2 false
              hn3 w6 w4 w5 hnaf3 himp3 hpend3 hframes3 hrun rfl
          exact ⟨g1, g2, litsEq_trans w8 g3⟩
        · rw [if_neg hpv] at hrun
          obtain ⟨g1, g2, g3⟩ :=
            ih s3 (Decision.Implication edge :: stack) s2 false
              hn3 w6 w4 w5 hnaf3 himp3 hpend3 hframes3 hrun rfl
          exact ⟨g1, g2, litsEq_trans w8 g3⟩
    next heq =>
      obtain ⟨hpf, hps⟩ := pick_facts s n hn
      split at hrun
      next hpick =>
        simp only [Option.some.injEq, Prod.mk.injEq] at hrun
        obtain ⟨-, hfalse⟩ := hrun
        exact absurd hfalse (by simp)
      next var1 var2 hpick =>
        have h1 := hpf var1 (by rw [hpick])
        have h2 := hps var2 (by rw [hpick])
        try simp only [] at hrun
        split at hrun
        · exact absurd hrun (by simp)
        next s2a ok2 heq2 =>
          obtain ⟨m1, m2, m3, m4, m5, m6, m7, m8, m9, m10, m11, m12, m13, m14⟩ :=
            assign_pair_master pfuel n
              { s with trail_lim := s.trail_lim ++ [s.trail.length] } 0 var1 var2 s2a ok2
              hn hwl hcwf hbuck hnaf himp ⟨h1.1.1, h1.1.2⟩ ⟨h2.1.1, h2.1.2⟩ heq2
          have hmodel : ∀ t, satStore t s2a.clauses → combOf t var1 var2 = 0 →
              compat t s.assignments →
              compat t s2a.assignments ∧ (ok2 = false → False) := by
            intro t hs hcb hc
            have hsPre : ∀ cid c, s.clauses.get? cid = some c → satClause t c :=
              satStore_litsEq (litsEq_symm m11) t hs
            exact assign_pair_model pfuel n t
              { s with trail_lim := s.trail_lim ++ [s.trail.length] } 0 var1 var2 s2a ok2
              hn hwl hcwf hbuck hnaf himp ⟨h1.1.1, h1.1.2⟩ ⟨h2.1.1, h2.1.2⟩
              hsPre hc hcb heq2
          have hrefutNew : ∀ t, satStore t s2a.clauses →
              refutedBranch t (Decision.Pair var1 var2 0 false) → compat t s.assignments →
              False := by
            intro t hs hr hc
            rcases hr with h | h
            · omega
            · simp at h
          have hactNew : ∀ t, satStore t s2a.clauses →
              activeBranch t (Decision.Pair var1 var2 0 false) → compat t s.assignments →
              compat t s2a.assignments :=
            fun t hs hcb hc => (hmodel t hs hcb hc).1
          have hframesNewC : framesC n s2a.clauses aB
              (Decision.Pair var1 var2 0 false :: stack)
              s2a.assignments s2a.trail s2a.trail_lim :=
            ⟨s.assignments, s.trail, s.trail_lim, m9, m10,
              ⟨⟨h1.1.1, h1.1.2, h1.2⟩, ⟨h2.1.1, h2.1.2, h2.2⟩⟩, m8, hrefutNew, hactNew,
              framesC_reclause n s.clauses s2a.clauses aB m11 stack _ _ _ hframes m8⟩
          have hpend2a : ∀ e ∈ s2a.pending_implications,
              (1 ≤ e.from_ ∧ e.from_ < n) ∧ (1 ≤ e.to_ ∧ e.to_ < n) := by
            intro e he
            rw [m13] at he
            exact hpend e he
          by_cases hok2 : ok2 = true
          · rw [if_pos hok2] at hrun
            obtain ⟨g1, g2, g3⟩ :=
              ih s2a (Decision.Pair var1 var2 0 false :: stack) s2 false
                m1 m2 m3 m4 (m6 hok2) m5 hpend2a hframesNewC hrun rfl
            exact ⟨g1, g2, litsEq_trans m11 g3⟩
          · rw [if_neg hok2] at hrun
            have hokf : ok2 = false := by
              rcases Bool.eq_false_or_eq_true ok2 with h | h
              · exact absurd h hok2
              · exact h
            have hdeadNew : stackDead s2a.clauses s2a.assignments
                (Decision.Pair var1 var2 0 false :: stack) := by
              intro t hs hcb hc
              exact (hmodel t hs hcb (compat_anti (assignFrame_ext m10) hc)).2 hokf
            split at hrun
            · exact absurd hrun (by simp)
            next s3 stack2 heq3 =>
              obtain ⟨b1, b2, b3, b4, b5, b6, b7, b8, b9, b10, b11⟩ :=
                backtrackLoop_complete pfuel n aB fuel s2a
                  (Decision.Pair var1 var2 0 false :: stack) s3 stack2 true
                  m1 m2 m3 m4 m5 hframesNewC hdeadNew heq3
              have hpend3 : ∀ e ∈ s3.pending_implications,
                  (1 ≤ e.from_ ∧ e.from_ < n) ∧ (1 ≤ e.to_ ∧ e.to_ < n) := by
                intro e he
                rw [b10, m13] at he
                exact hpend e he
              obtain ⟨g1, g2, g3⟩ :=
                ih s3 stack2 s2 false b1 b2 b3 b4 (b7 rfl) b5 hpend3 b6 hrun rfl
              exact ⟨g1, g2, litsEq_trans m11 (litsEq_trans b8 g3)⟩
            next s3 stack3 heq3 =>
              obtain ⟨b1, b2, b3, b4, b5, b6, b7, b8, b9, b10, b11⟩ :=
                backtrackLoop_complete pfuel n aB fuel s2a
                  (Decision.Pair var1 var2 0 false :: stack) s3 stack3 false
                  m1 m2 m3 m4 m5 hframesNewC hdeadNew heq3
              simp only [Option.some.injEq, Prod.mk.injEq] at hrun
              obtain ⟨rfl, -⟩ := hrun
              obtain ⟨hdd, haB⟩ := b11 rfl
              exact ⟨hdd, haB, litsEq_trans m11 b8⟩
      next var1 hpick =>
        have h1 := hpf var1 (by rw [hpick])
        try simp only [] at hrun
        have hsucc : (assign s.assignments s.trail (make_lit var1 true)).2.2 = true := by
          unfold assign
          simp only [lit_to_var_make_lit, h1.2]
        rw [if_pos hsucc] at hrun
        split at hrun
        · exact absurd hrun (by simp)
        next s3 heq2 =>
          obtain ⟨m1, m2, m3, m4, m5, m6, m7, m8, m9, m10, m11, m12, m13, m14⟩ :=
            assign_propagate_master pfuel n s.assignments
              { s with trail_lim := s.trail_lim ++ [s.trail.length] }
              (make_lit var1 true) s3 true
              hn hwl hcwf hbuck hnaf himp (make_lit_ne_zero var1 true h1.1.1)
              (by rw [lit_to_var_make_lit]; exact h1.1.2) (fun v _ => rfl) hnaf hsucc heq2
          have hmodel : ∀ t, satStore t s3.clauses → t.getD var1 false = true →
              compat t s.assignments → compat t s3.assignments := by
            intro t hs hv hc
            have hsPre : ∀ cid c, s.clauses.get? cid = some c → satClause t c :=
              satStore_litsEq (litsEq_symm m11) t hs
            have htlit : t.getD (lit_to_var (make_lit var1 true)) false =
                decide (0 < make_lit var1 true) := by
              rw [lit_to_var_make_lit, polarity_make_lit var1 true h1.1.1]
              exact hv
            obtain ⟨e1, -, -⟩ :=
              assign_propagate_model pfuel n t
                { s with trail_lim := s.trail_lim ++ [s.trail.length] }
                (make_lit var1 true) s3 true
                hn hwl hcwf hbuck hnaf himp (make_lit_ne_zero var1 true h1.1.1)
                (by rw [lit_to_var_make_lit]; exact h1.1.2) hsPre hc htlit hsucc heq2
            exact e1
          have hrefutNew : ∀ t, satStore t s3.clauses →
              refutedBranch t (Decision.Single var1 true false) → compat t s.assignments →
              False := by
            intro t hs hr hc
            obtain ⟨h, -⟩ := hr
            simp at h
          have hframesNewC : framesC n s3.clauses aB
              (Decision.Single var1 true false :: stack)
              s3.assignments s3.trail s3.trail_lim :=
            ⟨s.assignments, s.trail, s.trail_lim, m9, m10, ⟨h1.1.1, h1.1.2, h1.2⟩, m8,
              hrefutNew, (fun t hs hv hc => hmodel t hs hv hc),
              framesC_reclause n s.clauses s3.clauses aB m11 stack _ _ _ hframes m8⟩
          have hpend3 : ∀ e ∈ s3.pending_implications,
              (1 ≤ e.from_ ∧ e.from_ < n) ∧ (1 ≤ e.to_ ∧ e.to_ < n) := by
            intro e he
            rw [m13] at he
            exact hpend e he
          obtain ⟨g1, g2, g3⟩ :=
            ih s3 (Decision.Single var1 true false :: stack) s2 false
              m1 m2 m3 m4 (m6 rfl) m5 hpend3 hframesNewC hrun rfl
          exact ⟨g1, g2, litsEq_trans m11 g3⟩
        next s3 heq2 =>
          obtain ⟨m1, m2, m3, m4, m5, m6, m7, m8, m9, m10, m11, m12, m13, m14⟩ :=
            assign_propagate_master pfuel n s.assignments
              { s with trail_lim := s.trail_lim ++ [s.trail.length] }
              (make_lit var1 true) s3 false
              hn hwl hcwf hbuck hnaf himp (make_lit_ne_zero var1 true h1.1.1)
              (by rw [lit_to_var_make_lit]; exact h1.1.2) (fun v _ => rfl) hnaf hsucc heq2
          have hmodel : ∀ t, satStore t s3.clauses → t.getD var1 false = true →
              compat t s.assignments →
              compat t s3.assignments ∧
              (∃ cid c, s3.clauses.get? cid = some c ∧
                ∀ x ∈ c.literals, get_literal_value s3.assignments x = some false) := by
            intro t hs hv hc
            have hsPre : ∀ cid c, s.clauses.get? cid = some c → satClause t c :=
              satStore_litsEq (litsEq_symm m11) t hs
            have htlit : t.getD (lit_to_var (make_lit var1 true)) false =
                decide (0 < make_lit var1 true) := by
              rw [lit_to_var_make_lit, polarity_make_lit var1 true h1.1.1]
              exact hv
            obtain ⟨e1, -, e3⟩ :=
              assign_propagate_model pfuel n t
                { s with trail_lim := s.trail_lim ++ [s.trail.length] }
                (make_lit var1 true) s3 false
                hn hwl hcwf hbuck hnaf himp (make_lit_ne_zero var1 true h1.1.1)
                (by rw [lit_to_var_make_lit]; exact h1.1.2) hsPre hc htlit hsucc heq2
            exact ⟨e1, e3 rfl⟩
          have hrefutNew : ∀ t, satStore t s3.clauses →
              refutedBranch t (Decision.Single var1 true false) → compat t s.assignments →
              False := by
            intro t hs hr hc
            obtain ⟨h, -⟩ := hr
            simp at h
          have hframesNewC : framesC n s3.clauses aB
              (Decision.Single var1 true false :: stack)
              s3.assignments s3.trail s3.trail_lim :=
            ⟨s.assignments, s.trail, s.trail_lim, m9, m10, ⟨h1.1.1, h1.1.2, h1.2⟩, m8,
              hrefutNew, (fun t hs hv hc => (hmodel t hs hv hc).1),
              framesC_reclause n s.clauses s3.clauses aB m11 stack _ _ _ hframes m8⟩
          have hdeadNew : stackDead s3.clauses s3.assignments
              (Decision.Single var1 true false :: stack) := by
            intro t hs hv hc
            obtain ⟨-, cid, c, hg, hall⟩ :=
              hmodel t hs hv (compat_anti (assignFrame_ext m10) hc)
            exact unsat_of_conflict hc hall (hs cid c hg)
          split at hrun
          · exact absurd hrun (by simp)
          next s4 stack2 heq3 =>
            obtain ⟨b1, b2, b3, b4, b5, b6, b7, b8, b9, b10, b11⟩ :=
              backtrackLoop_complete pfuel n aB fuel s3
                (Decision.Single var1 true false :: stack) s4 stack2 true
                m1 m2 m3 m4 m5 hframesNewC hdeadNew heq3
            have hpend4 : ∀ e ∈ s4.pending_implications,
                (1 ≤ e.from_ ∧ e.from_ < n) ∧ (1 ≤ e.to_ ∧ e.to_ < n) := by
              intro e he
              rw [b10, m13] at he
              exact hpend e he
            obtain ⟨g1, g2, g3⟩ :=
              ih s4 stack2 s2 false b1 b2 b3 b4 (b7 rfl) b5 hpend4 b6 hrun rfl
            exact ⟨g1, g2, litsEq_trans m11 (litsEq_trans b8 g3)⟩
          next s4 stack4 heq3 =>
            obtain ⟨b1, b2, b3, b4, b5, b6, b7, b8, b9, b10, b11⟩ :=
              backtrackLoop_complete pfuel n aB fuel s3
                (Decision.Single var1 true false :: stack) s4 stack4 false
                m1 m2 m3 m4 m5 hframesNewC hdeadNew heq3
            simp only [Option.some.injEq, Prod.mk.injEq] at hrun
            obtain ⟨rfl, -⟩ := hrun
            obtain ⟨hdd, haB⟩ := b11 rfl
            exact ⟨hdd, haB, litsEq_trans m11 b8⟩

/-- **C1.** Soundness of the SAT verdict: on a well-formed initial state (watch
buckets match the watch slots, every clause has a non-false watched literal,
assigned variables sit on the trail, no open checkpoints), if `solve` returns
`true` then the assignment table it leaves behind satisfies every clause of
the final clause store — each clause has a literal evaluating to `some true`. -/
theorem solve_sound (ch : List Edge → Nat) (fuel : Nat) (s s2 : Solver)
    (hwl : s.watch_lists.length = 2 * s.assignments.length)
    (hcwf : ∀ c ∈ s.clauses, clauseWF s.assignments.length c)
    (hbuck : ∀ i cid, ((s.watch_lists.getD i []).count cid) = watchCount s.clauses cid i)
    (hnaf : ∀ c ∈ s.clauses, nafAt s.assignments c)
    (himp : ∀ v, s.assignments.getD v none ≠ none → v ∈ s.trail)
    (hpend : ∀ e ∈ s.pending_implications,
      (1 ≤ e.from_ ∧ e.from_ < s.assignments.length) ∧
      (1 ≤ e.to_ ∧ e.to_ < s.assignments.length))
    (hlim : s.trail_lim = [])
    (hrun : Solver.solve ch fuel s = some (s2, true)) :
    ∀ c ∈ s2.clauses, ∃ l ∈ c.literals, get_literal_value s2.assignments l = some true := by
  have hpick := solve_true_pick ch fuel s s2 hrun
  rw [pick_fst_none_iff] at hpick
  unfold Solver.solve at hrun
  split at hrun
  · simp at hrun
  · simp at hrun
  next s1 heqip =>
    obtain ⟨i1, i2, i3, i4, i5, i6, i7, i8, i9, i10⟩ :=
      initial_propagation_master fuel s.assignments.length s s1 true rfl hwl hcwf hbuck
        (fun cid c hg => hnaf c (List.get?_mem hg)) himp heqip
    have hframes1 : frames s.assignments.length s1.clauses [] s1.assignments s1.trail
        s1.trail_lim := by
      show s1.trail_lim = []
      rw [i7, hlim]
    have hpend1 : ∀ e ∈ s1.pending_implications,
        (1 ≤ e.from_ ∧ e.from_ < s.assignments.length) ∧
        (1 ≤ e.to_ ∧ e.to_ < s.assignments.length) := by
      intro e he
      rw [i8] at he
      exact hpend e he
    obtain ⟨g1, g2, g3, g4, g5⟩ :=
      solveLoop_master ch fuel s.assignments.length fuel s1 [] s2 true
        i1 i2 i3 i4 (i6 rfl) i5 hpend1 hframes1 hrun rfl
    intro c hc
    obtain ⟨cid, hg⟩ := List.mem_iff_get?.mp hc
    obtain ⟨k, hk, hv⟩ := g1 cid c hg
    obtain ⟨hlen, hw0, hw1, -, -, hlits⟩ := g2 c hc
    have hklt : k < c.literals.length := by
      rcases mem_watchedOccs hk with rfl | rfl
      · exact hw0
      · exact hw1
    have hmem := getD_mem_of_lt hklt
    obtain ⟨hl0, hlvar⟩ := hlits _ hmem
    refine ⟨c.literals.getD k 0, hmem, ?_⟩
    have hvar1 : 1 ≤ lit_to_var (c.literals.getD k 0) := by
      unfold lit_to_var
      omega
    have hassigned := hpick (lit_to_var (c.literals.getD k 0)) hvar1 (by rw [g3]; exact hlvar)
    unfold get_literal_value at hv ⊢
    rcases hx : s2.assignments.getD (lit_to_var (c.literals.getD k 0)) none with _ | b
    · exact absurd hx hassigned
    · rw [hx] at hv
      have hb : (b == decide (0 < c.literals.getD k 0)) = true := by
        rcases Bool.eq_false_or_eq_true (b == decide (0 < c.literals.getD k 0)) with h | h
        · exact h
        · exfalso
          apply hv
          simp only [Option.map_some']
          rw [h]
      simp only [Option.map_some']
      rw [hb]

/-- **C2.** Completeness of the UNSAT verdict: on a well-formed initial state
(watch buckets match the watch slots, every clause has a non-false watched
literal, no variable assigned, no open checkpoints), if `solve` returns
`false` then no total assignment satisfies every clause of the input clause
store. -/
theorem solve_complete (ch : List Edge → Nat) (fuel : Nat) (s s2 : Solver)
    (hwl : s.watch_lists.length = 2 * s.assignments.length)
    (hcwf : ∀ c ∈ s.clauses, clauseWF s.assignments.length c)
    (hbuck : ∀ i cid, ((s.watch_lists.getD i []).count cid) = watchCount s.clauses cid i)
    (hnaf : ∀ c ∈ s.clauses, nafAt s.assignments c)
    (hempty : ∀ v, s.assignments.getD v none = none)
    (hpend : ∀ e ∈ s.pending_implications,
      (1 ≤ e.from_ ∧ e.from_ < s.assignments.length) ∧
      (1 ≤ e.to_ ∧ e.to_ < s.assignments.length))
    (hlim : s.trail_lim = [])
    (hrun : Solver.solve ch fuel s = some (s2, false)) :
    ∀ t : List Bool, satStore t s.clauses → False := by
  intro t hsat0
  have himp : ∀ v, s.assignments.getD v none ≠ none → v ∈ s.trail :=
    fun v hv => absurd (hempty v) hv
  have hcompat0 : compat t s.assignments := fun v => Or.inl (hempty v)
  unfold Solver.solve at hrun
  split at hrun
  · simp at hrun
  next s1 heqip =>
    simp only [Option.some.injEq, Prod.mk.injEq] at hrun
    obtain ⟨rfl, -⟩ := hrun
    obtain ⟨c1, c2⟩ :=
      initial_propagation_model fuel s.assignments.length t s s1 false rfl hwl hcwf hbuck
        (fun cid c hg => hnaf c (List.get?_mem hg)) himp hsat0 hcompat0 heqip
    exact c2 rfl
  next s1 heqip =>
    obtain ⟨i1, i2, i3, i4, i5, i6, i7, i8, i9, i10⟩ :=
      initial_propagation_master fuel s.assignments.length s s1 true rfl hwl hcwf hbuck
        (fun cid c hg => hnaf c (List.get?_mem hg)) himp heqip
    have hframes1 : framesC s.assignments.length s1.clauses s1.assignments []
        s1.assignments s1.trail s1.trail_lim := ⟨by rw [i7, hlim], rfl⟩
    have hpend1 : ∀ e ∈ s1.pending_implications,
        (1 ≤ e.from_ ∧ e.from_ < s.assignments.length) ∧
        (1 ≤ e.to_ ∧ e.to_ < s.assignments.length) := by
      intro e he
      rw [i8] at he
      exact hpend e he
    obtain ⟨g1, g2, g3⟩ :=
      solveLoop_complete ch fuel s.assignments.length s1.assignments fuel s1 [] s2 false
        i1 i2 i3 i4 (i6 rfl) i5 hpend1 hframes1 hrun rfl
    have hsat1 : satStore t s1.clauses := satStore_litsEq i9 t hsat0
    have hsat2 : satStore t s2.clauses := satStore_litsEq g3 t hsat1
    have hcompat1 : compat t s1.assignments := by
      obtain ⟨c1, -⟩ :=
        initial_propagation_model fuel s.assignments.length t s s1 true rfl hwl hcwf hbuck
          (fun cid c hg => hnaf c (List.get?_mem hg)) himp hsat0 hcompat0 heqip
      exact c1
    have hcompat2 : compat t s2.assignments := by
      rw [g2]
      exact hcompat1
    exact g1 t hsat2 hcompat2

/-- Witness for C2: the four-clause input over two variables that excludes
every polarity combination is reported UNSAT, and indeed no total assignment
satisfies its clause store. -/
theorem solve_complete_witness :
    Solver.solve headChooser 30 c2WitStart = some (c2WitEnd, false) ∧
    (∀ t : List Bool, satStore t c2WitStart.clauses → False) :=
  ⟨rfl, solve_complete headChooser 30 c2WitStart c2WitEnd rfl (by decide)
    (buckets_of_bounded c2WitStart.watch_lists c2WitStart.clauses 3 rfl (by decide)
      (by decide) (by decide))
    (by decide)
    (fun v => by rcases v with _ | _ | _ | v <;> rfl)
    (by decide) rfl rfl⟩

/-- Witness for C1: on the one-clause input `(1 ∨ 2)` the solver answers SAT
and the final assignment indeed satisfies the clause. -/
theorem solve_sound_witness :
    Solver.solve headChooser 20 solveWitStart = some (solveWitEnd, true) ∧
    (∀ c ∈ solveWitEnd.clauses, ∃ l ∈ c.literals,
      get_literal_value solveWitEnd.assignments l = some true) :=
  ⟨rfl, solve_sound headChooser 20 solveWitStart solveWitEnd rfl (by decide)
    (buckets_of_bounded solveWitStart.watch_lists solveWitStart.clauses 3 rfl (by decide)
      (by decide) (by decide))
    (by decide)
    (fun v hv => absurd (by rcases v with _ | _ | _ | v <;> rfl) hv)
    (by decide) rfl rfl⟩

/-- Witness for C5: the invariant hypotheses hold for `watchWitStart` after
assigning variable 1 true, and the conclusion holds for the propagated state. -/
theorem propagate_watch_invariant_witness :
    Solver.propagate 5 watchWitStart 1 = some (watchWitEnd, true) ∧
    ((∀ i cid, ((watchWitEnd.watch_lists.getD i []).count cid) =
        watchCount watchWitEnd.clauses cid i) ∧
     (true = true → ∀ c ∈ watchWitEnd.clauses, 2 ≤ c.literals.length →
       ¬(get_literal_value watchWitEnd.assignments (c.literals.getD c.watched0 0) =
           some false ∧
         get_literal_value watchWitEnd.assignments (c.literals.getD c.watched1 0) =
           some false)) ∧
     (true = false → ∃ cid c, watchWitEnd.clauses.get? cid = some c ∧
       ∀ x ∈ c.literals, get_literal_value watchWitEnd.assignments x = some false)) :=
  ⟨rfl, propagate_watch_invariant 5 0 watchWitStart 1 watchWitEnd true rfl (by decide)
    (buckets_of_bounded watchWitStart.watch_lists watchWitStart.clauses 3 rfl (by decide)
      (by decide) (by decide))
    (by decide) (by decide) (by decide) (by decide) (by decide) (by decide) rfl⟩

/-! ## Reproducibility: generic table and store lemmas -/

theorem tabLe_trans {a b c : List (Option Bool)} (h1 : tabLe a b) (h2 : tabLe b c) :
    tabLe a c := by
  intro v hv
  have hb := h1 v hv
  have hbne : b.getD v none ≠ none := by
    rw [hb]
    exact hv
  rw [h2 v hbne, hb]

theorem tabLe_set_fresh {a : List (Option Bool)} {v : Nat} {p : Option Bool}
    (hv : a.getD v none = none) : tabLe a (a.set v p) := by
  intro u hu
  have huv : u ≠ v := fun he => hu (he ▸ hv)
  exact getD_set_ne _ _ _ _ _ (Ne.symm huv)

theorem value_ext_eq (a b : List (Option Bool)) (x : Int)
    (hb : ∀ v, b.getD v none ≠ none → a.getD v none = b.getD v none)
    (p : Bool) (h : get_literal_value b x = some p) : get_literal_value a x = some p := by
  unfold get_literal_value at h ⊢
  rcases hv : b.getD (lit_to_var x) none with _ | q
  · rw [hv] at h
    simp at h
  · rw [hb _ (by rw [hv]; simp), hv]
    rw [hv] at h
    exact h

theorem assign_flag_eq (aA aB : List (Option Bool)) (trA trB : List Nat) (l : Int)
    (h : aA = aB) : (assign aA trA l).2.2 = (assign aB trB l).2.2 := by
  subst h
  rcases hv : aA.getD (lit_to_var l) none with _ | p
  · have e1 : assign aA trA l =
        (aA.set (lit_to_var l) (some (decide (0 < l))), lit_to_var l :: trA, true) := by
      unfold assign
      simp only [hv]
    have e2 : assign aA trB l =
        (aA.set (lit_to_var l) (some (decide (0 < l))), lit_to_var l :: trB, true) := by
      unfold assign
      simp only [hv]
    rw [e1, e2]
  · have e1 : assign aA trA l = (aA, trA, p == decide (0 < l)) := by
      unfold assign
      simp only [hv]
    have e2 : assign aA trB l = (aA, trB, p == decide (0 < l)) := by
      unfold assign
      simp only [hv]
    rw [e1, e2]

theorem pick_eq_tab (sA sB : Solver) (h : sA.assignments = sB.assignments) :
    sA.pick_branching_pair = sB.pick_branching_pair := by
  unfold Solver.pick_branching_pair
  rw [h]

theorem decVarsFresh_sim {n : Nat} {a : List (Option Bool)} {dA dB : Decision}
    (h : decSim dA dB) (hf : decVarsFresh n a dA) : decVarsFresh n a dB := by
  rcases dA with ⟨v, p, b⟩ | ⟨v1, v2, cb, al⟩ | e
  · rcases dB with ⟨v2, p2, b2⟩ | ⟨w1, w2, cb2, al2⟩ | e2
    · obtain ⟨rfl, rfl, rfl⟩ := h
      exact hf
    · exact h.elim
    · exact h.elim
  · rcases dB with ⟨v2, p2, b2⟩ | ⟨w1, w2, cb2, al2⟩ | e2
    · exact h.elim
    · obtain ⟨rfl, rfl, rfl, rfl⟩ := h
      exact hf
    · exact h.elim
  · rcases dB with ⟨v2, p2, b2⟩ | ⟨w1, w2, cb2, al2⟩ | e2
    · exact h.elim
    · exact h.elim
    · trivial

theorem unitsOK_mono {a a2 : List (Option Bool)} {cls : List Clause}
    (h : tabLe a a2) (hu : unitsOK a cls) : unitsOK a2 cls :=
  fun cid c hg h1 => tabLe_value h (hu cid c hg h1)

theorem unitsOK_litsEq {cls cls2 : List Clause} (h : litsEq cls cls2)
    {a : List (Option Bool)} (hu : unitsOK a cls) : unitsOK a cls2 := by
  intro cid c hg h1
  have hm := h cid
  rw [hg] at hm
  rcases hg2 : cls.get? cid with _ | c2
  · rw [hg2] at hm
    simp at hm
  · rw [hg2] at hm
    simp only [Option.map_some', Option.some.injEq] at hm
    have hv := hu cid c2 hg2 (by rw [hm]; exact h1)
    rw [hm] at hv
    exact hv

theorem closed_litsEq {cls cls2 : List Clause} (h : litsEq cls cls2)
    (B : List (Option Bool))
    (hc : ∀ cid c, cls2.get? cid = some c → clsClosed B c) :
    ∀ cid c, cls.get? cid = some c → clsClosed B c := by
  intro cid c hg
  have hm := h cid
  rw [hg] at hm
  rcases hg2 : cls2.get? cid with _ | c2
  · rw [hg2] at hm
    simp at hm
  · rw [hg2] at hm
    simp only [Option.map_some', Option.some.injEq] at hm
    have hcc := hc cid c2 hg2
    unfold clsClosed at hcc ⊢
    rw [← hm] at hcc
    exact hcc

theorem tabClosed_of_si (n : Nat) (cls : List Clause) (a : List (Option Bool))
    (hcwf : ∀ c ∈ cls, clauseWF n c)
    (hsi : ∀ cid c, cls.get? cid = some c → siAt a c)
    (hunits : unitsOK a cls) :
    ∀ cid c, cls.get? cid = some c → clsClosed a c := by
  intro cid c hg
  obtain ⟨hlen, hw0, hw1, hdist, hone, hlits⟩ := hcwf c (List.get?_mem hg)
  by_cases h1 : c.literals.length = 1
  · exact Or.inl ⟨c.literals.getD 0 0, getD_mem_of_lt (by omega), hunits cid c hg h1⟩
  · have hlen2 : 2 ≤ c.literals.length := by omega
    have hocc2 : watchedOccs c = [c.watched0, c.watched1] := by
      unfold watchedOccs
      rw [if_neg (by omega), if_neg (by omega)]
    rcases hsi cid c hg with ⟨k, hk, hv⟩ | h
    · have hklt : k < c.literals.length := by
        rcases mem_watchedOccs hk with rfl | rfl
        · exact hw0
        · exact hw1
      exact Or.inl ⟨c.literals.getD k 0, getD_mem_of_lt hklt, hv⟩
    · refine Or.inr ⟨c.watched0, c.watched1, hw0, hw1, hdist hlen2, ?_, ?_⟩
      · exact h c.watched0 (by rw [hocc2]; exact List.mem_cons_self _ _)
      · exact h c.watched1 (by rw [hocc2]; simp)

theorem siAt_swap (b : List (Option Bool)) (c : Clause) (m : Nat)
    (hone : c.literals.length = 1 → c.watched0 = c.watched1)
    (h : siAt b c) : siAt b ⟨c.literals, c.watched1, c.watched0, m⟩ := by
  rcases h with ⟨k, hk, hv⟩ | h
  · exact Or.inl ⟨k, (mem_watchedOccs_swap c m hone k).mpr hk, hv⟩
  · exact Or.inr (fun k hk => h k ((mem_watchedOccs_swap c m hone k).mp hk))

theorem assign_propagate_tabLe (pfuel : Nat) (s : Solver) (lit : Int) (s2 : Solver)
    (ok : Bool)
    (hlvar : lit_to_var lit < s.assignments.length)
    (hsucc : (assign s.assignments s.trail lit).2.2 = true)
    (hrun : Solver.propagate pfuel
      { s with assignments := (assign s.assignments s.trail lit).1,
               trail := (assign s.assignments s.trail lit).2.1 } lit = some (s2, ok)) :
    tabLe s.assignments s2.assignments ∧
    get_literal_value s2.assignments lit = some true := by
  have hfr := (propagate_frame pfuel
    { s with assignments := (assign s.assignments s.trail lit).1,
             trail := (assign s.assignments s.trail lit).2.1 } lit s2 ok hrun).1
  have hext2 : tabLe (assign s.assignments s.trail lit).1 s2.assignments :=
    assignFrame_ext hfr
  rcases hv : s.assignments.getD (lit_to_var lit) none with _ | p
  · have hass : (assign s.assignments s.trail lit).1 =
        s.assignments.set (lit_to_var lit) (some (decide (0 < lit))) := by
      unfold assign
      simp only [hv]
    rw [hass] at hext2
    refine ⟨tabLe_trans (tabLe_set_fresh hv) hext2, ?_⟩
    exact tabLe_value hext2 (value_of_assigned_same s.assignments lit hlvar)
  · have hass : (assign s.assignments s.trail lit).1 = s.assignments := by
      unfold assign
      simp only [hv]
    rw [hass] at hext2
    have hpe : (p == decide (0 < lit)) = true := by
      have : (assign s.assignments s.trail lit).2.2 = (p == decide (0 < lit)) := by
        unfold assign
        simp only [hv]
      rw [this] at hsucc
      exact hsucc
    refine ⟨hext2, tabLe_value hext2 ?_⟩
    unfold get_literal_value
    rw [hv]
    simp [hpe]

/-! ## Fuel-irrelevance of propagation -/

theorem propagateLoop_irrel :
    ∀ (fuelA fuelB : Nat) (s : Solver) (q : List Int) (rA rB : Solver × Bool),
    Solver.propagateLoop fuelA s q = some rA →
    Solver.propagateLoop fuelB s q = some rB → rA = rB := by
  intro fuelA
  induction fuelA with
  | zero =>
    intro fuelB s q rA rB hA _
    simp [Solver.propagateLoop] at hA
  | succ fuelA ih =>
    intro fuelB s q rA rB hA hB
    rcases fuelB with _ | fuelB
    · simp [Solver.propagateLoop] at hB
    rcases q with _ | ⟨l, q'⟩
    · unfold Solver.propagateLoop at hA hB
      simp only [Option.some.injEq] at hA hB
      rw [← hA, ← hB]
    · unfold Solver.propagateLoop at hA hB
      simp only [] at hA hB
      by_cases hc : (s.process_watch_list l q').2.2 = true
      · rw [if_pos hc] at hA hB
        simp only [Option.some.injEq] at hA hB
        rw [← hA, ← hB]
      · rw [if_neg hc] at hA hB
        exact ih fuelB _ _ rA rB hA hB

theorem propagate_irrel (fuelA fuelB : Nat) (s : Solver) (lit : Int)
    (rA rB : Solver × Bool)
    (hA : Solver.propagate fuelA s lit = some rA)
    (hB : Solver.propagate fuelB s lit = some rB) : rA = rB := by
  unfold Solver.propagate at hA hB
  exact propagateLoop_irrel fuelA fuelB s [lit] rA rB hA hB

theorem unitsLoop_irrel :
    ∀ (units : List Int) (fuelA fuelB : Nat) (s : Solver) (rA rB : Solver × Bool),
    Solver.unitsLoop fuelA s units = some rA →
    Solver.unitsLoop fuelB s units = some rB → rA = rB := by
  intro units
  induction units with
  | nil =>
    intro fuelA fuelB s rA rB hA hB
    unfold Solver.unitsLoop at hA hB
    simp only [Option.some.injEq] at hA hB
    rw [← hA, ← hB]
  | cons l rest ih =>
    intro fuelA fuelB s rA rB hA hB
    unfold Solver.unitsLoop at hA hB
    simp only [] at hA hB
    by_cases hs : (assign s.assignments s.trail l).2.2 = true
    · rw [if_pos hs] at hA hB
      rcases hPA : Solver.propagate fuelA
          { s with assignments := (assign s.assignments s.trail l).1,
                   trail := (assign s.assignments s.trail l).2.1 } l with _ | ⟨s2A, okA⟩
      · rw [hPA] at hA
        simp at hA
      rcases hPB : Solver.propagate fuelB
          { s with assignments := (assign s.assignments s.trail l).1,
                   trail := (assign s.assignments s.trail l).2.1 } l with _ | ⟨s2B, okB⟩
      · rw [hPB] at hB
        simp at hB
      have heq : (s2A, okA) = (s2B, okB) := propagate_irrel fuelA fuelB _ l _ _ hPA hPB
      obtain ⟨rfl, rfl⟩ := Prod.mk.injEq .. ▸ heq
      rw [hPA] at hA
      rw [hPB] at hB
      rcases okA with _ | _
      · simp only [Option.some.injEq] at hA hB
        rw [← hA, ← hB]
      · exact ih fuelA fuelB s2A rA rB hA hB
    · rw [if_neg hs] at hA hB
      simp only [Option.some.injEq] at hA hB
      rw [← hA, ← hB]

theorem initial_propagation_irrel (fuelA fuelB : Nat) (s : Solver)
    (rA rB : Solver × Bool)
    (hA : Solver.initial_propagation fuelA s = some rA)
    (hB : Solver.initial_propagation fuelB s = some rB) : rA = rB := by
  unfold Solver.initial_propagation at hA hB
  by_cases hc : s.clauses.any (fun c => c.literals.isEmpty) = true
  · rw [if_pos hc] at hA hB
    simp only [Option.some.injEq] at hA hB
    rw [← hA, ← hB]
  · rw [if_neg hc] at hA hB
    exact unitsLoop_irrel _ fuelA fuelB s rA rB hA hB

/-! ## The branching pick is the least unassigned variable -/

theorem filter_head_min (p : Nat → Bool) :
    ∀ (ls : List Nat), ls.Pairwise (· < ·) →
    ∀ v, (ls.filter p).get? 0 = some v → ∀ w ∈ ls, p w = true → ¬ w < v := by
  intro ls hpw v hv w hw hpwT hlt
  have hwf : w ∈ ls.filter p := List.mem_filter.mpr ⟨hw, hpwT⟩
  rcases hf : ls.filter p with _ | ⟨x, rest⟩
  · rw [hf] at hv
    simp at hv
  · rw [hf] at hv hwf
    have hxv : x = v := by simpa using hv
    subst hxv
    have hpw2 : (ls.filter p).Pairwise (· < ·) := hpw.filter p
    rw [hf] at hpw2
    rcases List.mem_cons.mp hwf with rfl | hwr
    · omega
    · have := (List.pairwise_cons.mp hpw2).1 w hwr
      omega

theorem pick_fst_min (s : Solver) (v : Nat)
    (h : (s.pick_branching_pair).1 = some v) :
    s.assignments.getD v none = none ∧ 1 ≤ v ∧
    ∀ w, 1 ≤ w → w < v → s.assignments.getD w none ≠ none := by
  have hp := (pick_facts s s.assignments.length rfl).1 v h
  refine ⟨hp.2, hp.1.1, ?_⟩
  intro w h1 hlt hnone
  unfold Solver.pick_branching_pair at h
  simp only [] at h
  have hsorted : ((List.range s.assignments.length).drop 1).Pairwise (· < ·) :=
    List.Pairwise.sublist (List.drop_sublist 1 _) (List.pairwise_lt_range _)
  have hwmem : w ∈ (List.range s.assignments.length).drop 1 := by
    rw [mem_range_drop_one]
    have := hp.1.2
    exact ⟨h1, by omega⟩
  exact filter_head_min _ _ hsorted v h w hwmem (by rw [hnone]; rfl) hlt

/-! ## Preservation of the resting watch invariant at weaker base tables -/

theorem update_clause_rest_siB (c : Clause) (cid : Nat) (st : PState) (n : Nat) (f : Int)
    (hwf : clauseWF n c)
    (hslot1 : c.literals.getD c.watched1 0 = f)
    (hff : get_literal_value st.assignments f = some false)
    (b : List (Option Bool))
    (hext : ∀ v, b.getD v none ≠ none → st.assignments.getD v none = b.getD v none)
    (hpre : siAt b c) :
    siAt b (update_clause_rest c cid st).1 := by
  obtain ⟨hlen, hw0, hw1, hdist, hone, hlits⟩ := hwf
  unfold update_clause_rest
  simp only []
  split
  next hsat => exact hpre
  next hsat =>
    split
    next j hrep =>
      obtain ⟨hjlt, hjw0, hjw1, hjval⟩ := find_replacement_some c st.assignments j hrep
      have hlen2 : 2 ≤ c.literals.length := by omega
      have hoccOld : watchedOccs c = [c.watched0, c.watched1] := by
        unfold watchedOccs
        rw [if_neg (by omega), if_neg (by omega)]
      have hoccNew : watchedOccs { c with watched1 := j } = [c.watched0, j] := by
        unfold watchedOccs
        simp only []
        rw [if_neg (by omega), if_neg (by omega)]
      rcases hpre with ⟨k, hk, hv⟩ | h
      · rw [hoccOld] at hk
        rcases List.mem_cons.mp hk with rfl | hk2
        · exact Or.inl ⟨c.watched0, by rw [hoccNew]; exact List.mem_cons_self _ _, hv⟩
        · have hkw1 : k = c.watched1 := by simpa using hk2
          subst hkw1
          exfalso
          have hvs := value_ext_eq st.assignments b _ hext true hv
          rw [hslot1, hff] at hvs
          simp at hvs
      · right
        intro k hk
        rw [hoccNew] at hk
        rcases List.mem_cons.mp hk with rfl | hk2
        · exact h c.watched0 (by rw [hoccOld]; exact List.mem_cons_self _ _)
        · have hkj : k = j := by simpa using hk2
          subst hkj
          exact value_ext_ne_false st.assignments b _ hext hjval
    next hrep =>
      split
      next hgv => exact hpre
      next hgv =>
        split
        next hok => exact hpre
        next hok => exact hpre
      next hgv => exact hpre

theorem update_clause_siB (c0 : Clause) (f : Int) (cid : Nat) (st : PState) (n : Nat)
    (hwf : clauseWF n c0)
    (hocc : 1 ≤ occCount c0 (lit_to_idx f))
    (hff : get_literal_value st.assignments f = some false)
    (hf0 : f ≠ 0)
    (b : List (Option Bool))
    (hext : ∀ v, b.getD v none ≠ none → st.assignments.getD v none = b.getD v none)
    (hpre : siAt b c0) :
    siAt b (update_clause c0 f cid st).1 := by
  obtain ⟨hlen, hw0, hw1, hdist, hone, hlits⟩ := hwf
  unfold update_clause
  simp only []
  split
  next hcond =>
    have hone2 : c0.literals.length = 1 → c0.watched0 = c0.watched1 :=
      fun h1 => by rw [(hone h1).1, (hone h1).2]
    have hwf2 : clauseWF n ⟨c0.literals, c0.watched1, c0.watched0, c0.visit_count + 1⟩ :=
      ⟨hlen, hw1, hw0, fun h2 => (hdist h2).symm, fun h1 => ⟨(hone h1).2, (hone h1).1⟩, hlits⟩
    exact update_clause_rest_siB ⟨c0.literals, c0.watched1, c0.watched0, c0.visit_count + 1⟩
      cid st n f hwf2 hcond hff b hext (siAt_swap b c0 (c0.visit_count + 1) hone2 hpre)
  next hcond =>
    have hslot1 : c0.literals.getD c0.watched1 0 = f := by
      rcases occ_watches c0 n ⟨hlen, hw0, hw1, hdist, hone, hlits⟩ f hf0 hocc with h | h
      · exact absurd h hcond
      · exact h
    exact update_clause_rest_siB ⟨c0.literals, c0.watched0, c0.watched1, c0.visit_count + 1⟩
      cid st n f ⟨hlen, hw0, hw1, hdist, hone, hlits⟩ hslot1 hff b hext hpre

theorem processBatch_siB (f : Int) (n : Nat) (b : List (Option Bool)) :
    ∀ (batch : List Nat) (clauses : List Clause) (st : PState),
    st.assignments.length = n →
    st.watch_lists.length = 2 * n →
    (∀ c ∈ clauses, clauseWF n c) →
    get_literal_value st.assignments f = some false →
    f ≠ 0 →
    (∀ cid2, (batch.count cid2) ≤ watchCount clauses cid2 (lit_to_idx f)) →
    (∀ v, b.getD v none ≠ none → st.assignments.getD v none = b.getD v none) →
    (∀ cid c, clauses.get? cid = some c → siAt b c) →
    (∀ v, b.getD v none ≠ none →
      (processBatch clauses f st false batch).2.1.assignments.getD v none = b.getD v none) ∧
    (∀ cid c, (processBatch clauses f st false batch).1.get? cid = some c → siAt b c) := by
  intro batch
  induction batch with
  | nil =>
    intro clauses st hn hwl hcwf hff hf0 hcountLe hext hsiB
    have hr : processBatch clauses f st false [] = (clauses, st, [], false) := by
      simp [processBatch]
    rw [hr]
    exact ⟨hext, hsiB⟩
  | cons cid rest ih =>
    intro clauses st hn hwl hcwf hff hf0 hcountLe hext hsiB
    have hwc0 : ¬ watchCount clauses cid (lit_to_idx f) = 0 := by
      have h1 := hcountLe cid
      have h2 := count_cons_split rest cid cid
      rw [if_pos rfl] at h2
      omega
    obtain ⟨c0, hg⟩ : ∃ c0, clauses.get? cid = some c0 := by
      rcases hgg : clauses.get? cid with _ | c0
      · exfalso
        apply hwc0
        unfold watchCount
        rw [hgg]
      · exact ⟨c0, rfl⟩
    have hB := watchCount_get? clauses cid c0 (lit_to_idx f) hg
    have hocc : 1 ≤ occCount c0 (lit_to_idx f) := by omega
    have hcidlt : cid < clauses.length := lt_of_get?_some hg
    have hgetD : clauses.getD cid default = c0 := getD_of_get? hg
    obtain ⟨u1, u2, u3, u4, u5, u6, u7, u8, u9, u10, u11, -⟩ :=
      update_clause_main c0 f cid st n hn hwl (hcwf c0 (List.get?_mem hg)) hocc hff hf0
    have h1ext : ∀ v, b.getD v none ≠ none →
        (update_clause c0 f cid st).2.1.assignments.getD v none = b.getD v none := by
      intro v hv
      rcases u8 with ⟨ha, -, -⟩ | ⟨w, -, ha, -, hwnone, -, -, -⟩
      · rw [ha]
        exact hext v hv
      · rw [ha]
        have hvw : v ≠ lit_to_var w := by
          intro he
          have h2 := hext v hv
          rw [he, hwnone] at h2
          rw [he] at hv
          exact hv h2.symm
        rw [getD_set_ne _ _ _ _ _ (fun he2 => hvw he2.symm)]
        exact hext v hv
    have h1siB : ∀ cid2 c2,
        (clauses.set cid (update_clause c0 f cid st).1).get? cid2 = some c2 →
        siAt b c2 := by
      intro cid2 c2 hg2
      by_cases hc2 : cid2 = cid
      · subst hc2
        rw [List.get?_set_eq_of_lt _ hcidlt] at hg2
        have hc2e : c2 = (update_clause c0 f cid2 st).1 := (Option.some.inj hg2).symm
        subst hc2e
        exact update_clause_siB c0 f cid2 st n (hcwf c0 (List.get?_mem hg)) hocc hff hf0
          b hext (hsiB cid2 c0 hg)
      · rw [List.get?_set_ne _ clauses (fun he => hc2 he.symm)] at hg2
        exact hsiB cid2 c2 hg2
    rcases (Bool.eq_false_or_eq_true ((update_clause c0 f cid st).2.2.2)).symm with hcf | hcf
    · have h1cwf : ∀ c ∈ clauses.set cid (update_clause c0 f cid st).1, clauseWF n c := by
        intro c hc
        rcases List.mem_or_eq_of_mem_set hc with h | h
        · exact hcwf c h
        · rw [h]
          exact u1
      have h1ff : get_literal_value (update_clause c0 f cid st).2.1.assignments f =
          some false := by
        rcases u8 with ⟨ha, -, -⟩ | ⟨w, -, ha, -, hwnone, -, -, -⟩
        · rw [ha]
          exact hff
        · rw [ha]
          exact value_mono_set st.assignments (lit_to_var w) _ f false hwnone hff
      have h1countLe : ∀ cid2, (rest.count cid2) ≤
          watchCount (clauses.set cid (update_clause c0 f cid st).1) cid2 (lit_to_idx f) := by
        intro cid2
        by_cases hc2 : cid2 = cid
        · subst hc2
          rw [watchCount_set_self _ _ _ _ hcidlt]
          have hA := hcountLe cid2
          have hC := count_cons_split rest cid2 cid2
          rw [if_pos rfl] at hC
          have hu5 := u5
          by_cases hk : (update_clause c0 f cid2 st).2.2.1 = true
          · rw [if_pos hk] at hu5
            omega
          · rw [if_neg hk] at hu5
            omega
        · rw [watchCount_set_ne _ _ _ _ _ (fun he => hc2 he.symm)]
          have hA := hcountLe cid2
          have hC := count_cons_split rest cid cid2
          rw [if_neg (fun he => hc2 he.symm)] at hC
          omega
      rw [processBatch_cons_false, hgetD, hcf]
      exact ih (clauses.set cid (update_clause c0 f cid st).1) ((update_clause c0 f cid st).2.1)
        u3 u4 h1cwf h1ff hf0 h1countLe h1ext h1siB
    · obtain ⟨hkeep, hstEq⟩ := u11 hcf
      have hr : processBatch clauses f st false (cid :: rest) =
          (clauses.set cid (update_clause c0 f cid st).1, st, cid :: rest, true) := by
        rw [processBatch_cons_false, hgetD, hcf, processBatch_conflict_true]
        rw [hstEq]
        simp [hkeep]
      rw [hr]
      exact ⟨hext, h1siB⟩

theorem process_watch_list_siB (s : Solver) (l : Int) (q : List Int) (n : Nat)
    (b : List (Option Bool))
    (hn : s.assignments.length = n)
    (hwl : s.watch_lists.length = 2 * n)
    (hcwf : ∀ c ∈ s.clauses, clauseWF n c)
    (hbuck : ∀ i cid, ((s.watch_lists.getD i []).count cid) = watchCount s.clauses cid i)
    (hl0 : l ≠ 0)
    (hlval : get_literal_value s.assignments l = some true)
    (hext : ∀ v, b.getD v none ≠ none → s.assignments.getD v none = b.getD v none)
    (hsiB : ∀ cid c, s.clauses.get? cid = some c → siAt b c) :
    (∀ v, b.getD v none ≠ none →
      (s.process_watch_list l q).1.assignments.getD v none = b.getD v none) ∧
    (∀ cid c, (s.process_watch_list l q).1.clauses.get? cid = some c → siAt b c) := by
  have hffv : get_literal_value s.assignments (-l) = some false := by
    have h := get_literal_value_neg s.assignments l hl0 true hlval
    simpa using h
  have hfne : (-l) ≠ 0 := neg_ne_zero.mpr hl0
  have hcountLe : ∀ cid2, ((s.watch_lists.getD (lit_to_idx (-l)) []).count cid2) ≤
      watchCount s.clauses cid2 (lit_to_idx (-l)) :=
    fun cid2 => le_of_eq (hbuck (lit_to_idx (-l)) cid2)
  obtain ⟨e1, e2⟩ :=
    processBatch_siB (-l) n b (s.watch_lists.getD (lit_to_idx (-l)) []) s.clauses
      ⟨s.assignments, s.watch_lists.set (lit_to_idx (-l)) [], q, s.trail⟩
      hn (by rw [List.length_set]; exact hwl) hcwf hffv hfne hcountLe hext hsiB
  unfold Solver.process_watch_list
  simp only []
  exact ⟨e1, e2⟩

theorem propagateLoop_siB (n : Nat) (b : List (Option Bool)) :
    ∀ (fuel : Nat) (s : Solver) (q : List Int) (s2 : Solver) (ok : Bool),
    s.assignments.length = n →
    s.watch_lists.length = 2 * n →
    (∀ c ∈ s.clauses, clauseWF n c) →
    (∀ i cid, ((s.watch_lists.getD i []).count cid) = watchCount s.clauses cid i) →
    (∀ x ∈ q, x ≠ 0 ∧ lit_to_var x < n ∧ get_literal_value s.assignments x = some true ∧
      lit_to_var x ∈ aboveSeg s.trail 0) →
    (∀ cid c, s.clauses.get? cid = some c → nafAt s.assignments c ∨ excusedQ c q) →
    (∀ v, b.getD v none ≠ none → s.assignments.getD v none = b.getD v none) →
    (∀ cid c, s.clauses.get? cid = some c → siAt b c) →
    Solver.propagateLoop fuel s q = some (s2, ok) →
    (∀ v, b.getD v none ≠ none → s2.assignments.getD v none = b.getD v none) ∧
    (∀ cid c, s2.clauses.get? cid = some c → siAt b c) := by
  intro fuel
  induction fuel with
  | zero =>
    intro s q s2 ok _ _ _ _ _ _ _ _ hrun
    simp [Solver.propagateLoop] at hrun
  | succ fuel ih =>
    intro s q s2 ok hn hwl hcwf hbuck hq hnafq hext hsiB hrun
    rcases q with _ | ⟨l, q'⟩
    · unfold Solver.propagateLoop at hrun
      simp only [Option.some.injEq, Prod.mk.injEq] at hrun
      obtain ⟨rfl, rfl⟩ := hrun
      exact ⟨hext, hsiB⟩
    · unfold Solver.propagateLoop at hrun
      simp only [] at hrun
      obtain ⟨hx0, hxvar, hxval, hxseg⟩ := hq l (List.mem_cons_self l q')
      have hq2 : ∀ x ∈ q', x ≠ 0 ∧ lit_to_var x < n ∧
          get_literal_value s.assignments x = some true ∧
          lit_to_var x ∈ aboveSeg s.trail 0 :=
        fun x hx => hq x (List.mem_cons_of_mem l hx)
      obtain ⟨w1, w2, w3, w4, w5, w6, w7, w8, w9, w10, w11⟩ :=
        process_watch_list_main s l q' n 0 hn hwl hcwf hbuck (Nat.zero_le _) hx0 hxvar hxval
          hxseg hq2 hnafq
      obtain ⟨e1, e2⟩ := process_watch_list_siB s l q' n b hn hwl hcwf hbuck hx0 hxval
        hext hsiB
      rcases (Bool.eq_false_or_eq_true ((s.process_watch_list l q').2.2)).symm with
        hflag | hflag
      · rw [if_neg (by rw [hflag]; simp)] at hrun
        exact ih (s.process_watch_list l q').1 (s.process_watch_list l q').2.1 s2 ok
          w1 w2 w3 w4 w6 (w7 hflag) e1 e2 hrun
      · rw [if_pos hflag] at hrun
        simp only [Option.some.injEq, Prod.mk.injEq] at hrun
        obtain ⟨rfl, rfl⟩ := hrun
        exact ⟨e1, e2⟩

theorem assign_propagate_siB (pfuel n : Nat) (b : List (Option Bool)) (s : Solver)
    (lit : Int) (s2 : Solver) (ok : Bool)
    (hn : s.assignments.length = n)
    (hwl : s.watch_lists.length = 2 * n)
    (hcwf : ∀ c ∈ s.clauses, clauseWF n c)
    (hbuck : ∀ i cid, ((s.watch_lists.getD i []).count cid) = watchCount s.clauses cid i)
    (hnaf : ∀ cid c, s.clauses.get? cid = some c → nafAt s.assignments c)
    (himp : ∀ v, s.assignments.getD v none ≠ none → v ∈ s.trail)
    (hl0 : lit ≠ 0) (hlvar : lit_to_var lit < n)
    (hext : ∀ v, b.getD v none ≠ none → s.assignments.getD v none = b.getD v none)
    (hsiB : ∀ cid c, s.clauses.get? cid = some c → siAt b c)
    (hsucc : (assign s.assignments s.trail lit).2.2 = true)
    (hrun : Solver.propagate pfuel
      { s with assignments := (assign s.assignments s.trail lit).1,
               trail := (assign s.assignments s.trail lit).2.1 } lit = some (s2, ok)) :
    (∀ v, b.getD v none ≠ none → s2.assignments.getD v none = b.getD v none) ∧
    (∀ cid c, s2.clauses.get? cid = some c → siAt b c) := by
  unfold Solver.propagate at hrun
  rcases hv : s.assignments.getD (lit_to_var lit) none with _ | p
  · have hass : assign s.assignments s.trail lit =
        (s.assignments.set (lit_to_var lit) (some (decide (0 < lit))),
         lit_to_var lit :: s.trail, true) := by
      unfold assign
      simp only [hv]
    rw [hass] at hrun
    have hn1 : (s.assignments.set (lit_to_var lit) (some (decide (0 < lit)))).length = n := by
      rw [List.length_set]
      exact hn
    have hq1 : ∀ x ∈ [lit], x ≠ 0 ∧ lit_to_var x < n ∧
        get_literal_value (s.assignments.set (lit_to_var lit) (some (decide (0 < lit)))) x =
          some true ∧
        lit_to_var x ∈ aboveSeg (lit_to_var lit :: s.trail) 0 := by
      intro x hx
      rcases List.mem_singleton.mp hx with rfl
      refine ⟨hl0, hlvar, ?_, ?_⟩
      · exact value_of_assigned_same s.assignments x (by rw [hn]; exact hlvar)
      · rw [aboveSeg_zero]
        exact List.mem_cons_self _ _
    have hnafq1 : ∀ cid c, s.clauses.get? cid = some c →
        nafAt (s.assignments.set (lit_to_var lit) (some (decide (0 < lit)))) c ∨
        excusedQ c [lit] := by
      intro cid c hg
      exact naf_step_transfer c n (hcwf c (List.get?_mem hg)) s.assignments [] lit
        (Or.inl (hnaf cid c hg)) hv hl0 (by rw [hn]; exact hlvar)
    have hext1 : ∀ v, b.getD v none ≠ none →
        (s.assignments.set (lit_to_var lit) (some (decide (0 < lit)))).getD v none =
          b.getD v none := by
      intro v hvb
      have hvw : v ≠ lit_to_var lit := by
        intro he
        have h2 := hext v hvb
        rw [he, hv] at h2
        rw [he] at hvb
        exact hvb h2.symm
      rw [getD_set_ne _ _ _ _ _ (fun he2 => hvw he2.symm)]
      exact hext v hvb
    exact propagateLoop_siB n b pfuel
      { s with assignments := s.assignments.set (lit_to_var lit) (some (decide (0 < lit))),
               trail := lit_to_var lit :: s.trail } [lit] s2 ok
      hn1 hwl hcwf hbuck hq1 hnafq1 hext1 hsiB hrun
  · have hass : assign s.assignments s.trail lit =
        (s.assignments, s.trail, p == decide (0 < lit)) := by
      unfold assign
      simp only [hv]
    rw [hass] at hrun hsucc
    have hpe : (p == decide (0 < lit)) = true := hsucc
    have hlval : get_literal_value s.assignments lit = some true := by
      unfold get_literal_value
      rw [hv]
      simp [hpe]
    have hq1 : ∀ x ∈ [lit], x ≠ 0 ∧ lit_to_var x < n ∧
        get_literal_value s.assignments x = some true ∧
        lit_to_var x ∈ aboveSeg s.trail 0 := by
      intro x hx
      rcases List.mem_singleton.mp hx with rfl
      refine ⟨hl0, hlvar, hlval, ?_⟩
      rw [aboveSeg_zero]
      exact himp _ (by rw [hv]; simp)
    have hnafq1 : ∀ cid c, s.clauses.get? cid = some c →
        nafAt s.assignments c ∨ excusedQ c [lit] :=
      fun cid c hg => Or.inl (hnaf cid c hg)
    exact propagateLoop_siB n b pfuel s [lit] s2 ok hn hwl hcwf hbuck hq1 hnafq1
      hext hsiB hrun

theorem assignPairLits_siB (pfuel n : Nat) (b : List (Option Bool)) (s : Solver)
    (p0 p1 : Bool) (var1 var2 : Nat) (s2 : Solver) (ok : Bool)
    (hn : s.assignments.length = n)
    (hwl : s.watch_lists.length = 2 * n)
    (hcwf : ∀ c ∈ s.clauses, clauseWF n c)
    (hbuck : ∀ i cid, ((s.watch_lists.getD i []).count cid) = watchCount s.clauses cid i)
    (hnaf : ∀ cid c, s.clauses.get? cid = some c → nafAt s.assignments c)
    (himp : ∀ v, s.assignments.getD v none ≠ none → v ∈ s.trail)
    (hv1 : 1 ≤ var1 ∧ var1 < n)
    (hv2 : 1 ≤ var2 ∧ var2 < n)
    (hext : ∀ v, b.getD v none ≠ none → s.assignments.getD v none = b.getD v none)
    (hsiB : ∀ cid c, s.clauses.get? cid = some c → siAt b c)
    (hrun : Solver.assignPairLits pfuel s p0 p1 var1 var2 = some (s2, ok)) :
    (∀ v, b.getD v none ≠ none → s2.assignments.getD v none = b.getD v none) ∧
    (∀ cid c, s2.clauses.get? cid = some c → siAt b c) := by
  have hl10 : make_lit var1 p0 ≠ 0 := make_lit_ne_zero var1 p0 hv1.1
  have hl1v : lit_to_var (make_lit var1 p0) < n := by
    rw [lit_to_var_make_lit]
    exact hv1.2
  have hl20 : make_lit var2 p1 ≠ 0 := make_lit_ne_zero var2 p1 hv2.1
  have hl2v : lit_to_var (make_lit var2 p1) < n := by
    rw [lit_to_var_make_lit]
    exact hv2.2
  have hselfext : ∀ v, s.assignments.getD v none ≠ none →
      s.assignments.getD v none = s.assignments.getD v none := fun v _ => rfl
  unfold Solver.assignPairLits at hrun
  simp only [] at hrun
  by_cases h1 : (assign s.assignments s.trail (make_lit var1 p0)).2.2 = true
  · rw [if_pos h1] at hrun
    split at hrun
    · exact absurd hrun (by simp)
    next s2a heq =>
      obtain ⟨e1, e2⟩ := assign_propagate_siB pfuel n b s (make_lit var1 p0) s2a false
        hn hwl hcwf hbuck hnaf himp hl10 hl1v hext hsiB h1 heq
      simp only [Option.some.injEq, Prod.mk.injEq] at hrun
      obtain ⟨rfl, rfl⟩ := hrun
      exact ⟨e1, e2⟩
    next s2a heq =>
      obtain ⟨m1, m2, m3, m4, m5, m6, m7, m8, m9, m10, m11, m12, m13, m14⟩ :=
        assign_propagate_master pfuel n s.assignments s (make_lit var1 p0) s2a true
          hn hwl hcwf hbuck hnaf himp hl10 hl1v hselfext hnaf h1 heq
      obtain ⟨e1, e2⟩ := assign_propagate_siB pfuel n b s (make_lit var1 p0) s2a true
        hn hwl hcwf hbuck hnaf himp hl10 hl1v hext hsiB h1 heq
      try simp only [] at hrun
      by_cases h2 : (assign s2a.assignments s2a.trail (make_lit var2 p1)).2.2 = true
      · rw [if_pos h2] at hrun
        split at hrun
        · exact absurd hrun (by simp)
        next s4 ok4 heq2 =>
          obtain ⟨f1, f2⟩ := assign_propagate_siB pfuel n b s2a (make_lit var2 p1) s4 ok4
            m1 m2 m3 m4 (m6 rfl) m5 hl20 hl2v e1 e2 h2 heq2
          simp only [Option.some.injEq, Prod.mk.injEq] at hrun
          obtain ⟨rfl, rfl⟩ := hrun
          exact ⟨f1, f2⟩
      · rw [if_neg h2] at hrun
        have hfail : (assign s2a.assignments s2a.trail (make_lit var2 p1)).2.2 = false := by
          rcases Bool.eq_false_or_eq_true
            ((assign s2a.assignments s2a.trail (make_lit var2 p1)).2.2) with h | h
          · exact absurd h h2
          · exact h
        obtain ⟨ha, ht⟩ := assign_fail_eq s2a.assignments s2a.trail (make_lit var2 p1) hfail
        simp only [Option.some.injEq, Prod.mk.injEq] at hrun
        obtain ⟨rfl, rfl⟩ := hrun
        simp only [ha, ht]
        exact ⟨e1, e2⟩
  · rw [if_neg h1] at hrun
    have hfail : (assign s.assignments s.trail (make_lit var1 p0)).2.2 = false := by
      rcases Bool.eq_false_or_eq_true
        ((assign s.assignments s.trail (make_lit var1 p0)).2.2) with h | h
      · exact absurd h h1
      · exact h
    obtain ⟨ha, ht⟩ := assign_fail_eq s.assignments s.trail (make_lit var1 p0) hfail
    simp only [Option.some.injEq, Prod.mk.injEq] at hrun
    obtain ⟨rfl, rfl⟩ := hrun
    simp only [ha, ht]
    exact ⟨hext, hsiB⟩

theorem assign_pair_siB (pfuel n : Nat) (b : List (Option Bool)) (s : Solver)
    (comb var1 var2 : Nat) (s2 : Solver) (ok : Bool)
    (hn : s.assignments.length = n)
    (hwl : s.watch_lists.length = 2 * n)
    (hcwf : ∀ c ∈ s.clauses, clauseWF n c)
    (hbuck : ∀ i cid, ((s.watch_lists.getD i []).count cid) = watchCount s.clauses cid i)
    (hnaf : ∀ cid c, s.clauses.get? cid = some c → nafAt s.assignments c)
    (himp : ∀ v, s.assignments.getD v none ≠ none → v ∈ s.trail)
    (hv1 : 1 ≤ var1 ∧ var1 < n)
    (hv2 : 1 ≤ var2 ∧ var2 < n)
    (hext : ∀ v, b.getD v none ≠ none → s.assignments.getD v none = b.getD v none)
    (hsiB : ∀ cid c, s.clauses.get? cid = some c → siAt b c)
    (hrun : Solver.assign_pair pfuel s comb var1 var2 = some (s2, ok)) :
    (∀ v, b.getD v none ≠ none → s2.assignments.getD v none = b.getD v none) ∧
    (∀ cid c, s2.clauses.get? cid = some c → siAt b c) := by
  unfold Solver.assign_pair at hrun
  rcases comb with _ | _ | _ | _ | cx
  · exact assignPairLits_siB pfuel n b s true true var1 var2 s2 ok hn hwl hcwf hbuck hnaf
      himp hv1 hv2 hext hsiB hrun
  · exact assignPairLits_siB pfuel n b s true false var1 var2 s2 ok hn hwl hcwf hbuck hnaf
      himp hv1 hv2 hext hsiB hrun
  · exact assignPairLits_siB pfuel n b s false true var1 var2 s2 ok hn hwl hcwf hbuck hnaf
      himp hv1 hv2 hext hsiB hrun
  · exact assignPairLits_siB pfuel n b s false false var1 var2 s2 ok hn hwl hcwf hbuck hnaf
      himp hv1 hv2 hext hsiB hrun
  · simp only [Option.some.injEq, Prod.mk.injEq] at hrun
    obtain ⟨rfl, rfl⟩ := hrun
    exact ⟨hext, hsiB⟩

theorem test_implication_siB (pfuel n : Nat) (b : List (Option Bool)) (s : Solver)
    (edge : Edge) (s3 : Solver) (proven : Bool)
    (hn : s.assignments.length = n)
    (hwl : s.watch_lists.length = 2 * n)
    (hcwf : ∀ c ∈ s.clauses, clauseWF n c)
    (hbuck : ∀ i cid, ((s.watch_lists.getD i []).count cid) = watchCount s.clauses cid i)
    (hnaf : ∀ cid c, s.clauses.get? cid = some c → nafAt s.assignments c)
    (himp : ∀ v, s.assignments.getD v none ≠ none → v ∈ s.trail)
    (he1 : 1 ≤ edge.from_ ∧ edge.from_ < n)
    (he2 : 1 ≤ edge.to_ ∧ edge.to_ < n)
    (hext : ∀ v, b.getD v none ≠ none → s.assignments.getD v none = b.getD v none)
    (hsiB : ∀ cid c, s.clauses.get? cid = some c → siAt b c)
    (hrun : Solver.test_implication pfuel s edge = some (s3, proven)) :
    ∀ cid c, s3.clauses.get? cid = some c → siAt b c := by
  have hl10 : make_lit edge.from_ true ≠ 0 := make_lit_ne_zero _ _ he1.1
  have hl1v : lit_to_var (make_lit edge.from_ true) < n := by
    rw [lit_to_var_make_lit]
    exact he1.2
  have hl20 : make_lit edge.to_ false ≠ 0 := make_lit_ne_zero _ _ he2.1
  have hl2v : lit_to_var (make_lit edge.to_ false) < n := by
    rw [lit_to_var_make_lit]
    exact he2.2
  have hselfext : ∀ v, s.assignments.getD v none ≠ none →
      s.assignments.getD v none = s.assignments.getD v none := fun v _ => rfl
  unfold Solver.test_implication at hrun
  simp only [] at hrun
  by_cases h1 : (assign s.assignments s.trail (make_lit edge.from_ true)).2.2 = true
  · rw [if_pos h1] at hrun
    split at hrun
    · exact absurd hrun (by simp)
    next s2a heq =>
      obtain ⟨e1, e2⟩ := assign_propagate_siB pfuel n b
        { s with trail_lim := s.trail_lim ++ [s.trail.length] }
        (make_lit edge.from_ true) s2a false
        hn hwl hcwf hbuck hnaf himp hl10 hl1v hext hsiB h1 heq
      simp only [Option.some.injEq, Prod.mk.injEq] at hrun
      obtain ⟨hs3, -⟩ := hrun
      rw [← hs3]
      rw [(undo_to_level_same _ _).1]
      exact e2
    next s2a heq =>
      obtain ⟨m1, m2, m3, m4, m5, m6, m7, m8, m9, m10, m11, m12, hpend, -⟩ :=
        assign_propagate_master pfuel n s.assignments
          { s with trail_lim := s.trail_lim ++ [s.trail.length] }
          (make_lit edge.from_ true) s2a true
          hn hwl hcwf hbuck hnaf himp hl10 hl1v hselfext hnaf h1 heq
      obtain ⟨e1, e2⟩ := assign_propagate_siB pfuel n b
        { s with trail_lim := s.trail_lim ++ [s.trail.length] }
        (make_lit edge.from_ true) s2a true
        hn hwl hcwf hbuck hnaf himp hl10 hl1v hext hsiB h1 heq
      try simp only [] at hrun
      by_cases h2 : (assign s2a.assignments s2a.trail (make_lit edge.to_ false)).2.2 = true
      · rw [if_pos h2] at hrun
        split at hrun
        · exact absurd hrun (by simp)
        next s4 ok4 heq2 =>
          obtain ⟨f1, f2⟩ := assign_propagate_siB pfuel n b s2a (make_lit edge.to_ false)
            s4 ok4 m1 m2 m3 m4 (m6 rfl) m5 hl20 hl2v e1 e2 h2 heq2
          simp only [Option.some.injEq, Prod.mk.injEq] at hrun
          obtain ⟨hs3, -⟩ := hrun
          rw [← hs3]
          rw [(undo_to_level_same _ _).1]
          exact f2
      · rw [if_neg h2] at hrun
        simp only [Option.some.injEq, Prod.mk.injEq] at hrun
        obtain ⟨hs3, -⟩ := hrun
        rw [← hs3]
        rw [(undo_to_level_same _ _).1]
        exact e2
  · rw [if_neg h1] at hrun
    simp only [Option.some.injEq, Prod.mk.injEq] at hrun
    obtain ⟨hs3, -⟩ := hrun
    rw [← hs3]
    rw [(undo_to_level_same _ _).1]
    exact hsiB

/-! ## The initial unit propagation: unit truth and the resting invariant -/

theorem unitsLoop_true (pfuel n : Nat) :
    ∀ (units : List Int) (s s2 : Solver) (ok : Bool),
    s.assignments.length = n →
    s.watch_lists.length = 2 * n →
    (∀ c ∈ s.clauses, clauseWF n c) →
    (∀ i cid, ((s.watch_lists.getD i []).count cid) = watchCount s.clauses cid i) →
    (∀ cid c, s.clauses.get? cid = some c → nafAt s.assignments c) →
    (∀ v, s.assignments.getD v none ≠ none → v ∈ s.trail) →
    (∀ l ∈ units, l ≠ 0 ∧ lit_to_var l < n) →
    Solver.unitsLoop pfuel s units = some (s2, ok) →
    ok = true →
    tabLe s.assignments s2.assignments ∧
    (∀ l ∈ units, get_literal_value s2.assignments l = some true) := by
  intro units
  induction units with
  | nil =>
    intro s s2 ok hn hwl hcwf hbuck hnaf himp hu hrun hok
    unfold Solver.unitsLoop at hrun
    simp only [Option.some.injEq, Prod.mk.injEq] at hrun
    obtain ⟨rfl, rfl⟩ := hrun
    refine ⟨tabLe_refl _, ?_⟩
    intro l hl
    exact absurd hl (List.not_mem_nil l)
  | cons l rest ih =>
    intro s s2 ok hn hwl hcwf hbuck hnaf himp hu hrun hok
    obtain ⟨hl0, hlvar⟩ := hu l (List.mem_cons_self l rest)
    have hu2 : ∀ x ∈ rest, x ≠ 0 ∧ lit_to_var x < n :=
      fun x hx => hu x (List.mem_cons_of_mem l hx)
    unfold Solver.unitsLoop at hrun
    simp only [] at hrun
    by_cases hs : (assign s.assignments s.trail l).2.2 = true
    · rw [if_pos hs] at hrun
      rcases hP : Solver.propagate pfuel
          { s with assignments := (assign s.assignments s.trail l).1,
                   trail := (assign s.assignments s.trail l).2.1 } l with _ | ⟨s2a, okA⟩
      · rw [hP] at hrun
        simp at hrun
      rw [hP] at hrun
      rcases okA with _ | _
      · simp only [Option.some.injEq, Prod.mk.injEq] at hrun
        obtain ⟨rfl, rfl⟩ := hrun
        exact absurd hok (by simp)
      · have hselfext : ∀ v, s.assignments.getD v none ≠ none →
            s.assignments.getD v none = s.assignments.getD v none := fun v _ => rfl
        obtain ⟨m1, m2, m3, m4, m5, m6, m7, m8, m9, m10, m11, m12, m13, m14⟩ :=
          assign_propagate_master pfuel n s.assignments s l s2a true
            hn hwl hcwf hbuck hnaf himp hl0 hlvar hselfext hnaf hs hP
        obtain ⟨htl, htrue⟩ :=
          assign_propagate_tabLe pfuel s l s2a true (by rw [hn]; exact hlvar) hs hP
        obtain ⟨g1, g2⟩ := ih s2a s2 ok m1 m2 m3 m4 (m6 rfl) m5 hu2 hrun hok
        refine ⟨tabLe_trans htl g1, ?_⟩
        intro x hx
        rcases List.mem_cons.mp hx with rfl | hx2
        · exact tabLe_value g1 htrue
        · exact g2 x hx2
    · rw [if_neg hs] at hrun
      simp only [Option.some.injEq, Prod.mk.injEq] at hrun
      obtain ⟨rfl, rfl⟩ := hrun
      exact absurd hok (by simp)

theorem unitsLoop_siQ (pfuel n : Nat) :
    ∀ (units : List Int) (s s2 : Solver) (ok : Bool),
    s.assignments.length = n →
    s.watch_lists.length = 2 * n →
    (∀ c ∈ s.clauses, clauseWF n c) →
    (∀ i cid, ((s.watch_lists.getD i []).count cid) = watchCount s.clauses cid i) →
    (∀ cid c, s.clauses.get? cid = some c → nafAt s.assignments c) →
    (∀ v, s.assignments.getD v none ≠ none → v ∈ s.trail) →
    (∀ l ∈ units, l ≠ 0 ∧ lit_to_var l < n) →
    (∀ cid c, s.clauses.get? cid = some c → siAt s.assignments c) →
    Solver.unitsLoop pfuel s units = some (s2, ok) →
    ok = true →
    ∀ cid c, s2.clauses.get? cid = some c → siAt s2.assignments c := by
  intro units
  induction units with
  | nil =>
    intro s s2 ok hn hwl hcwf hbuck hnaf himp hu hsi hrun hok
    unfold Solver.unitsLoop at hrun
    simp only [Option.some.injEq, Prod.mk.injEq] at hrun
    obtain ⟨rfl, rfl⟩ := hrun
    exact hsi
  | cons l rest ih =>
    intro s s2 ok hn hwl hcwf hbuck hnaf himp hu hsi hrun hok
    obtain ⟨hl0, hlvar⟩ := hu l (List.mem_cons_self l rest)
    have hu2 : ∀ x ∈ rest, x ≠ 0 ∧ lit_to_var x < n :=
      fun x hx => hu x (List.mem_cons_of_mem l hx)
    unfold Solver.unitsLoop at hrun
    simp only [] at hrun
    by_cases hs : (assign s.assignments s.trail l).2.2 = true
    · rw [if_pos hs] at hrun
      rcases hP : Solver.propagate pfuel
          { s with assignments := (assign s.assignments s.trail l).1,
                   trail := (assign s.assignments s.trail l).2.1 } l with _ | ⟨s2a, okA⟩
      · rw [hP] at hrun
        simp at hrun
      rw [hP] at hrun
      rcases okA with _ | _
      · simp only [Option.some.injEq, Prod.mk.injEq] at hrun
        obtain ⟨rfl, rfl⟩ := hrun
        exact absurd hok (by simp)
      · have hselfext : ∀ v, s.assignments.getD v none ≠ none →
            s.assignments.getD v none = s.assignments.getD v none := fun v _ => rfl
        obtain ⟨m1, m2, m3, m4, m5, m6, m7, m8, m9, m10, m11, m12, m13, m14⟩ :=
          assign_propagate_master pfuel n s.assignments s l s2a true
            hn hwl hcwf hbuck hnaf himp hl0 hlvar hselfext hnaf hs hP
        have hsi2 := assign_propagate_siQ pfuel n s l s2a true
          hn hwl hcwf hbuck hnaf himp hl0 hlvar hsi hs hP rfl
        exact ih s2a s2 ok m1 m2 m3 m4 (m6 rfl) m5 hu2 hsi2 hrun hok
    · rw [if_neg hs] at hrun
      simp only [Option.some.injEq, Prod.mk.injEq] at hrun
      obtain ⟨rfl, rfl⟩ := hrun
      exact absurd hok (by simp)

theorem initial_propagation_units (pfuel n : Nat) (s s2 : Solver) (ok : Bool)
    (hn : s.assignments.length = n)
    (hwl : s.watch_lists.length = 2 * n)
    (hcwf : ∀ c ∈ s.clauses, clauseWF n c)
    (hbuck : ∀ i cid, ((s.watch_lists.getD i []).count cid) = watchCount s.clauses cid i)
    (hnaf : ∀ cid c, s.clauses.get? cid = some c → nafAt s.assignments c)
    (himp : ∀ v, s.assignments.getD v none ≠ none → v ∈ s.trail)
    (hrun : Solver.initial_propagation pfuel s = some (s2, ok))
    (hok : ok = true) :
    unitsOK s2.assignments s2.clauses := by
  obtain ⟨i1, i2, i3, i4, i5, i6, i7, i8, i9, i10⟩ :=
    initial_propagation_master pfuel n s s2 ok hn hwl hcwf hbuck hnaf himp hrun
  unfold Solver.initial_propagation at hrun
  split at hrun
  · simp only [Option.some.injEq, Prod.mk.injEq] at hrun
    obtain ⟨rfl, rfl⟩ := hrun
    exact absurd hok (by simp)
  · have hu : ∀ l ∈ (s.clauses.filter (fun c => c.literals.length == 1)).map
        (fun c => c.literals.getD 0 0), l ≠ 0 ∧ lit_to_var l < n := by
      intro l hl
      rw [List.mem_map] at hl
      obtain ⟨c, hc, rfl⟩ := hl
      rw [List.mem_filter] at hc
      obtain ⟨hcm, hc1⟩ := hc
      obtain ⟨hlen, -, -, -, -, hlits⟩ := hcwf c hcm
      exact hlits _ (getD_mem_of_lt (by omega))
    obtain ⟨-, htrue⟩ :=
      unitsLoop_true pfuel n _ s s2 ok hn hwl hcwf hbuck hnaf himp hu hrun hok
    intro cid c hg h1
    have hm := i9 cid
    rw [hg] at hm
    rcases hg2 : s.clauses.get? cid with _ | c2
    · rw [hg2] at hm
      simp at hm
    · rw [hg2] at hm
      simp only [Option.map_some', Option.some.injEq] at hm
      have hc2f : c2 ∈ s.clauses.filter (fun c => c.literals.length == 1) := by
        rw [List.mem_filter]
        refine ⟨List.get?_mem hg2, ?_⟩
        rw [hm, h1]
        rfl
      have hmem : c2.literals.getD 0 0 ∈
          (s.clauses.filter (fun c => c.literals.length == 1)).map
            (fun c => c.literals.getD 0 0) :=
        List.mem_map.mpr ⟨c2, hc2f, rfl⟩
      have hv := htrue _ hmem
      rw [hm] at hv
      exact hv

theorem initial_propagation_siQ (pfuel n : Nat) (s s2 : Solver) (ok : Bool)
    (hn : s.assignments.length = n)
    (hwl : s.watch_lists.length = 2 * n)
    (hcwf : ∀ c ∈ s.clauses, clauseWF n c)
    (hbuck : ∀ i cid, ((s.watch_lists.getD i []).count cid) = watchCount s.clauses cid i)
    (hnaf : ∀ cid c, s.clauses.get? cid = some c → nafAt s.assignments c)
    (himp : ∀ v, s.assignments.getD v none ≠ none → v ∈ s.trail)
    (hsi : ∀ cid c, s.clauses.get? cid = some c → siAt s.assignments c)
    (hrun : Solver.initial_propagation pfuel s = some (s2, ok))
    (hok : ok = true) :
    ∀ cid c, s2.clauses.get? cid = some c → siAt s2.assignments c := by
  unfold Solver.initial_propagation at hrun
  split at hrun
  · simp only [Option.some.injEq, Prod.mk.injEq] at hrun
    obtain ⟨rfl, rfl⟩ := hrun
    exact absurd hok (by simp)
  · have hu : ∀ l ∈ (s.clauses.filter (fun c => c.literals.length == 1)).map
        (fun c => c.literals.getD 0 0), l ≠ 0 ∧ lit_to_var l < n := by
      intro l hl
      rw [List.mem_map] at hl
      obtain ⟨c, hc, rfl⟩ := hl
      rw [List.mem_filter] at hc
      obtain ⟨hcm, hc1⟩ := hc
      obtain ⟨hlen, -, -, -, -, hlits⟩ := hcwf c hcm
      exact hlits _ (getD_mem_of_lt (by omega))
    exact unitsLoop_siQ pfuel n _ s s2 ok hn hwl hcwf hbuck hnaf himp hu hsi hrun hok

theorem assignPairLits_siQ (pfuel n : Nat) (s : Solver) (p0 p1 : Bool) (var1 var2 : Nat)
    (s2 : Solver) (ok : Bool)
    (hn : s.assignments.length = n)
    (hwl : s.watch_lists.length = 2 * n)
    (hcwf : ∀ c ∈ s.clauses, clauseWF n c)
    (hbuck : ∀ i cid, ((s.watch_lists.getD i []).count cid) = watchCount s.clauses cid i)
    (hnaf : ∀ cid c, s.clauses.get? cid = some c → nafAt s.assignments c)
    (himp : ∀ v, s.assignments.getD v none ≠ none → v ∈ s.trail)
    (hv1 : 1 ≤ var1 ∧ var1 < n)
    (hv2 : 1 ≤ var2 ∧ var2 < n)
    (hsi : ∀ cid c, s.clauses.get? cid = some c → siAt s.assignments c)
    (hrun : Solver.assignPairLits pfuel s p0 p1 var1 var2 = some (s2, ok)) :
    ok = true → ∀ cid c, s2.clauses.get? cid = some c → siAt s2.assignments c := by
  have hl10 : make_lit var1 p0 ≠ 0 := make_lit_ne_zero var1 p0 hv1.1
  have hl1v : lit_to_var (make_lit var1 p0) < n := by
    rw [lit_to_var_make_lit]
    exact hv1.2
  have hl20 : make_lit var2 p1 ≠ 0 := make_lit_ne_zero var2 p1 hv2.1
  have hl2v : lit_to_var (make_lit var2 p1) < n := by
    rw [lit_to_var_make_lit]
    exact hv2.2
  have hselfext : ∀ v, s.assignments.getD v none ≠ none →
      s.assignments.getD v none = s.assignments.getD v none := fun v _ => rfl
  unfold Solver.assignPairLits at hrun
  simp only [] at hrun
  by_cases h1 : (assign s.assignments s.trail (make_lit var1 p0)).2.2 = true
  · rw [if_pos h1] at hrun
    split at hrun
    · exact absurd hrun (by simp)
    next s2a heq =>
      simp only [Option.some.injEq, Prod.mk.injEq] at hrun
      obtain ⟨rfl, rfl⟩ := hrun
      intro hok
      exact absurd hok (by simp)
    next s2a heq =>
      obtain ⟨m1, m2, m3, m4, m5, m6, m7, m8, m9, m10, m11, m12, m13, m14⟩ :=
        assign_propagate_master pfuel n s.assignments s (make_lit var1 p0) s2a true
          hn hwl hcwf hbuck hnaf himp hl10 hl1v hselfext hnaf h1 heq
      have hsiMid := assign_propagate_siQ pfuel n s (make_lit var1 p0) s2a true
        hn hwl hcwf hbuck hnaf himp hl10 hl1v hsi h1 heq rfl
      try simp only [] at hrun
      by_cases h2 : (assign s2a.assignments s2a.trail (make_lit var2 p1)).2.2 = true
      · rw [if_pos h2] at hrun
        split at hrun
        · exact absurd hrun (by simp)
        next s4 ok4 heq2 =>
          simp only [Option.some.injEq, Prod.mk.injEq] at hrun
          obtain ⟨rfl, rfl⟩ := hrun
          intro hok
          exact assign_propagate_siQ pfuel n s2a (make_lit var2 p1) _ _
            m1 m2 m3 m4 (m6 rfl) m5 hl20 hl2v hsiMid h2 heq2 hok
      · rw [if_neg h2] at hrun
        simp only [Option.some.injEq, Prod.mk.injEq] at hrun
        obtain ⟨rfl, rfl⟩ := hrun
        intro hok
        exact absurd hok (by simp)
  · rw [if_neg h1] at hrun
    simp only [Option.some.injEq, Prod.mk.injEq] at hrun
    obtain ⟨rfl, rfl⟩ := hrun
    intro hok
    exact absurd hok (by simp)

theorem assign_pair_siQ (pfuel n : Nat) (s : Solver) (comb var1 var2 : Nat)
    (s2 : Solver) (ok : Bool)
    (hn : s.assignments.length = n)
    (hwl : s.watch_lists.length = 2 * n)
    (hcwf : ∀ c ∈ s.clauses, clauseWF n c)
    (hbuck : ∀ i cid, ((s.watch_lists.getD i []).count cid) = watchCount s.clauses cid i)
    (hnaf : ∀ cid c, s.clauses.get? cid = some c → nafAt s.assignments c)
    (himp : ∀ v, s.assignments.getD v none ≠ none → v ∈ s.trail)
    (hv1 : 1 ≤ var1 ∧ var1 < n)
    (hv2 : 1 ≤ var2 ∧ var2 < n)
    (hsi : ∀ cid c, s.clauses.get? cid = some c → siAt s.assignments c)
    (hrun : Solver.assign_pair pfuel s comb var1 var2 = some (s2, ok)) :
    ok = true → ∀ cid c, s2.clauses.get? cid = some c → siAt s2.assignments c := by
  unfold Solver.assign_pair at hrun
  rcases comb with _ | _ | _ | _ | cx
  · exact assignPairLits_siQ pfuel n s true true var1 var2 s2 ok hn hwl hcwf hbuck hnaf
      himp hv1 hv2 hsi hrun
  · exact assignPairLits_siQ pfuel n s true false var1 var2 s2 ok hn hwl hcwf hbuck hnaf
      himp hv1 hv2 hsi hrun
  · exact assignPairLits_siQ pfuel n s false true var1 var2 s2 ok hn hwl hcwf hbuck hnaf
      himp hv1 hv2 hsi hrun
  · exact assignPairLits_siQ pfuel n s false false var1 var2 s2 ok hn hwl hcwf hbuck hnaf
      himp hv1 hv2 hsi hrun
  · simp only [Option.some.injEq, Prod.mk.injEq] at hrun
    obtain ⟨rfl, rfl⟩ := hrun
    intro hok
    exact absurd hok (by simp)

/-! ## Confluence of unit propagation under different processing orders -/

theorem propagate_dominates (pfuelA pfuelB n : Nat) (sA sB : Solver) (lit : Int)
    (sA2 sB2 : Solver) (okB : Bool)
    (hnA : sA.assignments.length = n)
    (hwlA : sA.watch_lists.length = 2 * n)
    (hcwfA : ∀ c ∈ sA.clauses, clauseWF n c)
    (hbuckA : ∀ i cid, ((sA.watch_lists.getD i []).count cid) = watchCount sA.clauses cid i)
    (hnafA : ∀ cid c, sA.clauses.get? cid = some c → nafAt sA.assignments c)
    (himpA : ∀ v, sA.assignments.getD v none ≠ none → v ∈ sA.trail)
    (hsiA : ∀ cid c, sA.clauses.get? cid = some c → siAt sA.assignments c)
    (hunitsA : unitsOK sA.assignments sA.clauses)
    (hnB : sB.assignments.length = n)
    (hwlB : sB.watch_lists.length = 2 * n)
    (hcwfB : ∀ c ∈ sB.clauses, clauseWF n c)
    (hbuckB : ∀ i cid, ((sB.watch_lists.getD i []).count cid) = watchCount sB.clauses cid i)
    (hnafB : ∀ cid c, sB.clauses.get? cid = some c → nafAt sB.assignments c)
    (himpB : ∀ v, sB.assignments.getD v none ≠ none → v ∈ sB.trail)
    (htab : sA.assignments = sB.assignments)
    (hlits : litsEq sA.clauses sB.clauses)
    (hl0 : lit ≠ 0) (hlvar : lit_to_var lit < n)
    (hsuccA : (assign sA.assignments sA.trail lit).2.2 = true)
    (hsuccB : (assign sB.assignments sB.trail lit).2.2 = true)
    (hrunA : Solver.propagate pfuelA
      { sA with assignments := (assign sA.assignments sA.trail lit).1,
                trail := (assign sA.assignments sA.trail lit).2.1 } lit = some (sA2, true))
    (hrunB : Solver.propagate pfuelB
      { sB with assignments := (assign sB.assignments sB.trail lit).1,
                trail := (assign sB.assignments sB.trail lit).2.1 } lit = some (sB2, okB)) :
    okB = true ∧ tabLe sB2.assignments sA2.assignments ∧
    sA2.assignments.length = n := by
  have hselfext : ∀ v, sA.assignments.getD v none ≠ none →
      sA.assignments.getD v none = sA.assignments.getD v none := fun v _ => rfl
  obtain ⟨m1, m2, m3, m4, m5, m6, m7, m8, m9, m10, m11, m12, m13, m14⟩ :=
    assign_propagate_master pfuelA n sA.assignments sA lit sA2 true
      hnA hwlA hcwfA hbuckA hnafA himpA hl0 hlvar hselfext hnafA hsuccA hrunA
  have hsiA2 := assign_propagate_siQ pfuelA n sA lit sA2 true
    hnA hwlA hcwfA hbuckA hnafA himpA hl0 hlvar hsiA hsuccA hrunA rfl
  obtain ⟨htlA, htrueA⟩ :=
    assign_propagate_tabLe pfuelA sA lit sA2 true (by rw [hnA]; exact hlvar) hsuccA hrunA
  have hunitsA2 : unitsOK sA2.assignments sA2.clauses :=
    unitsOK_litsEq m11 (unitsOK_mono htlA hunitsA)
  have hclosedA2 : ∀ cid c, sA2.clauses.get? cid = some c → clsClosed sA2.assignments c :=
    tabClosed_of_si n sA2.clauses sA2.assignments m3 hsiA2 hunitsA2
  have hclosedB : ∀ cid c, sB.clauses.get? cid = some c → clsClosed sA2.assignments c :=
    closed_litsEq (litsEq_trans (litsEq_symm hlits) m11) sA2.assignments hclosedA2
  have hBsub : tabLe sB.assignments sA2.assignments := by
    rw [← htab]
    exact htlA
  obtain ⟨hokB, hsub⟩ := assign_propagate_sub pfuelB n sA2.assignments sB lit sB2 okB
    hnB hwlB hcwfB hbuckB hnafB himpB hl0 hlvar hBsub m1 htrueA hclosedB hsuccB hrunB
  exact ⟨hokB, hsub, m1⟩

theorem propagate_agree (pfuelA pfuelB n : Nat) (sA sB : Solver) (lit : Int)
    (sA2 sB2 : Solver) (okA okB : Bool)
    (hnA : sA.assignments.length = n)
    (hwlA : sA.watch_lists.length = 2 * n)
    (hcwfA : ∀ c ∈ sA.clauses, clauseWF n c)
    (hbuckA : ∀ i cid, ((sA.watch_lists.getD i []).count cid) = watchCount sA.clauses cid i)
    (hnafA : ∀ cid c, sA.clauses.get? cid = some c → nafAt sA.assignments c)
    (himpA : ∀ v, sA.assignments.getD v none ≠ none → v ∈ sA.trail)
    (hsiA : ∀ cid c, sA.clauses.get? cid = some c → siAt sA.assignments c)
    (hunitsA : unitsOK sA.assignments sA.clauses)
    (hnB : sB.assignments.length = n)
    (hwlB : sB.watch_lists.length = 2 * n)
    (hcwfB : ∀ c ∈ sB.clauses, clauseWF n c)
    (hbuckB : ∀ i cid, ((sB.watch_lists.getD i []).count cid) = watchCount sB.clauses cid i)
    (hnafB : ∀ cid c, sB.clauses.get? cid = some c → nafAt sB.assignments c)
    (himpB : ∀ v, sB.assignments.getD v none ≠ none → v ∈ sB.trail)
    (hsiB2 : ∀ cid c, sB.clauses.get? cid = some c → siAt sB.assignments c)
    (hunitsB : unitsOK sB.assignments sB.clauses)
    (htab : sA.assignments = sB.assignments)
    (hlits : litsEq sA.clauses sB.clauses)
    (hl0 : lit ≠ 0) (hlvar : lit_to_var lit < n)
    (hsuccA : (assign sA.assignments sA.trail lit).2.2 = true)
    (hsuccB : (assign sB.assignments sB.trail lit).2.2 = true)
    (hrunA : Solver.propagate pfuelA
      { sA with assignments := (assign sA.assignments sA.trail lit).1,
                trail := (assign sA.assignments sA.trail lit).2.1 } lit = some (sA2, okA))
    (hrunB : Solver.propagate pfuelB
      { sB with assignments := (assign sB.assignments sB.trail lit).1,
                trail := (assign sB.assignments sB.trail lit).2.1 } lit = some (sB2, okB)) :
    okA = okB ∧ (okA = true → sA2.assignments = sB2.assignments) := by
  cases okA with
  | true =>
    obtain ⟨hokB, hBA, hlenA⟩ := propagate_dominates pfuelA pfuelB n sA sB lit sA2 sB2 okB
      hnA hwlA hcwfA hbuckA hnafA himpA hsiA hunitsA
      hnB hwlB hcwfB hbuckB hnafB himpB htab hlits hl0 hlvar hsuccA hsuccB hrunA hrunB
    subst hokB
    obtain ⟨-, hAB, hlenB⟩ := propagate_dominates pfuelB pfuelA n sB sA lit sB2 sA2 true
      hnB hwlB hcwfB hbuckB hnafB himpB hsiB2 hunitsB
      hnA hwlA hcwfA hbuckA hnafA himpA htab.symm (litsEq_symm hlits) hl0 hlvar
      hsuccB hsuccA hrunB hrunA
    exact ⟨rfl, fun _ => tabLe_antisymm hAB hBA (by omega)⟩
  | false =>
    cases okB with
    | false => exact ⟨rfl, fun h => absurd h (by simp)⟩
    | true =>
      obtain ⟨hfalse, -, -⟩ := propagate_dominates pfuelB pfuelA n sB sA lit sB2 sA2 false
        hnB hwlB hcwfB hbuckB hnafB himpB hsiB2 hunitsB
        hnA hwlA hcwfA hbuckA hnafA himpA htab.symm (litsEq_symm hlits) hl0 hlvar
        hsuccB hsuccA hrunB hrunA
      exact absurd hfalse (by simp)

theorem assignPairLits_agree (pfuelA pfuelB n : Nat) (sA sB : Solver) (p0 p1 : Bool)
    (var1 var2 : Nat) (sA2 sB2 : Solver) (okA okB : Bool)
    (hnA : sA.assignments.length = n)
    (hwlA : sA.watch_lists.length = 2 * n)
    (hcwfA : ∀ c ∈ sA.clauses, clauseWF n c)
    (hbuckA : ∀ i cid, ((sA.watch_lists.getD i []).count cid) = watchCount sA.clauses cid i)
    (hnafA : ∀ cid c, sA.clauses.get? cid = some c → nafAt sA.assignments c)
    (himpA : ∀ v, sA.assignments.getD v none ≠ none → v ∈ sA.trail)
    (hsiA : ∀ cid c, sA.clauses.get? cid = some c → siAt sA.assignments c)
    (hunitsA : unitsOK sA.assignments sA.clauses)
    (hnB : sB.assignments.length = n)
    (hwlB : sB.watch_lists.length = 2 * n)
    (hcwfB : ∀ c ∈ sB.clauses, clauseWF n c)
    (hbuckB : ∀ i cid, ((sB.watch_lists.getD i []).count cid) = watchCount sB.clauses cid i)
    (hnafB : ∀ cid c, sB.clauses.get? cid = some c → nafAt sB.assignments c)
    (himpB : ∀ v, sB.assignments.getD v none ≠ none → v ∈ sB.trail)
    (hsiB2 : ∀ cid c, sB.clauses.get? cid = some c → siAt sB.assignments c)
    (hunitsB : unitsOK sB.assignments sB.clauses)
    (htab : sA.assignments = sB.assignments)
    (hlits : litsEq sA.clauses sB.clauses)
    (hv1 : 1 ≤ var1 ∧ var1 < n)
    (hv2 : 1 ≤ var2 ∧ var2 < n)
    (hrunA : Solver.assignPairLits pfuelA sA p0 p1 var1 var2 = some (sA2, okA))
    (hrunB : Solver.assignPairLits pfuelB sB p0 p1 var1 var2 = some (sB2, okB)) :
    okA = okB ∧ (okA = true → sA2.assignments = sB2.assignments) := by
  have hl10 : make_lit var1 p0 ≠ 0 := make_lit_ne_zero var1 p0 hv1.1
  have hl1v : lit_to_var (make_lit var1 p0) < n := by
    rw [lit_to_var_make_lit]
    exact hv1.2
  have hl20 : make_lit var2 p1 ≠ 0 := make_lit_ne_zero var2 p1 hv2.1
  have hl2v : lit_to_var (make_lit var2 p1) < n := by
    rw [lit_to_var_make_lit]
    exact hv2.2
  have hselfextA : ∀ v, sA.assignments.getD v none ≠ none →
      sA.assignments.getD v none = sA.assignments.getD v none := fun v _ => rfl
  have hselfextB : ∀ v, sB.assignments.getD v none ≠ none →
      sB.assignments.getD v none = sB.assignments.getD v none := fun v _ => rfl
  unfold Solver.assignPairLits at hrunA hrunB
  simp only [] at hrunA hrunB
  have hflag1 : (assign sA.assignments sA.trail (make_lit var1 p0)).2.2 =
      (assign sB.assignments sB.trail (make_lit var1 p0)).2.2 :=
    assign_flag_eq _ _ _ _ _ htab
  by_cases h1 : (assign sA.assignments sA.trail (make_lit var1 p0)).2.2 = true
  · have h1B : (assign sB.assignments sB.trail (make_lit var1 p0)).2.2 = true := by
      rw [← hflag1]
      exact h1
    rw [if_pos h1] at hrunA
    rw [if_pos h1B] at hrunB
    rcases hPA : Solver.propagate pfuelA
        { sA with assignments := (assign sA.assignments sA.trail (make_lit var1 p0)).1,
                  trail := (assign sA.assignments sA.trail (make_lit var1 p0)).2.1 }
        (make_lit var1 p0) with _ | ⟨s2aA, ok1A⟩
    · rw [hPA] at hrunA
      simp at hrunA
    rcases hPB : Solver.propagate pfuelB
        { sB with assignments := (assign sB.assignments sB.trail (make_lit var1 p0)).1,
                  trail := (assign sB.assignments sB.trail (make_lit var1 p0)).2.1 }
        (make_lit var1 p0) with _ | ⟨s2aB, ok1B⟩
    · rw [hPB] at hrunB
      simp at hrunB
    rw [hPA] at hrunA
    rw [hPB] at hrunB
    obtain ⟨hok1, htab1⟩ := propagate_agree pfuelA pfuelB n sA sB (make_lit var1 p0)
      s2aA s2aB ok1A ok1B
      hnA hwlA hcwfA hbuckA hnafA himpA hsiA hunitsA
      hnB hwlB hcwfB hbuckB hnafB himpB hsiB2 hunitsB
      htab hlits hl10 hl1v h1 h1B hPA hPB
    rcases Bool.eq_false_or_eq_true ok1A with hok1A | hok1A
    · subst hok1A
      have hok1B : ok1B = true := hok1.symm
      subst hok1B
      have hEqMid : s2aA.assignments = s2aB.assignments := htab1 rfl
      obtain ⟨mA1, mA2, mA3, mA4, mA5, mA6, mA7, mA8, mA9, mA10, mA11, mA12, mA13, mA14⟩ :=
        assign_propagate_master pfuelA n sA.assignments sA (make_lit var1 p0) s2aA true
          hnA hwlA hcwfA hbuckA hnafA himpA hl10 hl1v hselfextA hnafA h1 hPA
      obtain ⟨mB1, mB2, mB3, mB4, mB5, mB6, mB7, mB8, mB9, mB10, mB11, mB12, mB13, mB14⟩ :=
        assign_propagate_master pfuelB n sB.assignments sB (make_lit var1 p0) s2aB true
          hnB hwlB hcwfB hbuckB hnafB himpB hl10 hl1v hselfextB hnafB h1B hPB
      have hsiMidA := assign_propagate_siQ pfuelA n sA (make_lit var1 p0) s2aA true
        hnA hwlA hcwfA hbuckA hnafA himpA hl10 hl1v hsiA h1 hPA rfl
      have hsiMidB := assign_propagate_siQ pfuelB n sB (make_lit var1 p0) s2aB true
        hnB hwlB hcwfB hbuckB hnafB himpB hl10 hl1v hsiB2 h1B hPB rfl
      obtain ⟨htlA, -⟩ := assign_propagate_tabLe pfuelA sA (make_lit var1 p0) s2aA true
        (by rw [hnA]; exact hl1v) h1 hPA
      obtain ⟨htlB, -⟩ := assign_propagate_tabLe pfuelB sB (make_lit var1 p0) s2aB true
        (by rw [hnB]; exact hl1v) h1B hPB
      have hunitsMidA : unitsOK s2aA.assignments s2aA.clauses :=
        unitsOK_litsEq mA11 (unitsOK_mono htlA hunitsA)
      have hunitsMidB : unitsOK s2aB.assignments s2aB.clauses :=
        unitsOK_litsEq mB11 (unitsOK_mono htlB hunitsB)
      have hlitsMid : litsEq s2aA.clauses s2aB.clauses :=
        litsEq_trans (litsEq_symm mA11) (litsEq_trans hlits mB11)
      try simp only [] at hrunA hrunB
      have hflag2 : (assign s2aA.assignments s2aA.trail (make_lit var2 p1)).2.2 =
          (assign s2aB.assignments s2aB.trail (make_lit var2 p1)).2.2 :=
        assign_flag_eq _ _ _ _ _ hEqMid
      by_cases h2 : (assign s2aA.assignments s2aA.trail (make_lit var2 p1)).2.2 = true
      · have h2B : (assign s2aB.assignments s2aB.trail (make_lit var2 p1)).2.2 = true := by
          rw [← hflag2]
          exact h2
        rw [if_pos h2] at hrunA
        rw [if_pos h2B] at hrunB
        rcases hQA : Solver.propagate pfuelA
            { s2aA with
              assignments := (assign s2aA.assignments s2aA.trail (make_lit var2 p1)).1,
              trail := (assign s2aA.assignments s2aA.trail (make_lit var2 p1)).2.1 }
            (make_lit var2 p1) with _ | ⟨s4A, ok2A⟩
        · rw [hQA] at hrunA
          simp at hrunA
        rcases hQB : Solver.propagate pfuelB
            { s2aB with
              assignments := (assign s2aB.assignments s2aB.trail (make_lit var2 p1)).1,
              trail := (assign s2aB.assignments s2aB.trail (make_lit var2 p1)).2.1 }
            (make_lit var2 p1) with _ | ⟨s4B, ok2B⟩
        · rw [hQB] at hrunB
          simp at hrunB
        rw [hQA] at hrunA
        rw [hQB] at hrunB
        obtain ⟨hok2, htab2⟩ := propagate_agree pfuelA pfuelB n s2aA s2aB (make_lit var2 p1)
          s4A s4B ok2A ok2B
          mA1 mA2 mA3 mA4 (mA6 rfl) mA5 hsiMidA hunitsMidA
          mB1 mB2 mB3 mB4 (mB6 rfl) mB5 hsiMidB hunitsMidB
          hEqMid hlitsMid hl20 hl2v h2 h2B hQA hQB
        simp only [Option.some.injEq, Prod.mk.injEq] at hrunA hrunB
        obtain ⟨rfl, hokA⟩ := hrunA
        obtain ⟨rfl, hokB⟩ := hrunB
        refine ⟨by rw [← hokA, ← hokB, hok2], ?_⟩
        intro h
        exact htab2 (hokA.trans h)
      · have h2B : ¬ (assign s2aB.assignments s2aB.trail (make_lit var2 p1)).2.2 = true := by
          rw [← hflag2]
          exact h2
        rw [if_neg h2] at hrunA
        rw [if_neg h2B] at hrunB
        simp only [Option.some.injEq, Prod.mk.injEq] at hrunA hrunB
        obtain ⟨rfl, hokA⟩ := hrunA
        obtain ⟨rfl, hokB⟩ := hrunB
        refine ⟨by rw [← hokA, ← hokB], ?_⟩
        intro h
        rw [← hokA] at h
        exact absurd h (by simp)
    · subst hok1A
      have hok1B : ok1B = false := hok1.symm
      subst hok1B
      simp only [Option.some.injEq, Prod.mk.injEq] at hrunA hrunB
      obtain ⟨rfl, hokA⟩ := hrunA
      obtain ⟨rfl, hokB⟩ := hrunB
      refine ⟨by rw [← hokA, ← hokB], ?_⟩
      intro h
      rw [← hokA] at h
      exact absurd h (by simp)
  · have h1B : ¬ (assign sB.assignments sB.trail (make_lit var1 p0)).2.2 = true := by
      rw [← hflag1]
      exact h1
    rw [if_neg h1] at hrunA
    rw [if_neg h1B] at hrunB
    simp only [Option.some.injEq, Prod.mk.injEq] at hrunA hrunB
    obtain ⟨rfl, hokA⟩ := hrunA
    obtain ⟨rfl, hokB⟩ := hrunB
    refine ⟨by rw [← hokA, ← hokB], ?_⟩
    intro h
    rw [← hokA] at h
    exact absurd h (by simp)

theorem assign_pair_agree (pfuelA pfuelB n : Nat) (sA sB : Solver) (comb var1 var2 : Nat)
    (sA2 sB2 : Solver) (okA okB : Bool)
    (hnA : sA.assignments.length = n)
    (hwlA : sA.watch_lists.length = 2 * n)
    (hcwfA : ∀ c ∈ sA.clauses, clauseWF n c)
    (hbuckA : ∀ i cid, ((sA.watch_lists.getD i []).count cid) = watchCount sA.clauses cid i)
    (hnafA : ∀ cid c, sA.clauses.get? cid = some c → nafAt sA.assignments c)
    (himpA : ∀ v, sA.assignments.getD v none ≠ none → v ∈ sA.trail)
    (hsiA : ∀ cid c, sA.clauses.get? cid = some c → siAt sA.assignments c)
    (hunitsA : unitsOK sA.assignments sA.clauses)
    (hnB : sB.assignments.length = n)
    (hwlB : sB.watch_lists.length = 2 * n)
    (hcwfB : ∀ c ∈ sB.clauses, clauseWF n c)
    (hbuckB : ∀ i cid, ((sB.watch_lists.getD i []).count cid) = watchCount sB.clauses cid i)
    (hnafB : ∀ cid c, sB.clauses.get? cid = some c → nafAt sB.assignments c)
    (himpB : ∀ v, sB.assignments.getD v none ≠ none → v ∈ sB.trail)
    (hsiB2 : ∀ cid c, sB.clauses.get? cid = some c → siAt sB.assignments c)
    (hunitsB : unitsOK sB.assignments sB.clauses)
    (htab : sA.assignments = sB.assignments)
    (hlits : litsEq sA.clauses sB.clauses)
    (hv1 : 1 ≤ var1 ∧ var1 < n)
    (hv2 : 1 ≤ var2 ∧ var2 < n)
    (hrunA : Solver.assign_pair pfuelA sA comb var1 var2 = some (sA2, okA))
    (hrunB : Solver.assign_pair pfuelB sB comb var1 var2 = some (sB2, okB)) :
    okA = okB ∧ (okA = true → sA2.assignments = sB2.assignments) := by
  unfold Solver.assign_pair at hrunA hrunB
  rcases comb with _ | _ | _ | _ | cx
  · exact assignPairLits_agree pfuelA pfuelB n sA sB true true var1 var2 sA2 sB2 okA okB
      hnA hwlA hcwfA hbuckA hnafA himpA hsiA hunitsA
      hnB hwlB hcwfB hbuckB hnafB himpB hsiB2 hunitsB htab hlits hv1 hv2 hrunA hrunB
  · exact assignPairLits_agree pfuelA pfuelB n sA sB true false var1 var2 sA2 sB2 okA okB
      hnA hwlA hcwfA hbuckA hnafA himpA hsiA hunitsA
      hnB hwlB hcwfB hbuckB hnafB himpB hsiB2 hunitsB htab hlits hv1 hv2 hrunA hrunB
  · exact assignPairLits_agree pfuelA pfuelB n sA sB false true var1 var2 sA2 sB2 okA okB
      hnA hwlA hcwfA hbuckA hnafA himpA hsiA hunitsA
      hnB hwlB hcwfB hbuckB hnafB himpB hsiB2 hunitsB htab hlits hv1 hv2 hrunA hrunB
  · exact assignPairLits_agree pfuelA pfuelB n sA sB false false var1 var2 sA2 sB2 okA okB
      hnA hwlA hcwfA hbuckA hnafA himpA hsiA hunitsA
      hnB hwlB hcwfB hbuckB hnafB himpB hsiB2 hunitsB htab hlits hv1 hv2 hrunA hrunB
  · simp only [Option.some.injEq, Prod.mk.injEq] at hrunA hrunB
    obtain ⟨rfl, hokA⟩ := hrunA
    obtain ⟨rfl, hokB⟩ := hrunB
    refine ⟨by rw [← hokA, ← hokB], ?_⟩
    intro h
    rw [← hokA] at h
    exact absurd h (by simp)

/-! ## Transport lemmas for the paired decision frames -/

theorem framesP_lengths (n : Nat) (base : List (Option Bool)) (clsA clsB : List Clause) :
    ∀ (stA stB : List Decision) (aA : List (Option Bool)) (trA limA : List Nat)
      (aB : List (Option Bool)) (trB limB : List Nat),
    framesP n base clsA clsB stA stB aA trA limA aB trB limB →
    limA.length = stA.length ∧ limB.length = stB.length ∧ stA.length = stB.length := by
  intro stA
  induction stA with
  | nil =>
    intro stB aA trA limA aB trB limB h
    rcases stB with _ | ⟨dB, restB⟩
    · obtain ⟨h1, h2, -, -⟩ := h
      rw [h1, h2]
      exact ⟨rfl, rfl, rfl⟩
    · exact h.elim
  | cons dA restA ih =>
    intro stB aA trA limA aB trB limB h
    rcases stB with _ | ⟨dB, restB⟩
    · exact h.elim
    · obtain ⟨a0, trA0, limA0, trB0, limB0, hds, hlimA, hlimB, hfA, hfB, hfresh,
        hnafA, hnafB, hsiA, hsiB, hrec⟩ := h
      obtain ⟨l1, l2, l3⟩ := ih restB a0 trA0 limA0 a0 trB0 limB0 hrec
      rw [hlimA, hlimB]
      refine ⟨?_, ?_, ?_⟩ <;> simp [l1, l2, l3]

theorem framesP_base_le (n : Nat) (base : List (Option Bool)) (clsA clsB : List Clause) :
    ∀ (stA stB : List Decision) (aA : List (Option Bool)) (trA limA : List Nat)
      (aB : List (Option Bool)) (trB limB : List Nat),
    framesP n base clsA clsB stA stB aA trA limA aB trB limB →
    tabLe base aA ∧ tabLe base aB := by
  intro stA
  induction stA with
  | nil =>
    intro stB aA trA limA aB trB limB h
    rcases stB with _ | ⟨dB, restB⟩
    · obtain ⟨-, -, h3, h4⟩ := h
      rw [h3, h4]
      exact ⟨tabLe_refl _, tabLe_refl _⟩
    · exact h.elim
  | cons dA restA ih =>
    intro stB aA trA limA aB trB limB h
    rcases stB with _ | ⟨dB, restB⟩
    · exact h.elim
    · obtain ⟨a0, trA0, limA0, trB0, limB0, hds, hlimA, hlimB, hfA, hfB, hfresh,
        hnafA, hnafB, hsiA, hsiB, hrec⟩ := h
      obtain ⟨l1, -⟩ := ih restB a0 trA0 limA0 a0 trB0 limB0 hrec
      exact ⟨tabLe_trans l1 (assignFrame_ext hfA), tabLe_trans l1 (assignFrame_ext hfB)⟩

theorem framesP_push (n : Nat) (base : List (Option Bool)) (clsA clsB : List Clause)
    (stA stB : List Decision) (dA dB : Decision)
    (aA : List (Option Bool)) (trA limA : List Nat)
    (aB : List (Option Bool)) (trB limB : List Nat)
    (h : framesP n base clsA clsB stA stB aA trA limA aB trB limB)
    (hTab : aA = aB)
    (hds : decSim dA dB)
    (hfresh : decVarsFresh n aA dA)
    (hnafA : ∀ cid c, clsA.get? cid = some c → nafAt aA c)
    (hnafB : ∀ cid c, clsB.get? cid = some c → nafAt aA c)
    (hsiA : ∀ cid c, clsA.get? cid = some c → siAt aA c)
    (hsiB : ∀ cid c, clsB.get? cid = some c → siAt aA c) :
    framesP n base clsA clsB (dA :: stA) (dB :: stB) aA trA (limA ++ [trA.length])
      aB trB (limB ++ [trB.length]) := by
  subst hTab
  exact ⟨aA, trA, limA, trB, limB, hds, rfl, rfl, assignFrame_refl _ _,
    assignFrame_refl _ _, hfresh, hnafA, hnafB, hsiA, hsiB, h⟩

theorem framesP_extend (n : Nat) (base : List (Option Bool)) (clsA clsB : List Clause)
    (dA dB : Decision) (stA stB : List Decision)
    {aA : List (Option Bool)} {trA : List Nat} {aA2 : List (Option Bool)} {trA2 : List Nat}
    {aB : List (Option Bool)} {trB : List Nat} {aB2 : List (Option Bool)} {trB2 : List Nat}
    (limA limB : List Nat)
    (hfA : assignFrame aA trA aA2 trA2)
    (hfB : assignFrame aB trB aB2 trB2)
    (h : framesP n base clsA clsB (dA :: stA) (dB :: stB) aA trA limA aB trB limB) :
    framesP n base clsA clsB (dA :: stA) (dB :: stB) aA2 trA2 limA aB2 trB2 limB := by
  obtain ⟨a0, trA0, limA0, trB0, limB0, hds, hlimA, hlimB, hfA0, hfB0, hfresh,
    hnafA, hnafB, hsiA, hsiB, hrec⟩ := h
  exact ⟨a0, trA0, limA0, trB0, limB0, hds, hlimA, hlimB, assignFrame_trans hfA0 hfA,
    assignFrame_trans hfB0 hfB, hfresh, hnafA, hnafB, hsiA, hsiB, hrec⟩

theorem framesP_reclauseA (n : Nat) (base : List (Option Bool))
    (clsA clsA2 clsB : List Clause) (aTop : List (Option Bool))
    (hnafNew : ∀ cid c, clsA2.get? cid = some c → nafAt aTop c)
    (hsiNew : ∀ b, (∀ v, b.getD v none ≠ none → aTop.getD v none = b.getD v none) →
      (∀ cid c, clsA.get? cid = some c → siAt b c) →
      (∀ cid c, clsA2.get? cid = some c → siAt b c)) :
    ∀ (stA stB : List Decision) (aA : List (Option Bool)) (trA limA : List Nat)
      (aB : List (Option Bool)) (trB limB : List Nat),
    framesP n base clsA clsB stA stB aA trA limA aB trB limB →
    (∀ v, aA.getD v none ≠ none → aTop.getD v none = aA.getD v none) →
    framesP n base clsA2 clsB stA stB aA trA limA aB trB limB := by
  intro stA
  induction stA with
  | nil =>
    intro stB aA trA limA aB trB limB h hcur
    rcases stB with _ | ⟨dB, restB⟩
    · exact h
    · exact h.elim
  | cons dA restA ih =>
    intro stB aA trA limA aB trB limB h hcur
    rcases stB with _ | ⟨dB, restB⟩
    · exact h.elim
    · obtain ⟨a0, trA0, limA0, trB0, limB0, hds, hlimA, hlimB, hfA, hfB, hfresh,
        hnafA, hnafB, hsiA, hsiB, hrec⟩ := h
      have hext0 : ∀ v, a0.getD v none ≠ none → aTop.getD v none = a0.getD v none := by
        intro v hv
        have h1 := assignFrame_ext hfA v hv
        have h2 : aA.getD v none ≠ none := by
          rw [h1]
          exact hv
        rw [hcur v h2, h1]
      exact ⟨a0, trA0, limA0, trB0, limB0, hds, hlimA, hlimB, hfA, hfB, hfresh,
        fun cid c hg => nafAt_anti c hext0 (hnafNew cid c hg), hnafB,
        hsiNew a0 hext0 hsiA, hsiB,
        ih restB a0 trA0 limA0 a0 trB0 limB0 hrec hext0⟩

theorem framesP_reclauseB (n : Nat) (base : List (Option Bool))
    (clsA clsB clsB2 : List Clause) (aTop : List (Option Bool))
    (hnafNew : ∀ cid c, clsB2.get? cid = some c → nafAt aTop c)
    (hsiNew : ∀ b, (∀ v, b.getD v none ≠ none → aTop.getD v none = b.getD v none) →
      (∀ cid c, clsB.get? cid = some c → siAt b c) →
      (∀ cid c, clsB2.get? cid = some c → siAt b c)) :
    ∀ (stA stB : List Decision) (aA : List (Option Bool)) (trA limA : List Nat)
      (aB : List (Option Bool)) (trB limB : List Nat),
    framesP n base clsA clsB stA stB aA trA limA aB trB limB →
    (∀ v, aB.getD v none ≠ none → aTop.getD v none = aB.getD v none) →
    framesP n base clsA clsB2 stA stB aA trA limA aB trB limB := by
  intro stA
  induction stA with
  | nil =>
    intro stB aA trA limA aB trB limB h hcur
    rcases stB with _ | ⟨dB, restB⟩
    · exact h
    · exact h.elim
  | cons dA restA ih =>
    intro stB aA trA limA aB trB limB h hcur
    rcases stB with _ | ⟨dB, restB⟩
    · exact h.elim
    · obtain ⟨a0, trA0, limA0, trB0, limB0, hds, hlimA, hlimB, hfA, hfB, hfresh,
        hnafA, hnafB, hsiA, hsiB, hrec⟩ := h
      have hext0 : ∀ v, a0.getD v none ≠ none → aTop.getD v none = a0.getD v none := by
        intro v hv
        have h1 := assignFrame_ext hfB v hv
        have h2 : aB.getD v none ≠ none := by
          rw [h1]
          exact hv
        rw [hcur v h2, h1]
      exact ⟨a0, trA0, limA0, trB0, limB0, hds, hlimA, hlimB, hfA, hfB, hfresh,
        hnafA, fun cid c hg => nafAt_anti c hext0 (hnafNew cid c hg),
        hsiA, hsiNew a0 hext0 hsiB,
        ih restB a0 trA0 limA0 a0 trB0 limB0 hrec hext0⟩

theorem framesP_framesA (n : Nat) (base : List (Option Bool)) (clsA clsB : List Clause) :
    ∀ (stA stB : List Decision) (aA : List (Option Bool)) (trA limA : List Nat)
      (aB : List (Option Bool)) (trB limB : List Nat),
    framesP n base clsA clsB stA stB aA trA limA aB trB limB →
    frames n clsA stA aA trA limA := by
  intro stA
  induction stA with
  | nil =>
    intro stB aA trA limA aB trB limB h
    rcases stB with _ | ⟨dB, restB⟩
    · exact h.1
    · exact h.elim
  | cons dA restA ih =>
    intro stB aA trA limA aB trB limB h
    rcases stB with _ | ⟨dB, restB⟩
    · exact h.elim
    · obtain ⟨a0, trA0, limA0, trB0, limB0, hds, hlimA, hlimB, hfA, hfB, hfresh,
        hnafA, hnafB, hsiA, hsiB, hrec⟩ := h
      exact ⟨a0, trA0, limA0, hlimA, hfA, hfresh, hnafA,
        ih restB a0 trA0 limA0 a0 trB0 limB0 hrec⟩

theorem framesP_framesB (n : Nat) (base : List (Option Bool)) (clsA clsB : List Clause) :
    ∀ (stA stB : List Decision) (aA : List (Option Bool)) (trA limA : List Nat)
      (aB : List (Option Bool)) (trB limB : List Nat),
    framesP n base clsA clsB stA stB aA trA limA aB trB limB →
    frames n clsB stB aB trB limB := by
  intro stA
  induction stA with
  | nil =>
    intro stB aA trA limA aB trB limB h
    rcases stB with _ | ⟨dB, restB⟩
    · exact h.2.1
    · exact h.elim
  | cons dA restA ih =>
    intro stB aA trA limA aB trB limB h
    rcases stB with _ | ⟨dB, restB⟩
    · exact h.elim
    · obtain ⟨a0, trA0, limA0, trB0, limB0, hds, hlimA, hlimB, hfA, hfB, hfresh,
        hnafA, hnafB, hsiA, hsiB, hrec⟩ := h
      exact ⟨a0, trB0, limB0, hlimB, hfB, decVarsFresh_sim hds hfresh, hnafB,
        ih restB a0 trA0 limA0 a0 trB0 limB0 hrec⟩

/-! ## Lock-step simulation of the backtracking loop -/

theorem backtrackLoop_bisim (pfuelA pfuelB n : Nat) (base : List (Option Bool)) :
    ∀ (fuelA fuelB : Nat) (sA sB : Solver) (stackA stackB : List Decision)
      (sA2 sB2 : Solver) (stackA2 stackB2 : List Decision) (okA okB : Bool),
    sA.assignments.length = n →
    sA.watch_lists.length = 2 * n →
    (∀ c ∈ sA.clauses, clauseWF n c) →
    (∀ i cid, ((sA.watch_lists.getD i []).count cid) = watchCount sA.clauses cid i) →
    (∀ v, sA.assignments.getD v none ≠ none → v ∈ sA.trail) →
    sB.assignments.length = n →
    sB.watch_lists.length = 2 * n →
    (∀ c ∈ sB.clauses, clauseWF n c) →
    (∀ i cid, ((sB.watch_lists.getD i []).count cid) = watchCount sB.clauses cid i) →
    (∀ v, sB.assignments.getD v none ≠ none → v ∈ sB.trail) →
    litsEq sA.clauses sB.clauses →
    unitsOK base sA.clauses →
    framesP n base sA.clauses sB.clauses stackA stackB sA.assignments sA.trail
      sA.trail_lim sB.assignments sB.trail sB.trail_lim →
    Solver.backtrackLoop pfuelA fuelA sA stackA = some (sA2, stackA2, okA) →
    Solver.backtrackLoop pfuelB fuelB sB stackB = some (sB2, stackB2, okB) →
    okA = okB ∧
    (okA = true →
      sA2.assignments = sB2.assignments ∧
      (∀ cid c, sA2.clauses.get? cid = some c → siAt sA2.assignments c) ∧
      (∀ cid c, sB2.clauses.get? cid = some c → siAt sB2.assignments c) ∧
      framesP n base sA2.clauses sB2.clauses stackA2 stackB2 sA2.assignments sA2.trail
        sA2.trail_lim sB2.assignments sB2.trail sB2.trail_lim) ∧
    (okA = false → sA2.assignments = base ∧ sB2.assignments = base) := by
  intro fuelA
  induction fuelA using Nat.strong_induction_on with
  | _ fuelA ih =>
  intro fuelB sA sB stackA stackB sA2 sB2 stackA2 stackB2 okA okB
  intro hnA hwlA hcwfA hbuckA himpA hnB hwlB hcwfB hbuckB himpB hlits hunits hfr hrunA hrunB
  rcases fuelA with _ | fuelA
  · simp [Solver.backtrackLoop] at hrunA
  rcases fuelB with _ | fuelB
  · simp [Solver.backtrackLoop] at hrunB
  rcases stackA with _ | ⟨dA, stackA⟩
  · rcases stackB with _ | ⟨dB, stackB⟩
    · rw [Solver.backtrackLoop] at hrunA hrunB
      simp only [Option.some.injEq, Prod.mk.injEq] at hrunA hrunB
      obtain ⟨rfl, rfl, rfl⟩ := hrunA
      obtain ⟨rfl, rfl, rfl⟩ := hrunB
      obtain ⟨-, -, h3, h4⟩ := hfr
      refine ⟨rfl, ?_, ?_⟩
      · intro h
        exact absurd h (by simp)
      · intro _
        exact ⟨h3, h4⟩
    · exact hfr.elim
  rcases stackB with _ | ⟨dB, stackB⟩
  · exact hfr.elim
  obtain ⟨a0, trA0, limA0, trB0, limB0, hds, hlimA, hlimB, hfA, hfB, hfresh,
    hnafA0, hnafB0, hsiA0, hsiB0, hrec⟩ := hfr
  obtain ⟨lremA, lremB, lAB⟩ := framesP_lengths n base sA.clauses sB.clauses stackA stackB
    a0 trA0 limA0 a0 trB0 limB0 hrec
  have ha0len : a0.length = n := by
    obtain ⟨dvs, -, hlen2, -⟩ := hfA
    omega
  have hUA : sA.undo_to_level stackA.length =
      { sA with assignments := a0, trail := trA0, trail_lim := limA0 } := by
    rw [← lremA]
    exact undo_restore_eq sA a0 trA0 limA0 hlimA hfA
  have hUB : sB.undo_to_level stackB.length =
      { sB with assignments := a0, trail := trB0, trail_lim := limB0 } := by
    rw [← lremB]
    exact undo_restore_eq sB a0 trB0 limB0 hlimB hfB
  have himpUA : ∀ v, a0.getD v none ≠ none → v ∈ trA0 := by
    intro v hv
    obtain ⟨dvs, htr, -, hnone, hkeep, -⟩ := hfA
    by_cases hd : v ∈ dvs
    · exact absurd (hnone v hd) hv
    · have h2 : sA.assignments.getD v none ≠ none := by
        rw [hkeep v hd]
        exact hv
      have hmem := himpA v h2
      rw [htr] at hmem
      rcases List.mem_append.mp hmem with h | h
      · exact absurd h hd
      · exact h
  have himpUB : ∀ v, a0.getD v none ≠ none → v ∈ trB0 := by
    intro v hv
    obtain ⟨dvs, htr, -, hnone, hkeep, -⟩ := hfB
    by_cases hd : v ∈ dvs
    · exact absurd (hnone v hd) hv
    · have h2 : sB.assignments.getD v none ≠ none := by
        rw [hkeep v hd]
        exact hv
      have hmem := himpB v h2
      rw [htr] at hmem
      rcases List.mem_append.mp hmem with h | h
      · exact absurd h hd
      · exact h
  have hunitsB : unitsOK base sB.clauses := unitsOK_litsEq hlits hunits
  obtain ⟨hble, -⟩ := framesP_base_le n base sA.clauses sB.clauses stackA stackB a0 trA0
    limA0 a0 trB0 limB0 hrec
  have hunits0A : unitsOK a0 sA.clauses := unitsOK_mono hble hunits
  have hunits0B : unitsOK a0 sB.clauses := unitsOK_mono hble hunitsB
  rcases dA with ⟨var, tpol, tboth⟩ | ⟨var1, var2, tcomb, tall⟩ | edgeA
  · rcases dB with ⟨varX, tpolX, tbothX⟩ | ⟨w1, w2, cX, aX⟩ | eX
    · obtain ⟨rfl, rfl, rfl⟩ := hds
      obtain ⟨hv1, hv2, hv3⟩ := hfresh
      rw [Solver.backtrackLoop] at hrunA hrunB
      try simp only [] at hrunA hrunB
      by_cases htb : tboth = true
      · rw [if_pos htb, hUA] at hrunA
        rw [if_pos htb, hUB] at hrunB
        exact ih fuelA (by omega) fuelB
          { sA with assignments := a0, trail := trA0, trail_lim := limA0 }
          { sB with assignments := a0, trail := trB0, trail_lim := limB0 }
          stackA stackB sA2 sB2 stackA2 stackB2 okA okB
          ha0len hwlA hcwfA hbuckA himpUA ha0len hwlB hcwfB hbuckB himpUB
          hlits hunits hrec hrunA hrunB
      · rw [if_neg htb, hUA] at hrunA
        rw [if_neg htb, hUB] at hrunB
        try simp only [] at hrunA hrunB
        have hl0 : make_lit var (!tpol) ≠ 0 := make_lit_ne_zero var _ hv1
        have hlv : lit_to_var (make_lit var (!tpol)) < n := by
          rw [lit_to_var_make_lit]
          exact hv2
        have hsuccA : (assign a0 trA0 (make_lit var (!tpol))).2.2 = true := by
          unfold assign
          simp only [lit_to_var_make_lit, hv3]
        have hsuccB : (assign a0 trB0 (make_lit var (!tpol))).2.2 = true := by
          unfold assign
          simp only [lit_to_var_make_lit, hv3]
        rw [if_pos hsuccA] at hrunA
        rw [if_pos hsuccB] at hrunB
        split at hrunA
        · exact absurd hrunA (by simp)
        next s4A okPA heqA =>
        split at hrunB
        · exact absurd hrunB (by simp)
        next s4B okPB heqB =>
        obtain ⟨hokP, htabP⟩ := propagate_agree pfuelA pfuelB n
          { sA with assignments := a0, trail := trA0, trail_lim := limA0 ++ [trA0.length] }
          { sB with assignments := a0, trail := trB0, trail_lim := limB0 ++ [trB0.length] }
          (make_lit var (!tpol)) s4A s4B okPA okPB
          ha0len hwlA hcwfA hbuckA hnafA0 himpUA hsiA0 hunits0A
          ha0len hwlB hcwfB hbuckB hnafB0 himpUB hsiB0 hunits0B
          rfl hlits hl0 hlv hsuccA hsuccB heqA heqB
        obtain ⟨mA1, mA2, mA3, mA4, mA5, mA6, mA7, mA8, mA9, mA10, mA11, mA12, mA13, mA14⟩ :=
          assign_propagate_master pfuelA n a0
            { sA with assignments := a0, trail := trA0, trail_lim := limA0 ++ [trA0.length] }
            (make_lit var (!tpol)) s4A okPA
            ha0len hwlA hcwfA hbuckA hnafA0 himpUA hl0 hlv (fun v _ => rfl) hnafA0
            hsuccA heqA
        obtain ⟨mB1, mB2, mB3, mB4, mB5, mB6, mB7, mB8, mB9, mB10, mB11, mB12, mB13, mB14⟩ :=
          assign_propagate_master pfuelB n a0
            { sB with assignments := a0, trail := trB0, trail_lim := limB0 ++ [trB0.length] }
            (make_lit var (!tpol)) s4B okPB
            ha0len hwlB hcwfB hbuckB hnafB0 himpUB hl0 hlv (fun v _ => rfl) hnafB0
            hsuccB heqB
        have hfrP := framesP_push n base sA.clauses sB.clauses stackA stackB
          (Decision.Single var (!tpol) true) (Decision.Single var (!tpol) true)
          a0 trA0 limA0 a0 trB0 limB0 hrec rfl ⟨rfl, rfl, rfl⟩ ⟨hv1, hv2, hv3⟩
          hnafA0 hnafB0 hsiA0 hsiB0
        have hfr2 := framesP_reclauseA n base sA.clauses s4A.clauses sB.clauses a0 mA8
          (fun b hb hs => (assign_propagate_siB pfuelA n b
            { sA with assignments := a0, trail := trA0,
                      trail_lim := limA0 ++ [trA0.length] }
            (make_lit var (!tpol)) s4A okPA
            ha0len hwlA hcwfA hbuckA hnafA0 himpUA hl0 hlv hb hs hsuccA heqA).2)
          (Decision.Single var (!tpol) true :: stackA)
          (Decision.Single var (!tpol) true :: stackB)
          a0 trA0 (limA0 ++ [trA0.length]) a0 trB0 (limB0 ++ [trB0.length]) hfrP
          (fun v _ => rfl)
        have hfr3 := framesP_reclauseB n base s4A.clauses sB.clauses s4B.clauses a0 mB8
          (fun b hb hs => (assign_propagate_siB pfuelB n b
            { sB with assignments := a0, trail := trB0,
                      trail_lim := limB0 ++ [trB0.length] }
            (make_lit var (!tpol)) s4B okPB
            ha0len hwlB hcwfB hbuckB hnafB0 himpUB hl0 hlv hb hs hsuccB heqB).2)
          (Decision.Single var (!tpol) true :: stackA)
          (Decision.Single var (!tpol) true :: stackB)
          a0 trA0 (limA0 ++ [trA0.length]) a0 trB0 (limB0 ++ [trB0.length]) hfr2
          (fun v _ => rfl)
        have hfr4 := framesP_extend n base s4A.clauses s4B.clauses
          (Decision.Single var (!tpol) true) (Decision.Single var (!tpol) true)
          stackA stackB (limA0 ++ [trA0.length]) (limB0 ++ [trB0.length]) mA10 mB10 hfr3
        have hfrS : framesP n base s4A.clauses s4B.clauses
            (Decision.Single var (!tpol) true :: stackA)
            (Decision.Single var (!tpol) true :: stackB)
            s4A.assignments s4A.trail s4A.trail_lim
            s4B.assignments s4B.trail s4B.trail_lim := by
          rw [mA9, mB9]
          exact hfr4
        subst hokP
        rcases Bool.eq_false_or_eq_true okPA with hok | hok
        · rw [if_pos hok] at hrunA hrunB
          simp only [Option.some.injEq, Prod.mk.injEq] at hrunA hrunB
          obtain ⟨rfl, rfl, rfl⟩ := hrunA
          obtain ⟨rfl, rfl, rfl⟩ := hrunB
          refine ⟨rfl, ?_, ?_⟩
          · intro _
            refine ⟨htabP hok, ?_, ?_, hfrS⟩
            · exact assign_propagate_siQ pfuelA n
                { sA with assignments := a0, trail := trA0,
                          trail_lim := limA0 ++ [trA0.length] }
                (make_lit var (!tpol)) s4A okPA
                ha0len hwlA hcwfA hbuckA hnafA0 himpUA hl0 hlv hsiA0 hsuccA heqA hok
            · exact assign_propagate_siQ pfuelB n
                { sB with assignments := a0, trail := trB0,
                          trail_lim := limB0 ++ [trB0.length] }
                (make_lit var (!tpol)) s4B okPA
                ha0len hwlB hcwfB hbuckB hnafB0 himpUB hl0 hlv hsiB0 hsuccB heqB hok
          · intro h
            exact absurd h (by simp)
        · rw [if_neg (by rw [hok]; simp)] at hrunA hrunB
          have hlits4 : litsEq s4A.clauses s4B.clauses :=
            litsEq_trans (litsEq_symm mA11) (litsEq_trans hlits mB11)
          have hunits4 : unitsOK base s4A.clauses := unitsOK_litsEq mA11 hunits
          exact ih fuelA (by omega) fuelB s4A s4B
            (Decision.Single var (!tpol) true :: stackA)
            (Decision.Single var (!tpol) true :: stackB)
            sA2 sB2 stackA2 stackB2 okA okB
            mA1 mA2 mA3 mA4 mA5 mB1 mB2 mB3 mB4 mB5 hlits4 hunits4 hfrS hrunA hrunB
    · exact hds.elim
    · exact hds.elim
  · rcases dB with ⟨varX, tpolX, tbothX⟩ | ⟨w1, w2, cX, aX⟩ | eX
    · exact hds.elim
    · obtain ⟨rfl, rfl, rfl, rfl⟩ := hds
      obtain ⟨⟨hw1a, hw1b, hw1c⟩, ⟨hw2a, hw2b, hw2c⟩⟩ := hfresh
      rw [Solver.backtrackLoop] at hrunA hrunB
      try simp only [] at hrunA hrunB
      by_cases hta : tall = true
      · rw [if_pos hta, hUA] at hrunA
        rw [if_pos hta, hUB] at hrunB
        exact ih fuelA (by omega) fuelB
          { sA with assignments := a0, trail := trA0, trail_lim := limA0 }
          { sB with assignments := a0, trail := trB0, trail_lim := limB0 }
          stackA stackB sA2 sB2 stackA2 stackB2 okA okB
          ha0len hwlA hcwfA hbuckA himpUA ha0len hwlB hcwfB hbuckB himpUB
          hlits hunits hrec hrunA hrunB
      · rw [if_neg hta, hUA] at hrunA
        rw [if_neg hta, hUB] at hrunB
        try simp only [] at hrunA hrunB
        by_cases hc4 : 4 ≤ tcomb + 1
        · rw [if_pos hc4] at hrunA hrunB
          rcases fuelA with _ | fuelA2
          · simp [Solver.backtrackLoop] at hrunA
          rcases fuelB with _ | fuelB2
          · simp [Solver.backtrackLoop] at hrunB
          rw [Solver.backtrackLoop] at hrunA hrunB
          simp only [] at hrunA hrunB
          rw [if_pos trivial] at hrunA hrunB
          have hidA : ({ sA with assignments := a0, trail := trA0, trail_lim := limA0 } :
                Solver).undo_to_level stackA.length =
              { sA with assignments := a0, trail := trA0, trail_lim := limA0 } := by
            unfold Solver.undo_to_level
            rw [if_pos]
            show limA0.length ≤ stackA.length
            omega
          have hidB : ({ sB with assignments := a0, trail := trB0, trail_lim := limB0 } :
                Solver).undo_to_level stackB.length =
              { sB with assignments := a0, trail := trB0, trail_lim := limB0 } := by
            unfold Solver.undo_to_level
            rw [if_pos]
            show limB0.length ≤ stackB.length
            omega
          rw [hidA] at hrunA
          rw [hidB] at hrunB
          exact ih fuelA2 (by omega) fuelB2
            { sA with assignments := a0, trail := trA0, trail_lim := limA0 }
            { sB with assignments := a0, trail := trB0, trail_lim := limB0 }
            stackA stackB sA2 sB2 stackA2 stackB2 okA okB
            ha0len hwlA hcwfA hbuckA himpUA ha0len hwlB hcwfB hbuckB himpUB
            hlits hunits hrec hrunA hrunB
        · rw [if_neg hc4] at hrunA hrunB
          try simp only [] at hrunA hrunB
          split at hrunA
          · exact absurd hrunA (by simp)
          next s3A okPA heqA =>
          split at hrunB
          · exact absurd hrunB (by simp)
          next s3B okPB heqB =>
          obtain ⟨hokP, htabP⟩ := assign_pair_agree pfuelA pfuelB n
            { sA with assignments := a0, trail := trA0,
                      trail_lim := limA0 ++ [trA0.length] }
            { sB with assignments := a0, trail := trB0,
                      trail_lim := limB0 ++ [trB0.length] }
            (tcomb + 1) var1 var2 s3A s3B okPA okPB
            ha0len hwlA hcwfA hbuckA hnafA0 himpUA hsiA0 hunits0A
            ha0len hwlB hcwfB hbuckB hnafB0 himpUB hsiB0 hunits0B
            rfl hlits ⟨hw1a, hw1b⟩ ⟨hw2a, hw2b⟩ heqA heqB
          obtain ⟨pA1, pA2, pA3, pA4, pA5, pA6, pA7, pA8, pA9, pA10, pA11, pA12,
            pA13, pA14⟩ :=
            assign_pair_master pfuelA n
              { sA with assignments := a0, trail := trA0,
                        trail_lim := limA0 ++ [trA0.length] }
              (tcomb + 1) var1 var2 s3A okPA
              ha0len hwlA hcwfA hbuckA hnafA0 himpUA ⟨hw1a, hw1b⟩ ⟨hw2a, hw2b⟩ heqA
          obtain ⟨pB1, pB2, pB3, pB4, pB5, pB6, pB7, pB8, pB9, pB10, pB11, pB12,
            pB13, pB14⟩ :=
            assign_pair_master pfuelB n
              { sB with assignments := a0, trail := trB0,
                        trail_lim := limB0 ++ [trB0.length] }
              (tcomb + 1) var1 var2 s3B okPB
              ha0len hwlB hcwfB hbuckB hnafB0 himpUB ⟨hw1a, hw1b⟩ ⟨hw2a, hw2b⟩ heqB
          have hfrP := framesP_push n base sA.clauses sB.clauses stackA stackB
            (Decision.Pair var1 var2 (tcomb + 1) tall)
            (Decision.Pair var1 var2 (tcomb + 1) tall)
            a0 trA0 limA0 a0 trB0 limB0 hrec rfl ⟨rfl, rfl, rfl, rfl⟩
            ⟨⟨hw1a, hw1b, hw1c⟩, ⟨hw2a, hw2b, hw2c⟩⟩ hnafA0 hnafB0 hsiA0 hsiB0
          have hfr2 := framesP_reclauseA n base sA.clauses s3A.clauses sB.clauses a0 pA8
            (fun b hb hs => (assign_pair_siB pfuelA n b
              { sA with assignments := a0, trail := trA0,
                        trail_lim := limA0 ++ [trA0.length] }
              (tcomb + 1) var1 var2 s3A okPA
              ha0len hwlA hcwfA hbuckA hnafA0 himpUA ⟨hw1a, hw1b⟩ ⟨hw2a, hw2b⟩
              hb hs heqA).2)
            (Decision.Pair var1 var2 (tcomb + 1) tall :: stackA)
            (Decision.Pair var1 var2 (tcomb + 1) tall :: stackB)
            a0 trA0 (limA0 ++ [trA0.length]) a0 trB0 (limB0 ++ [trB0.length]) hfrP
            (fun v _ => rfl)
          have hfr3 := framesP_reclauseB n base s3A.clauses sB.clauses s3B.clauses a0 pB8
            (fun b hb hs => (assign_pair_siB pfuelB n b
              { sB with assignments := a0, trail := trB0,
                        trail_lim := limB0 ++ [trB0.length] }
              (tcomb + 1) var1 var2 s3B okPB
              ha0len hwlB hcwfB hbuckB hnafB0 himpUB ⟨hw1a, hw1b⟩ ⟨hw2a, hw2b⟩
              hb hs heqB).2)
            (Decision.Pair var1 var2 (tcomb + 1) tall :: stackA)
            (Decision.Pair var1 var2 (tcomb + 1) tall :: stackB)
            a0 trA0 (limA0 ++ [trA0.length]) a0 trB0 (limB0 ++ [trB0.length]) hfr2
            (fun v _ => rfl)
          have hfr4 := framesP_extend n base s3A.clauses s3B.clauses
            (Decision.Pair var1 var2 (tcomb + 1) tall)
            (Decision.Pair var1 var2 (tcomb + 1) tall)
            stackA stackB (limA0 ++ [trA0.length]) (limB0 ++ [trB0.length]) pA10 pB10 hfr3
          have hfrS : framesP n base s3A.clauses s3B.clauses
              (Decision.Pair var1 var2 (tcomb + 1) tall :: stackA)
              (Decision.Pair var1 var2 (tcomb + 1) tall :: stackB)
              s3A.assignments s3A.trail s3A.trail_lim
              s3B.assignments s3B.trail s3B.trail_lim := by
            rw [pA9, pB9]
            exact hfr4
          subst hokP
          rcases Bool.eq_false_or_eq_true okPA with hok | hok
          · rw [if_pos hok] at hrunA hrunB
            simp only [Option.some.injEq, Prod.mk.injEq] at hrunA hrunB
            obtain ⟨rfl, rfl, rfl⟩ := hrunA
            obtain ⟨rfl, rfl, rfl⟩ := hrunB
            refine ⟨rfl, ?_, ?_⟩
            · intro _
              refine ⟨htabP hok, ?_, ?_, hfrS⟩
              · exact assign_pair_siQ pfuelA n
                  { sA with assignments := a0, trail := trA0,
                            trail_lim := limA0 ++ [trA0.length] }
                  (tcomb + 1) var1 var2 s3A okPA
                  ha0len hwlA hcwfA hbuckA hnafA0 himpUA ⟨hw1a, hw1b⟩ ⟨hw2a, hw2b⟩
                  hsiA0 heqA hok
              · exact assign_pair_siQ pfuelB n
                  { sB with assignments := a0, trail := trB0,
                            trail_lim := limB0 ++ [trB0.length] }
                  (tcomb + 1) var1 var2 s3B okPA
                  ha0len hwlB hcwfB hbuckB hnafB0 himpUB ⟨hw1a, hw1b⟩ ⟨hw2a, hw2b⟩
                  hsiB0 heqB hok
            · intro h
              exact absurd h (by simp)
          · rw [if_neg (by rw [hok]; simp)] at hrunA hrunB
            have hlits3 : litsEq s3A.clauses s3B.clauses :=
              litsEq_trans (litsEq_symm pA11) (litsEq_trans hlits pB11)
            have hunits3 : unitsOK base s3A.clauses := unitsOK_litsEq pA11 hunits
            exact ih fuelA (by omega) fuelB s3A s3B
              (Decision.Pair var1 var2 (tcomb + 1) tall :: stackA)
              (Decision.Pair var1 var2 (tcomb + 1) tall :: stackB)
              sA2 sB2 stackA2 stackB2 okA okB
              pA1 pA2 pA3 pA4 pA5 pB1 pB2 pB3 pB4 pB5 hlits3 hunits3 hfrS hrunA hrunB
    · exact hds.elim
  · rcases dB with ⟨varX, tpolX, tbothX⟩ | ⟨w1, w2, cX, aX⟩ | eX
    · exact hds.elim
    · exact hds.elim
    · rw [Solver.backtrackLoop] at hrunA hrunB
      try simp only [] at hrunA hrunB
      rw [hUA] at hrunA
      rw [hUB] at hrunB
      exact ih fuelA (by omega) fuelB
        { sA with assignments := a0, trail := trA0, trail_lim := limA0 }
        { sB with assignments := a0, trail := trB0, trail_lim := limB0 }
        stackA stackB sA2 sB2 stackA2 stackB2 okA okB
        ha0len hwlA hcwfA hbuckA himpUA ha0len hwlB hcwfB hbuckB himpUB
        hlits hunits hrec hrunA hrunB

theorem popPending_length (ch : List Edge → Nat) (pending : List Edge) (edge : Edge)
    (rest : List Edge) (h : popPending ch pending = some (edge, rest)) :
    rest.length + 1 = pending.length := by
  unfold popPending at h
  rcases pending with _ | ⟨p0, ps⟩
  · simp at h
  · simp only [Option.some.injEq, Prod.mk.injEq] at h
    obtain ⟨-, hr⟩ := h
    rw [← hr]
    exact List.length_eraseIdx_add_one (Nat.mod_lt _ (by simp))

/-! ## Lock-step simulation of the main search loop -/

theorem solveLoop_bisim (chA chB : List Edge → Nat) (pfuelA pfuelB n : Nat)
    (base : List (Option Bool)) :
    ∀ (fuelA fuelB : Nat) (sA sB : Solver) (stackA stackB : List Decision)
      (sA2 sB2 : Solver) (okA okB : Bool),
    sA.assignments.length = n →
    sA.watch_lists.length = 2 * n →
    (∀ c ∈ sA.clauses, clauseWF n c) →
    (∀ i cid, ((sA.watch_lists.getD i []).count cid) = watchCount sA.clauses cid i) →
    (∀ cid c, sA.clauses.get? cid = some c → nafAt sA.assignments c) →
    (∀ v, sA.assignments.getD v none ≠ none → v ∈ sA.trail) →
    (∀ cid c, sA.clauses.get? cid = some c → siAt sA.assignments c) →
    (∀ e ∈ sA.pending_implications,
      (1 ≤ e.from_ ∧ e.from_ < n) ∧ (1 ≤ e.to_ ∧ e.to_ < n)) →
    sB.assignments.length = n →
    sB.watch_lists.length = 2 * n →
    (∀ c ∈ sB.clauses, clauseWF n c) →
    (∀ i cid, ((sB.watch_lists.getD i []).count cid) = watchCount sB.clauses cid i) →
    (∀ cid c, sB.clauses.get? cid = some c → nafAt sB.assignments c) →
    (∀ v, sB.assignments.getD v none ≠ none → v ∈ sB.trail) →
    (∀ cid c, sB.clauses.get? cid = some c → siAt sB.assignments c) →
    (∀ e ∈ sB.pending_implications,
      (1 ≤ e.from_ ∧ e.from_ < n) ∧ (1 ≤ e.to_ ∧ e.to_ < n)) →
    sA.assignments = sB.assignments →
    litsEq sA.clauses sB.clauses →
    sA.pending_implications.length = sB.pending_implications.length →
    unitsOK base sA.clauses →
    framesP n base sA.clauses sB.clauses stackA stackB sA.assignments sA.trail
      sA.trail_lim sB.assignments sB.trail sB.trail_lim →
    Solver.solveLoop chA pfuelA fuelA sA stackA = some (sA2, okA) →
    Solver.solveLoop chB pfuelB fuelB sB stackB = some (sB2, okB) →
    okA = okB ∧ sA2.assignments = sB2.assignments := by
  intro fuelA
  induction fuelA with
  | zero =>
    intro fuelB sA sB stackA stackB sA2 sB2 okA okB
    intro hnA hwlA hcwfA hbuckA hnafA himpA hsiA hpendA
    intro hnB hwlB hcwfB hbuckB hnafB himpB hsiB hpendB
    intro htab hlits hplen hunits hfr hrunA hrunB
    simp [Solver.solveLoop] at hrunA
  | succ fuelA ih =>
    intro fuelB sA sB stackA stackB sA2 sB2 okA okB
    intro hnA hwlA hcwfA hbuckA hnafA himpA hsiA hpendA
    intro hnB hwlB hcwfB hbuckB hnafB himpB hsiB hpendB
    intro htab hlits hplen hunits hfr hrunA hrunB
    rcases fuelB with _ | fuelB
    · simp [Solver.solveLoop] at hrunB
    have hunitsB : unitsOK base sB.clauses := unitsOK_litsEq hlits hunits
    obtain ⟨hbleA, hbleB⟩ := framesP_base_le n base sA.clauses sB.clauses stackA stackB
      sA.assignments sA.trail sA.trail_lim sB.assignments sB.trail sB.trail_lim hfr
    have hunitsCurA : unitsOK sA.assignments sA.clauses := unitsOK_mono hbleA hunits
    have hunitsCurB : unitsOK sB.assignments sB.clauses := unitsOK_mono hbleB hunitsB
    have hnafBatA : ∀ cid c, sB.clauses.get? cid = some c → nafAt sA.assignments c := by
      intro cid c hg
      rw [htab]
      exact hnafB cid c hg
    have hsiBatA : ∀ cid c, sB.clauses.get? cid = some c → siAt sA.assignments c := by
      intro cid c hg
      rw [htab]
      exact hsiB cid c hg
    rw [Solver.solveLoop] at hrunA hrunB
    try simp only [] at hrunA hrunB
    rcases hPA : popPending chA sA.pending_implications with _ | ⟨edgeA, restA⟩
    · -- no pending probes on run A, hence none on run B either
      have hplnil : sA.pending_implications = [] := by
        rcases hpl : sA.pending_implications with _ | ⟨e0, es⟩
        · rfl
        · rw [hpl] at hPA
          unfold popPending at hPA
          simp at hPA
      have hplBnil : sB.pending_implications = [] :=
        List.eq_nil_of_length_eq_zero (by rw [← hplen, hplnil]; rfl)
      have hPB : popPending chB sB.pending_implications = none := by
        rw [hplBnil]
        rfl
      rw [hPA] at hrunA
      rw [hPB] at hrunB
      try simp only [] at hrunA hrunB
      have hpickEq : sA.pick_branching_pair = sB.pick_branching_pair := pick_eq_tab sA sB htab
      rw [← hpickEq] at hrunB
      obtain ⟨hpf, hps⟩ := pick_facts sA n hnA
      split at hrunA
      next hpick =>
        rw [hpick] at hrunB
        try simp only [] at hrunB
        simp only [Option.some.injEq, Prod.mk.injEq] at hrunA hrunB
        obtain ⟨rfl, rfl⟩ := hrunA
        obtain ⟨rfl, rfl⟩ := hrunB
        exact ⟨rfl, htab⟩
      next var1 var2 hpick =>
        have h1 := hpf var1 (by rw [hpick])
        have h2 := hps var2 (by rw [hpick])
        rw [hpick] at hrunB
        try simp only [] at hrunA hrunB
        split at hrunA
        · exact absurd hrunA (by simp)
        next s2aA okPA heqA =>
        split at hrunB
        · exact absurd hrunB (by simp)
        next s2aB okPB heqB =>
        obtain ⟨hokP, htabP⟩ := assign_pair_agree pfuelA pfuelB n
          { sA with trail_lim := sA.trail_lim ++ [sA.trail.length] }
          { sB with trail_lim := sB.trail_lim ++ [sB.trail.length] }
          0 var1 var2 s2aA s2aB okPA okPB
          hnA hwlA hcwfA hbuckA hnafA himpA hsiA hunitsCurA
          hnB hwlB hcwfB hbuckB hnafB himpB hsiB hunitsCurB
          htab hlits ⟨h1.1.1, h1.1.2⟩ ⟨h2.1.1, h2.1.2⟩ heqA heqB
        obtain ⟨pA1, pA2, pA3, pA4, pA5, pA6, pA7, pA8, pA9, pA10, pA11, pA12,
          pA13, pA14⟩ :=
          assign_pair_master pfuelA n
            { sA with trail_lim := sA.trail_lim ++ [sA.trail.length] }
            0 var1 var2 s2aA okPA
            hnA hwlA hcwfA hbuckA hnafA himpA ⟨h1.1.1, h1.1.2⟩ ⟨h2.1.1, h2.1.2⟩ heqA
        obtain ⟨pB1, pB2, pB3, pB4, pB5, pB6, pB7, pB8, pB9, pB10, pB11, pB12,
          pB13, pB14⟩ :=
          assign_pair_master pfuelB n
            { sB with trail_lim := sB.trail_lim ++ [sB.trail.length] }
            0 var1 var2 s2aB okPB
            hnB hwlB hcwfB hbuckB hnafB himpB ⟨h1.1.1, h1.1.2⟩ ⟨h2.1.1, h2.1.2⟩ heqB
        have hfreshB2 : sB.assignments.getD var1 none = none ∧
            sB.assignments.getD var2 none = none := by
          rw [← htab]
          exact ⟨h1.2, h2.2⟩
        have hfrP := framesP_push n base sA.clauses sB.clauses stackA stackB
          (Decision.Pair var1 var2 0 false) (Decision.Pair var1 var2 0 false)
          sA.assignments sA.trail sA.trail_lim sB.assignments sB.trail sB.trail_lim
          hfr htab ⟨rfl, rfl, rfl, rfl⟩
          ⟨⟨h1.1.1, h1.1.2, h1.2⟩, ⟨h2.1.1, h2.1.2, h2.2⟩⟩ hnafA hnafBatA hsiA hsiBatA
        have hfr2 := framesP_reclauseA n base sA.clauses s2aA.clauses sB.clauses
          sA.assignments pA8
          (fun b hb hs => (assign_pair_siB pfuelA n b
            { sA with trail_lim := sA.trail_lim ++ [sA.trail.length] }
            0 var1 var2 s2aA okPA
            hnA hwlA hcwfA hbuckA hnafA himpA ⟨h1.1.1, h1.1.2⟩ ⟨h2.1.1, h2.1.2⟩
            hb hs heqA).2)
          (Decision.Pair var1 var2 0 false :: stackA)
          (Decision.Pair var1 var2 0 false :: stackB)
          sA.assignments sA.trail (sA.trail_lim ++ [sA.trail.length])
          sB.assignments sB.trail (sB.trail_lim ++ [sB.trail.length]) hfrP
          (fun v _ => rfl)
        have hfr3 := framesP_reclauseB n base s2aA.clauses sB.clauses s2aB.clauses
          sB.assignments pB8
          (fun b hb hs => (assign_pair_siB pfuelB n b
            { sB with trail_lim := sB.trail_lim ++ [sB.trail.length] }
            0 var1 var2 s2aB okPB
            hnB hwlB hcwfB hbuckB hnafB himpB ⟨h1.1.1, h1.1.2⟩ ⟨h2.1.1, h2.1.2⟩
            hb hs heqB).2)
          (Decision.Pair var1 var2 0 false :: stackA)
          (Decision.Pair var1 var2 0 false :: stackB)
          sA.assignments sA.trail (sA.trail_lim ++ [sA.trail.length])
          sB.assignments sB.trail (sB.trail_lim ++ [sB.trail.length]) hfr2
          (fun v _ => rfl)
        have hfr4 := framesP_extend n base s2aA.clauses s2aB.clauses
          (Decision.Pair var1 var2 0 false) (Decision.Pair var1 var2 0 false)
          stackA stackB (sA.trail_lim ++ [sA.trail.length])
          (sB.trail_lim ++ [sB.trail.length]) pA10 pB10 hfr3
        have hfrS : framesP n base s2aA.clauses s2aB.clauses
            (Decision.Pair var1 var2 0 false :: stackA)
            (Decision.Pair var1 var2 0 false :: stackB)
            s2aA.assignments s2aA.trail s2aA.trail_lim
            s2aB.assignments s2aB.trail s2aB.trail_lim := by
          rw [pA9, pB9]
          exact hfr4
        have hlits2 : litsEq s2aA.clauses s2aB.clauses :=
          litsEq_trans (litsEq_symm pA11) (litsEq_trans hlits pB11)
        have hunits2 : unitsOK base s2aA.clauses := unitsOK_litsEq pA11 hunits
        have hpendA2 : ∀ e ∈ s2aA.pending_implications,
            (1 ≤ e.from_ ∧ e.from_ < n) ∧ (1 ≤ e.to_ ∧ e.to_ < n) := by
          intro e he
          rw [pA13] at he
          exact hpendA e he
        have hpendB2 : ∀ e ∈ s2aB.pending_implications,
            (1 ≤ e.from_ ∧ e.from_ < n) ∧ (1 ≤ e.to_ ∧ e.to_ < n) := by
          intro e he
          rw [pB13] at he
          exact hpendB e he
        have hplen2 : s2aA.pending_implications.length =
            s2aB.pending_implications.length := by
          rw [pA13, pB13]
          exact hplen
        subst hokP
        rcases Bool.eq_false_or_eq_true okPA with hok | hok
        · subst hok
          rw [if_pos rfl] at hrunA hrunB
          exact ih fuelB s2aA s2aB
            (Decision.Pair var1 var2 0 false :: stackA)
            (Decision.Pair var1 var2 0 false :: stackB)
            sA2 sB2 okA okB
            pA1 pA2 pA3 pA4 (pA6 rfl) pA5
            (assign_pair_siQ pfuelA n
              { sA with trail_lim := sA.trail_lim ++ [sA.trail.length] }
              0 var1 var2 s2aA true
              hnA hwlA hcwfA hbuckA hnafA himpA ⟨h1.1.1, h1.1.2⟩ ⟨h2.1.1, h2.1.2⟩
              hsiA heqA rfl) hpendA2
            pB1 pB2 pB3 pB4 (pB6 rfl) pB5
            (assign_pair_siQ pfuelB n
              { sB with trail_lim := sB.trail_lim ++ [sB.trail.length] }
              0 var1 var2 s2aB true
              hnB hwlB hcwfB hbuckB hnafB himpB ⟨h1.1.1, h1.1.2⟩ ⟨h2.1.1, h2.1.2⟩
              hsiB heqB rfl) hpendB2
            (htabP rfl) hlits2 hplen2 hunits2 hfrS hrunA hrunB
        · subst hok
          rw [if_neg (by simp)] at hrunA hrunB
          rcases hbA : Solver.backtrackLoop pfuelA fuelA s2aA
              (Decision.Pair var1 var2 0 false :: stackA) with _ | ⟨s3A, stack2A, okbA⟩
          · rw [hbA] at hrunA
            simp at hrunA
          rcases hbB : Solver.backtrackLoop pfuelB fuelB s2aB
              (Decision.Pair var1 var2 0 false :: stackB) with _ | ⟨s3B, stack2B, okbB⟩
          · rw [hbB] at hrunB
            simp at hrunB
          rw [hbA] at hrunA
          rw [hbB] at hrunB
          obtain ⟨hokb, hbTrue, hbFalse⟩ := backtrackLoop_bisim pfuelA pfuelB n base
            fuelA fuelB s2aA s2aB
            (Decision.Pair var1 var2 0 false :: stackA)
            (Decision.Pair var1 var2 0 false :: stackB)
            s3A s3B stack2A stack2B okbA okbB
            pA1 pA2 pA3 pA4 pA5 pB1 pB2 pB3 pB4 pB5 hlits2 hunits2 hfrS hbA hbB
          subst hokb
          rcases Bool.eq_false_or_eq_true okbA with hokb | hokb
          · subst hokb
            try simp only [] at hrunA hrunB
            obtain ⟨htab3, hsi3A, hsi3B, hfr3S⟩ := hbTrue rfl
            obtain ⟨bA1, bA2, bA3, bA4, bA5, bA6, bA7, bA8, bA9, bA10⟩ :=
              backtrackLoop_master pfuelA n fuelA s2aA
                (Decision.Pair var1 var2 0 false :: stackA) s3A stack2A true
                pA1 pA2 pA3 pA4 pA5
                (framesP_framesA n base s2aA.clauses s2aB.clauses _ _ _ _ _ _ _ _ hfrS) hbA
            obtain ⟨bB1, bB2, bB3, bB4, bB5, bB6, bB7, bB8, bB9, bB10⟩ :=
              backtrackLoop_master pfuelB n fuelB s2aB
                (Decision.Pair var1 var2 0 false :: stackB) s3B stack2B true
                pB1 pB2 pB3 pB4 pB5
                (framesP_framesB n base s2aA.clauses s2aB.clauses _ _ _ _ _ _ _ _ hfrS) hbB
            exact ih fuelB s3A s3B stack2A stack2B sA2 sB2 okA okB
              bA1 bA2 bA3 bA4 (bA7 rfl) bA5 hsi3A
              (by intro e he; rw [bA10, pA13] at he; exact hpendA e he)
              bB1 bB2 bB3 bB4 (bB7 rfl) bB5 hsi3B
              (by intro e he; rw [bB10, pB13] at he; exact hpendB e he)
              htab3
              (litsEq_trans (litsEq_symm bA8) (litsEq_trans hlits2 bB8))
              (by rw [bA10, pA13, bB10, pB13]; exact hplen)
              (unitsOK_litsEq bA8 hunits2) hfr3S hrunA hrunB
          · subst hokb
            try simp only [] at hrunA hrunB
            simp only [Option.some.injEq, Prod.mk.injEq] at hrunA hrunB
            obtain ⟨rfl, rfl⟩ := hrunA
            obtain ⟨rfl, rfl⟩ := hrunB
            obtain ⟨hbaseA, hbaseB⟩ := hbFalse rfl
            refine ⟨rfl, ?_⟩
            rw [hbaseA, hbaseB]
      next var1 hpick =>
        have h1 := hpf var1 (by rw [hpick])
        rw [hpick] at hrunB
        try simp only [] at hrunA hrunB
        have hl0 : make_lit var1 true ≠ 0 := make_lit_ne_zero var1 true h1.1.1
        have hlv : lit_to_var (make_lit var1 true) < n := by
          rw [lit_to_var_make_lit]
          exact h1.1.2
        have hsuccA : (assign sA.assignments sA.trail (make_lit var1 true)).2.2 = true := by
          unfold assign
          simp only [lit_to_var_make_lit, h1.2]
        have hfreshB : sB.assignments.getD var1 none = none := by
          rw [← htab]
          exact h1.2
        have hsuccB : (assign sB.assignments sB.trail (make_lit var1 true)).2.2 = true := by
          unfold assign
          simp only [lit_to_var_make_lit, hfreshB]
        rw [if_pos hsuccA] at hrunA
        rw [if_pos hsuccB] at hrunB
        have hfrP := framesP_push n base sA.clauses sB.clauses stackA stackB
          (Decision.Single var1 true false) (Decision.Single var1 true false)
          sA.assignments sA.trail sA.trail_lim sB.assignments sB.trail sB.trail_lim
          hfr htab ⟨rfl, rfl, rfl⟩ ⟨h1.1.1, h1.1.2, h1.2⟩ hnafA hnafBatA hsiA hsiBatA
        split at hrunA
        · exact absurd hrunA (by simp)
        next s3A heqA =>
          split at hrunB
          · exact absurd hrunB (by simp)
          next s3B heqB =>
            obtain ⟨-, htabP⟩ := propagate_agree pfuelA pfuelB n
              { sA with trail_lim := sA.trail_lim ++ [sA.trail.length] }
              { sB with trail_lim := sB.trail_lim ++ [sB.trail.length] }
              (make_lit var1 true) s3A s3B true true
              hnA hwlA hcwfA hbuckA hnafA himpA hsiA hunitsCurA
              hnB hwlB hcwfB hbuckB hnafB himpB hsiB hunitsCurB
              htab hlits hl0 hlv hsuccA hsuccB heqA heqB
            obtain ⟨mA1, mA2, mA3, mA4, mA5, mA6, mA7, mA8, mA9, mA10, mA11, mA12,
              mA13, mA14⟩ :=
              assign_propagate_master pfuelA n sA.assignments
                { sA with trail_lim := sA.trail_lim ++ [sA.trail.length] }
                (make_lit var1 true) s3A true
                hnA hwlA hcwfA hbuckA hnafA himpA hl0 hlv (fun v _ => rfl) hnafA
                hsuccA heqA
            obtain ⟨mB1, mB2, mB3, mB4, mB5, mB6, mB7, mB8, mB9, mB10, mB11, mB12,
              mB13, mB14⟩ :=
              assign_propagate_master pfuelB n sB.assignments
                { sB with trail_lim := sB.trail_lim ++ [sB.trail.length] }
                (make_lit var1 true) s3B true
                hnB hwlB hcwfB hbuckB hnafB himpB hl0 hlv (fun v _ => rfl) hnafB
                hsuccB heqB
            have hfr2 := framesP_reclauseA n base sA.clauses s3A.clauses sB.clauses
              sA.assignments mA8
              (fun b hb hs => (assign_propagate_siB pfuelA n b
                { sA with trail_lim := sA.trail_lim ++ [sA.trail.length] }
                (make_lit var1 true) s3A true
                hnA hwlA hcwfA hbuckA hnafA himpA hl0 hlv hb hs hsuccA heqA).2)
              (Decision.Single var1 true false :: stackA)
              (Decision.Single var1 true false :: stackB)
              sA.assignments sA.trail (sA.trail_lim ++ [sA.trail.length])
              sB.assignments sB.trail (sB.trail_lim ++ [sB.trail.length]) hfrP
              (fun v _ => rfl)
            have hfr3 := framesP_reclauseB n base s3A.clauses sB.clauses s3B.clauses
              sB.assignments mB8
              (fun b hb hs => (assign_propagate_siB pfuelB n b
                { sB with trail_lim := sB.trail_lim ++ [sB.trail.length] }
                (make_lit var1 true) s3B true
                hnB hwlB hcwfB hbuckB hnafB himpB hl0 hlv hb hs hsuccB heqB).2)
              (Decision.Single var1 true false :: stackA)
              (Decision.Single var1 true false :: stackB)
              sA.assignments sA.trail (sA.trail_lim ++ [sA.trail.length])
              sB.assignments sB.trail (sB.trail_lim ++ [sB.trail.length]) hfr2
              (fun v _ => rfl)
            have hfr4 := framesP_extend n base s3A.clauses s3B.clauses
              (Decision.Single var1 true false) (Decision.Single var1 true false)
              stackA stackB (sA.trail_lim ++ [sA.trail.length])
              (sB.trail_lim ++ [sB.trail.length]) mA10 mB10 hfr3
            have hfrS : framesP n base s3A.clauses s3B.clauses
                (Decision.Single var1 true false :: stackA)
                (Decision.Single var1 true false :: stackB)
                s3A.assignments s3A.trail s3A.trail_lim
                s3B.assignments s3B.trail s3B.trail_lim := by
              rw [mA9, mB9]
              exact hfr4
            exact ih fuelB s3A s3B
              (Decision.Single var1 true false :: stackA)
              (Decision.Single var1 true false :: stackB)
              sA2 sB2 okA okB
              mA1 mA2 mA3 mA4 (mA6 rfl) mA5
              (assign_propagate_siQ pfuelA n
                { sA with trail_lim := sA.trail_lim ++ [sA.trail.length] }
                (make_lit var1 true) s3A true
                hnA hwlA hcwfA hbuckA hnafA himpA hl0 hlv hsiA hsuccA heqA rfl)
              (by intro e he; rw [mA13] at he; exact hpendA e he)
              mB1 mB2 mB3 mB4 (mB6 rfl) mB5
              (assign_propagate_siQ pfuelB n
                { sB with trail_lim := sB.trail_lim ++ [sB.trail.length] }
                (make_lit var1 true) s3B true
                hnB hwlB hcwfB hbuckB hnafB himpB hl0 hlv hsiB hsuccB heqB rfl)
              (by intro e he; rw [mB13] at he; exact hpendB e he)
              (htabP rfl)
              (litsEq_trans (litsEq_symm mA11) (litsEq_trans hlits mB11))
              (by rw [mA13, mB13]; exact hplen)
              (unitsOK_litsEq mA11 hunits) hfrS hrunA hrunB
          next s3B heqB =>
            obtain ⟨hokP, -⟩ := propagate_agree pfuelA pfuelB n
              { sA with trail_lim := sA.trail_lim ++ [sA.trail.length] }
              { sB with trail_lim := sB.trail_lim ++ [sB.trail.length] }
              (make_lit var1 true) s3A s3B true false
              hnA hwlA hcwfA hbuckA hnafA himpA hsiA hunitsCurA
              hnB hwlB hcwfB hbuckB hnafB himpB hsiB hunitsCurB
              htab hlits hl0 hlv hsuccA hsuccB heqA heqB
            exact absurd hokP (by simp)
        next s3A heqA =>
          split at hrunB
          · exact absurd hrunB (by simp)
          next s3B heqB =>
            obtain ⟨hokP, -⟩ := propagate_agree pfuelA pfuelB n
              { sA with trail_lim := sA.trail_lim ++ [sA.trail.length] }
              { sB with trail_lim := sB.trail_lim ++ [sB.trail.length] }
              (make_lit var1 true) s3A s3B false true
              hnA hwlA hcwfA hbuckA hnafA himpA hsiA hunitsCurA
              hnB hwlB hcwfB hbuckB hnafB himpB hsiB hunitsCurB
              htab hlits hl0 hlv hsuccA hsuccB heqA heqB
            exact absurd hokP (by simp)
          next s3B heqB =>
            obtain ⟨mA1, mA2, mA3, mA4, mA5, mA6, mA7, mA8, mA9, mA10, mA11, mA12,
              mA13, mA14⟩ :=
              assign_propagate_master pfuelA n sA.assignments
                { sA with trail_lim := sA.trail_lim ++ [sA.trail.length] }
                (make_lit var1 true) s3A false
                hnA hwlA hcwfA hbuckA hnafA himpA hl0 hlv (fun v _ => rfl) hnafA
                hsuccA heqA
            obtain ⟨mB1, mB2, mB3, mB4, mB5, mB6, mB7, mB8, mB9, mB10, mB11, mB12,
              mB13, mB14⟩ :=
              assign_propagate_master pfuelB n sB.assignments
                { sB with trail_lim := sB.trail_lim ++ [sB.trail.length] }
                (make_lit var1 true) s3B false
                hnB hwlB hcwfB hbuckB hnafB himpB hl0 hlv (fun v _ => rfl) hnafB
                hsuccB heqB
            have hfr2 := framesP_reclauseA n base sA.clauses s3A.clauses sB.clauses
              sA.assignments mA8
              (fun b hb hs => (assign_propagate_siB pfuelA n b
                { sA with trail_lim := sA.trail_lim ++ [sA.trail.length] }
                (make_lit var1 true) s3A false
                hnA hwlA hcwfA hbuckA hnafA himpA hl0 hlv hb hs hsuccA heqA).2)
              (Decision.Single var1 true false :: stackA)
              (Decision.Single var1 true false :: stackB)
              sA.assignments sA.trail (sA.trail_lim ++ [sA.trail.length])
              sB.assignments sB.trail (sB.trail_lim ++ [sB.trail.length]) hfrP
              (fun v _ => rfl)
            have hfr3 := framesP_reclauseB n base s3A.clauses sB.clauses s3B.clauses
              sB.assignments mB8
              (fun b hb hs => (assign_propagate_siB pfuelB n b
                { sB with trail_lim := sB.trail_lim ++ [sB.trail.length] }
                (make_lit var1 true) s3B false
                hnB hwlB hcwfB hbuckB hnafB himpB hl0 hlv hb hs hsuccB heqB).2)
              (Decision.Single var1 true false :: stackA)
              (Decision.Single var1 true false :: stackB)
              sA.assignments sA.trail (sA.trail_lim ++ [sA.trail.length])
              sB.assignments sB.trail (sB.trail_lim ++ [sB.trail.length]) hfr2
              (fun v _ => rfl)
            have hfr4 := framesP_extend n base s3A.clauses s3B.clauses
              (Decision.Single var1 true false) (Decision.Single var1 true false)
              stackA stackB (sA.trail_lim ++ [sA.trail.length])
              (sB.trail_lim ++ [sB.trail.length]) mA10 mB10 hfr3
            have hfrS : framesP n base s3A.clauses s3B.clauses
                (Decision.Single var1 true false :: stackA)
                (Decision.Single var1 true false :: stackB)
                s3A.assignments s3A.trail s3A.trail_lim
                s3B.assignments s3B.trail s3B.trail_lim := by
              rw [mA9, mB9]
              exact hfr4
            have hlits2 : litsEq s3A.clauses s3B.clauses :=
              litsEq_trans (litsEq_symm mA11) (litsEq_trans hlits mB11)
            have hunits2 : unitsOK base s3A.clauses := unitsOK_litsEq mA11 hunits
            rcases hbA : Solver.backtrackLoop pfuelA fuelA s3A
                (Decision.Single var1 true false :: stackA)
                with _ | ⟨s4A, stack2A, okbA⟩
            · rw [hbA] at hrunA
              simp at hrunA
            rcases hbB : Solver.backtrackLoop pfuelB fuelB s3B
                (Decision.Single var1 true false :: stackB)
                with _ | ⟨s4B, stack2B, okbB⟩
            · rw [hbB] at hrunB
              simp at hrunB
            rw [hbA] at hrunA
            rw [hbB] at hrunB
            obtain ⟨hokb, hbTrue, hbFalse⟩ := backtrackLoop_bisim pfuelA pfuelB n base
              fuelA fuelB s3A s3B
              (Decision.Single var1 true false :: stackA)
              (Decision.Single var1 true false :: stackB)
              s4A s4B stack2A stack2B okbA okbB
              mA1 mA2 mA3 mA4 mA5 mB1 mB2 mB3 mB4 mB5 hlits2 hunits2 hfrS hbA hbB
            subst hokb
            rcases Bool.eq_false_or_eq_true okbA with hokb | hokb
            · subst hokb
              try simp only [] at hrunA hrunB
              obtain ⟨htab4, hsi4A, hsi4B, hfr4S⟩ := hbTrue rfl
              obtain ⟨bA1, bA2, bA3, bA4, bA5, bA6, bA7, bA8, bA9, bA10⟩ :=
                backtrackLoop_master pfuelA n fuelA s3A
                  (Decision.Single var1 true false :: stackA) s4A stack2A true
                  mA1 mA2 mA3 mA4 mA5
                  (framesP_framesA n base s3A.clauses s3B.clauses _ _ _ _ _ _ _ _ hfrS) hbA
              obtain ⟨bB1, bB2, bB3, bB4, bB5, bB6, bB7, bB8, bB9, bB10⟩ :=
                backtrackLoop_master pfuelB n fuelB s3B
                  (Decision.Single var1 true false :: stackB) s4B stack2B true
                  mB1 mB2 mB3 mB4 mB5
                  (framesP_framesB n base s3A.clauses s3B.clauses _ _ _ _ _ _ _ _ hfrS) hbB
              exact ih fuelB s4A s4B stack2A stack2B sA2 sB2 okA okB
                bA1 bA2 bA3 bA4 (bA7 rfl) bA5 hsi4A
                (by intro e he; rw [bA10, mA13] at he; exact hpendA e he)
                bB1 bB2 bB3 bB4 (bB7 rfl) bB5 hsi4B
                (by intro e he; rw [bB10, mB13] at he; exact hpendB e he)
                htab4
                (litsEq_trans (litsEq_symm bA8) (litsEq_trans hlits2 bB8))
                (by rw [bA10, mA13, bB10, mB13]; exact hplen)
                (unitsOK_litsEq bA8 hunits2) hfr4S hrunA hrunB
            · subst hokb
              try simp only [] at hrunA hrunB
              simp only [Option.some.injEq, Prod.mk.injEq] at hrunA hrunB
              obtain ⟨rfl, rfl⟩ := hrunA
              obtain ⟨rfl, rfl⟩ := hrunB
              obtain ⟨hbaseA, hbaseB⟩ := hbFalse rfl
              refine ⟨rfl, ?_⟩
              rw [hbaseA, hbaseB]
    · -- a pending probe is drained on both runs
      have hplB : sB.pending_implications ≠ [] := by
        intro hnil
        have := popPending_length chA sA.pending_implications edgeA restA hPA
        rw [hplen, hnil] at this
        simp at this
      rcases hPB : popPending chB sB.pending_implications with _ | ⟨edgeB, restB⟩
      · rcases hplX : sB.pending_implications with _ | ⟨e0, es⟩
        · exact absurd hplX hplB
        · rw [hplX] at hPB
          unfold popPending at hPB
          simp at hPB
      rw [hPA] at hrunA
      rw [hPB] at hrunB
      try simp only [] at hrunA hrunB
      obtain ⟨hedgeA, hrestA⟩ := popPending_facts chA sA.pending_implications edgeA restA hPA
      obtain ⟨hedgeB, hrestB⟩ := popPending_facts chB sB.pending_implications edgeB restB hPB
      obtain ⟨hefA, hetA⟩ := hpendA edgeA hedgeA
      obtain ⟨hefB, hetB⟩ := hpendB edgeB hedgeB
      split at hrunA
      · exact absurd hrunA (by simp)
      next s3A provenA heqA =>
      split at hrunB
      · exact absurd hrunB (by simp)
      next s3B provenB heqB =>
      obtain ⟨wA1, wA2, wA3, wA4, wA5, wA6, wA7, wA8, wA9, wA10⟩ :=
        test_implication_master pfuelA n
          { sA with pending_implications := restA,
                    trail_lim := sA.trail_lim ++ [sA.trail.length] } edgeA s3A provenA
          hnA hwlA hcwfA hbuckA hnafA himpA hefA hetA heqA
      obtain ⟨wB1, wB2, wB3, wB4, wB5, wB6, wB7, wB8, wB9, wB10⟩ :=
        test_implication_master pfuelB n
          { sB with pending_implications := restB,
                    trail_lim := sB.trail_lim ++ [sB.trail.length] } edgeB s3B provenB
          hnB hwlB hcwfB hbuckB hnafB himpB hefB hetB heqB
      have hfrP := framesP_push n base sA.clauses sB.clauses stackA stackB
        (Decision.Implication edgeA) (Decision.Implication edgeB)
        sA.assignments sA.trail sA.trail_lim sB.assignments sB.trail sB.trail_lim
        hfr htab trivial trivial hnafA hnafBatA hsiA hsiBatA
      have hfr2 := framesP_reclauseA n base sA.clauses s3A.clauses sB.clauses
        sA.assignments wA7
        (fun b hb hs => test_implication_siB pfuelA n b
          { sA with pending_implications := restA,
                    trail_lim := sA.trail_lim ++ [sA.trail.length] } edgeA s3A provenA
          hnA hwlA hcwfA hbuckA hnafA himpA hefA hetA hb hs heqA)
        (Decision.Implication edgeA :: stackA) (Decision.Implication edgeB :: stackB)
        sA.assignments sA.trail (sA.trail_lim ++ [sA.trail.length])
        sB.assignments sB.trail (sB.trail_lim ++ [sB.trail.length]) hfrP
        (fun v _ => rfl)
      have hfr3 := framesP_reclauseB n base s3A.clauses sB.clauses s3B.clauses
        sB.assignments wB7
        (fun b hb hs => test_implication_siB pfuelB n b
          { sB with pending_implications := restB,
                    trail_lim := sB.trail_lim ++ [sB.trail.length] } edgeB s3B provenB
          hnB hwlB hcwfB hbuckB hnafB himpB hefB hetB hb hs heqB)
        (Decision.Implication edgeA :: stackA) (Decision.Implication edgeB :: stackB)
        sA.assignments sA.trail (sA.trail_lim ++ [sA.trail.length])
        sB.assignments sB.trail (sB.trail_lim ++ [sB.trail.length]) hfr2
        (fun v _ => rfl)
      have hfrS : framesP n base s3A.clauses s3B.clauses
          (Decision.Implication edgeA :: stackA) (Decision.Implication edgeB :: stackB)
          s3A.assignments s3A.trail s3A.trail_lim
          s3B.assignments s3B.trail s3B.trail_lim := by
        rw [wA1, wA2, wA3, wB1, wB2, wB3]
        exact hfr3
      have hsi3A : ∀ cid c, s3A.clauses.get? cid = some c → siAt s3A.assignments c := by
        rw [wA1]
        exact test_implication_siB pfuelA n sA.assignments
          { sA with pending_implications := restA,
                    trail_lim := sA.trail_lim ++ [sA.trail.length] } edgeA s3A provenA
          hnA hwlA hcwfA hbuckA hnafA himpA hefA hetA (fun v _ => rfl) hsiA heqA
      have hsi3B : ∀ cid c, s3B.clauses.get? cid = some c → siAt s3B.assignments c := by
        rw [wB1]
        exact test_implication_siB pfuelB n sB.assignments
          { sB with pending_implications := restB,
                    trail_lim := sB.trail_lim ++ [sB.trail.length] } edgeB s3B provenB
          hnB hwlB hcwfB hbuckB hnafB himpB hefB hetB (fun v _ => rfl) hsiB heqB
      have hplen2 : restA.length = restB.length := by
        have hA := popPending_length chA sA.pending_implications edgeA restA hPA
        have hB := popPending_length chB sB.pending_implications edgeB restB hPB
        omega
      generalize hGA : (if provenA = true
          then { s3A with implications := s3A.implications ++ [edgeA] } else s3A) = sA4
        at hrunA
      generalize hGB : (if provenB = true
          then { s3B with implications := s3B.implications ++ [edgeB] } else s3B) = sB4
        at hrunB
      have hA4a : sA4.assignments = s3A.assignments := by
        rw [← hGA]
        split <;> rfl
      have hA4c : sA4.clauses = s3A.clauses := by
        rw [← hGA]
        split <;> rfl
      have hA4t : sA4.trail = s3A.trail := by
        rw [← hGA]
        split <;> rfl
      have hA4l : sA4.trail_lim = s3A.trail_lim := by
        rw [← hGA]
        split <;> rfl
      have hA4p : sA4.pending_implications = s3A.pending_implications := by
        rw [← hGA]
        split <;> rfl
      have hA4w : sA4.watch_lists = s3A.watch_lists := by
        rw [← hGA]
        split <;> rfl
      have hB4a : sB4.assignments = s3B.assignments := by
        rw [← hGB]
        split <;> rfl
      have hB4c : sB4.clauses = s3B.clauses := by
        rw [← hGB]
        split <;> rfl
      have hB4t : sB4.trail = s3B.trail := by
        rw [← hGB]
        split <;> rfl
      have hB4l : sB4.trail_lim = s3B.trail_lim := by
        rw [← hGB]
        split <;> rfl
      have hB4p : sB4.pending_implications = s3B.pending_implications := by
        rw [← hGB]
        split <;> rfl
      have hB4w : sB4.watch_lists = s3B.watch_lists := by
        rw [← hGB]
        split <;> rfl
      refine ih fuelB sA4 sB4
        (Decision.Implication edgeA :: stackA) (Decision.Implication edgeB :: stackB)
        sA2 sB2 okA okB ?_ ?_ ?_ ?_ ?_ ?_ ?_ ?_ ?_ ?_ ?_ ?_ ?_ ?_ ?_ ?_ ?_ ?_ ?_ ?_ ?_
        hrunA hrunB
      · rw [hA4a, wA1]
        exact hnA
      · rw [hA4w]
        exact wA6
      · rw [hA4c]
        exact wA4
      · intro i cid
        rw [hA4w, hA4c]
        exact wA5 i cid
      · intro cid c hg
        rw [hA4a, wA1]
        rw [hA4c] at hg
        exact wA7 cid c hg
      · intro v hv
        rw [hA4t, wA2]
        rw [hA4a, wA1] at hv
        exact himpA v hv
      · intro cid c hg
        rw [hA4a]
        rw [hA4c] at hg
        exact hsi3A cid c hg
      · intro e he
        rw [hA4p, wA10] at he
        exact hpendA e (hrestA e he)
      · rw [hB4a, wB1]
        exact hnB
      · rw [hB4w]
        exact wB6
      · rw [hB4c]
        exact wB4
      · intro i cid
        rw [hB4w, hB4c]
        exact wB5 i cid
      · intro cid c hg
        rw [hB4a, wB1]
        rw [hB4c] at hg
        exact wB7 cid c hg
      · intro v hv
        rw [hB4t, wB2]
        rw [hB4a, wB1] at hv
        exact himpB v hv
      · intro cid c hg
        rw [hB4a]
        rw [hB4c] at hg
        exact hsi3B cid c hg
      · intro e he
        rw [hB4p, wB10] at he
        exact hpendB e (hrestB e he)
      · rw [hA4a, hB4a, wA1, wB1]
        exact htab
      · rw [hA4c, hB4c]
        exact litsEq_trans (litsEq_symm wA8) (litsEq_trans hlits wB8)
      · rw [hA4p, hB4p, wA10, wB10]
        exact hplen2
      · rw [hA4c]
        exact unitsOK_litsEq wA8 hunits
      · rw [hA4a, hA4t, hA4l, hA4c, hB4a, hB4t, hB4l, hB4c]
        exact hfrS

/-- **C7.** Determinism: two runs of the solver on the same well-formed input
produce the same SAT/UNSAT verdict and the same final assignment table, even
though the iteration order of the pending-implication `HashSet` (modelled by
the choosers `chA`, `chB`) and the fuel bounds may differ between the runs;
moreover the branching pick is always the least unassigned variable id at
least 1 (ascending id order, skipping assigned variables), and a pair decision
tries combination `0`, i.e. `(true, true)`, first.  Everything else in the
search is fixed by the code, so the search path is reproducible. -/
theorem solve_reproducible (chA chB : List Edge → Nat) (fuelA fuelB : Nat) (s : Solver)
    (sA2 sB2 : Solver) (bA bB : Bool)
    (hwl : s.watch_lists.length = 2 * s.assignments.length)
    (hcwf : ∀ c ∈ s.clauses, clauseWF s.assignments.length c)
    (hbuck : ∀ i cid, ((s.watch_lists.getD i []).count cid) = watchCount s.clauses cid i)
    (hempty : ∀ v, s.assignments.getD v none = none)
    (hpend : ∀ e ∈ s.pending_implications,
      (1 ≤ e.from_ ∧ e.from_ < s.assignments.length) ∧
      (1 ≤ e.to_ ∧ e.to_ < s.assignments.length))
    (hlim : s.trail_lim = [])
    (hrunA : Solver.solve chA fuelA s = some (sA2, bA))
    (hrunB : Solver.solve chB fuelB s = some (sB2, bB)) :
    (bA = bB ∧ sA2.assignments = sB2.assignments) ∧
    (∀ (sx : Solver) (v : Nat), (sx.pick_branching_pair).1 = some v →
      sx.assignments.getD v none = none ∧ 1 ≤ v ∧
      ∀ w, 1 ≤ w → w < v → sx.assignments.getD w none ≠ none) ∧
    (∀ (pfuel : Nat) (sx : Solver) (v1 v2 : Nat),
      Solver.assign_pair pfuel sx 0 v1 v2 =
        Solver.assignPairLits pfuel sx true true v1 v2) := by
  refine ⟨?_, fun sx v h => pick_fst_min sx v h, fun pfuel sx v1 v2 => rfl⟩
  have himp : ∀ v, s.assignments.getD v none ≠ none → v ∈ s.trail :=
    fun v hv => absurd (hempty v) hv
  have hnaf : ∀ cid c, s.clauses.get? cid = some c → nafAt s.assignments c := by
    intro cid c hg
    obtain ⟨hlen, -, -, -, -, -⟩ := hcwf c (List.get?_mem hg)
    refine ⟨c.watched0, watched0_mem_occs c hlen, ?_⟩
    unfold get_literal_value
    rw [hempty]
    simp
  have hsi : ∀ cid c, s.clauses.get? cid = some c → siAt s.assignments c := by
    intro cid c hg
    right
    intro k hk
    unfold get_literal_value
    rw [hempty]
    simp
  unfold Solver.solve at hrunA hrunB
  rcases hIA : Solver.initial_propagation fuelA s with _ | ⟨s1A, okIA⟩
  · rw [hIA] at hrunA
    simp at hrunA
  rcases hIB : Solver.initial_propagation fuelB s with _ | ⟨s1B, okIB⟩
  · rw [hIB] at hrunB
    simp at hrunB
  have hIeq := initial_propagation_irrel fuelA fuelB s (s1A, okIA) (s1B, okIB) hIA hIB
  have hs1eq : s1A = s1B := congrArg Prod.fst hIeq
  have hokeq : okIA = okIB := congrArg Prod.snd hIeq
  subst hs1eq
  subst hokeq
  rw [hIA] at hrunA
  rw [hIB] at hrunB
  rcases okIA with _ | _
  · simp only [Option.some.injEq, Prod.mk.injEq] at hrunA hrunB
    obtain ⟨rfl, rfl⟩ := hrunA
    obtain ⟨rfl, rfl⟩ := hrunB
    exact ⟨rfl, rfl⟩
  · obtain ⟨i1, i2, i3, i4, i5, i6, i7, i8, i9, i10⟩ :=
      initial_propagation_master fuelA s.assignments.length s s1A true rfl hwl hcwf hbuck
        hnaf himp hIA
    have hsi1 := initial_propagation_siQ fuelA s.assignments.length s s1A true rfl hwl
      hcwf hbuck hnaf himp hsi hIA rfl
    have hunits1 := initial_propagation_units fuelA s.assignments.length s s1A true rfl
      hwl hcwf hbuck hnaf himp hIA rfl
    have hpend1 : ∀ e ∈ s1A.pending_implications,
        (1 ≤ e.from_ ∧ e.from_ < s.assignments.length) ∧
        (1 ≤ e.to_ ∧ e.to_ < s.assignments.length) := by
      intro e he
      rw [i8] at he
      exact hpend e he
    have hfr : framesP s.assignments.length s1A.assignments s1A.clauses s1A.clauses [] []
        s1A.assignments s1A.trail s1A.trail_lim
        s1A.assignments s1A.trail s1A.trail_lim :=
      ⟨by rw [i7, hlim], by rw [i7, hlim], rfl, rfl⟩
    exact solveLoop_bisim chA chB fuelA fuelB s.assignments.length s1A.assignments
      fuelA fuelB s1A s1A [] [] sA2 sB2 bA bB
      i1 i2 i3 i4 (i6 rfl) i5 hsi1 hpend1
      i1 i2 i3 i4 (i6 rfl) i5 hsi1 hpend1
      rfl (fun cid => rfl) rfl hunits1 hfr hrunA hrunB

/-- Witness for C7: the input `(-1 ∨ -2 ∨ 3) ∧ (-1 ∨ -3 ∨ 2) ∧ (1 ∨ 2)` has
two pending implication edges; the head-first and tail-first pending-set
iteration orders (with different fuel bounds) both answer SAT with the same
assignment table. -/
theorem solve_reproducible_witness :
    (Solver.solve headChooser 30 c7WitStart = some (c7WitEnd, true) ∧
     Solver.solve lastChooser 31 c7WitStart = some (c7WitEnd, true)) ∧
    ((true = true ∧ c7WitEnd.assignments = c7WitEnd.assignments) ∧
     (∀ (sx : Solver) (v : Nat), (sx.pick_branching_pair).1 = some v →
       sx.assignments.getD v none = none ∧ 1 ≤ v ∧
       ∀ w, 1 ≤ w → w < v → sx.assignments.getD w none ≠ none) ∧
     (∀ (pfuel : Nat) (sx : Solver) (v1 v2 : Nat),
       Solver.assign_pair pfuel sx 0 v1 v2 =
         Solver.assignPairLits pfuel sx true true v1 v2)) :=
  ⟨⟨rfl, rfl⟩,
    solve_reproducible headChooser lastChooser 30 31 c7WitStart c7WitEnd c7WitEnd
      true true rfl (by decide)
      (buckets_of_bounded c7WitStart.watch_lists c7WitStart.clauses 4 rfl (by decide)
        (by decide) (by decide))
      (fun v => by rcases v with _ | _ | _ | _ | v <;> rfl)
      (by decide) rfl rfl rfl⟩

end CnfDpll
